import Mathlib

/-!
# Quantiles sketch (`quantiles_sketch_impl.hpp`): shallow embedding and properties

The sketch keeps a base buffer of at most `2k` items and a stack of levels of
`k` sorted items each; `bit_pattern_` records which levels are occupied.

Conventions of the embedding.

* Items have an arbitrary type `T`; the comparator `C()` is a function
  `lt : T → T → Bool`; `check_update_value` is a function `valid : T → Bool`.
* `uint64_t` values are natural numbers reduced modulo `2 ^ 64` wherever the
  code increments, adds or multiplies them.
* A `std::vector` is its list of constructed items together with its capacity
  (`zip_buffer` and the assertions of `merge_two_size_k_buffers` read
  `capacity()`).  `reserve` is taken to allocate exactly what is asked for.
* Code that can throw, fail an `assert`, or index outside a vector returns in
  `Except Err`.
* `random_bit()` reads a fixed stream `rnd : Nat → Bool` at a position that is
  threaded through the calls.
* `double` results are exact rationals, with a separate value for NaN.
-/

namespace datasketches

/-- Ways in which the code can fail to return normally. -/
inductive Err where
  /-- Thrown `std::invalid_argument`. -/
  | invalid_argument
  /-- Thrown `std::runtime_error`. -/
  | runtime_error
  /-- An `assert` whose condition is false. -/
  | assertion
  /-- An index outside the constructed items of a vector. -/
  | out_of_range
  /-- Integer division by zero. -/
  | division_by_zero
  /-- A null pointer that is dereferenced. -/
  | null_pointer
  /-- A loop that does not terminate. -/
  | diverges
  deriving DecidableEq, Repr

instance instDecidableEqExcept {ε α : Type} [DecidableEq ε] [DecidableEq α] :
    DecidableEq (Except ε α) := fun a b =>
  match a, b with
  | Except.ok x, Except.ok y =>
    if h : x = y then isTrue (by rw [h]) else isFalse (fun e => h (by cases e; rfl))
  | Except.error x, Except.error y =>
    if h : x = y then isTrue (by rw [h]) else isFalse (fun e => h (by cases e; rfl))
  | Except.ok _, Except.error _ => isFalse (fun e => by cases e)
  | Except.error _, Except.ok _ => isFalse (fun e => by cases e)

/-- The modulus of `uint64_t` arithmetic. -/
def U64 : Nat := 2 ^ 64

/-- The constant `quantiles_constants::MIN_K`. -/
def MIN_K : Nat := 2

/-- The constant `quantiles_constants::MAX_K`. -/
def MAX_K : Nat := 32768

/-- A `std::vector<T>` (the type `Level`): the constructed items and the
reserved capacity. -/
structure Level (T : Type) where
  /-- The `size()` constructed items, in order. -/
  items : List T
  /-- The value of `capacity()`. -/
  capacity : Nat
  deriving DecidableEq, Repr

namespace Level

variable {T : Type}

/-- A default-constructed vector. -/
def empty : Level T := ⟨[], 0⟩

/-- The member `size()`. -/
def size (v : Level T) : Nat := v.items.length

/-- The member `reserve(c)`: the capacity becomes at least `c`. -/
def reserve (v : Level T) (c : Nat) : Level T := ⟨v.items, max v.capacity c⟩

/-- The member `clear()`: the items go, the capacity stays. -/
def clear (v : Level T) : Level T := ⟨[], v.capacity⟩

/-- The member `push_back(x)`; a full vector doubles its capacity. -/
def push_back (v : Level T) (x : T) : Level T :=
  ⟨v.items ++ [x], if v.items.length < v.capacity then v.capacity else max 1 (2 * v.capacity)⟩

/-- The call `insert(end(), first, last)` with the range holding `xs`. -/
def insert_end (v : Level T) (xs : List T) : Level T :=
  ⟨v.items ++ xs, max v.capacity (v.items.length + xs.length)⟩

end Level

/-- The state of a `quantiles_sketch<T, C, A>` object. -/
structure quantiles_sketch (T : Type) where
  /-- The field `k_` (a `uint16_t`). -/
  k_ : Nat
  /-- The field `n_` (a `uint64_t`). -/
  n_ : Nat
  /-- The field `bit_pattern_` (a `uint64_t`). -/
  bit_pattern_ : Nat
  /-- The field `base_buffer_`. -/
  base_buffer_ : Level T
  /-- The field `levels_`. -/
  levels_ : List (Level T)
  /-- The field `min_value_`; `none` is the null pointer. -/
  min_value_ : Option T
  /-- The field `max_value_`; `none` is the null pointer. -/
  max_value_ : Option T
  /-- The field `is_sorted_`. -/
  is_sorted_ : Bool
  deriving DecidableEq, Repr

section Update

variable {T : Type}

/-- The public constructor `quantiles_sketch(uint16_t k, const A&)`. -/
def quantiles_sketch.new (k : Nat) : Except Err (quantiles_sketch T) :=
  if k < MIN_K ∨ k > MAX_K then Except.error Err.invalid_argument
  else Except.ok
    { k_ := k, n_ := 0, bit_pattern_ := 0,
      base_buffer_ := Level.empty.reserve (2 * min MIN_K k),
      levels_ := [], min_value_ := none, max_value_ := none, is_sorted_ := true }

/-- The member `is_empty()`. -/
def quantiles_sketch.is_empty (s : quantiles_sketch T) : Bool := s.n_ == 0

/-- The loop of `bit_length`: at most `fuel` halvings. -/
def bit_length_loop : Nat → Nat → Nat
  | 0, _ => 0
  | fuel + 1, x => if x = 0 then 0 else bit_length_loop fuel (x / 2) + 1

/-- Modelled from the spec: `count_leading_zeros_in_u64` of `count_zeros.hpp`,
which is not among the sources: the number of zero bits above the highest set
bit of a 64-bit value, 64 for the value zero. -/
def count_leading_zeros_in_u64 (x : Nat) : Nat := 64 - bit_length_loop 64 (x % U64)

/-- The static member `compute_base_buffer_items(k, n)`. -/
def compute_base_buffer_items (k n : Nat) : Except Err Nat :=
  if 2 * k = 0 then Except.error Err.division_by_zero else Except.ok (n % (2 * k))

/-- The static member `compute_bit_pattern(k, n)`. -/
def compute_bit_pattern (k n : Nat) : Except Err Nat :=
  if 2 * k = 0 then Except.error Err.division_by_zero else Except.ok (n / (2 * k))

/-- The static member `compute_levels_needed(k, n)`. -/
def compute_levels_needed (k n : Nat) : Except Err Nat :=
  if 2 * k = 0 then Except.error Err.division_by_zero
  else Except.ok (64 - count_leading_zeros_in_u64 (n / (2 * k)))

/-- The loop of `compute_valid_levels`; a 64-bit pattern is zero after 64
shifts. -/
def compute_valid_levels_loop : Nat → Nat → Nat → Nat
  | 0, _, count => count
  | fuel + 1, bp, count =>
    if bp > 0 then
      compute_valid_levels_loop fuel (bp / 2) (if bp &&& 1 = 1 then count + 1 else count)
    else count

/-- The static member `compute_valid_levels(bit_pattern)`. -/
def compute_valid_levels (bit_pattern : Nat) : Nat :=
  compute_valid_levels_loop 64 (bit_pattern % U64) 0

/-- The loop of `lowest_zero_bit_starting_at`; `my_bits` is a 64-bit value, so
it is zero after 64 shifts. -/
def lowest_zero_bit_loop : Nat → Nat → Nat → Nat
  | 0, _, pos => pos
  | fuel + 1, my_bits, pos =>
    if my_bits &&& 1 ≠ 0 then lowest_zero_bit_loop fuel (my_bits >>> 1) (pos + 1) else pos

/-- The static member `lowest_zero_bit_starting_at(bits, starting_bit)`. -/
def lowest_zero_bit_starting_at (bits starting_bit : Nat) : Nat :=
  let pos := starting_bit &&& 0x3F
  let my_bits := (bits % U64) >>> pos
  lowest_zero_bit_loop 64 my_bits pos

/-- The loop of `zip_buffer`: `count` more items, the next one read at index
`i` of `buf_in`. -/
def zip_loop (buf_in : Level T) : Nat → Nat → Level T → Except Err (Level T)
  | 0, _, buf_out => Except.ok buf_out
  | count + 1, i, buf_out =>
    match buf_in.items[i]? with
    | none => Except.error Err.out_of_range
    | some x => zip_loop buf_in count (i + 2) (buf_out.push_back x)

/-- The static member `zip_buffer(buf_in, buf_out)`; the result is the pair of
buffers after the call and the next position of the random stream. -/
def zip_buffer (rnd : Nat → Bool) (pos : Nat) (buf_in buf_out : Level T) :
    Except Err (Level T × Level T × Nat) :=
  let rand_offset := if rnd pos then 1 else 0
  if buf_in.size ≠ 2 * buf_out.capacity then Except.error Err.assertion
  else if buf_out.size ≠ 0 then Except.error Err.assertion
  else
    let k := buf_out.capacity
    match zip_loop buf_in k rand_offset buf_out with
    | Except.error e => Except.error e
    | Except.ok out => Except.ok (buf_in.clear, out, pos + 1)

/-- The `while` loop of `merge_two_size_k_buffers`, with what is left of the
two sources when it stops. -/
def merge_loop (lt : T → T → Bool) : Nat → List T → List T → Level T →
    List T × List T × Level T
  | 0, l1, l2, dst => (l1, l2, dst)
  | fuel + 1, a :: l1, b :: l2, dst =>
    if lt a b then merge_loop lt fuel l1 (b :: l2) (dst.push_back a)
    else merge_loop lt fuel (a :: l1) l2 (dst.push_back b)
  | _ + 1, [], l2, dst => ([], l2, dst)
  | _ + 1, l1, [], dst => (l1, [], dst)

/-- The static member `merge_two_size_k_buffers(src_1, src_2, dst)`; the result
is `dst` after the call.  Every turn of the loop consumes one item, so the
loop has stopped after `src_1.size() + src_2.size()` turns. -/
def merge_two_size_k_buffers (lt : T → T → Bool) (src_1 src_2 dst : Level T) :
    Except Err (Level T) :=
  if src_1.size ≠ src_2.size then Except.error Err.assertion
  else if src_1.size * 2 ≠ dst.capacity then Except.error Err.assertion
  else if dst.size ≠ 0 then Except.error Err.assertion
  else
    match merge_loop lt (src_1.size + src_2.size) src_1.items src_2.items dst with
    | (a :: r1, _, d) => Except.ok (d.insert_end (a :: r1))
    | ([], [], _) => Except.error Err.assertion
    | ([], b :: r2, d) => Except.ok (d.insert_end (b :: r2))

/-- The call `std::sort(v.begin(), v.end(), C())`: some ascending rearrangement
of the items, here the one of insertion sort. -/
def std_sort (lt : T → T → Bool) (v : Level T) : Level T :=
  ⟨List.insertionSort (fun a b => lt b a = false) v.items, v.capacity⟩

/-- The member `grow_base_buffer()`. -/
def grow_base_buffer (s : quantiles_sketch T) : quantiles_sketch T :=
  let new_size := max (min (2 * s.k_) (2 * s.base_buffer_.size)) 1
  { s with base_buffer_ := s.base_buffer_.reserve new_size }

/-- The member `grow_levels_if_needed()`: the returned flag and the sketch
after the call. -/
def grow_levels_if_needed (s : quantiles_sketch T) : Except Err (Bool × quantiles_sketch T) :=
  match compute_levels_needed s.k_ s.n_ with
  | Except.error e => Except.error e
  | Except.ok levels_needed =>
    if levels_needed = 0 then Except.ok (false, s)
    else if levels_needed ≤ s.levels_.length then Except.ok (false, s)
    else
      let empty_level : Level T := Level.empty.reserve s.k_
      Except.ok (true, { s with levels_ := s.levels_ ++ [empty_level] })

/-- The call `std::move(&src[0], &src[0] + k, &dst[0])` of the merge branch of
`in_place_propagate_carry`: `k` items are read from `src` and assigned through
a raw pointer into the storage of `dst`; the size of `dst` is not changed, so
only positions below `dst.size()` are constructed items afterwards. -/
def raw_move (k : Nat) (src dst : Level T) : Except Err (Level T) :=
  if src.items.length < k then Except.error Err.out_of_range
  else if dst.capacity < k then Except.error Err.out_of_range
  else Except.ok ⟨(src.items.take k).take dst.items.length ++ dst.items.drop k, dst.capacity⟩

/-- The `for` loop of `in_place_propagate_carry`: `count` more levels, the next
one `lvl`. -/
def carry_loop (lt : T → T → Bool) (rnd : Nat → Bool) (bit_pattern ending_level : Nat) :
    Nat → Nat → Nat → Level T → List (Level T) → Except Err (Level T × List (Level T) × Nat)
  | 0, _, pos, buf_size_2k, levels => Except.ok (buf_size_2k, levels, pos)
  | count + 1, lvl, pos, buf_size_2k, levels =>
    if ¬ (bit_pattern &&& (1 <<< lvl) > 0) then Except.error Err.assertion
    else
      match levels[lvl]?, levels[ending_level]? with
      | some src_1, some src_2 =>
        match merge_two_size_k_buffers lt src_1 src_2 buf_size_2k with
        | Except.error e => Except.error e
        | Except.ok dst =>
          let levels1 := levels.set lvl src_1.clear
          match levels1[ending_level]? with
          | none => Except.error Err.out_of_range
          | some e1 =>
            let levels2 := levels1.set ending_level e1.clear
            match zip_buffer rnd pos dst e1.clear with
            | Except.error e => Except.error e
            | Except.ok (buf_in, buf_out, pos1) =>
              carry_loop lt rnd bit_pattern ending_level count (lvl + 1) pos1 buf_in
                (levels2.set ending_level buf_out)
      | _, _ => Except.error Err.out_of_range

/-- The static member `in_place_propagate_carry(starting_level, buf_size_k,
buf_size_2k, apply_as_update, sketch)`: the result is `buf_size_2k` after the
call, the sketch after the call and the next position of the random stream.
The function reads and writes only `levels_` and `bit_pattern_` of the sketch,
so the caller that passes `base_buffer_` as `buf_size_2k` stores the returned
buffer back. -/
def in_place_propagate_carry (lt : T → T → Bool) (rnd : Nat → Bool) (pos : Nat)
    (starting_level : Nat) (buf_size_k buf_size_2k : Level T) (apply_as_update : Bool)
    (sketch : quantiles_sketch T) : Except Err (Level T × quantiles_sketch T × Nat) :=
  let bit_pattern := sketch.bit_pattern_
  let k := sketch.k_
  let ending_level := lowest_zero_bit_starting_at bit_pattern starting_level
  match sketch.levels_[ending_level]? with
  | none => Except.error Err.out_of_range
  | some out =>
    let first : Except Err (Level T × Level T × Nat) :=
      if apply_as_update then zip_buffer rnd pos buf_size_2k out
      else
        match raw_move k buf_size_k out with
        | Except.error e => Except.error e
        | Except.ok out1 => Except.ok (buf_size_2k, out1, pos)
    match first with
    | Except.error e => Except.error e
    | Except.ok (buf1, out1, pos1) =>
      match carry_loop lt rnd bit_pattern ending_level (ending_level - starting_level)
          starting_level pos1 buf1 (sketch.levels_.set ending_level out1) with
      | Except.error e => Except.error e
      | Except.ok (buf2, levels2, pos2) =>
        Except.ok (buf2,
          { sketch with
            levels_ := levels2,
            bit_pattern_ := (bit_pattern + (1 <<< starting_level) % U64) % U64 },
          pos2)

/-- The member `process_full_base_buffer()`. -/
def process_full_base_buffer (lt : T → T → Bool) (rnd : Nat → Bool) (pos : Nat)
    (s : quantiles_sketch T) : Except Err (quantiles_sketch T × Nat) :=
  match grow_levels_if_needed s with
  | Except.error e => Except.error e
  | Except.ok (_, s1) =>
    let s2 := { s1 with base_buffer_ := std_sort lt s1.base_buffer_ }
    match s2.levels_ with
    | [] => Except.error Err.out_of_range
    | level0 :: _ =>
      match in_place_propagate_carry lt rnd pos 0 level0 s2.base_buffer_ true s2 with
      | Except.error e => Except.error e
      | Except.ok (buf, s3, pos1) =>
        let s4 := { s3 with base_buffer_ := buf.clear, is_sorted_ := true }
        if s4.n_ / (2 * s4.k_) = s4.bit_pattern_ then Except.ok (s4, pos1)
        else Except.error Err.assertion

/-- The member `update(item)`; `valid` is `check_update_value`. -/
def update (lt : T → T → Bool) (valid : T → Bool) (rnd : Nat → Bool)
    (st : quantiles_sketch T × Nat) (item : T) : Except Err (quantiles_sketch T × Nat) :=
  let s := st.1
  if ¬ valid item then Except.ok st
  else
    let minmax : Except Err (quantiles_sketch T) :=
      if s.is_empty then Except.ok { s with min_value_ := some item, max_value_ := some item }
      else
        match s.min_value_, s.max_value_ with
        | some mn, some mx =>
          Except.ok { s with
            min_value_ := some (if lt item mn then item else mn),
            max_value_ := some (if lt mx item then item else mx) }
        | _, _ => Except.error Err.null_pointer
    match minmax with
    | Except.error e => Except.error e
    | Except.ok s1 =>
      let s2 :=
        if s1.base_buffer_.size + 1 > s1.base_buffer_.capacity then grow_base_buffer s1 else s1
      let s3 :=
        { s2 with base_buffer_ := s2.base_buffer_.push_back item, n_ := (s2.n_ + 1) % U64 }
      let s4 := if s3.base_buffer_.size > 1 then { s3 with is_sorted_ := false } else s3
      if s4.base_buffer_.size = 2 * s4.k_ then process_full_base_buffer lt rnd st.2 s4
      else Except.ok (s4, st.2)

/-- A run of `update` calls, left to right, stopping at the first failure. -/
def update_all (lt : T → T → Bool) (valid : T → Bool) (rnd : Nat → Bool) :
    quantiles_sketch T × Nat → List T → Except Err (quantiles_sketch T × Nat)
  | st, [] => Except.ok st
  | st, x :: xs =>
    match update lt valid rnd st x with
    | Except.error e => Except.error e
    | Except.ok st1 => update_all lt valid rnd st1 xs

/-- The sketch obtained from `quantiles_sketch(k)` by updating with the items
of `xs` in order, the random stream being read from position 0. -/
def build (lt : T → T → Bool) (valid : T → Bool) (rnd : Nat → Bool) (k : Nat) (xs : List T) :
    Except Err (quantiles_sketch T) :=
  match quantiles_sketch.new k with
  | Except.error e => Except.error e
  | Except.ok s =>
    match update_all lt valid rnd (s, 0) xs with
    | Except.error e => Except.error e
    | Except.ok st => Except.ok st.1

end Update

section Queries

variable {T : Type}

/-- A value of type `double`: an exact rational, or NaN.  Rounding is not
modelled. -/
inductive Double where
  /-- The value `quiet_NaN()`. -/
  | nan
  /-- A number. -/
  | val (q : ℚ)
  deriving DecidableEq

/-- Subtraction of doubles. -/
def Double.sub : Double → Double → Double
  | Double.val a, Double.val b => Double.val (a - b)
  | _, _ => Double.nan

/-- The test of `get_rank<inclusive>` on one item:
`inclusive ? !C()(value, item) : C()(item, value)`. -/
def rank_test (lt : T → T → Bool) (inclusive : Bool) (value item : T) : Bool :=
  if inclusive then !(lt value item) else lt item value

/-- The first loop of `get_rank`, over the base buffer. -/
def rank_base_loop (lt : T → T → Bool) (inclusive : Bool) (value : T) (weight : Nat) :
    List T → Nat → Nat
  | [], total => total
  | item :: rest, total =>
    rank_base_loop lt inclusive value weight rest
      (if rank_test lt inclusive value item then (total + weight) % U64 else total)

/-- The inner loop of `get_rank` over `data[0 .. k_)` of one level, with its
`break`; `count` items are still to be visited, the next one at index `i`. -/
def rank_level_loop (lt : T → T → Bool) (inclusive : Bool) (value : T) (data : List T)
    (weight : Nat) : Nat → Nat → Nat → Except Err Nat
  | 0, _, total => Except.ok total
  | count + 1, i, total =>
    match data[i]? with
    | none => Except.error Err.out_of_range
    | some item =>
      if rank_test lt inclusive value item then
        rank_level_loop lt inclusive value data weight count (i + 1) ((total + weight) % U64)
      else Except.ok total

/-- The outer loop of `get_rank` over the levels; `weight` doubles after every
level, also after a skipped one. -/
def rank_levels_loop (lt : T → T → Bool) (inclusive : Bool) (value : T) (k : Nat) :
    List (Level T) → Nat → Nat → Except Err Nat
  | [], _, total => Except.ok total
  | level :: rest, weight, total =>
    if level.items.isEmpty then
      rank_levels_loop lt inclusive value k rest ((weight * 2) % U64) total
    else
      match rank_level_loop lt inclusive value level.items weight k 0 total with
      | Except.error e => Except.error e
      | Except.ok total1 =>
        rank_levels_loop lt inclusive value k rest ((weight * 2) % U64) total1

/-- The value of `total` when `get_rank<inclusive>(value)` reaches its `return`
on a non-empty sketch.  The level counter is a `uint8_t`, so with more than
255 levels the loop runs forever. -/
def get_rank_total (lt : T → T → Bool) (inclusive : Bool) (s : quantiles_sketch T) (value : T) :
    Except Err Nat :=
  let weight := 1
  let total := rank_base_loop lt inclusive value weight s.base_buffer_.items 0
  let weight := (weight * 2) % U64
  if s.levels_.length > 255 then Except.error Err.diverges
  else rank_levels_loop lt inclusive value s.k_ s.levels_ weight total

/-- The member `get_rank<inclusive>(value)`. -/
def get_rank (lt : T → T → Bool) (inclusive : Bool) (s : quantiles_sketch T) (value : T) :
    Except Err Double :=
  if s.is_empty then Except.ok Double.nan
  else
    match get_rank_total lt inclusive s value with
    | Except.error e => Except.error e
    | Except.ok total => Except.ok (Double.val ((total : ℚ) / (s.n_ : ℚ)))

/-- Modelled from the spec: `check_split_points` of `quantiles_sketch.hpp`,
which is not among the sources: the split points must be strictly increasing
under the comparator, else `std::invalid_argument` is thrown. -/
def check_split_points (lt : T → T → Bool) : List T → Except Err Unit
  | [] => Except.ok ()
  | [_] => Except.ok ()
  | a :: b :: rest =>
    if lt a b then check_split_points lt (b :: rest) else Except.error Err.invalid_argument

/-- The loop of `get_CDF` that pushes one rank per split point. -/
def cdf_loop (lt : T → T → Bool) (inclusive : Bool) (s : quantiles_sketch T) :
    List T → Level Double → Except Err (Level Double)
  | [], buckets => Except.ok buckets
  | v :: rest, buckets =>
    match get_rank lt inclusive s v with
    | Except.error e => Except.error e
    | Except.ok r => cdf_loop lt inclusive s rest (buckets.push_back r)

/-- The member `get_CDF<inclusive>(split_points, size)`; the result is the
returned vector. -/
def get_CDF (lt : T → T → Bool) (inclusive : Bool) (s : quantiles_sketch T)
    (split_points : List T) : Except Err (List Double) :=
  let buckets : Level Double := Level.empty
  if s.is_empty then Except.ok buckets.items
  else
    match check_split_points lt split_points with
    | Except.error e => Except.error e
    | Except.ok _ =>
      match cdf_loop lt inclusive s split_points (buckets.reserve (split_points.length + 1)) with
      | Except.error e => Except.error e
      | Except.ok buckets1 => Except.ok (buckets1.push_back (Double.val 1)).items

/-- The loop of `get_PMF`: `buckets[i] -= buckets[i - 1]` for `i` from `size`
down to 1. -/
def pmf_loop : Nat → List Double → Except Err (List Double)
  | 0, buckets => Except.ok buckets
  | i + 1, buckets =>
    match buckets[i + 1]?, buckets[i]? with
    | some x, some y => pmf_loop i (buckets.set (i + 1) (x.sub y))
    | _, _ => Except.error Err.out_of_range

/-- The member `get_PMF<inclusive>(split_points, size)`. -/
def get_PMF (lt : T → T → Bool) (inclusive : Bool) (s : quantiles_sketch T)
    (split_points : List T) : Except Err (List Double) :=
  match get_CDF lt inclusive s split_points with
  | Except.error e => Except.error e
  | Except.ok buckets =>
    if s.is_empty then Except.ok buckets
    else pmf_loop split_points.length buckets

end Queries

section Serialization

variable {T : Type}

/-- The constants of `quantiles_sketch.hpp` that the serial format uses.  The
header is not among the sources, so the constants are parameters; the three
flags are bit positions, as in `1 << flags::IS_EMPTY`. -/
structure Constants where
  /-- The constant `PREAMBLE_LONGS_SHORT`. -/
  PREAMBLE_LONGS_SHORT : Nat
  /-- The constant `PREAMBLE_LONGS_FULL`. -/
  PREAMBLE_LONGS_FULL : Nat
  /-- The constant `SERIAL_VERSION`. -/
  SERIAL_VERSION : Nat
  /-- The constant `SERIAL_VERSION_1`. -/
  SERIAL_VERSION_1 : Nat
  /-- The constant `SERIAL_VERSION_2`. -/
  SERIAL_VERSION_2 : Nat
  /-- The constant `FAMILY`. -/
  FAMILY : Nat
  /-- The enumerator `flags::IS_EMPTY`. -/
  IS_EMPTY : Nat
  /-- The enumerator `flags::IS_COMPACT`. -/
  IS_COMPACT : Nat
  /-- The enumerator `flags::IS_SORTED`. -/
  IS_SORTED : Nat
  deriving DecidableEq, Repr

/-- Modelled from the spec: the constants of `quantiles_sketch.hpp`, which is
not among the sources: preamble of 1 long for an empty sketch and 2 otherwise,
serial version 3 written and versions 1 and 2 also read, flag masks 1
(`IS_EMPTY`), 2 (`IS_SORTED`) and 4 (`IS_COMPACT`); the family id is left open
by the spec. -/
def spec_constants (family : Nat) : Constants :=
  { PREAMBLE_LONGS_SHORT := 1, PREAMBLE_LONGS_FULL := 2, SERIAL_VERSION := 3,
    SERIAL_VERSION_1 := 1, SERIAL_VERSION_2 := 2, FAMILY := family,
    IS_EMPTY := 0, IS_SORTED := 1, IS_COMPACT := 2 }

/-- The capability `SerDe` on streams: `serialize(os, items, num)` appends bytes
for a run of items, `deserialize(is, items, num)` reads `num` items and leaves
the rest of the stream, or fails (`none`: it throws, or the stream is no longer
good).  A successful read of `num` items is expected to yield `num` items. -/
structure SerDe (T : Type) where
  /-- The bytes written for a run of items. -/
  serialize : List T → List Nat
  /-- The items read and the rest of the stream. -/
  deserialize : List Nat → Nat → Option (List T × List Nat)

/-- The call `write(os, value)` for an unsigned value of `width` bytes, on a
little-endian machine. -/
def write_le : Nat → Nat → List Nat
  | 0, _ => []
  | width + 1, value => (value % 256) :: write_le width (value / 256)

/-- The value of a little-endian run of bytes. -/
def le_value : List Nat → Nat
  | [] => 0
  | b :: rest => b + 256 * le_value rest

/-- The call `read<T>(is)` for an unsigned type of `width` bytes: the value and
the rest of the stream.  When the stream is too short the value read is
indeterminate and the stream is no longer good, which `deserialize` reports
at its next check at the latest; the model reports it at once. -/
def read (width : Nat) (is : List Nat) : Except Err (Nat × List Nat) :=
  if is.length < width then Except.error Err.runtime_error
  else Except.ok (le_value (is.take width), is.drop width)

/-- The loop of `serialize` over the levels: only levels with data are
written. -/
def serialize_levels (serde : SerDe T) : List (Level T) → List Nat
  | [] => []
  | lvl :: rest =>
    (if lvl.size > 0 then serde.serialize lvl.items else []) ++ serialize_levels serde rest

/-- The member `serialize(std::ostream&, const SerDe&)`: the bytes written. -/
def serialize (c : Constants) (serde : SerDe T) (s : quantiles_sketch T) :
    Except Err (List Nat) :=
  let preamble_longs := if s.is_empty then c.PREAMBLE_LONGS_SHORT else c.PREAMBLE_LONGS_FULL
  let ser_ver := c.SERIAL_VERSION
  let family := c.FAMILY
  let flags_byte :=
    ((if s.is_empty then 1 <<< c.IS_EMPTY else 0)
      ||| (if s.is_sorted_ then 1 <<< c.IS_SORTED else 0)
      ||| (1 <<< c.IS_COMPACT)) % 256
  let unused := 0
  let os := write_le 1 preamble_longs ++ write_le 1 ser_ver ++ write_le 1 family ++
    write_le 1 flags_byte ++ write_le 2 s.k_ ++ write_le 2 unused
  if ¬ s.is_empty then
    match s.min_value_, s.max_value_ with
    | some mn, some mx =>
      Except.ok (os ++ write_le 8 s.n_ ++ serde.serialize [mn] ++ serde.serialize [mx] ++
        serde.serialize s.base_buffer_.items ++ serialize_levels serde s.levels_)
    | _, _ => Except.error Err.null_pointer
  else Except.ok os

/-- The static member `check_serial_version(serial_version)`. -/
def check_serial_version (c : Constants) (serial_version : Nat) : Except Err Unit :=
  if serial_version = c.SERIAL_VERSION ∨ serial_version = c.SERIAL_VERSION_1 ∨
      serial_version = c.SERIAL_VERSION_2 then Except.ok ()
  else Except.error Err.invalid_argument

/-- The static member `check_family_id(family_id)`. -/
def check_family_id (c : Constants) (family_id : Nat) : Except Err Unit :=
  if family_id = c.FAMILY then Except.ok () else Except.error Err.invalid_argument

/-- The static member `check_header_validity(preamble_longs, flags_byte,
serial_version)`; `sw` is a `uint8_t`. -/
def check_header_validity (c : Constants) (preamble_longs flags_byte serial_version : Nat) :
    Except Err Unit :=
  let empty := (flags_byte &&& (1 <<< c.IS_EMPTY)) > 0
  let compact := (flags_byte &&& (1 <<< c.IS_COMPACT)) > 0
  let sw := ((if compact then 1 else 0) + (2 * (if empty then 1 else 0))
    + (4 * (serial_version &&& 0xF)) + (32 * (preamble_longs &&& 0x3F))) % 256
  let valid : Bool :=
    if sw = 38 then true
    else if sw = 164 then true
    else if sw = 42 then true
    else if sw = 72 then true
    else if sw = 47 then true
    else if sw = 46 then true
    else if sw = 79 then true
    else if sw = 78 then true
    else if sw = 77 then true
    else if sw = 76 then true
    else false
  if ¬ valid then Except.error Err.invalid_argument else Except.ok ()

/-- The static member `deserialize_array(is, num_items, capacity, serde,
allocator)`: the level read and the rest of the stream. -/
def deserialize_array (serde : SerDe T) (is : List Nat) (num_items capacity : Nat) :
    Except Err (Level T × List Nat) :=
  match serde.deserialize is num_items with
  | none => Except.error Err.runtime_error
  | some (items, is1) => Except.ok ((Level.empty.reserve capacity).insert_end items, is1)

/-- The call `serde.deserialize(is, buffer, 1)` that reads the minimum or the
maximum: the item read and the rest of the stream. -/
def deserialize_one (serde : SerDe T) (is : List Nat) : Except Err (T × List Nat) :=
  match serde.deserialize is 1 with
  | some ([item], is1) => Except.ok (item, is1)
  | _ => Except.error Err.runtime_error

/-- The loop of `deserialize` that fills the vector of levels: `count` more
levels, the low bit of `working_pattern` telling whether the next one has
data. -/
def deserialize_levels (serde : SerDe T) (k : Nat) :
    Nat → Nat → List Nat → List (Level T) → Except Err (List (Level T) × List Nat)
  | 0, _, is, levels => Except.ok (levels, is)
  | count + 1, working_pattern, is, levels =>
    if working_pattern &&& 0x01 = 1 then
      match deserialize_array serde is k k with
      | Except.error e => Except.error e
      | Except.ok (level, is1) =>
        deserialize_levels serde k count (working_pattern >>> 1) is1 (levels ++ [level])
    else
      deserialize_levels serde k count (working_pattern >>> 1) is
        (levels ++ [Level.empty.reserve k])

/-- The static member `deserialize(std::istream&, const SerDe&, const A&)`. -/
def deserialize (c : Constants) (serde : SerDe T) (is : List Nat) :
    Except Err (quantiles_sketch T) := do
  let (preamble_longs, is) ← read 1 is
  let (serial_version, is) ← read 1 is
  let (family_id, is) ← read 1 is
  let (flags_byte, is) ← read 1 is
  let (k, is) ← read 2 is
  let (_, is) ← read 2 is
  check_serial_version c serial_version
  check_family_id c family_id
  check_header_validity c preamble_longs flags_byte serial_version
  let is_empty := (flags_byte &&& (1 <<< c.IS_EMPTY)) > 0
  if is_empty then quantiles_sketch.new k
  else
    let (items_seen, is) ← read 8 is
    let is_compact := (flags_byte &&& (1 <<< c.IS_COMPACT)) > 0
    let is_sorted := (flags_byte &&& (1 <<< c.IS_SORTED)) > 0
    let (min_value, is) ← deserialize_one serde is
    let (max_value, is) ← deserialize_one serde is
    let levels_needed ← compute_levels_needed k items_seen
    let bit_pattern ← compute_bit_pattern k items_seen
    let bb_items ← compute_base_buffer_items k items_seen
    let items_to_read := if is_compact then bb_items else 2 * k
    let (base_buffer, is) ← deserialize_array serde is items_to_read (2 * k)
    let (levels, _) ← deserialize_levels serde k levels_needed bit_pattern is []
    pure
      { k_ := k, n_ := items_seen, bit_pattern_ := bit_pattern, base_buffer_ := base_buffer,
        levels_ := levels, min_value_ := some min_value, max_value_ := some max_value,
        is_sorted_ := is_sorted }

end Serialization

section Quantiles

variable {T : Type}

/-- The comparison `a == b` of doubles; NaN equals nothing. -/
def Double.eq : Double → Double → Bool
  | Double.val a, Double.val b => decide (a = b)
  | _, _ => false

/-- The comparison `a < b` of doubles; false when NaN takes part. -/
def Double.lt : Double → Double → Bool
  | Double.val a, Double.val b => decide (a < b)
  | _, _ => false

/-- The class `quantile_calculator<T, C, A>`, which is not among the sources,
as far as the sketch uses it.  A calculator is constructed for `n`, receives
runs of items through `add(begin, end, lg_weight)`, is converted to cumulative
weights for one of the two variants and is then asked for quantiles; the
parameter is the answer of its `get_quantile(rank)` as a function of all that
it was given. -/
structure quantile_calculator (T : Type) where
  /-- The item that `get_quantile(rank)` points to, for a calculator
  constructed for `n`, fed the runs `entries` (items and `lg_weight`) and
  converted with `inclusive`. -/
  get_quantile : (n : Nat) → (entries : List (List T × Nat)) → (inclusive : Bool) →
    (rank : Double) → T

/-- The loop of `get_quantile_calculator` over the levels: `lg_weight` is
incremented for every level and the first `k_` items of every non-empty level
are added. -/
def calculator_levels_loop (k : Nat) :
    List (Level T) → Nat → List (List T × Nat) → Except Err (List (List T × Nat))
  | [], _, entries => Except.ok entries
  | level :: rest, lg_weight, entries =>
    let lg_weight := (lg_weight + 1) % U64
    if level.items.isEmpty then calculator_levels_loop k rest lg_weight entries
    else if level.items.length < k then Except.error Err.out_of_range
    else calculator_levels_loop k rest lg_weight (entries ++ [(level.items.take k, lg_weight)])

/-- The member `get_quantile_calculator<inclusive>()`: the sketch after the
call, whose base buffer has been sorted through the `const_cast` when
`is_sorted_` was false (the flag itself is left alone), and the runs that were
added to the calculator. -/
def get_quantile_calculator (lt : T → T → Bool) (s : quantiles_sketch T) :
    quantiles_sketch T × Except Err (List (List T × Nat)) :=
  let s1 := if !s.is_sorted_ then { s with base_buffer_ := std_sort lt s.base_buffer_ } else s
  let lg_weight := 0
  (s1, calculator_levels_loop s1.k_ s1.levels_ lg_weight [(s1.base_buffer_.items, lg_weight)])

/-- The member `get_quantile<inclusive>(rank)`: the sketch after the call and
the outcome.  `get_invalid_value()` is declared in `quantiles_sketch.hpp`,
which is not among the sources, so its outcome is a parameter. -/
def get_quantile (lt : T → T → Bool) (qc : quantile_calculator T)
    (get_invalid_value : Except Err T) (inclusive : Bool) (s : quantiles_sketch T)
    (rank : Double) : quantiles_sketch T × Except Err T :=
  if s.is_empty then (s, get_invalid_value)
  else if rank.eq (Double.val 0) then
    match s.min_value_ with
    | some mn => (s, Except.ok mn)
    | none => (s, Except.error Err.null_pointer)
  else if rank.eq (Double.val 1) then
    match s.max_value_ with
    | some mx => (s, Except.ok mx)
    | none => (s, Except.error Err.null_pointer)
  else if rank.lt (Double.val 0) ∨ (Double.val 1).lt rank then
    (s, Except.error Err.invalid_argument)
  else
    match get_quantile_calculator lt s with
    | (s1, Except.error e) => (s1, Except.error e)
    | (s1, Except.ok entries) => (s1, Except.ok (qc.get_quantile s1.n_ entries inclusive rank))

/-- The loop of `get_quantiles<inclusive>(ranks, size)`: the ranks still to be
visited, the sketch, the calculator pointer (`none` while it is null) and the
vector of results. -/
def get_quantiles_loop (lt : T → T → Bool) (qc : quantile_calculator T) (inclusive : Bool) :
    List Double → quantiles_sketch T → Option (List (List T × Nat)) → Level T →
    quantiles_sketch T × Except Err (Level T)
  | [], s, _, quantiles => (s, Except.ok quantiles)
  | rank :: rest, s, quantile_calculator_ptr, quantiles =>
    if rank.lt (Double.val 0) ∨ (Double.val 1).lt rank then
      (s, Except.error Err.invalid_argument)
    else if rank.eq (Double.val 0) then
      match s.min_value_ with
      | some mn =>
        get_quantiles_loop lt qc inclusive rest s quantile_calculator_ptr
          (quantiles.push_back mn)
      | none => (s, Except.error Err.null_pointer)
    else if rank.eq (Double.val 1) then
      match s.max_value_ with
      | some mx =>
        get_quantiles_loop lt qc inclusive rest s quantile_calculator_ptr
          (quantiles.push_back mx)
      | none => (s, Except.error Err.null_pointer)
    else
      match quantile_calculator_ptr with
      | some entries =>
        get_quantiles_loop lt qc inclusive rest s (some entries)
          (quantiles.push_back (qc.get_quantile s.n_ entries inclusive rank))
      | none =>
        match get_quantile_calculator lt s with
        | (s1, Except.error e) => (s1, Except.error e)
        | (s1, Except.ok entries) =>
          get_quantiles_loop lt qc inclusive rest s1 (some entries)
            (quantiles.push_back (qc.get_quantile s1.n_ entries inclusive rank))

/-- The member `get_quantiles<inclusive>(ranks, size)` with `ranks` pointing
to the `size` ranks of the list: the sketch after the call and the outcome. -/
def get_quantiles (lt : T → T → Bool) (qc : quantile_calculator T) (inclusive : Bool)
    (s : quantiles_sketch T) (ranks : List Double) :
    quantiles_sketch T × Except Err (List T) :=
  let quantiles : Level T := Level.empty
  if s.is_empty then (s, Except.ok quantiles.items)
  else
    match get_quantiles_loop lt qc inclusive ranks s none
        (quantiles.reserve ranks.length) with
    | (s1, Except.error e) => (s1, Except.error e)
    | (s1, Except.ok quantiles1) => (s1, Except.ok quantiles1.items)

end Quantiles

section Retained

variable {T : Type}

/-- The modulus of `uint32_t` arithmetic. -/
def U32 : Nat := 2 ^ 32

/-- The static member `compute_retained_items(k, n)`; the result and the two
counts are `uint32_t`. -/
def compute_retained_items (k n : Nat) : Except Err Nat := do
  let bb_count ← compute_base_buffer_items k n
  let bit_pattern ← compute_bit_pattern k n
  let valid_levels := compute_valid_levels bit_pattern % U32
  pure ((bb_count % U32 + (k * valid_levels) % U32) % U32)

/-- The member `get_num_retained()`. -/
def get_num_retained (s : quantiles_sketch T) : Except Err Nat :=
  compute_retained_items s.k_ s.n_

end Retained

section Iterator

variable {T : Type}

/-- The state of a `quantiles_sketch<T, C, A>::const_iterator`.  The two
references are the vectors they refer to; `level_` is a signed integer (it
starts at `-1`). -/
structure const_iterator (T : Type) where
  /-- The reference `base_buffer_`. -/
  base_buffer_ : Level T
  /-- The reference `levels_`. -/
  levels_ : List (Level T)
  /-- The field `level_`. -/
  level_ : Int
  /-- The field `index_` (a `uint32_t`). -/
  index_ : Nat
  /-- The field `k_`. -/
  k_ : Nat
  /-- The field `bb_count_` (a `uint32_t`). -/
  bb_count_ : Nat
  /-- The field `bit_pattern_` (a `uint64_t`). -/
  bit_pattern_ : Nat
  /-- The field `weight_` (a `uint64_t`). -/
  weight_ : Nat
  deriving DecidableEq, Repr

/-- The `while` loop of the constructor that looks for the first level with
data; a non-zero 64-bit pattern shows a set bit within 64 shifts, the pattern
zero never does. -/
def first_level_loop : Nat → Int → Nat → Nat → Except Err (Int × Nat × Nat)
  | 0, _, _, _ => Except.error Err.diverges
  | fuel + 1, level, bit_pattern, weight =>
    if bit_pattern &&& 0x01 = 0 then
      first_level_loop fuel (level + 1) (bit_pattern >>> 1) ((weight * 2) % U64)
    else Except.ok (level, bit_pattern, weight)

/-- The constructor `const_iterator(base_buffer, levels, k, n, is_end)`. -/
def const_iterator.new (base_buffer : Level T) (levels : List (Level T)) (k n : Nat)
    (is_end : Bool) : Except Err (const_iterator T) := do
  let bb_count ← compute_base_buffer_items k n
  let bit_pattern ← compute_bit_pattern k n
  let it : const_iterator T :=
    { base_buffer_ := base_buffer, levels_ := levels, level_ := -1, index_ := 0, k_ := k,
      bb_count_ := bb_count % U32, bit_pattern_ := bit_pattern, weight_ := 1 }
  if is_end then
    if it.bit_pattern_ = 0 then pure { it with index_ := n % U32 }
    else pure { it with level_ := levels.length }
  else
    if it.bb_count_ = 0 ∧ it.bit_pattern_ > 0 then
      let (level, bit_pattern, weight) ← first_level_loop 64 0 it.bit_pattern_ 2
      pure { it with level_ := level, bit_pattern_ := bit_pattern, weight_ := weight }
    else pure it

/-- The member `begin()`. -/
def quantiles_sketch.begin (s : quantiles_sketch T) : Except Err (const_iterator T) :=
  const_iterator.new s.base_buffer_ s.levels_ s.k_ s.n_ false

/-- The member `end()`. -/
def quantiles_sketch.end (s : quantiles_sketch T) : Except Err (const_iterator T) :=
  const_iterator.new s.base_buffer_ s.levels_ s.k_ s.n_ true

/-- The `do ... while` loop of `operator++`: the level, the pattern and the
weight when it is left.  The pattern is shifted in every turn but possibly
the first, so a 64-bit pattern is zero after 65 turns. -/
def next_level_loop : Nat → Int → Nat → Nat → Except Err (Int × Nat × Nat)
  | 0, _, _, _ => Except.error Err.diverges
  | fuel + 1, level, bit_pattern, weight =>
    let level := level + 1
    let bit_pattern := if level > 0 then bit_pattern >>> 1 else bit_pattern
    if bit_pattern = 0 then Except.ok (level, bit_pattern, weight)
    else
      let weight := (weight * 2) % U64
      if bit_pattern &&& 1 = 0 then next_level_loop fuel level bit_pattern weight
      else Except.ok (level, bit_pattern, weight)

/-- The prefix `operator++()`. -/
def const_iterator.next (it : const_iterator T) : Except Err (const_iterator T) :=
  let it : const_iterator T := { it with index_ := (it.index_ + 1) % U32 }
  if (it.level_ = -1 ∧ it.index_ = it.base_buffer_.size ∧ it.levels_.length > 0) ∨
      (it.level_ ≥ 0 ∧ it.index_ = it.k_) then
    match next_level_loop 65 it.level_ it.bit_pattern_ it.weight_ with
    | Except.error e => Except.error e
    | Except.ok (level, bit_pattern, weight) =>
      Except.ok { it with index_ := 0, level_ := level, bit_pattern_ := bit_pattern,
                          weight_ := weight }
  else Except.ok it

/-- The member `operator==`: only `level_` and `index_` are compared. -/
def const_iterator.equals (it other : const_iterator T) : Bool :=
  it.level_ == other.level_ && it.index_ == other.index_

/-- The member `operator*`: the item under the iterator and its weight. -/
def const_iterator.deref (it : const_iterator T) : Except Err (T × Nat) :=
  if it.level_ = -1 then
    match it.base_buffer_.items[it.index_]? with
    | some x => Except.ok (x, it.weight_)
    | none => Except.error Err.out_of_range
  else if it.level_ < 0 then Except.error Err.out_of_range
  else
    match it.levels_[it.level_.toNat]? with
    | none => Except.error Err.out_of_range
    | some level =>
      match level.items[it.index_]? with
      | some x => Except.ok (x, it.weight_)
      | none => Except.error Err.out_of_range

/-- The loop `for (it = begin(); it != end(); ++it)` that collects `*it`, run
for at most `fuel` turns. -/
def iterate_loop (last : const_iterator T) :
    Nat → const_iterator T → List (T × Nat) → Except Err (List (T × Nat))
  | 0, _, _ => Except.error Err.diverges
  | fuel + 1, it, out =>
    if it.equals last then Except.ok out
    else
      match it.deref with
      | Except.error e => Except.error e
      | Except.ok p =>
        match it.next with
        | Except.error e => Except.error e
        | Except.ok it1 => iterate_loop last fuel it1 (out ++ [p])

/-- The pairs that a traversal of the sketch from `begin()` to `end()` yields,
if it gets there within `fuel` steps. -/
def iterate (s : quantiles_sketch T) (fuel : Nat) : Except Err (List (T × Nat)) := do
  let first ← s.begin
  let last ← s.end
  iterate_loop last fuel first []

end Iterator

section ByteVector

variable {T : Type}

/-- Modelled from the spec: the constant `EMPTY_SIZE_BYTES` of
`quantiles_sketch.hpp`, which is not among the sources: an empty sketch is
written as the 8 bytes of the fixed preamble. -/
def EMPTY_SIZE_BYTES : Nat := 8

/-- Modelled from the spec: the constant `DATA_START` of `quantiles_sketch.hpp`,
which is not among the sources: the offset 16 at which the minimum is
written, after the fixed preamble and `n`. -/
def DATA_START : Nat := 16

/-- The member `get_serialized_size_bytes()` of the sketches of arithmetic
items; `sizeof_T` is `sizeof(TT)`.  The count of items is a `uint32_t`, the
result a `size_t` of 64 bits. -/
def get_serialized_size_bytes (sizeof_T : Nat) (s : quantiles_sketch T) : Except Err Nat :=
  if s.is_empty then Except.ok EMPTY_SIZE_BYTES
  else
    match get_num_retained s with
    | Except.error e => Except.error e
    | Except.ok num_retained =>
      Except.ok ((DATA_START + (((num_retained + 2) % U32) * sizeof_T) % U64) % U64)

/-- Modelled from the spec: `copy_to_mem(value, ptr)` of `common_defs.hpp`,
which is not among the sources, and likewise the write of a run of bytes by a
SerDe: the bytes are stored in the vector `bytes` from offset `ptr` on, and the
result is the vector and the advanced offset.  A run that does not fit between
`ptr` and the end of the vector is a failure. -/
def copy_to_mem (bytes : List Nat) (ptr : Nat) (run : List Nat) : Except Err (List Nat × Nat) :=
  if ptr + run.length > bytes.length then Except.error Err.out_of_range
  else Except.ok (bytes.take ptr ++ run ++ bytes.drop (ptr + run.length), ptr + run.length)

/-- The loop of the byte-vector `serialize` over the levels: only levels with
data are written. -/
def serialize_levels_bytes (serde : SerDe T) :
    List (Level T) → List Nat → Nat → Except Err (List Nat × Nat)
  | [], bytes, ptr => Except.ok (bytes, ptr)
  | lvl :: rest, bytes, ptr =>
    if lvl.size > 0 then
      match copy_to_mem bytes ptr (serde.serialize lvl.items) with
      | Except.error e => Except.error e
      | Except.ok (bytes1, ptr1) => serialize_levels_bytes serde rest bytes1 ptr1
    else serialize_levels_bytes serde rest bytes ptr

/-- The body of the member `serialize(unsigned header_size_bytes, const SerDe&)`:
the vector that is returned and the final value of `ptr`, as an offset into
the vector. -/
def serialize_bytes_ptr (c : Constants) (serde : SerDe T) (sizeof_T : Nat)
    (s : quantiles_sketch T) (header_size_bytes : Nat) : Except Err (List Nat × Nat) := do
  let size := (((← get_serialized_size_bytes sizeof_T s) + header_size_bytes % U32) % U64)
  let bytes := List.replicate size 0
  let ptr := header_size_bytes % U32
  let preamble_longs := if s.is_empty then c.PREAMBLE_LONGS_SHORT else c.PREAMBLE_LONGS_FULL
  let (bytes, ptr) ← copy_to_mem bytes ptr (write_le 1 preamble_longs)
  let ser_ver := c.SERIAL_VERSION
  let (bytes, ptr) ← copy_to_mem bytes ptr (write_le 1 ser_ver)
  let family := c.FAMILY
  let (bytes, ptr) ← copy_to_mem bytes ptr (write_le 1 family)
  let flags_byte :=
    ((if s.is_empty then 1 <<< c.IS_EMPTY else 0)
      ||| (if s.is_sorted_ then 1 <<< c.IS_SORTED else 0)
      ||| (1 <<< c.IS_COMPACT)) % 256
  let (bytes, ptr) ← copy_to_mem bytes ptr (write_le 1 flags_byte)
  let (bytes, ptr) ← copy_to_mem bytes ptr (write_le 2 s.k_)
  let ptr := ptr + 2
  if ¬ s.is_empty then
    let (bytes, ptr) ← copy_to_mem bytes ptr (write_le 8 s.n_)
    match s.min_value_, s.max_value_ with
    | some mn, some mx =>
      let (bytes, ptr) ← copy_to_mem bytes ptr (serde.serialize [mn])
      let (bytes, ptr) ← copy_to_mem bytes ptr (serde.serialize [mx])
      let (bytes, ptr) ←
        if s.base_buffer_.size > 0 then
          copy_to_mem bytes ptr (serde.serialize s.base_buffer_.items)
        else pure (bytes, ptr)
      serialize_levels_bytes serde s.levels_ bytes ptr
    | _, _ => Except.error Err.null_pointer
  else pure (bytes, ptr)

/-- The member `serialize(unsigned header_size_bytes, const SerDe&)`: the
vector of bytes that is returned. -/
def serialize_bytes (c : Constants) (serde : SerDe T) (sizeof_T : Nat)
    (s : quantiles_sketch T) (header_size_bytes : Nat) : Except Err (List Nat) :=
  match serialize_bytes_ptr c serde sizeof_T s header_size_bytes with
  | Except.error e => Except.error e
  | Except.ok (bytes, _) => Except.ok bytes

/-- Modelled from the spec: `ensure_minimum_memory(bytes_available, min_needed)`
of `common_defs.hpp`, which is not among the sources: an image that is shorter
than what is about to be read is refused. -/
def ensure_minimum_memory (bytes_available min_needed : Nat) : Except Err Unit :=
  if bytes_available < min_needed then Except.error Err.out_of_range else Except.ok ()

/-- Modelled from the spec: `copy_from_mem(ptr, value)` of `common_defs.hpp`,
which is not among the sources, for an unsigned value of `width` bytes: the
little-endian value of the bytes at `ptr` and the bytes after them; `mem` is
what lies between `ptr` and the end of the image. -/
def copy_from_mem (width : Nat) (mem : List Nat) : Except Err (Nat × List Nat) :=
  if mem.length < width then Except.error Err.out_of_range
  else Except.ok (le_value (mem.take width), mem.drop width)

/-- The static member `deserialize_array(bytes, size, num_items, capacity,
serde, allocator)`: the level read and what is left of the image.  A SerDe
that cannot read `num_items` items from the bytes it is given throws. -/
def deserialize_array_bytes (serde : SerDe T) (mem : List Nat) (num_items capacity : Nat) :
    Except Err (Level T × List Nat) :=
  match serde.deserialize mem num_items with
  | none => Except.error Err.out_of_range
  | some (items, mem1) => Except.ok ((Level.empty.reserve capacity).insert_end items, mem1)

/-- The call `serde.deserialize(ptr, end_ptr - ptr, buffer, 1)` that reads the
minimum or the maximum from the image. -/
def deserialize_one_bytes (serde : SerDe T) (mem : List Nat) : Except Err (T × List Nat) :=
  match serde.deserialize mem 1 with
  | some ([item], mem1) => Except.ok (item, mem1)
  | _ => Except.error Err.out_of_range

/-- The loop of the byte-array `deserialize` that fills the vector of levels. -/
def deserialize_levels_bytes (serde : SerDe T) (k : Nat) :
    Nat → Nat → List Nat → List (Level T) → Except Err (List (Level T) × List Nat)
  | 0, _, mem, levels => Except.ok (levels, mem)
  | count + 1, working_pattern, mem, levels =>
    if working_pattern &&& 0x01 = 1 then
      match deserialize_array_bytes serde mem k k with
      | Except.error e => Except.error e
      | Except.ok (level, mem1) =>
        deserialize_levels_bytes serde k count (working_pattern >>> 1) mem1 (levels ++ [level])
    else
      deserialize_levels_bytes serde k count (working_pattern >>> 1) mem
        (levels ++ [Level.empty.reserve k])

/-- The static member `deserialize(const void* bytes, size_t size, const SerDe&,
const A&)`; the list is the `size` bytes at `bytes`. -/
def deserialize_bytes (c : Constants) (serde : SerDe T) (bytes : List Nat) :
    Except Err (quantiles_sketch T) := do
  ensure_minimum_memory bytes.length 8
  let (preamble_longs, ptr) ← copy_from_mem 1 bytes
  let (serial_version, ptr) ← copy_from_mem 1 ptr
  let (family_id, ptr) ← copy_from_mem 1 ptr
  let (flags_byte, ptr) ← copy_from_mem 1 ptr
  let (k, ptr) ← copy_from_mem 2 ptr
  let (_, ptr) ← copy_from_mem 2 ptr
  check_serial_version c serial_version
  check_family_id c family_id
  check_header_validity c preamble_longs flags_byte serial_version
  let is_empty := (flags_byte &&& (1 <<< c.IS_EMPTY)) > 0
  if is_empty then quantiles_sketch.new k
  else
    ensure_minimum_memory bytes.length 16
    let (items_seen, ptr) ← copy_from_mem 8 ptr
    let is_compact := (flags_byte &&& (1 <<< c.IS_COMPACT)) > 0
    let is_sorted := (flags_byte &&& (1 <<< c.IS_SORTED)) > 0
    let (min_value, ptr) ← deserialize_one_bytes serde ptr
    let (max_value, ptr) ← deserialize_one_bytes serde ptr
    let levels_needed ← compute_levels_needed k items_seen
    let bit_pattern ← compute_bit_pattern k items_seen
    let bb_items ← compute_base_buffer_items k items_seen
    let items_to_read := if is_compact then bb_items else 2 * k
    let (base_buffer, ptr) ← deserialize_array_bytes serde ptr items_to_read (2 * k)
    let (levels, _) ← deserialize_levels_bytes serde k levels_needed bit_pattern ptr []
    pure
      { k_ := k, n_ := items_seen, bit_pattern_ := bit_pattern, base_buffer_ := base_buffer,
        levels_ := levels, min_value_ := some min_value, max_value_ := some max_value,
        is_sorted_ := is_sorted }

end ByteVector

section EvenlySpacedQuantiles

variable {T : Type}

/-- The loop of `get_quantiles<inclusive>(num)` that stores
`static_cast<double>(i) / (num - 1)` in `fractions[i]`: `count` more turns, the
next index `i`. -/
def fractions_loop (num : Nat) : Nat → Nat → List Double → List Double
  | 0, _, fractions => fractions
  | count + 1, i, fractions =>
    fractions_loop num count (i + 1)
      (fractions.set i (Double.val ((i : ℚ) / ((num - 1 : Nat) : ℚ))))

/-- The member `get_quantiles<inclusive>(num)`: the sketch after the call and
the outcome. -/
def get_quantiles_num (lt : T → T → Bool) (qc : quantile_calculator T) (inclusive : Bool)
    (s : quantiles_sketch T) (num : Nat) : quantiles_sketch T × Except Err (List T) :=
  if s.is_empty then (s, Except.ok (Level.empty : Level T).items)
  else if num = 0 then (s, Except.error Err.invalid_argument)
  else
    let fractions := List.replicate num (Double.val 0)
    let fractions := fractions.set 0 (Double.val 0)
    let fractions := fractions_loop num (num - 1) 1 fractions
    let fractions := if num > 1 then fractions.set (num - 1) (Double.val 1) else fractions
    get_quantiles lt qc inclusive s fractions

end EvenlySpacedQuantiles

section Specification

variable {T : Type}

/-- A strict weak ordering, as the C++ standard asks of a comparator:
irreflexive, transitive, and with a transitive incomparability relation. -/
structure StrictWeakOrder (lt : T → T → Bool) : Prop where
  /-- No item is less than itself. -/
  irrefl : ∀ a, lt a a = false
  /-- The order is transitive. -/
  trans : ∀ a b c, lt a b = true → lt b c = true → lt a c = true
  /-- Being incomparable is transitive. -/
  incomp_trans : ∀ a b c, lt a b = false → lt b a = false → lt b c = false → lt c b = false →
    lt a c = false ∧ lt c a = false

/-- A list is ascending under the comparator: no later item is less than an
earlier one. -/
def SortedUnder (lt : T → T → Bool) (l : List T) : Prop :=
  l.Pairwise (fun a b => lt b a = false)

/-- The items at positions 0, 2, 4, ... of a list. -/
def every_other : List T → List T
  | [] => []
  | [a] => [a]
  | a :: _ :: r => a :: every_other r

/-- The merge of two lists in which the head of the first list is taken
exactly when it is less than the head of the second. -/
def merge_items (lt : T → T → Bool) (l1 l2 : List T) : List T :=
  List.merge l2 l1 (fun b a => !(lt a b))

end Specification

section Invariants

variable {T : Type}

/-- A level that is occupied: capacity `k`, exactly `k` items, ascending. -/
def FullLevel (lt : T → T → Bool) (k : Nat) (L : Level T) : Prop :=
  L.capacity = k ∧ L.items.length = k ∧ SortedUnder lt L.items

/-- The levels agree with the bit pattern: every level has capacity `k`, a
level whose bit is set holds `k` ascending items, and a level whose bit is
clear is empty. -/
def LevelsOK (lt : T → T → Bool) (k bp : Nat) (Ls : List (Level T)) : Prop :=
  ∀ i L, Ls[i]? = some L →
    L.capacity = k ∧
    (bp.testBit i = true → L.items.length = k ∧ SortedUnder lt L.items) ∧
    (bp.testBit i = false → L.items = [])

end Invariants

section Reachable

variable {T : Type}

/-- What holds of a sketch with parameter `k` that has accepted exactly the
items `acc`, in this order, through `update`. -/
structure Inv (lt : T → T → Bool) (k : Nat) (acc : List T) (s : quantiles_sketch T) : Prop where
  /-- The parameter is `k`. -/
  k_eq : s.k_ = k
  /-- The parameter is in range. -/
  k_ge : 2 ≤ k
  /-- The counter is the number of accepted items. -/
  n_eq : s.n_ = acc.length
  /-- The counter has not wrapped. -/
  n_lt : acc.length < U64
  /-- The bit pattern is the number of compactions so far. -/
  bp_eq : s.bit_pattern_ = s.n_ / (2 * k)
  /-- The base buffer holds the items since the last compaction. -/
  bb_len : s.base_buffer_.items.length = s.n_ % (2 * k)
  /-- The capacity of the base buffer is at least 4. -/
  bb_cap_ge : 4 ≤ s.base_buffer_.capacity
  /-- The capacity of the base buffer is at most `2k`. -/
  bb_cap_le : s.base_buffer_.capacity ≤ 2 * k
  /-- The base buffer is within its capacity. -/
  bb_len_le : s.base_buffer_.items.length ≤ s.base_buffer_.capacity
  /-- There are as many levels as the bit pattern has binary digits. -/
  lv_len : s.levels_.length = Nat.size s.bit_pattern_
  /-- The levels agree with the bit pattern. -/
  lv_ok : LevelsOK lt k s.bit_pattern_ s.levels_
  /-- Every item of the base buffer was accepted. -/
  bb_mem : ∀ x ∈ s.base_buffer_.items, x ∈ acc
  /-- Every item of a level was accepted. -/
  lv_mem : ∀ L ∈ s.levels_, ∀ x ∈ L.items, x ∈ acc
  /-- An empty sketch has no minimum and no maximum. -/
  min_none : acc = [] → s.min_value_ = none ∧ s.max_value_ = none
  /-- A non-empty sketch has a minimum and a maximum among the accepted items. -/
  min_some : acc ≠ [] → ∃ mn mx, s.min_value_ = some mn ∧ s.max_value_ = some mx ∧
    mn ∈ acc ∧ mx ∈ acc ∧ (∀ x ∈ acc, lt x mn = false) ∧ (∀ x ∈ acc, lt mx x = false)
  /-- While the flag is set the base buffer has at most one item. -/
  sorted_flag : s.is_sorted_ = true → s.base_buffer_.items.length ≤ 1
  /-- An empty sketch has the flag set. -/
  sorted_empty : acc = [] → s.is_sorted_ = true

end Reachable

section UpdateSteps

variable {T : Type}

/-- The base buffer after the capacity check and the `push_back` of `update`. -/
def pushed_buffer (k : Nat) (bb : Level T) (x : T) : Level T :=
  (if bb.size + 1 > bb.capacity then bb.reserve (max (min (2 * k) (2 * bb.size)) 1)
    else bb).push_back x

/-- The sketch of `update` when `process_full_base_buffer` is about to be
considered: minimum and maximum set, the item appended, `n_` incremented and
the flag cleared if the buffer has more than one item. -/
def pushed_sketch (s : quantiles_sketch T) (mn mx x : T) : quantiles_sketch T :=
  { k_ := s.k_, n_ := (s.n_ + 1) % U64, bit_pattern_ := s.bit_pattern_,
    base_buffer_ := pushed_buffer s.k_ s.base_buffer_ x, levels_ := s.levels_,
    min_value_ := some mn, max_value_ := some mx,
    is_sorted_ := if (pushed_buffer s.k_ s.base_buffer_ x).size > 1 then false else s.is_sorted_ }

end UpdateSteps

section Examples

/-- The usual order of the natural numbers as a comparator. -/
def nat_lt (a b : Nat) : Bool := decide (a < b)

/-- The random stream of the validation build: offsets 0, 1, 0, 1, ... -/
def alternating (i : Nat) : Bool := i % 2 == 1

/-- The number of set bits among the 64 low bits of a number. -/
def popcount (x : Nat) : Nat := (List.range 64).countP (fun i => x.testBit i)

end Examples

section RankSpecification

variable {T : Type}

/-- The items of the levels, each with the weight `2 ^ (i + 1)` of its level
`i`; the first level of the list has index `i`. -/
def level_items_weighted : Nat → List (Level T) → List (T × Nat)
  | _, [] => []
  | i, L :: Ls => L.items.map (fun x => (x, 2 ^ (i + 1))) ++ level_items_weighted (i + 1) Ls

/-- All retained items with their weights: weight 1 in the base buffer, weight
`2 ^ (i + 1)` in level `i`. -/
def weighted_items (s : quantiles_sketch T) : List (T × Nat) :=
  s.base_buffer_.items.map (fun x => (x, 1)) ++ level_items_weighted 0 s.levels_

/-- The sum of the weights of a list of weighted items. -/
def total_weight (ws : List (T × Nat)) : Nat := (ws.map Prod.snd).sum

/-- The sum of the weights of those items that pass the test of `get_rank`:
`item ≤ value` when inclusive, `item < value` when exclusive. -/
def rank_sum (lt : T → T → Bool) (inclusive : Bool) (value : T) (ws : List (T × Nat)) : Nat :=
  total_weight (ws.filter (fun p => rank_test lt inclusive value p.1))

end RankSpecification

section QuerySpecification

variable {T : Type}

/-- The shape that the data model gives a sketch with data: at most 255
levels, each of them empty or holding at least `k_` items. -/
def WellShaped (s : quantiles_sketch T) : Prop :=
  s.levels_.length ≤ 255 ∧ ∀ L ∈ s.levels_, L.items = [] ∨ s.k_ ≤ L.items.length

/-- Split points in strictly increasing order: each is less than the next. -/
def StrictlyIncreasing (lt : T → T → Bool) (split_points : List T) : Prop :=
  List.Chain' (fun a b => lt a b = true) split_points

/-- The list of differences of adjacent entries, the first entry being
diminished by `prev`. -/
def diffs_from : ℚ → List ℚ → List ℚ
  | _, [] => []
  | prev, c :: rest => (c - prev) :: diffs_from c rest

end QuerySpecification

section SerializationSpecification

variable {T : Type}

/-- The constants have the values that the cases of `check_header_validity`
name for the current format (preamble of 1 or 2 longs, serial version 3), the
family id is a byte, and the three flags are distinct bits of a byte. -/
structure Constants.WellFormed (c : Constants) : Prop where
  /-- An empty sketch has a preamble of one long. -/
  short : c.PREAMBLE_LONGS_SHORT = 1
  /-- A sketch with data has a preamble of two longs. -/
  full : c.PREAMBLE_LONGS_FULL = 2
  /-- The serial version written is 3. -/
  version : c.SERIAL_VERSION = 3
  /-- The family id fits a byte. -/
  family : c.FAMILY < 256
  /-- The flag is a bit of a byte. -/
  empty_lt : c.IS_EMPTY < 8
  /-- The flag is a bit of a byte. -/
  compact_lt : c.IS_COMPACT < 8
  /-- The flag is a bit of a byte. -/
  sorted_lt : c.IS_SORTED < 8
  /-- The flags are distinct. -/
  empty_ne_compact : c.IS_EMPTY ≠ c.IS_COMPACT
  /-- The flags are distinct. -/
  empty_ne_sorted : c.IS_EMPTY ≠ c.IS_SORTED
  /-- The flags are distinct. -/
  compact_ne_sorted : c.IS_COMPACT ≠ c.IS_SORTED

/-- The `deserialize` of the SerDe inverts its `serialize`: reading as many
items as were written returns them and leaves what follows in the stream. -/
def SerDe.Inverts (serde : SerDe T) : Prop :=
  ∀ items rest, serde.deserialize (serde.serialize items ++ rest) items.length = some (items, rest)

end SerializationSpecification

section HeaderBytes

/-- The flags byte that `serialize` writes for a sketch that is empty or not
(`pe`) and whose `is_sorted_` is `ps`. -/
def flags_byte_of (c : Constants) (pe ps : Bool) : Nat :=
  ((if pe then 1 <<< c.IS_EMPTY else 0) ||| (if ps then 1 <<< c.IS_SORTED else 0)
    ||| (1 <<< c.IS_COMPACT)) % 256

/-- The eight bytes that `serialize` writes first. -/
def header_bytes (c : Constants) (pe ps : Bool) (k : Nat) : List Nat :=
  [(if pe then c.PREAMBLE_LONGS_SHORT else c.PREAMBLE_LONGS_FULL) % 256,
    c.SERIAL_VERSION % 256, c.FAMILY % 256, flags_byte_of c pe ps % 256,
    k % 256, k / 256 % 256, 0, 0]

end HeaderBytes

section ExampleSerDe

/-- The order of bytes as a comparator. -/
def byte_lt (a b : Fin 256) : Bool := decide (a < b)

/-- Reading `num` one-byte items from a stream. -/
def byte_deserialize : List Nat → Nat → Option (List (Fin 256) × List Nat)
  | is, 0 => some ([], is)
  | [], _ + 1 => none
  | b :: is, num + 1 =>
    if h : b < 256 then
      match byte_deserialize is num with
      | some (items, rest) => some (⟨b, h⟩ :: items, rest)
      | none => none
    else none

/-- The SerDe that writes every item as one byte. -/
def byte_serde : SerDe (Fin 256) :=
  { serialize := fun items => items.map Fin.val, deserialize := byte_deserialize }

/-- A successful read of `num` items yields `num` items. -/
def SerDe.ReadsExactly {T : Type} (serde : SerDe T) : Prop :=
  ∀ is num items rest, serde.deserialize is num = some (items, rest) → items.length = num

end ExampleSerDe

section HeaderValidation

/-- The validation of a header as `deserialize` performs it on the bytes
`preamble_longs`, `flags_byte` and `serial_version`: `check_serial_version`
followed by `check_header_validity`. -/
def header_validation (c : Constants) (preamble_longs flags_byte serial_version : Nat) :
    Except Err Unit :=
  match check_serial_version c serial_version with
  | Except.error e => Except.error e
  | Except.ok _ => check_header_validity c preamble_longs flags_byte serial_version

/-- The flag `empty` that `check_header_validity` reads from the flags byte. -/
def header_empty (c : Constants) (flags_byte : Nat) : Bool :=
  decide ((flags_byte &&& (1 <<< c.IS_EMPTY)) > 0)

/-- The flag `compact` that `check_header_validity` reads from the flags byte. -/
def header_compact (c : Constants) (flags_byte : Nat) : Bool :=
  decide ((flags_byte &&& (1 <<< c.IS_COMPACT)) > 0)

/-- The ten tuples `(preamble_longs, empty, serial_version, compact)` of the
validation table as the specification lists it. -/
def spec_validation_table : List (Nat × Bool × Nat × Bool) :=
  [(1, true, 1, false), (5, false, 1, false), (1, true, 2, true), (2, false, 2, true),
    (1, true, 3, true), (1, true, 3, false), (2, true, 3, true), (2, true, 3, false),
    (2, false, 3, true), (2, false, 3, false)]

/-- The ten tuples `(preamble_longs, empty, serial_version, compact)` that the
cases of the `switch` in `check_header_validity` stand for: 38, 164, 42, 72,
47, 46, 79, 78, 77 and 76. -/
def code_validation_table : List (Nat × Bool × Nat × Bool) :=
  [(1, true, 1, false), (5, false, 1, false), (1, true, 2, false), (2, false, 2, false),
    (1, true, 3, true), (1, true, 3, false), (2, true, 3, true), (2, true, 3, false),
    (2, false, 3, true), (2, false, 3, false)]

/-- The outcome of `check_header_validity` as a function of the two flags, the
serial version and the masked preamble. -/
def header_valid_of (e cp : Bool) (sv m : Nat) : Except Err Unit :=
  let sw := ((if cp then 1 else 0) + (2 * (if e then 1 else 0)) + (4 * (sv &&& 0xF)) + (32 * m))
    % 256
  let valid : Bool :=
    if sw = 38 then true
    else if sw = 164 then true
    else if sw = 42 then true
    else if sw = 72 then true
    else if sw = 47 then true
    else if sw = 46 then true
    else if sw = 79 then true
    else if sw = 78 then true
    else if sw = 77 then true
    else if sw = 76 then true
    else false
  if ¬ valid then Except.error Err.invalid_argument else Except.ok ()

end HeaderValidation

section QuantileSpecification

/-- A rank that `get_quantile` and `get_quantiles` refuse: below 0 or above 1. -/
def rank_out_of_range (rank : Double) : Prop :=
  rank.lt (Double.val 0) = true ∨ (Double.val 1).lt rank = true

/-- The sketch with its base buffer sorted, everything else as it is. -/
def with_sorted_base_buffer {T : Type} (lt : T → T → Bool) (s : quantiles_sketch T) :
    quantiles_sketch T :=
  { s with base_buffer_ := std_sort lt s.base_buffer_ }

end QuantileSpecification

section ByteVectorSpecification

/-- The SerDe writes every item in `w` bytes. -/
def SerDe.FixedWidth {T : Type} (serde : SerDe T) (w : Nat) : Prop :=
  ∀ items, (serde.serialize items).length = w * items.length

end ByteVectorSpecification

section IteratorSpecification

/-- What the traversal of a sketch relies on: `k` is positive and fits the
index, there are as many levels as the pattern has binary digits, at most 62,
the levels agree with the pattern, and the base buffer fits the index. -/
structure IterOK {T : Type} (lt : T → T → Bool) (k bp : Nat) (bb : Level T)
    (Ls : List (Level T)) : Prop where
  /-- The parameter is positive. -/
  k_pos : 0 < k
  /-- The parameter fits a `uint32_t`. -/
  k_lt : k < U32
  /-- There are as many levels as the pattern has binary digits. -/
  lv_len : Ls.length = Nat.size bp
  /-- The levels agree with the pattern. -/
  lv_ok : LevelsOK lt k bp Ls
  /-- There are at most 62 levels. -/
  lv_le : Ls.length ≤ 62
  /-- The size of the base buffer fits a `uint32_t`. -/
  bb_lt : bb.items.length < U32

/-- The traversal from a position inside an occupied level `L`, with `fuel`
turns at hand: it yields the rest of that level and the levels above. -/
def LevelPhase {T : Type} (k bp : Nat) (bb : Level T) (Ls : List (Level T))
    (last : const_iterator T) (bbc fuel : Nat) : Prop :=
  ∀ (L i : Nat) (out : List (T × Nat)) (Lv : Level T), Ls[L]? = some Lv →
    bp.testBit L = true → i < k →
    (Lv.items.drop i).length + (level_items_weighted (L + 1) (Ls.drop (L + 1))).length < fuel →
    iterate_loop last fuel ⟨bb, Ls, (L : Int), i, k, bbc, bp >>> L, 2 ^ (L + 1)⟩ out =
      Except.ok (out ++ ((Lv.items.drop i).map (fun x => (x, 2 ^ (L + 1))) ++
        level_items_weighted (L + 1) (Ls.drop (L + 1))))

/-- The pairs of the levels in the order of the claim about the iterator: for
`count` bit positions from `i` on, in ascending order, the first `k` items of
level `i` with weight `2 ^ (i + 1)` if bit `i` of the pattern is set, and
nothing if it is clear. -/
def levels_in_order {T : Type} (k bp : Nat) (Ls : List (Level T)) : Nat → Nat → List (T × Nat)
  | _, 0 => []
  | i, count + 1 =>
    (if bp.testBit i then
      ((Ls.getD i Level.empty).items.take k).map (fun x => (x, 2 ^ (i + 1)))
    else []) ++ levels_in_order k bp Ls (i + 1) count

/-- The sequence of pairs that a traversal is expected to yield: the items of
the base buffer in stored order with weight 1, then the occupied levels in
ascending order. -/
def iteration_order {T : Type} (s : quantiles_sketch T) : List (T × Nat) :=
  s.base_buffer_.items.map (fun x => (x, 1)) ++
    levels_in_order s.k_ s.bit_pattern_ s.levels_ 0 64

end IteratorSpecification

section TieExamples

/-- A comparator on the natural numbers under which numbers with the same tens
are equivalent: `a` is less than `b` when `a / 10 < b / 10`. -/
def tens_lt (a b : Nat) : Bool := decide (a / 10 < b / 10)

end TieExamples

section WeightSpecification
variable {T : Type}

/-- The sum over the levels of `levels[i].size() * 2 ^ (i + 1)`; the first
level of the list has index `i`. -/
def levels_weight : Nat → List (Level T) → Nat
  | _, [] => 0
  | i, L :: Ls => L.size * 2 ^ (i + 1) + levels_weight (i + 1) Ls

/-- The total weight of the runs given to the quantile calculator: a run with
`lg_weight` counts `2 ^ lg_weight` for each of its items. -/
def entries_weight (entries : List (List T × Nat)) : Nat :=
  (entries.map (fun e => e.1.length * 2 ^ e.2)).sum

end WeightSpecification

section RankCountSpecification
variable {T : Type}

/-- The sum of the weights of the weighted items `x` with `x ≤ v` under the
comparator, that is, of those for which `v < x` does not hold. -/
def weight_at_most (lt : T → T → Bool) (v : T) (ws : List (T × Nat)) : Nat :=
  ((ws.filter (fun p => decide (lt v p.1 = false))).map Prod.snd).sum

/-- The sum of the weights of the weighted items `x` with `x < v` under the
comparator. -/
def weight_below (lt : T → T → Bool) (v : T) (ws : List (T × Nat)) : Nat :=
  ((ws.filter (fun p => decide (lt p.1 v = true))).map Prod.snd).sum

end RankCountSpecification

section OrderAndBitLength

variable {T : Type}

theorem StrictWeakOrder.le_trans {lt : T → T → Bool} (h : StrictWeakOrder lt) {a b c : T}
    (hab : lt b a = false) (hbc : lt c b = false) : lt c a = false := by
  by_contra hca
  have hca : lt c a = true := by simpa using hca
  have h1 : lt a b = false := by
    by_contra h1
    have h1 : lt a b = true := by simpa using h1
    have := h.trans c a b hca h1
    simp [hbc] at this
  have h2 : lt b c = false := by
    by_contra h2
    have h2 : lt b c = true := by simpa using h2
    have := h.trans b c a h2 hca
    simp [hab] at this
  have := (h.incomp_trans a b c h1 hab h2 hbc).2
  simp [hca] at this

theorem StrictWeakOrder.le_total {lt : T → T → Bool} (h : StrictWeakOrder lt) (a b : T) :
    lt b a = false ∨ lt a b = false := by
  by_contra hc
  push_neg at hc
  have h1 : lt b a = true := by simpa using hc.1
  have h2 : lt a b = true := by simpa using hc.2
  have := h.trans a b a h2 h1
  simp [h.irrefl] at this

theorem StrictWeakOrder.lt_of_lt_of_le {lt : T → T → Bool} (h : StrictWeakOrder lt) {a b c : T}
    (hab : lt a b = true) (hbc : lt c b = false) : lt a c = true := by
  by_contra hac
  have hac : lt a c = false := by simpa using hac
  have := h.le_trans hbc hac
  simp [hab] at this

theorem StrictWeakOrder.lt_of_le_of_lt {lt : T → T → Bool} (h : StrictWeakOrder lt) {a b c : T}
    (hab : lt b a = false) (hbc : lt b c = true) : lt a c = true := by
  by_contra hac
  have hac : lt a c = false := by simpa using hac
  have := h.le_trans hac hab
  simp [hbc] at this

theorem std_sort_sorted {lt : T → T → Bool} (h : StrictWeakOrder lt) (v : Level T) :
    SortedUnder lt (std_sort lt v).items := by
  haveI : IsTotal T (fun a b => lt b a = false) := ⟨fun a b => h.le_total a b⟩
  haveI : IsTrans T (fun a b => lt b a = false) := ⟨fun a b c hab hbc => h.le_trans hab hbc⟩
  exact List.sorted_insertionSort (fun a b => lt b a = false) v.items

theorem std_sort_perm (lt : T → T → Bool) (v : Level T) :
    (std_sort lt v).items.Perm v.items :=
  List.perm_insertionSort (fun a b => lt b a = false) v.items

theorem std_sort_capacity (lt : T → T → Bool) (v : Level T) :
    (std_sort lt v).capacity = v.capacity := rfl

theorem std_sort_length (lt : T → T → Bool) (v : Level T) :
    (std_sort lt v).items.length = v.items.length :=
  (std_sort_perm lt v).length_eq

/-! ### Bit lengths -/

theorem bit_length_loop_eq_size : ∀ (fuel x : Nat), x < 2 ^ fuel → bit_length_loop fuel x = Nat.size x
  | 0, x, hx => by
    have : x = 0 := by simpa using hx
    subst this
    simp [bit_length_loop]
  | fuel + 1, x, hx => by
    unfold bit_length_loop
    by_cases h0 : x = 0
    · subst h0; simp
    · simp only [h0, if_false]
      have hlt : x / 2 < 2 ^ fuel := by
        rw [Nat.div_lt_iff_lt_mul (by norm_num)]
        rw [pow_succ] at hx
        exact hx
      rw [bit_length_loop_eq_size fuel (x / 2) hlt]
      apply le_antisymm
      · rw [Nat.succ_le_iff, Nat.lt_size]
        by_cases hs : (x / 2).size = 0
        · rw [hs]; simp; omega
        · have h2 : 2 ^ ((x / 2).size - 1) ≤ x / 2 := by
            rw [← Nat.lt_size]; omega
          have h3 : (x / 2).size = ((x / 2).size - 1) + 1 := by omega
          rw [h3, pow_succ]
          omega
      · rw [Nat.size_le, pow_succ]
        have := Nat.lt_size_self (x / 2)
        omega

theorem levels_needed_eq_size (x : Nat) (hx : x < U64) :
    64 - count_leading_zeros_in_u64 x = Nat.size x := by
  unfold count_leading_zeros_in_u64
  have hx' : x < 2 ^ 64 := hx
  rw [Nat.mod_eq_of_lt hx, bit_length_loop_eq_size 64 x hx']
  have : x.size ≤ 64 := Nat.size_le.mpr hx'
  omega

end OrderAndBitLength

section BitsAndZip
variable {T : Type}

/-! ### The lowest zero bit and the carry -/

theorem lowest_zero_bit_loop_spec : ∀ (fuel b pos : Nat), b < 2 ^ fuel →
    pos ≤ lowest_zero_bit_loop fuel b pos ∧
    (∀ j, j < lowest_zero_bit_loop fuel b pos - pos → b.testBit j = true) ∧
    b.testBit (lowest_zero_bit_loop fuel b pos - pos) = false
  | 0, b, pos, hb => by
    have : b = 0 := by simpa using hb
    subst this
    simp [lowest_zero_bit_loop]
  | fuel + 1, b, pos, hb => by
    unfold lowest_zero_bit_loop
    rw [Nat.and_one_is_mod]
    by_cases h1 : b % 2 ≠ 0
    · rw [if_pos h1]
      have hlt : b >>> 1 < 2 ^ fuel := by
        rw [Nat.shiftRight_eq_div_pow, pow_one, Nat.div_lt_iff_lt_mul (by norm_num)]
        rw [pow_succ] at hb
        exact hb
      obtain ⟨ih1, ih2, ih3⟩ := lowest_zero_bit_loop_spec fuel (b >>> 1) (pos + 1) hlt
      rw [Nat.shiftRight_eq_div_pow, pow_one] at ih1 ih2 ih3 ⊢
      set e := lowest_zero_bit_loop fuel (b / 2) (pos + 1) with he
      refine ⟨by omega, ?_, ?_⟩
      · intro j hj
        cases j with
        | zero => rw [Nat.testBit_zero]; simp; omega
        | succ j => rw [Nat.testBit_succ]; exact ih2 j (by omega)
      · have : e - pos = (e - (pos + 1)) + 1 := by omega
        rw [this, Nat.testBit_succ]
        exact ih3
    · rw [if_neg h1]
      refine ⟨le_refl _, ?_, ?_⟩
      · intro j hj; omega
      · rw [Nat.sub_self, Nat.testBit_zero]; simp; omega

theorem lowest_zero_bit_zero_spec (bits : Nat) (h : bits < U64) :
    (∀ j, j < lowest_zero_bit_starting_at bits 0 → bits.testBit j = true) ∧
    bits.testBit (lowest_zero_bit_starting_at bits 0) = false := by
  have h' : bits < 2 ^ 64 := h
  have := lowest_zero_bit_loop_spec 64 bits 0 h'
  unfold lowest_zero_bit_starting_at
  simp only [Nat.zero_and, Nat.shiftRight_zero, Nat.mod_eq_of_lt h]
  simpa using this.2

theorem testBit_succ_of_low_ones : ∀ (e bits : Nat), (∀ j, j < e → bits.testBit j = true) →
    bits.testBit e = false →
    ∀ j, (bits + 1).testBit j = if j < e then false else if j = e then true else bits.testBit j
  | 0, bits, _, hz, j => by
    rw [Nat.testBit_zero] at hz
    have hev : bits % 2 = 0 := by
      have : ¬ (bits % 2 = 1) := by simpa using hz
      omega
    cases j with
    | zero => simp [Nat.testBit_zero]; omega
    | succ j =>
      simp only [Nat.testBit_succ]
      have : (bits + 1) / 2 = bits / 2 := by omega
      rw [this]; simp
  | e + 1, bits, hones, hz, j => by
    have hodd : bits % 2 = 1 := by
      have := hones 0 (by omega)
      rw [Nat.testBit_zero] at this
      simpa using this
    have hdiv : (bits + 1) / 2 = bits / 2 + 1 := by omega
    have ih := testBit_succ_of_low_ones e (bits / 2)
      (fun j hj => by rw [← Nat.testBit_succ]; exact hones (j + 1) (by omega))
      (by rw [← Nat.testBit_succ]; exact hz)
    cases j with
    | zero => simp [Nat.testBit_zero]; omega
    | succ j =>
      rw [Nat.testBit_succ, hdiv, ih j, Nat.testBit_succ]
      simp

theorem size_succ_le (b : Nat) : Nat.size (b + 1) ≤ Nat.size b + 1 := by
  rw [Nat.size_le, pow_succ]
  have := Nat.lt_size_self b
  omega

theorem lt_size_of_testBit {x i : Nat} (h : x.testBit i = true) : i < Nat.size x := by
  rw [Nat.lt_size]
  by_contra hc
  have := Nat.testBit_lt_two_pow (not_le.mp hc)
  simp [h] at this

theorem testBit_of_size_le {x i : Nat} (h : Nat.size x ≤ i) : x.testBit i = false :=
  Nat.testBit_lt_two_pow (Nat.size_le.mp h)

theorem and_shift_pos_iff (b lvl : Nat) : (b &&& (1 <<< lvl) > 0) ↔ b.testBit lvl = true := by
  rw [Nat.one_shiftLeft, Nat.and_two_pow]
  cases h : b.testBit lvl <;> simp [Nat.pos_of_ne_zero]

/-! ### zip_buffer -/

theorem every_other_sublist : ∀ (l : List T), List.Sublist (every_other l) l
  | [] => List.Sublist.slnil
  | [_] => List.Sublist.refl _
  | a :: b :: r => List.Sublist.cons₂ a (List.Sublist.cons b (every_other_sublist r))

theorem every_other_length : ∀ (l : List T), (every_other l).length = (l.length + 1) / 2
  | [] => by simp [every_other]
  | [_] => by simp [every_other]
  | _ :: _ :: r => by
    simp only [every_other, List.length_cons, every_other_length r]
    omega

theorem every_other_drop (l : List T) (i : Nat) (h : i < l.length) :
    every_other (l.drop i) = l[i] :: every_other (l.drop (i + 2)) := by
  rw [List.drop_eq_getElem_cons h]
  have hd : l.drop (i + 2) = (l.drop (i + 1)).drop 1 := by
    rw [List.drop_drop]
  rw [hd]
  cases l.drop (i + 1) with
  | nil => simp [every_other]
  | cons y r => simp [every_other]

theorem zip_loop_spec (buf_in : Level T) : ∀ (count i : Nat) (out : Level T),
    out.items.length + count ≤ out.capacity →
    (count ≠ 0 → i + 2 * count ≤ buf_in.items.length + 1) →
    zip_loop buf_in count i out =
      Except.ok ⟨out.items ++ (every_other (buf_in.items.drop i)).take count, out.capacity⟩
  | 0, i, out, _, _ => by simp [zip_loop]
  | count + 1, i, out, hcap, hlen => by
    have hi : i < buf_in.items.length := by
      have := hlen (by omega); omega
    have hlt : out.items.length < out.capacity := by omega
    unfold zip_loop
    rw [List.getElem?_eq_getElem hi]
    simp only
    rw [zip_loop_spec buf_in count (i + 2) (out.push_back buf_in.items[i])
      (by simp [Level.push_back, hlt]; omega)
      (by intro hc; have := hlen (by omega); omega)]
    rw [every_other_drop _ _ hi]
    simp [Level.push_back, hlt]

theorem zip_buffer_spec (rnd : Nat → Bool) (pos : Nat) (buf_in out : Level T)
    (hlen : buf_in.items.length = 2 * out.capacity) (hout : out.items = []) :
    zip_buffer rnd pos buf_in out =
      Except.ok (buf_in.clear,
        ⟨every_other (buf_in.items.drop (if rnd pos then 1 else 0)), out.capacity⟩, pos + 1) := by
  unfold zip_buffer
  simp only [Level.size, hlen, hout, List.length_nil, ne_eq, not_true_eq_false, if_false]
  rw [zip_loop_spec buf_in out.capacity _ out (by simp [hout])
    (by intro _; split <;> omega)]
  simp only [hout, List.nil_append]
  have hl : (every_other (buf_in.items.drop (if rnd pos then 1 else 0))).length = out.capacity := by
    rw [every_other_length, List.length_drop, hlen]
    split <;> omega
  rw [List.take_of_length_le (by omega)]

end BitsAndZip

section MergeBuffers
variable {T : Type}

/-! ### merge_two_size_k_buffers -/

theorem merge_items_nil_left (lt : T → T → Bool) (l : List T) : merge_items lt [] l = l := by
  simp [merge_items]

theorem merge_items_nil_right (lt : T → T → Bool) (l : List T) : merge_items lt l [] = l := by
  simp [merge_items]

theorem merge_items_cons (lt : T → T → Bool) (a b : T) (l1 l2 : List T) :
    merge_items lt (a :: l1) (b :: l2) =
      if lt a b then a :: merge_items lt l1 (b :: l2) else b :: merge_items lt (a :: l1) l2 := by
  unfold merge_items
  rw [List.cons_merge_cons]
  cases lt a b <;> simp

theorem merge_items_sorted {lt : T → T → Bool} (h : StrictWeakOrder lt) {l1 l2 : List T}
    (h1 : SortedUnder lt l1) (h2 : SortedUnder lt l2) : SortedUnder lt (merge_items lt l1 l2) := by
  unfold merge_items SortedUnder
  have key := @List.sorted_merge T (fun b a => !(lt a b))
    (fun a b c hab hbc => by
      simp only [Bool.not_eq_true'] at hab hbc ⊢
      exact h.le_trans hab hbc)
    (fun a b => by
      rcases h.le_total a b with hh | hh <;> simp [hh])
    l2 l1
    (h2.imp (fun hh => by simpa using hh))
    (h1.imp (fun hh => by simpa using hh))
  exact key.imp (fun hh => by simpa using hh)

theorem merge_items_perm (lt : T → T → Bool) (l1 l2 : List T) :
    (merge_items lt l1 l2).Perm (l1 ++ l2) :=
  (List.merge_perm_append (fun b a => !(lt a b))).trans List.perm_append_comm

theorem mem_merge_items {lt : T → T → Bool} {l1 l2 : List T} {x : T} :
    x ∈ merge_items lt l1 l2 ↔ x ∈ l1 ∨ x ∈ l2 := by
  rw [(merge_items_perm lt l1 l2).mem_iff, List.mem_append]

theorem merge_items_length (lt : T → T → Bool) (l1 l2 : List T) :
    (merge_items lt l1 l2).length = l1.length + l2.length := by
  rw [(merge_items_perm lt l1 l2).length_eq, List.length_append]

theorem merge_loop_spec (lt : T → T → Bool) : ∀ (fuel : Nat) (l1 l2 : List T) (dst : Level T),
    l1.length + l2.length ≤ fuel →
    dst.items.length + l1.length + l2.length ≤ dst.capacity →
    ∃ r1 r2 d, merge_loop lt fuel l1 l2 dst = (r1, r2, d) ∧ d.capacity = dst.capacity ∧
      (r1 = [] ∨ r2 = []) ∧ d.items ++ (r1 ++ r2) = dst.items ++ merge_items lt l1 l2 ∧
      ((l1 ≠ [] ∨ l2 ≠ []) → (r1 ≠ [] ∨ r2 ≠ [])) ∧
      d.items.length + r1.length + r2.length ≤ d.capacity
  | 0, l1, l2, dst, hf, hc => by
    have h1 : l1 = [] := List.length_eq_zero.mp (by omega)
    have h2 : l2 = [] := List.length_eq_zero.mp (by omega)
    subst h1 h2
    exact ⟨[], [], dst, by simp [merge_loop], rfl, Or.inl rfl, by simp [merge_items], by simp, by simpa using hc⟩
  | fuel + 1, [], l2, dst, hf, hc => by
    refine ⟨[], l2, dst, by simp [merge_loop], rfl, Or.inl rfl, ?_, ?_, by simpa using hc⟩
    · simp [merge_items_nil_left]
    · intro h; simpa using h
  | fuel + 1, a :: l1, [], dst, hf, hc => by
    refine ⟨a :: l1, [], dst, by simp [merge_loop], rfl, Or.inr rfl, ?_, ?_, by simpa using hc⟩
    · simp [merge_items_nil_right]
    · intro _; simp
  | fuel + 1, a :: l1, b :: l2, dst, hf, hc => by
    simp only [List.length_cons] at hf hc
    have hlt : dst.items.length < dst.capacity := by omega
    unfold merge_loop
    by_cases hab : lt a b = true
    · rw [if_pos hab]
      obtain ⟨r1, r2, d, he, hcap, hor, hitems, hne, hle⟩ :=
        merge_loop_spec lt fuel l1 (b :: l2) (dst.push_back a)
          (by simp only [List.length_cons]; omega)
          (by simp only [Level.push_back, hlt, if_true, List.length_append, List.length_cons,
                List.length_nil]; omega)
      refine ⟨r1, r2, d, he, ?_, hor, ?_, fun _ => hne (Or.inr (by simp)), hle⟩
      · rw [hcap]; simp [Level.push_back, hlt]
      · rw [hitems, merge_items_cons, if_pos hab]; simp [Level.push_back]
    · rw [if_neg hab]
      obtain ⟨r1, r2, d, he, hcap, hor, hitems, hne, hle⟩ :=
        merge_loop_spec lt fuel (a :: l1) l2 (dst.push_back b)
          (by simp only [List.length_cons]; omega)
          (by simp only [Level.push_back, hlt, if_true, List.length_append, List.length_cons,
                List.length_nil]; omega)
      refine ⟨r1, r2, d, he, ?_, hor, ?_, fun _ => hne (Or.inl (by simp)), hle⟩
      · rw [hcap]; simp [Level.push_back, hlt]
      · rw [hitems, merge_items_cons, if_neg hab]; simp [Level.push_back]

theorem merge_two_size_k_buffers_spec (lt : T → T → Bool) (src_1 src_2 dst : Level T) (k : Nat)
    (hk : 0 < k) (h1 : src_1.items.length = k) (h2 : src_2.items.length = k)
    (hd : dst.items = []) (hc : dst.capacity = 2 * k) :
    merge_two_size_k_buffers lt src_1 src_2 dst =
      Except.ok ⟨merge_items lt src_1.items src_2.items, 2 * k⟩ := by
  unfold merge_two_size_k_buffers
  simp only [Level.size, h1, h2, hd, hc, List.length_nil]
  rw [if_neg (by simp), if_neg (by omega), if_neg (by simp)]
  obtain ⟨r1, r2, d, he, hcap, hor, hitems, hne, hle⟩ :=
    merge_loop_spec lt (k + k) src_1.items src_2.items dst (by omega)
      (by rw [hd, hc]; simp; omega)
  rw [he]
  have hne' : r1 ≠ [] ∨ r2 ≠ [] := hne (Or.inl (by
    intro h0; rw [h0] at h1; simp at h1; omega))
  rw [hd, List.nil_append] at hitems
  rw [hcap, hc] at hle
  cases r1 with
  | cons a r1 =>
    have hr2 : r2 = [] := by rcases hor with h | h; simp at h; exact h
    subst hr2
    simp only [Level.insert_end]
    rw [← hitems, hcap, hc]
    simp only [List.append_nil, List.length_cons] at hle ⊢
    congr 2
    exact max_eq_left (by omega)
  | nil =>
    cases r2 with
    | nil => simp at hne'
    | cons b r2 =>
      simp only [Level.insert_end]
      rw [← hitems, hcap, hc]
      simp only [List.nil_append, List.length_cons, List.length_nil] at hle ⊢
      congr 2
      exact max_eq_left (by omega)

end MergeBuffers

section CarryLoop
variable {T : Type}

/-! ### The ripple carry -/

theorem zip_buffer_full (lt : T → T → Bool) (rnd : Nat → Bool) (pos k : Nat)
    (buf_in out : Level T) (hlen : buf_in.items.length = 2 * k) (hs : SortedUnder lt buf_in.items)
    (hcap : out.capacity = k) (hout : out.items = []) :
    ∃ L, zip_buffer rnd pos buf_in out = Except.ok (buf_in.clear, L, pos + 1) ∧
      FullLevel lt k L ∧ (∀ x ∈ L.items, x ∈ buf_in.items) ∧
      L.items = every_other (buf_in.items.drop (if rnd pos then 1 else 0)) := by
  refine ⟨_, zip_buffer_spec rnd pos buf_in out (by rw [hlen, hcap]) hout, ⟨hcap, ?_, ?_⟩, ?_, rfl⟩
  · simp only
    rw [every_other_length, List.length_drop, hlen]
    split <;> omega
  · exact List.Pairwise.sublist
      ((every_other_sublist _).trans (List.drop_sublist _ _)) hs
  · intro x hx
    exact ((every_other_sublist _).trans (List.drop_sublist _ _)).subset hx

theorem carry_loop_spec {lt : T → T → Bool} (hlt : StrictWeakOrder lt) (rnd : Nat → Bool)
    (bp e k : Nat) (hk : 0 < k) :
    ∀ (count lvl pos : Nat) (buf : Level T) (Ls : List (Level T)) (Le : Level T),
    lvl + count = e → buf.items = [] → buf.capacity = 2 * k →
    (∀ j, lvl ≤ j → j < e → bp.testBit j = true ∧ ∃ L, Ls[j]? = some L ∧ FullLevel lt k L) →
    Ls[e]? = some Le → FullLevel lt k Le →
    ∃ buf1 Ls1 Le1, carry_loop lt rnd bp e count lvl pos buf Ls = Except.ok (buf1, Ls1, pos + count) ∧
      buf1.items = [] ∧ buf1.capacity = 2 * k ∧ Ls1.length = Ls.length ∧
      Ls1[e]? = some Le1 ∧ FullLevel lt k Le1 ∧
      (∀ x ∈ Le1.items, x ∈ Le.items ∨ ∃ j L, lvl ≤ j ∧ j < e ∧ Ls[j]? = some L ∧ x ∈ L.items) ∧
      (∀ j, lvl ≤ j → j < e → ∃ L, Ls1[j]? = some L ∧ L.capacity = k ∧ L.items = []) ∧
      (∀ j, (j < lvl ∨ e < j) → Ls1[j]? = Ls[j]?)
  | 0, lvl, pos, buf, Ls, Le, hle, hb, hbc, hfull, hLe, hLeF => by
    refine ⟨buf, Ls, Le, by simp [carry_loop], hb, hbc, rfl, hLe, hLeF, ?_, ?_, ?_⟩
    · intro x hx; exact Or.inl hx
    · intro j h1 h2; omega
    · intro j _; rfl
  | count + 1, lvl, pos, buf, Ls, Le, hle, hb, hbc, hfull, hLe, hLeF => by
    have hlvl : lvl < e := by omega
    obtain ⟨hbit, src_1, hsrc1, hF1⟩ := hfull lvl (le_refl _) hlvl
    have helen : e < Ls.length := by
      by_contra hc
      rw [List.getElem?_eq_none (by omega)] at hLe
      simp at hLe
    unfold carry_loop
    rw [if_neg (by rw [not_not, and_shift_pos_iff]; exact hbit)]
    simp only [hsrc1, hLe]
    rw [merge_two_size_k_buffers_spec lt src_1 Le buf k hk hF1.2.1 hLeF.2.1 hb hbc]
    simp only
    have hne : lvl ≠ e := by omega
    rw [List.getElem?_set_ne hne, hLe]
    simp only
    have hms : SortedUnder lt (merge_items lt src_1.items Le.items) :=
      merge_items_sorted hlt hF1.2.2 hLeF.2.2
    have hml : (merge_items lt src_1.items Le.items).length = 2 * k := by
      rw [merge_items_length, hF1.2.1, hLeF.2.1]; omega
    obtain ⟨newL, hz, hnF, hnmem, -⟩ := zip_buffer_full lt rnd pos k
      ⟨merge_items lt src_1.items Le.items, 2 * k⟩ Le.clear hml hms hLeF.1 rfl
    rw [hz]
    simp only
    set Ls3 := (((Ls.set lvl src_1.clear).set e Le.clear).set e newL) with hLs3
    have hLs3len : Ls3.length = Ls.length := by simp [hLs3]
    have hLs3e : Ls3[e]? = some newL := by
      rw [hLs3, List.getElem?_set_self (by simp; exact helen)]
    have hLs3ne : ∀ j, j ≠ e → Ls3[j]? = (Ls.set lvl src_1.clear)[j]? := by
      intro j hj
      rw [hLs3, List.getElem?_set_ne (Ne.symm hj), List.getElem?_set_ne (Ne.symm hj)]
    obtain ⟨buf1, Ls1, Le1, hrun, h1, h2, h3, h4, h5, h6, h7, h8⟩ :=
      carry_loop_spec hlt rnd bp e k hk count (lvl + 1) (pos + 1)
        (Level.clear ⟨merge_items lt src_1.items Le.items, 2 * k⟩) Ls3 newL
        (by omega) rfl rfl
        (by
          intro j hj1 hj2
          obtain ⟨hb1, L, hL, hLF⟩ := hfull j (by omega) hj2
          refine ⟨hb1, L, ?_, hLF⟩
          rw [hLs3ne j (by omega), List.getElem?_set_ne (by omega), hL])
        hLs3e hnF
    refine ⟨buf1, Ls1, Le1, ?_, h1, h2, by rw [h3, hLs3len], h4, h5, ?_, ?_, ?_⟩
    · rw [hrun]; congr 3; omega
    · intro x hx
      rcases h6 x hx with hx1 | ⟨j, L, hj1, hj2, hL, hxL⟩
      · have := hnmem x hx1
        simp only at this
        rcases mem_merge_items.mp this with hm | hm
        · exact Or.inr ⟨lvl, src_1, le_refl _, hlvl, hsrc1, hm⟩
        · exact Or.inl hm
      · refine Or.inr ⟨j, L, by omega, hj2, ?_, hxL⟩
        rw [hLs3ne j (by omega), List.getElem?_set_ne (by omega)] at hL
        exact hL
    · intro j hj1 hj2
      by_cases hjl : j = lvl
      · subst hjl
        refine ⟨src_1.clear, ?_, hF1.1, rfl⟩
        rw [h8 j (Or.inl (by omega)), hLs3ne j hne,
          List.getElem?_set_self (by
            by_contra hc
            rw [List.getElem?_eq_none (by omega)] at hsrc1
            simp at hsrc1)]
      · exact h7 j (by omega) hj2
    · intro j hj
      rw [h8 j (by omega), hLs3ne j (by omega), List.getElem?_set_ne (by omega)]

end CarryLoop

section PropagateCarry
variable {T : Type}

theorem in_place_propagate_carry_update_spec {lt : T → T → Bool} (hlt : StrictWeakOrder lt)
    (rnd : Nat → Bool) (pos k : Nat) (hk : 0 < k) (s : quantiles_sketch T) (bk buf : Level T)
    (hsk : s.k_ = k) (hbp : s.bit_pattern_ + 1 < U64)
    (hok : LevelsOK lt k s.bit_pattern_ s.levels_)
    (hlen : Nat.size (s.bit_pattern_ + 1) ≤ s.levels_.length)
    (hbl : buf.items.length = 2 * k) (hbs : SortedUnder lt buf.items) (hbc : buf.capacity = 2 * k) :
    ∃ buf1 Ls1 pos1,
      in_place_propagate_carry lt rnd pos 0 bk buf true s =
        Except.ok (buf1, { s with levels_ := Ls1, bit_pattern_ := s.bit_pattern_ + 1 }, pos1) ∧
      buf1.items = [] ∧ buf1.capacity = 2 * k ∧ Ls1.length = s.levels_.length ∧
      LevelsOK lt k (s.bit_pattern_ + 1) Ls1 ∧
      (∀ L ∈ Ls1, ∀ x ∈ L.items, x ∈ buf.items ∨ ∃ L0 ∈ s.levels_, x ∈ L0.items) := by
  obtain ⟨hones, hzero⟩ := lowest_zero_bit_zero_spec s.bit_pattern_ (by omega)
  set e := lowest_zero_bit_starting_at s.bit_pattern_ 0 with he
  have hbits := testBit_succ_of_low_ones e s.bit_pattern_ hones hzero
  have hebit : (s.bit_pattern_ + 1).testBit e = true := by rw [hbits e]; simp
  have helen : e < s.levels_.length := lt_of_lt_of_le (lt_size_of_testBit hebit) hlen
  obtain ⟨hocap, -, hoempty⟩ := hok e s.levels_[e] (List.getElem?_eq_getElem helen)
  have hoe := hoempty hzero
  obtain ⟨newL, hz, hnF, hnmem, -⟩ := zip_buffer_full lt rnd pos k buf s.levels_[e]
    hbl hbs hocap hoe
  obtain ⟨buf1, Ls1, Le1, hrun, h1, h2, h3, h4, h5, h6, h7, h8⟩ :=
    carry_loop_spec hlt rnd s.bit_pattern_ e k hk e 0 (pos + 1) buf.clear
      (s.levels_.set e newL) newL (by omega) rfl (by simp [Level.clear, hbc])
      (by
        intro j _ hj
        have hjl : j < s.levels_.length := by omega
        refine ⟨hones j hj, s.levels_[j], ?_, ?_⟩
        · rw [List.getElem?_set_ne (by omega), List.getElem?_eq_getElem]
        · obtain ⟨c1, c2, -⟩ := hok j _ (List.getElem?_eq_getElem hjl)
          exact ⟨c1, c2 (hones j hj)⟩)
      (List.getElem?_set_self (by omega)) hnF
  have h3 : Ls1.length = s.levels_.length := by rw [h3]; simp
  refine ⟨buf1, Ls1, pos + 1 + e, ?_, h1, h2, h3, ?_, ?_⟩
  · unfold in_place_propagate_carry
    simp only [← he, List.getElem?_eq_getElem helen, if_true, hz, Nat.sub_zero, hsk, hrun]
    have : (s.bit_pattern_ + 1 <<< 0 % U64) % U64 = s.bit_pattern_ + 1 := by
      have h1 : (1 : Nat) % U64 = 1 := by decide
      rw [Nat.shiftLeft_zero, h1, Nat.mod_eq_of_lt hbp]
    rw [this]
  · intro i L hL
    have hi : i < s.levels_.length := by
      by_contra hc
      rw [List.getElem?_eq_none (by omega)] at hL
      simp at hL
    rcases Nat.lt_trichotomy i e with hie | hie | hie
    · obtain ⟨L1, hL1, hc1, hi1⟩ := h7 i (by omega) hie
      rw [hL] at hL1
      cases hL1
      refine ⟨hc1, ?_, fun _ => hi1⟩
      intro hb; rw [hbits i] at hb; simp [hie] at hb
    · subst hie
      rw [hL] at h4
      cases h4
      exact ⟨h5.1, fun _ => ⟨h5.2.1, h5.2.2⟩, fun hb => by rw [hebit] at hb; simp at hb⟩
    · rw [h8 i (Or.inr hie), List.getElem?_set_ne (by omega)] at hL
      obtain ⟨c1, c2, c3⟩ := hok i L hL
      have hbi : (s.bit_pattern_ + 1).testBit i = s.bit_pattern_.testBit i := by
        rw [hbits i]
        have h1 : ¬ i < e := by omega
        have h2 : ¬ i = e := by omega
        simp [h1, h2]
      rw [hbi]
      exact ⟨c1, c2, c3⟩
  · intro L hL x hx
    obtain ⟨i, hi, hLi⟩ := List.getElem_of_mem hL
    have hL' : Ls1[i]? = some L := by rw [List.getElem?_eq_getElem hi, hLi]
    rw [h3] at hi
    rcases Nat.lt_trichotomy i e with hie | hie | hie
    · obtain ⟨L1, hL1, -, hi1⟩ := h7 i (by omega) hie
      rw [hL'] at hL1
      cases hL1
      rw [hi1] at hx
      simp at hx
    · subst hie
      rw [hL'] at h4
      cases h4
      rcases h6 x hx with hx1 | ⟨j, L0, -, hj, hL0, hx0⟩
      · exact Or.inl (hnmem x hx1)
      · rw [List.getElem?_set_ne (by omega)] at hL0
        exact Or.inr ⟨L0, List.getElem?_mem hL0, hx0⟩
    · rw [h8 i (Or.inr hie), List.getElem?_set_ne (by omega)] at hL'
      exact Or.inr ⟨L, List.getElem?_mem hL', hx⟩

end PropagateCarry

section UpdateMinMax
variable {T : Type}

theorem Inv_new (lt : T → T → Bool) (k : Nat) (h1 : 2 ≤ k) (h2 : k ≤ 32768) :
    ∃ s : quantiles_sketch T, quantiles_sketch.new k = Except.ok s ∧ Inv lt k [] s ∧
      s.levels_ = [] ∧ s.is_sorted_ = true := by
  refine ⟨_, by
    unfold quantiles_sketch.new
    rw [if_neg (by simp [MIN_K, MAX_K]; omega)], ?_, rfl, rfl⟩
  have hm : min MIN_K k = 2 := by simp [MIN_K]; omega
  constructor <;> (try simp [Level.reserve, Level.empty, hm, LevelsOK, U64]) <;> (try omega)

theorem update_invalid (lt : T → T → Bool) (valid : T → Bool) (rnd : Nat → Bool)
    (st : quantiles_sketch T × Nat) (x : T) (hx : valid x = false) :
    update lt valid rnd st x = Except.ok st := by
  simp [update, hx]

theorem update_minmax {lt : T → T → Bool} (hlt : StrictWeakOrder lt) {k : Nat} {acc : List T}
    {s : quantiles_sketch T} (hinv : Inv lt k acc s) (x : T) :
    ∃ mn mx,
      (if s.is_empty = true then
          (Except.ok { s with min_value_ := some x, max_value_ := some x } :
            Except Err (quantiles_sketch T))
        else
          match s.min_value_, s.max_value_ with
          | some mn, some mx =>
            Except.ok { s with
              min_value_ := some (if lt x mn then x else mn),
              max_value_ := some (if lt mx x then x else mx) }
          | _, _ => Except.error Err.null_pointer) =
        Except.ok { s with min_value_ := some mn, max_value_ := some mx } ∧
      mn ∈ acc ++ [x] ∧ mx ∈ acc ++ [x] ∧
      (∀ y ∈ acc ++ [x], lt y mn = false) ∧ (∀ y ∈ acc ++ [x], lt mx y = false) := by
  by_cases he : acc = []
  · have hn : s.is_empty = true := by
      simp [quantiles_sketch.is_empty, hinv.n_eq, he]
    subst he
    refine ⟨x, x, by rw [if_pos hn], by simp, by simp, ?_, ?_⟩ <;>
    · intro y hy
      have : y = x := by simpa using hy
      rw [this]; exact hlt.irrefl x
  · have hn : ¬ s.is_empty = true := by
      simp only [quantiles_sketch.is_empty, hinv.n_eq, beq_iff_eq, List.length_eq_zero]
      exact he
    obtain ⟨mn, mx, hmn, hmx, hmna, hmxa, hmin, hmax⟩ := hinv.min_some he
    refine ⟨if lt x mn then x else mn, if lt mx x then x else mx, ?_, ?_, ?_, ?_, ?_⟩
    · rw [if_neg hn, hmn, hmx]
    · split <;> simp [hmna]
    · split <;> simp [hmxa]
    · intro y hy
      rcases List.mem_append.mp hy with hy | hy
      · by_cases hc : lt x mn = true
        · rw [if_pos hc]
          by_contra hyx
          have hyx : lt y x = true := by simpa using hyx
          have := hlt.trans y x mn hyx hc
          rw [hmin y hy] at this
          simp at this
        · rw [if_neg hc]; exact hmin y hy
      · have : y = x := by simpa using hy
        subst this
        by_cases hc : lt y mn = true
        · rw [if_pos hc]; exact hlt.irrefl y
        · rw [if_neg hc]; simpa using hc
    · intro y hy
      rcases List.mem_append.mp hy with hy | hy
      · by_cases hc : lt mx x = true
        · rw [if_pos hc]
          by_contra hyx
          have hyx : lt x y = true := by simpa using hyx
          have := hlt.trans mx x y hc hyx
          rw [hmax y hy] at this
          simp at this
        · rw [if_neg hc]; exact hmax y hy
      · have : y = x := by simpa using hy
        subst this
        by_cases hc : lt mx y = true
        · rw [if_pos hc]; exact hlt.irrefl y
        · rw [if_neg hc]; simpa using hc

end UpdateMinMax

section ProcessFullBaseBuffer
variable {T : Type}

theorem compute_levels_needed_ok (k n : Nat) (hk : 0 < k) (hn : n < U64) :
    compute_levels_needed k n = Except.ok (Nat.size (n / (2 * k))) := by
  unfold compute_levels_needed
  rw [if_neg (by omega), levels_needed_eq_size _ (lt_of_le_of_lt (Nat.div_le_self _ _) hn)]

theorem grow_levels_if_needed_spec (lt : T → T → Bool) (k : Nat) (hk : 0 < k)
    (S : quantiles_sketch T) (hSk : S.k_ = k) (hn : S.n_ < U64)
    (hbp1 : S.n_ / (2 * k) = S.bit_pattern_ + 1)
    (hlen : S.levels_.length = Nat.size S.bit_pattern_)
    (hok : LevelsOK lt k S.bit_pattern_ S.levels_) :
    ∃ b Ls1, grow_levels_if_needed S = Except.ok (b, { S with levels_ := Ls1 }) ∧
      Ls1.length = Nat.size (S.bit_pattern_ + 1) ∧ LevelsOK lt k S.bit_pattern_ Ls1 ∧
      (∀ L ∈ Ls1, ∀ x ∈ L.items, ∃ L0 ∈ S.levels_, x ∈ L0.items) := by
  subst hSk
  unfold grow_levels_if_needed
  rw [compute_levels_needed_ok S.k_ S.n_ hk hn, hbp1]
  simp only
  have hpos : Nat.size (S.bit_pattern_ + 1) ≠ 0 := by
    intro h0
    have := Nat.lt_size_self (S.bit_pattern_ + 1)
    rw [h0] at this
    simp at this
  rw [if_neg hpos]
  have hmono : Nat.size S.bit_pattern_ ≤ Nat.size (S.bit_pattern_ + 1) :=
    Nat.size_le_size (Nat.le_succ _)
  have hsucc := size_succ_le S.bit_pattern_
  by_cases hc : Nat.size (S.bit_pattern_ + 1) ≤ S.levels_.length
  · rw [if_pos hc]
    exact ⟨false, S.levels_, rfl, by omega, hok, fun L hL x hx => ⟨L, hL, hx⟩⟩
  · rw [if_neg hc]
    refine ⟨true, S.levels_ ++ [Level.empty.reserve S.k_], rfl, by simp; omega, ?_, ?_⟩
    · intro i L hL
      by_cases hi : i < S.levels_.length
      · rw [List.getElem?_append_left hi] at hL
        exact hok i L hL
      · rw [List.getElem?_append_right (by omega)] at hL
        have hi0 : i - S.levels_.length = 0 := by
          by_contra h0
          rw [List.getElem?_eq_none (by simp; omega)] at hL
          simp at hL
        rw [hi0] at hL
        simp only [List.getElem?_cons_zero, Option.some.injEq] at hL
        subst hL
        have hbit : S.bit_pattern_.testBit i = false :=
          testBit_of_size_le (by omega)
        refine ⟨by simp [Level.reserve, Level.empty], ?_, fun _ => rfl⟩
        intro hb; rw [hbit] at hb; simp at hb
    · intro L hL x hx
      rcases List.mem_append.mp hL with h | h
      · exact ⟨L, h, hx⟩
      · have : L = Level.empty.reserve S.k_ := by simpa using h
        subst this
        simp [Level.reserve, Level.empty] at hx

theorem process_full_base_buffer_spec {lt : T → T → Bool} (hlt : StrictWeakOrder lt)
    (rnd : Nat → Bool) (pos k : Nat) (hk : 0 < k)
    (S : quantiles_sketch T) (hSk : S.k_ = k) (hn : S.n_ < U64)
    (hbp1 : S.n_ / (2 * k) = S.bit_pattern_ + 1)
    (hlen : S.levels_.length = Nat.size S.bit_pattern_)
    (hok : LevelsOK lt k S.bit_pattern_ S.levels_)
    (hbl : S.base_buffer_.items.length = 2 * k) (hbc : S.base_buffer_.capacity = 2 * k) :
    ∃ Ls1 pos1,
      process_full_base_buffer lt rnd pos S =
        Except.ok ({ S with
          base_buffer_ := ⟨[], 2 * k⟩, levels_ := Ls1,
          bit_pattern_ := S.bit_pattern_ + 1, is_sorted_ := true }, pos1) ∧
      Ls1.length = Nat.size (S.bit_pattern_ + 1) ∧ LevelsOK lt k (S.bit_pattern_ + 1) Ls1 ∧
      (∀ L ∈ Ls1, ∀ x ∈ L.items,
        x ∈ S.base_buffer_.items ∨ ∃ L0 ∈ S.levels_, x ∈ L0.items) := by
  subst hSk
  obtain ⟨b, Ls0, hg, hg1, hg2, hg3⟩ :=
    grow_levels_if_needed_spec lt S.k_ hk S rfl hn hbp1 hlen hok
  have hbplt : S.bit_pattern_ + 1 < U64 := by
    rw [← hbp1]; exact lt_of_le_of_lt (Nat.div_le_self _ _) hn
  obtain ⟨buf1, Ls1, pos1, hp, hp1, hp2, hp3, hp4, hp5⟩ :=
    in_place_propagate_carry_update_spec hlt rnd pos S.k_ hk
      { S with levels_ := Ls0, base_buffer_ := std_sort lt S.base_buffer_ }
      (Ls0.headD Level.empty) (std_sort lt S.base_buffer_)
      rfl hbplt hg2 (le_of_eq hg1.symm)
      (by rw [std_sort_length, hbl]) (std_sort_sorted hlt _) (by rw [std_sort_capacity, hbc])
  refine ⟨Ls1, pos1, ?_, by rw [hp3]; exact hg1, hp4, ?_⟩
  · unfold process_full_base_buffer
    rw [hg]
    simp only
    cases hL : Ls0 with
    | nil =>
      rw [hL] at hg1
      have := Nat.lt_size_self (S.bit_pattern_ + 1)
      rw [← hg1] at this
      simp at this
    | cons level0 rest =>
      rw [hL] at hp
      simp only [List.headD_cons] at hp
      simp only [hp]
      have hb : buf1.clear = ⟨[], 2 * S.k_⟩ := by
        simp only [Level.clear, hp2]
      rw [if_pos (by exact hbp1), hb]
  · intro L hL x hx
    rcases hp5 L hL x hx with h | ⟨L0, hL0, hx0⟩
    · exact Or.inl ((std_sort_perm lt S.base_buffer_).mem_iff.mp h)
    · obtain ⟨L00, h1, h2⟩ := hg3 L0 hL0 x hx0
      exact Or.inr ⟨L00, h1, h2⟩

end ProcessFullBaseBuffer

section UpdateClosedForm
variable {T : Type}

theorem pushed_buffer_items (k : Nat) (bb : Level T) (x : T) :
    (pushed_buffer k bb x).items = bb.items ++ [x] := by
  unfold pushed_buffer
  split <;> simp [Level.push_back, Level.reserve]

theorem pushed_buffer_capacity (k : Nat) (bb : Level T) (x : T)
    (h1 : 4 ≤ bb.capacity) (h2 : bb.capacity ≤ 2 * k) (h3 : bb.items.length ≤ bb.capacity)
    (h4 : bb.items.length < 2 * k) :
    4 ≤ (pushed_buffer k bb x).capacity ∧ (pushed_buffer k bb x).capacity ≤ 2 * k ∧
      bb.items.length + 1 ≤ (pushed_buffer k bb x).capacity := by
  unfold pushed_buffer
  simp only [Level.size]
  by_cases hc : bb.items.length + 1 > bb.capacity
  · rw [if_pos hc]
    have hm : max bb.capacity (max (min (2 * k) (2 * bb.items.length)) 1) =
        min (2 * k) (2 * bb.items.length) := by
      rw [max_eq_left (a := min (2 * k) (2 * bb.items.length)) (by omega)]
      exact max_eq_right (by omega)
    have hl : bb.items.length < min (2 * k) (2 * bb.items.length) := by omega
    simp only [Level.push_back, Level.reserve, hm, hl, if_true]
    omega
  · rw [if_neg hc]
    have hl : bb.items.length < bb.capacity := by omega
    simp only [Level.push_back, hl, if_true]
    omega

theorem update_eq (lt : T → T → Bool) (valid : T → Bool) (rnd : Nat → Bool)
    (s : quantiles_sketch T) (pos : Nat) (x mn mx : T) (hv : valid x = true)
    (hmm : (if s.is_empty = true then
          (Except.ok { s with min_value_ := some x, max_value_ := some x } :
            Except Err (quantiles_sketch T))
        else
          match s.min_value_, s.max_value_ with
          | some mn, some mx =>
            Except.ok { s with
              min_value_ := some (if lt x mn then x else mn),
              max_value_ := some (if lt mx x then x else mx) }
          | _, _ => Except.error Err.null_pointer) =
        Except.ok { s with min_value_ := some mn, max_value_ := some mx }) :
    update lt valid rnd (s, pos) x =
      if (pushed_sketch s mn mx x).base_buffer_.size = 2 * s.k_ then
        process_full_base_buffer lt rnd pos (pushed_sketch s mn mx x)
      else Except.ok (pushed_sketch s mn mx x, pos) := by
  unfold update
  simp only [hv, not_true_eq_false, if_false]
  rw [hmm]
  simp only [pushed_sketch, pushed_buffer, grow_base_buffer]
  by_cases hc : s.base_buffer_.size + 1 > s.base_buffer_.capacity
  · simp only [hc, if_true]
    split <;> rfl
  · simp only [hc, if_false]
    split <;> rfl

end UpdateClosedForm

section UpdateInvariant
variable {T : Type}

theorem div_mod_succ_full (n m : Nat) (hm : 0 < m) (h : n % m + 1 = m) :
    (n + 1) / m = n / m + 1 ∧ (n + 1) % m = 0 := by
  rw [Nat.div_mod_unique hm]
  refine ⟨?_, hm⟩
  have := Nat.div_add_mod n m
  rw [Nat.mul_add]
  omega

theorem div_mod_succ_not_full (n m : Nat) (hm : 0 < m) (h : n % m + 1 ≠ m) :
    (n + 1) / m = n / m ∧ (n + 1) % m = n % m + 1 := by
  have hlt := Nat.mod_lt n hm
  rw [Nat.div_mod_unique hm]
  refine ⟨?_, by omega⟩
  have := Nat.div_add_mod n m
  omega

theorem update_valid_inv {lt : T → T → Bool} (hlt : StrictWeakOrder lt) (valid : T → Bool)
    (rnd : Nat → Bool) (k : Nat) (acc : List T) (s : quantiles_sketch T) (pos : Nat) (x : T)
    (hinv : Inv lt k acc s) (hv : valid x = true) (hn : acc.length + 1 < U64) :
    ∃ s1 pos1, update lt valid rnd (s, pos) x = Except.ok (s1, pos1) ∧
      Inv lt k (acc ++ [x]) s1 := by
  have hkeq := hinv.k_eq
  subst hkeq
  obtain ⟨mn, mx, hmm, hmn, hmx, hmin, hmax⟩ := update_minmax hlt hinv x
  rw [update_eq lt valid rnd s pos x mn mx hv hmm]
  have hk2 := hinv.k_ge
  have hkpos : 0 < 2 * s.k_ := by omega
  have hSk : (pushed_sketch s mn mx x).k_ = s.k_ := rfl
  have hSn : (pushed_sketch s mn mx x).n_ = acc.length + 1 := by
    simp only [pushed_sketch, hinv.n_eq]
    exact Nat.mod_eq_of_lt hn
  have hbblt : s.base_buffer_.items.length < 2 * s.k_ := by
    rw [hinv.bb_len]; exact Nat.mod_lt _ hkpos
  have hitems : (pushed_sketch s mn mx x).base_buffer_.items = s.base_buffer_.items ++ [x] :=
    pushed_buffer_items _ _ _
  have hsize : (pushed_sketch s mn mx x).base_buffer_.size = s.base_buffer_.items.length + 1 := by
    simp [Level.size, hitems]
  obtain ⟨hc1, hc2, hc3⟩ := pushed_buffer_capacity s.k_ s.base_buffer_ x hinv.bb_cap_ge
    hinv.bb_cap_le hinv.bb_len_le hbblt
  have hlen : (acc ++ [x]).length = acc.length + 1 := by simp
  have hmemS : ∀ y ∈ (pushed_sketch s mn mx x).base_buffer_.items, y ∈ acc ++ [x] := by
    intro y hy
    rw [hitems] at hy
    rcases List.mem_append.mp hy with h | h
    · exact List.mem_append_left _ (hinv.bb_mem y h)
    · exact List.mem_append_right _ h
  have hminsome : acc ++ [x] ≠ [] → ∃ mn1 mx1, some mn = some mn1 ∧ some mx = some mx1 ∧
      mn1 ∈ acc ++ [x] ∧ mx1 ∈ acc ++ [x] ∧ (∀ y ∈ acc ++ [x], lt y mn1 = false) ∧
      (∀ y ∈ acc ++ [x], lt mx1 y = false) :=
    fun _ => ⟨mn, mx, rfl, rfl, hmn, hmx, hmin, hmax⟩
  rw [hsize]
  by_cases hfull : s.base_buffer_.items.length + 1 = 2 * s.k_
  · rw [if_pos hfull]
    have hfull' : acc.length % (2 * s.k_) + 1 = 2 * s.k_ := by
      rw [← hinv.n_eq, ← hinv.bb_len]; exact hfull
    obtain ⟨hd, hm⟩ := div_mod_succ_full acc.length (2 * s.k_) hkpos hfull'
    obtain ⟨Ls1, pos1, hp, hp1, hp2, hp3⟩ :=
      process_full_base_buffer_spec hlt rnd pos s.k_ (by omega) (pushed_sketch s mn mx x)
        hSk (by rw [hSn]; exact hn)
        (by rw [hSn, hd]; simp only [pushed_sketch]; rw [hinv.bp_eq, hinv.n_eq])
        hinv.lv_len hinv.lv_ok (by rw [hitems]; simpa using hfull)
        (by
          have : (pushed_sketch s mn mx x).base_buffer_.capacity =
            (pushed_buffer s.k_ s.base_buffer_ x).capacity := rfl
          rw [this]; omega)
    refine ⟨_, pos1, hp, ?_⟩
    constructor
    · exact hSk
    · exact hk2
    · simp only [hSn, hlen]
    · rw [hlen]; exact hn
    · simp only [hSn, hd]
      simp only [pushed_sketch]; rw [hinv.bp_eq, hinv.n_eq]
    · simp only [hSn, hm, List.length_nil]
    · simp only; omega
    · simp only; omega
    · simp only [List.length_nil]; omega
    · exact hp1
    · exact hp2
    · intro y hy; simp at hy
    · intro L hL y hy
      rcases hp3 L hL y hy with h | ⟨L0, hL0, hy0⟩
      · exact hmemS y h
      · exact List.mem_append_left _ (hinv.lv_mem L0 hL0 y hy0)
    · intro h; simp at h
    · exact hminsome
    · intro _; simp
    · intro h; simp at h
  · rw [if_neg hfull]
    have hfull' : acc.length % (2 * s.k_) + 1 ≠ 2 * s.k_ := by
      rw [← hinv.n_eq, ← hinv.bb_len]; exact hfull
    obtain ⟨hd, hm⟩ := div_mod_succ_not_full acc.length (2 * s.k_) hkpos hfull'
    refine ⟨_, pos, rfl, ?_⟩
    constructor
    · exact hSk
    · exact hk2
    · simp only [hSn, hlen]
    · rw [hlen]; exact hn
    · rw [hSn, hd]
      simp only [pushed_sketch]; rw [hinv.bp_eq, hinv.n_eq]
    · rw [hSn, hm, hitems, ← hinv.n_eq, ← hinv.bb_len]; simp
    · exact hc1
    · exact hc2
    · rw [hitems]; simpa using hc3
    · exact hinv.lv_len
    · exact hinv.lv_ok
    · exact hmemS
    · intro L hL y hy
      exact List.mem_append_left _ (hinv.lv_mem L hL y hy)
    · intro h; simp at h
    · exact hminsome
    · intro hflag
      simp only [pushed_sketch] at hflag
      by_cases hgt : (pushed_buffer s.k_ s.base_buffer_ x).size > 1
      · rw [if_pos hgt] at hflag; simp at hflag
      · simp only [Level.size] at hgt
        have : (pushed_sketch s mn mx x).base_buffer_.items =
          (pushed_buffer s.k_ s.base_buffer_ x).items := rfl
        rw [this]; omega
    · intro h; simp at h

theorem update_all_inv {lt : T → T → Bool} (hlt : StrictWeakOrder lt) (valid : T → Bool)
    (rnd : Nat → Bool) (k : Nat) :
    ∀ (xs acc : List T) (s : quantiles_sketch T) (pos : Nat), Inv lt k acc s →
      (acc ++ xs.filter valid).length < U64 →
      ∃ s1 pos1, update_all lt valid rnd (s, pos) xs = Except.ok (s1, pos1) ∧
        Inv lt k (acc ++ xs.filter valid) s1
  | [], acc, s, pos, hinv, _ => ⟨s, pos, rfl, by simpa using hinv⟩
  | x :: xs, acc, s, pos, hinv, hn => by
    unfold update_all
    by_cases hv : valid x = true
    · have hf : (x :: xs).filter valid = x :: xs.filter valid := by simp [hv]
      rw [hf] at hn ⊢
      have hn1 : acc.length + 1 < U64 := by
        simp only [List.length_append, List.length_cons] at hn; omega
      obtain ⟨s1, pos1, hu, hinv1⟩ := update_valid_inv hlt valid rnd k acc s pos x hinv hv hn1
      rw [hu]
      simp only
      have hacc : acc ++ x :: xs.filter valid = (acc ++ [x]) ++ xs.filter valid := by simp
      rw [hacc] at hn ⊢
      exact update_all_inv hlt valid rnd k xs (acc ++ [x]) s1 pos1 hinv1 hn
    · have hv' : valid x = false := by simpa using hv
      have hf : (x :: xs).filter valid = xs.filter valid := by simp [hv']
      rw [hf] at hn ⊢
      rw [update_invalid lt valid rnd (s, pos) x hv']
      simp only
      exact update_all_inv hlt valid rnd k xs acc s pos hinv hn

theorem build_inv {lt : T → T → Bool} (hlt : StrictWeakOrder lt) (valid : T → Bool)
    (rnd : Nat → Bool) (k : Nat) (xs : List T) (h1 : 2 ≤ k) (h2 : k ≤ 32768)
    (hn : (xs.filter valid).length < U64) :
    ∃ s, build lt valid rnd k xs = Except.ok s ∧ Inv lt k (xs.filter valid) s := by
  obtain ⟨s0, hs0, hinv0, -, -⟩ := Inv_new (T := T) lt k h1 h2
  obtain ⟨s1, pos1, hu, hinv1⟩ := update_all_inv hlt valid rnd k xs [] s0 0 hinv0 (by simpa using hn)
  refine ⟨s1, ?_, by simpa using hinv1⟩
  unfold build
  rw [hs0]
  simp only [hu]

end UpdateInvariant

section LevelCount
variable {T : Type}

theorem nat_lt_strict_weak_order : StrictWeakOrder nat_lt where
  irrefl := by intro a; simp [nat_lt]
  trans := by
    intro a b c h1 h2
    simp only [nat_lt, decide_eq_true_eq] at h1 h2 ⊢
    omega
  incomp_trans := by
    intro a b c h1 h2 h3 h4
    simp only [nat_lt, decide_eq_false_iff_not] at h1 h2 h3 h4 ⊢
    omega

theorem countP_eq_countP_range {α : Type} (p : α → Bool) (q : Nat → Bool) (Ls : List α) :
    (∀ i L, Ls[i]? = some L → p L = q i) → Ls.countP p = (List.range Ls.length).countP q := by
  induction Ls using List.reverseRecOn with
  | nil => intro _; simp
  | append_singleton l a ih =>
    intro h
    have hl : l.countP p = (List.range l.length).countP q := by
      apply ih
      intro i L hL
      apply h i L
      have hi : i < l.length := by
        by_contra hc
        rw [List.getElem?_eq_none (by omega)] at hL
        simp at hL
      rw [List.getElem?_append_left hi]
      exact hL
    have ha : p a = q l.length := by
      apply h
      simp
    rw [List.countP_append, List.length_append, List.length_singleton, List.range_succ,
      List.countP_append, hl]
    simp [List.countP_cons, ha]

theorem countP_range_extend (q : Nat → Bool) (n : Nat) (hq : ∀ i, n ≤ i → q i = false) :
    ∀ m, n ≤ m → (List.range m).countP q = (List.range n).countP q := by
  intro m hm
  induction m with
  | zero =>
    have : n = 0 := by omega
    subst this; rfl
  | succ m ih =>
    by_cases hnm : n = m + 1
    · subst hnm; rfl
    · rw [List.range_succ, List.countP_append, ih (by omega)]
      simp [List.countP_cons, hq m (by omega)]

theorem nonempty_levels_eq_popcount {lt : T → T → Bool} {k bp : Nat} {Ls : List (Level T)}
    (hk : 0 < k) (hok : LevelsOK lt k bp Ls) (hlen : Ls.length = Nat.size bp) (hbp : bp < U64) :
    Ls.countP (fun L => !L.items.isEmpty) = popcount bp := by
  rw [countP_eq_countP_range (fun L : Level T => !L.items.isEmpty) (fun i => bp.testBit i) Ls]
  · unfold popcount
    rw [hlen]
    symm
    apply countP_range_extend
    · intro i hi; exact testBit_of_size_le hi
    · exact Nat.size_le.mpr hbp
  · intro i L hL
    obtain ⟨-, h1, h2⟩ := hok i L hL
    cases hb : bp.testBit i
    · rw [h2 hb]; rfl
    · have := (h1 hb).1
      cases hL' : L.items with
      | nil => rw [hL'] at this; simp at this; omega
      | cons a r => rfl

end LevelCount

section RankSums
variable {T : Type}

/-! ### get_rank -/

theorem total_weight_nil : total_weight ([] : List (T × Nat)) = 0 := rfl

theorem total_weight_cons (p : T × Nat) (ws : List (T × Nat)) :
    total_weight (p :: ws) = p.2 + total_weight ws := by
  simp [total_weight]

theorem total_weight_append (ws1 ws2 : List (T × Nat)) :
    total_weight (ws1 ++ ws2) = total_weight ws1 + total_weight ws2 := by
  simp [total_weight]

theorem total_weight_map_const (l : List T) (w : Nat) :
    total_weight (l.map (fun x => (x, w))) = w * l.length := by
  induction l with
  | nil => simp [total_weight]
  | cons a r ih => rw [List.map_cons, total_weight_cons, ih, List.length_cons]; ring

theorem rank_sum_nil (lt : T → T → Bool) (b : Bool) (v : T) : rank_sum lt b v [] = 0 := rfl

theorem rank_sum_cons (lt : T → T → Bool) (b : Bool) (v : T) (p : T × Nat) (ws : List (T × Nat)) :
    rank_sum lt b v (p :: ws) =
      (if rank_test lt b v p.1 then p.2 else 0) + rank_sum lt b v ws := by
  unfold rank_sum
  by_cases h : rank_test lt b v p.1 = true
  · simp [List.filter_cons, h, total_weight_cons]
  · simp [List.filter_cons, h]

theorem rank_sum_append (lt : T → T → Bool) (b : Bool) (v : T) (ws1 ws2 : List (T × Nat)) :
    rank_sum lt b v (ws1 ++ ws2) = rank_sum lt b v ws1 + rank_sum lt b v ws2 := by
  simp [rank_sum, total_weight_append]

theorem rank_sum_le_total (lt : T → T → Bool) (b : Bool) (v : T) (ws : List (T × Nat)) :
    rank_sum lt b v ws ≤ total_weight ws := by
  induction ws with
  | nil => simp [rank_sum, total_weight]
  | cons p r ih =>
    rw [rank_sum_cons, total_weight_cons]
    split <;> omega

theorem rank_sum_mono (lt : T → T → Bool) (b : Bool) (v1 v2 : T) (ws : List (T × Nat))
    (h : ∀ p ∈ ws, rank_test lt b v1 p.1 = true → rank_test lt b v2 p.1 = true) :
    rank_sum lt b v1 ws ≤ rank_sum lt b v2 ws := by
  induction ws with
  | nil => simp [rank_sum]
  | cons p r ih =>
    rw [rank_sum_cons, rank_sum_cons]
    have ih1 := ih (fun q hq => h q (List.mem_cons_of_mem _ hq))
    by_cases h1 : rank_test lt b v1 p.1 = true
    · rw [if_pos h1, if_pos (h p (List.mem_cons_self _ _) h1)]; omega
    · rw [if_neg h1]; split <;> omega

theorem rank_sum_all (lt : T → T → Bool) (b : Bool) (v : T) (ws : List (T × Nat))
    (h : ∀ p ∈ ws, rank_test lt b v p.1 = true) : rank_sum lt b v ws = total_weight ws := by
  unfold rank_sum
  rw [List.filter_eq_self.mpr h]

theorem rank_sum_none (lt : T → T → Bool) (b : Bool) (v : T) (ws : List (T × Nat))
    (h : ∀ p ∈ ws, rank_test lt b v p.1 = false) : rank_sum lt b v ws = 0 := by
  unfold rank_sum
  rw [List.filter_eq_nil_iff.mpr (fun p hp => by simp [h p hp])]
  rfl

theorem rank_base_loop_spec (lt : T → T → Bool) (b : Bool) (v : T) (w : Nat) :
    ∀ (l : List T) (total : Nat), total + w * l.length < U64 →
      rank_base_loop lt b v w l total = total + rank_sum lt b v (l.map (fun x => (x, w)))
  | [], total, _ => by simp [rank_base_loop, rank_sum_nil]
  | a :: r, total, h => by
    simp only [List.length_cons, Nat.mul_add, Nat.mul_one] at h
    unfold rank_base_loop
    rw [List.map_cons, rank_sum_cons]
    by_cases ht : rank_test lt b v a = true
    · simp only [ht, if_true]
      rw [Nat.mod_eq_of_lt (by omega), rank_base_loop_spec lt b v w r (total + w) (by omega)]
      omega
    · have ht : rank_test lt b v a = false := by simpa using ht
      simp only [ht, Bool.false_eq_true, if_false]
      rw [rank_base_loop_spec lt b v w r total (by omega)]
      simp

theorem rank_test_false_of_le {lt : T → T → Bool} (hlt : StrictWeakOrder lt) (b : Bool)
    (v x y : T) (hx : rank_test lt b v x = false) (hxy : lt y x = false) :
    rank_test lt b v y = false := by
  unfold rank_test at hx ⊢
  cases b
  · simp only [Bool.false_eq_true, if_false] at hx ⊢
    exact hlt.le_trans hx hxy
  · simp only [if_true, Bool.not_eq_false'] at hx ⊢
    exact hlt.lt_of_lt_of_le hx hxy

theorem rank_level_loop_spec {lt : T → T → Bool} (hlt : StrictWeakOrder lt) (b : Bool) (v : T)
    (data : List T) (w : Nat) :
    ∀ (l : List T) (count i total : Nat), data.drop i = l → l.length = count →
      SortedUnder lt l → total + w * count < U64 →
      rank_level_loop lt b v data w count i total =
        Except.ok (total + rank_sum lt b v (l.map (fun x => (x, w))))
  | [], count, i, total, _, hc, _, _ => by
    simp only [List.length_nil] at hc
    subst hc
    simp [rank_level_loop, rank_sum_nil]
  | a :: r, count, i, total, hd, hc, hs, hb => by
    simp only [List.length_cons] at hc
    subst hc
    have hi : i < data.length := by
      by_contra hcon
      rw [List.drop_eq_nil_of_le (by omega)] at hd
      simp at hd
    have hget : data[i]? = some a := by
      rw [List.getElem?_eq_getElem hi]
      rw [List.drop_eq_getElem_cons hi] at hd
      simp only [List.cons.injEq] at hd
      rw [hd.1]
    have hdrop : data.drop (i + 1) = r := by
      rw [List.drop_eq_getElem_cons hi] at hd
      simp only [List.cons.injEq] at hd
      exact hd.2
    unfold rank_level_loop
    rw [hget]
    simp only
    rw [List.map_cons, rank_sum_cons]
    have hs' := List.pairwise_cons.mp hs
    simp only [Nat.mul_add, Nat.mul_one] at hb
    by_cases ht : rank_test lt b v a = true
    · simp only [ht, if_true]
      rw [Nat.mod_eq_of_lt (by omega),
        rank_level_loop_spec hlt b v data w r r.length (i + 1) (total + w) hdrop rfl hs'.2
          (by omega)]
      congr 1; omega
    · have ht : rank_test lt b v a = false := by simpa using ht
      simp only [ht, Bool.false_eq_true, if_false]
      have hnone : rank_sum lt b v (r.map (fun x => (x, w))) = 0 := by
        apply rank_sum_none
        intro p hp
        obtain ⟨y, hy, rfl⟩ := List.mem_map.mp hp
        exact rank_test_false_of_le hlt b v a y ht (hs'.1 y hy)
      rw [hnone]
      simp

end RankSums

section RankLevels
variable {T : Type}

theorem rank_levels_loop_spec {lt : T → T → Bool} (hlt : StrictWeakOrder lt) (b : Bool) (v : T)
    (k : Nat) :
    ∀ (Ls : List (Level T)) (i w total : Nat), (Ls ≠ [] → w = 2 ^ (i + 1)) →
      i + Ls.length ≤ 63 →
      (∀ L ∈ Ls, L.items = [] ∨ (L.items.length = k ∧ SortedUnder lt L.items)) →
      total + total_weight (level_items_weighted i Ls) < U64 →
      rank_levels_loop lt b v k Ls w total =
        Except.ok (total + rank_sum lt b v (level_items_weighted i Ls))
  | [], i, w, total, _, _, _, _ => by
    simp [rank_levels_loop, level_items_weighted, rank_sum_nil]
  | L :: rest, i, w, total, hw, hi, hL, hb => by
    have hw1 : w = 2 ^ (i + 1) := hw (by simp)
    simp only [List.length_cons] at hi
    have hnext : rest ≠ [] → (w * 2) % U64 = 2 ^ (i + 1 + 1) := by
      intro hne
      have hrl : 0 < rest.length := List.length_pos.mpr hne
      rw [hw1, ← pow_succ]
      apply Nat.mod_eq_of_lt
      exact Nat.pow_lt_pow_right (by norm_num) (by omega)
    simp only [level_items_weighted, total_weight_append, total_weight_map_const] at hb
    unfold rank_levels_loop
    simp only [level_items_weighted, rank_sum_append]
    rcases hL L (List.mem_cons_self _ _) with he | ⟨hlen, hs⟩
    · rw [he]
      simp only [List.isEmpty_nil, if_true, List.map_nil, rank_sum_nil, Nat.zero_add]
      rw [he] at hb
      exact rank_levels_loop_spec hlt b v k rest (i + 1) ((w * 2) % U64) total hnext (by omega)
        (fun L1 h1 => hL L1 (List.mem_cons_of_mem _ h1)) (by simpa using hb)
    · by_cases hemp : L.items.isEmpty = true
      · have he : L.items = [] := List.isEmpty_iff.mp hemp
        rw [he]
        simp only [List.isEmpty_nil, if_true, List.map_nil, rank_sum_nil, Nat.zero_add]
        rw [he] at hb
        exact rank_levels_loop_spec hlt b v k rest (i + 1) ((w * 2) % U64) total hnext (by omega)
          (fun L1 h1 => hL L1 (List.mem_cons_of_mem _ h1)) (by simpa using hb)
      · rw [if_neg hemp]
        have hle := rank_sum_le_total lt b v (L.items.map (fun x => (x, 2 ^ (i + 1))))
        rw [total_weight_map_const] at hle
        rw [rank_level_loop_spec hlt b v L.items w L.items k 0 total rfl hlen hs
          (by rw [hw1, ← hlen]; omega)]
        simp only
        rw [rank_levels_loop_spec hlt b v k rest (i + 1) ((w * 2) % U64) _ hnext (by omega)
          (fun L1 h1 => hL L1 (List.mem_cons_of_mem _ h1)) (by rw [hw1]; omega)]
        rw [hw1, Nat.add_assoc]

theorem level_weight_sum (k bp : Nat) :
    ∀ (Ls : List (Level T)) (i : Nat),
      (∀ j L, Ls[j]? = some L → L.items.length = if bp.testBit (i + j) then k else 0) →
      total_weight (level_items_weighted i Ls) = k * 2 ^ (i + 1) * ((bp / 2 ^ i) % 2 ^ Ls.length)
  | [], i, _ => by simp [level_items_weighted, total_weight, Nat.mod_one]
  | L :: rest, i, h => by
    have h0 := h 0 L (by simp)
    have hrest := level_weight_sum k bp rest (i + 1) (fun j L1 hj => by
      have := h (j + 1) L1 (by simpa using hj)
      have e : i + (j + 1) = i + 1 + j := by omega
      rw [this, e])
    rw [level_items_weighted, total_weight_append, total_weight_map_const, hrest, h0,
      List.length_cons, Nat.add_zero, Nat.testBit_to_div_mod]
    have hdiv : bp / 2 ^ (i + 1) = bp / 2 ^ i / 2 := by
      rw [pow_succ, Nat.div_div_eq_div_mul]
    rw [hdiv]
    have hmod : bp / 2 ^ i % 2 ^ (rest.length + 1) =
        bp / 2 ^ i % 2 + 2 * (bp / 2 ^ i / 2 % 2 ^ rest.length) := by
      rw [pow_succ, Nat.mul_comm (2 ^ rest.length) 2, Nat.mod_mul]
    rw [hmod]
    split_ifs with hc
    · have h2 : bp / 2 ^ i % 2 = 1 := by simpa using hc
      rw [h2]; ring
    · have h2 : bp / 2 ^ i % 2 = 0 := by
        have h3 : ¬ (bp / 2 ^ i % 2 = 1) := by simpa using hc
        omega
      rw [h2]; ring

theorem total_weight_weighted_items {lt : T → T → Bool} {k : Nat} {acc : List T}
    {s : quantiles_sketch T} (hinv : Inv lt k acc s) : total_weight (weighted_items s) = s.n_ := by
  unfold weighted_items
  rw [total_weight_append, total_weight_map_const,
    level_weight_sum k s.bit_pattern_ s.levels_ 0 (fun j L hj => by
      obtain ⟨-, h1, h2⟩ := hinv.lv_ok j L hj
      rw [Nat.zero_add]
      cases hb : s.bit_pattern_.testBit j
      · simp [h2 hb]
      · simp [(h1 hb).1])]
  rw [hinv.lv_len, pow_zero, Nat.div_one, Nat.mod_eq_of_lt (Nat.lt_size_self _), hinv.bb_len,
    hinv.bp_eq]
  have := Nat.div_add_mod s.n_ (2 * k)
  rw [Nat.zero_add, pow_one, Nat.one_mul]
  calc s.n_ % (2 * k) + k * 2 * (s.n_ / (2 * k))
      = 2 * k * (s.n_ / (2 * k)) + s.n_ % (2 * k) := by ring
    _ = s.n_ := this

theorem levels_length_le {lt : T → T → Bool} {k : Nat} {acc : List T}
    {s : quantiles_sketch T} (hinv : Inv lt k acc s) : s.levels_.length ≤ 62 := by
  rw [hinv.lv_len, Nat.size_le, hinv.bp_eq, hinv.n_eq]
  have h1 := hinv.n_lt
  have h2 := hinv.k_ge
  rw [Nat.div_lt_iff_lt_mul (by omega)]
  have : (2 : Nat) ^ 64 = 2 ^ 62 * 4 := by norm_num
  unfold U64 at h1
  calc acc.length < 2 ^ 62 * 4 := by omega
    _ ≤ 2 ^ 62 * (2 * k) := Nat.mul_le_mul_left _ (by omega)

theorem get_rank_total_spec {lt : T → T → Bool} (hlt : StrictWeakOrder lt) {k : Nat}
    {acc : List T} {s : quantiles_sketch T} (hinv : Inv lt k acc s) (b : Bool) (v : T) :
    get_rank_total lt b s v = Except.ok (rank_sum lt b v (weighted_items s)) := by
  have htw := total_weight_weighted_items hinv
  have hlen := levels_length_le hinv
  have hn : s.n_ < U64 := by rw [hinv.n_eq]; exact hinv.n_lt
  unfold weighted_items at htw
  rw [total_weight_append, total_weight_map_const] at htw
  unfold get_rank_total
  simp only
  rw [if_neg (by omega), rank_base_loop_spec lt b v 1 s.base_buffer_.items 0 (by omega),
    Nat.zero_add, hinv.k_eq]
  have hle := rank_sum_le_total lt b v (s.base_buffer_.items.map (fun x => (x, 1)))
  rw [total_weight_map_const] at hle
  rw [rank_levels_loop_spec hlt b v k s.levels_ 0 _ _ (fun _ => by decide) (by omega)
    (fun L hL => by
      obtain ⟨j, hj⟩ := List.getElem?_of_mem hL
      obtain ⟨-, h1, h2⟩ := hinv.lv_ok j L hj
      cases hb : s.bit_pattern_.testBit j
      · exact Or.inl (h2 hb)
      · exact Or.inr (h1 hb))
    (by omega)]
  unfold weighted_items
  rw [rank_sum_append]

theorem get_rank_spec {lt : T → T → Bool} (hlt : StrictWeakOrder lt) {k : Nat}
    {acc : List T} {s : quantiles_sketch T} (hinv : Inv lt k acc s) (hne : s.n_ ≠ 0) (b : Bool)
    (v : T) :
    get_rank lt b s v =
      Except.ok (Double.val ((rank_sum lt b v (weighted_items s) : ℚ) / (s.n_ : ℚ))) := by
  unfold get_rank
  rw [if_neg (by simpa [quantiles_sketch.is_empty] using hne), get_rank_total_spec hlt hinv]

end RankLevels

section CumulativeDistribution
variable {T : Type}

/-! ### get_CDF and get_PMF -/

theorem rank_level_loop_returns (lt : T → T → Bool) (b : Bool) (v : T) (data : List T) (w : Nat) :
    ∀ (count i total : Nat), i + count ≤ data.length →
      ∃ t, rank_level_loop lt b v data w count i total = Except.ok t
  | 0, _, total, _ => ⟨total, rfl⟩
  | count + 1, i, total, h => by
    unfold rank_level_loop
    rw [List.getElem?_eq_getElem (by omega)]
    simp only
    split
    · exact rank_level_loop_returns lt b v data w count (i + 1) _ (by omega)
    · exact ⟨total, rfl⟩

theorem rank_levels_loop_returns (lt : T → T → Bool) (b : Bool) (v : T) (k : Nat) :
    ∀ (Ls : List (Level T)) (w total : Nat),
      (∀ L ∈ Ls, L.items = [] ∨ k ≤ L.items.length) →
      ∃ t, rank_levels_loop lt b v k Ls w total = Except.ok t
  | [], _, total, _ => ⟨total, rfl⟩
  | L :: rest, w, total, h => by
    unfold rank_levels_loop
    have hrest : ∀ L1 ∈ rest, L1.items = [] ∨ k ≤ L1.items.length :=
      fun L1 h1 => h L1 (List.mem_cons_of_mem _ h1)
    by_cases hemp : L.items.isEmpty = true
    · rw [if_pos hemp]
      exact rank_levels_loop_returns lt b v k rest _ total hrest
    · rw [if_neg hemp]
      have hk : k ≤ L.items.length := by
        rcases h L (List.mem_cons_self _ _) with he | hk
        · rw [he] at hemp; simp at hemp
        · exact hk
      obtain ⟨t, ht⟩ := rank_level_loop_returns lt b v L.items w k 0 total (by omega)
      rw [ht]
      exact rank_levels_loop_returns lt b v k rest _ t hrest

theorem get_rank_returns (lt : T → T → Bool) (b : Bool) (s : quantiles_sketch T) (v : T)
    (hs : WellShaped s) : ∃ r, get_rank lt b s v = Except.ok r := by
  unfold get_rank
  split
  · exact ⟨_, rfl⟩
  · have : ∃ t, get_rank_total lt b s v = Except.ok t := by
      unfold get_rank_total
      simp only
      rw [if_neg (by have := hs.1; omega)]
      exact rank_levels_loop_returns lt b v s.k_ s.levels_ _ _ hs.2
    obtain ⟨t, ht⟩ := this
    rw [ht]
    exact ⟨_, rfl⟩

theorem check_split_points_ok (lt : T → T → Bool) :
    ∀ (sp : List T), StrictlyIncreasing lt sp → check_split_points lt sp = Except.ok ()
  | [], _ => rfl
  | [_], _ => rfl
  | a :: b :: rest, h => by
    unfold StrictlyIncreasing at h
    rw [List.chain'_cons] at h
    unfold check_split_points
    rw [if_pos h.1]
    exact check_split_points_ok lt (b :: rest) h.2

theorem cdf_loop_spec (lt : T → T → Bool) (b : Bool) (s : quantiles_sketch T) :
    ∀ (sp : List T) (rs : List Double) (buckets : Level Double),
      List.Forall₂ (fun v r => get_rank lt b s v = Except.ok r) sp rs →
      ∃ B, cdf_loop lt b s sp buckets = Except.ok B ∧ B.items = buckets.items ++ rs
  | [], rs, buckets, h => by
    cases h
    exact ⟨buckets, rfl, by simp⟩
  | v :: rest, rs, buckets, h => by
    cases h with
    | cons h1 h2 =>
      unfold cdf_loop
      rw [h1]
      simp only
      obtain ⟨B, hB, hitems⟩ := cdf_loop_spec lt b s rest _ (buckets.push_back _) h2
      exact ⟨B, hB, by rw [hitems]; simp [Level.push_back]⟩

theorem get_CDF_spec (lt : T → T → Bool) (b : Bool) (s : quantiles_sketch T) (sp : List T)
    (rs : List Double) (hne : s.n_ ≠ 0) (hsp : StrictlyIncreasing lt sp)
    (hrs : List.Forall₂ (fun v r => get_rank lt b s v = Except.ok r) sp rs) :
    get_CDF lt b s sp = Except.ok (rs ++ [Double.val 1]) := by
  unfold get_CDF
  simp only
  rw [if_neg (by simpa [quantiles_sketch.is_empty] using hne), check_split_points_ok lt sp hsp]
  simp only
  obtain ⟨B, hB, hitems⟩ := cdf_loop_spec lt b s sp rs
    ((Level.empty : Level Double).reserve (sp.length + 1)) hrs
  rw [hB]
  simp only [Level.push_back, hitems, Level.reserve, Level.empty, List.nil_append]

theorem forall2_of_returns {α β : Type} (f : α → Except Err β) :
    ∀ (l : List α), (∀ v ∈ l, ∃ r, f v = Except.ok r) →
      ∃ rs, List.Forall₂ (fun v r => f v = Except.ok r) l rs
  | [], _ => ⟨[], List.Forall₂.nil⟩
  | a :: rest, h => by
    obtain ⟨r, hr⟩ := h a (List.mem_cons_self _ _)
    obtain ⟨rs, hrs⟩ := forall2_of_returns f rest (fun v hv => h v (List.mem_cons_of_mem _ hv))
    exact ⟨r :: rs, List.Forall₂.cons hr hrs⟩

end CumulativeDistribution

section MassFunction
variable {T : Type}

theorem diffs_from_length : ∀ (prev : ℚ) (C : List ℚ), (diffs_from prev C).length = C.length
  | _, [] => rfl
  | prev, c :: rest => by simp [diffs_from, diffs_from_length c rest]

theorem diffs_from_sum : ∀ (prev : ℚ) (C : List ℚ),
    (diffs_from prev C).sum = (C.getLast?.getD prev) - prev
  | prev, [] => by simp [diffs_from]
  | prev, [c] => by simp [diffs_from]
  | prev, c :: d :: rest => by
    have ih := diffs_from_sum c (d :: rest)
    rw [diffs_from, List.sum_cons, ih]
    simp only [List.getLast?_cons_cons]
    have : ((d :: rest).getLast?.getD c) = ((d :: rest).getLast?.getD prev) := by
      cases h : (d :: rest).getLast? with
      | none => simp at h
      | some x => rfl
    rw [this]
    ring

theorem diffs_from_getElem?_zero (prev : ℚ) (C : List ℚ) :
    (diffs_from prev C)[0]? = C[0]?.map (fun c => c - prev) := by
  cases C <;> simp [diffs_from]

theorem diffs_from_getElem?_succ : ∀ (prev : ℚ) (C : List ℚ) (i : Nat) (a b : ℚ),
    C[i + 1]? = some a → C[i]? = some b → (diffs_from prev C)[i + 1]? = some (a - b)
  | _, [], _, _, _, h, _ => by simp at h
  | prev, c :: rest, 0, a, b, h1, h2 => by
    simp only [List.getElem?_cons_succ, List.getElem?_cons_zero, Option.some.injEq] at h1 h2
    subst h2
    rw [diffs_from, List.getElem?_cons_succ, diffs_from_getElem?_zero, h1]
    rfl
  | prev, c :: rest, i + 1, a, b, h1, h2 => by
    simp only [List.getElem?_cons_succ] at h1 h2
    rw [diffs_from, List.getElem?_cons_succ]
    exact diffs_from_getElem?_succ c rest i a b h1 h2

theorem pmf_loop_spec (C : List ℚ) :
    ∀ (i : Nat), i < C.length →
      pmf_loop i ((C.take (i + 1) ++ (diffs_from 0 C).drop (i + 1)).map Double.val) =
        Except.ok ((diffs_from 0 C).map Double.val)
  | 0, h => by
    unfold pmf_loop
    cases C with
    | nil => simp at h
    | cons c rest => simp [diffs_from]
  | i + 1, h => by
    have hD : (diffs_from 0 C).length = C.length := diffs_from_length 0 C
    have hi1 : i + 1 < C.length := h
    have hi : i < C.length := by omega
    have htake : C.take (i + 1 + 1) = C.take (i + 1) ++ [C[i + 1]] := by
      rw [List.take_succ, List.getElem?_eq_getElem hi1]; rfl
    have hlen : (C.take (i + 1)).length = i + 1 := by
      rw [List.length_take]; omega
    have hcur1 : (C.take (i + 1 + 1) ++ (diffs_from 0 C).drop (i + 1 + 1))[i + 1]? =
        some C[i + 1] := by
      rw [htake, List.append_assoc, List.getElem?_append_right (by omega), hlen]
      simp
    have hcur0 : (C.take (i + 1 + 1) ++ (diffs_from 0 C).drop (i + 1 + 1))[i]? = some C[i] := by
      rw [List.getElem?_append_left (by rw [List.length_take]; omega),
        List.getElem?_take_of_lt (by omega), List.getElem?_eq_getElem hi]
    have hdrop : (diffs_from 0 C).drop (i + 1) =
        (C[i + 1] - C[i]) :: (diffs_from 0 C).drop (i + 1 + 1) := by
      rw [List.drop_eq_getElem_cons (by omega)]
      congr 1
      have := diffs_from_getElem?_succ 0 C i C[i + 1] C[i]
        (List.getElem?_eq_getElem hi1) (List.getElem?_eq_getElem hi)
      rw [List.getElem?_eq_getElem (by omega)] at this
      exact Option.some.inj this
    unfold pmf_loop
    simp only [List.getElem?_map, hcur1, hcur0, Option.map_some', Double.sub]
    have hset : ((C.take (i + 1 + 1) ++ (diffs_from 0 C).drop (i + 1 + 1)).map Double.val).set
        (i + 1) (Double.val (C[i + 1] - C[i])) =
        (C.take (i + 1) ++ (diffs_from 0 C).drop (i + 1)).map Double.val := by
      rw [hdrop, htake, List.append_assoc, List.map_append, List.map_append,
        List.set_append_right _ _ (by simp)]
      have hmin : min (i + 1) C.length = i + 1 := by omega
      simp [hmin]
    rw [hset]
    exact pmf_loop_spec C i hi

theorem get_PMF_spec (lt : T → T → Bool) (b : Bool) (s : quantiles_sketch T) (sp : List T)
    (C : List ℚ) (hne : s.n_ ≠ 0) (hlen : C.length = sp.length + 1)
    (hcdf : get_CDF lt b s sp = Except.ok (C.map Double.val)) :
    get_PMF lt b s sp = Except.ok ((diffs_from 0 C).map Double.val) := by
  unfold get_PMF
  rw [hcdf]
  simp only
  rw [if_neg (by simpa [quantiles_sketch.is_empty] using hne)]
  have := pmf_loop_spec C sp.length (by omega)
  rw [List.take_of_length_le (by omega), List.drop_eq_nil_of_le
    (by rw [diffs_from_length]; omega), List.append_nil] at this
  exact this

end MassFunction

section ReachableQueries
variable {T : Type}

theorem mem_level_items_weighted : ∀ (Ls : List (Level T)) (i : Nat) (p : T × Nat),
    p ∈ level_items_weighted i Ls → ∃ L ∈ Ls, p.1 ∈ L.items
  | [], _, p, h => by simp [level_items_weighted] at h
  | L :: rest, i, p, h => by
    rw [level_items_weighted, List.mem_append] at h
    rcases h with h | h
    · obtain ⟨x, hx, rfl⟩ := List.mem_map.mp h
      exact ⟨L, List.mem_cons_self _ _, hx⟩
    · obtain ⟨L1, h1, h2⟩ := mem_level_items_weighted rest (i + 1) p h
      exact ⟨L1, List.mem_cons_of_mem _ h1, h2⟩

theorem mem_weighted_items_acc {lt : T → T → Bool} {k : Nat} {acc : List T}
    {s : quantiles_sketch T} (hinv : Inv lt k acc s) (p : T × Nat) (hp : p ∈ weighted_items s) :
    p.1 ∈ acc := by
  rw [weighted_items, List.mem_append] at hp
  rcases hp with h | h
  · obtain ⟨x, hx, rfl⟩ := List.mem_map.mp h
    exact hinv.bb_mem x hx
  · obtain ⟨L, hL, hx⟩ := mem_level_items_weighted _ _ p h
    exact hinv.lv_mem L hL _ hx

theorem Inv_n_ne_zero {lt : T → T → Bool} {k : Nat} {acc : List T}
    {s : quantiles_sketch T} (hinv : Inv lt k acc s) (hacc : acc ≠ []) : s.n_ ≠ 0 := by
  rw [hinv.n_eq]
  intro h0
  exact hacc (List.length_eq_zero.mp h0)

theorem rank_test_mono {lt : T → T → Bool} (hlt : StrictWeakOrder lt) (b : Bool) (v1 v2 x : T)
    (h12 : lt v1 v2 = true) (h : rank_test lt b v1 x = true) : rank_test lt b v2 x = true := by
  unfold rank_test at h ⊢
  cases b
  · simp only [Bool.false_eq_true, if_false] at h ⊢
    exact hlt.trans x v1 v2 h h12
  · simp only [if_true, Bool.not_eq_true'] at h ⊢
    by_contra hc
    have hc : lt v2 x = true := by simpa using hc
    have := hlt.trans v1 v2 x h12 hc
    rw [h] at this
    simp at this

theorem strictly_increasing_pairwise {lt : T → T → Bool} (hlt : StrictWeakOrder lt)
    {sp : List T} (h : StrictlyIncreasing lt sp) : sp.Pairwise (fun a b => lt a b = true) := by
  haveI : IsTrans T (fun a b => lt a b = true) := ⟨fun a b c => hlt.trans a b c⟩
  exact List.chain'_iff_pairwise.mp h

theorem forall2_map {α β : Type} (f : α → Except Err β) (g : α → β) (hfg : ∀ v, f v = Except.ok (g v)) :
    ∀ (l : List α), List.Forall₂ (fun v r => f v = Except.ok r) l (l.map g)
  | [] => List.Forall₂.nil
  | a :: rest => List.Forall₂.cons (hfg a) (forall2_map f g hfg rest)

/-- The list that `get_CDF` returns on a reachable non-empty sketch. -/
theorem get_CDF_reachable {lt : T → T → Bool} (hlt : StrictWeakOrder lt) {k : Nat}
    {acc : List T} {s : quantiles_sketch T} (hinv : Inv lt k acc s) (hacc : acc ≠ [])
    (b : Bool) (sp : List T) (hsp : StrictlyIncreasing lt sp) :
    get_CDF lt b s sp = Except.ok
      ((sp.map (fun v => (rank_sum lt b v (weighted_items s) : ℚ) / (s.n_ : ℚ)) ++ [1]).map
        Double.val) := by
  have hne := Inv_n_ne_zero hinv hacc
  rw [get_CDF_spec lt b s sp
    (sp.map (fun v => Double.val ((rank_sum lt b v (weighted_items s) : ℚ) / (s.n_ : ℚ))))
    hne hsp (forall2_map _ _ (fun v => get_rank_spec hlt hinv hne b v) sp)]
  simp

theorem cdf_values_sorted {lt : T → T → Bool} (hlt : StrictWeakOrder lt) {k : Nat}
    {acc : List T} {s : quantiles_sketch T} (hinv : Inv lt k acc s) (hacc : acc ≠ [])
    (b : Bool) (sp : List T) (hsp : StrictlyIncreasing lt sp) :
    (sp.map (fun v => (rank_sum lt b v (weighted_items s) : ℚ) / (s.n_ : ℚ)) ++ [1]).Pairwise
      (fun x y => x ≤ y) ∧
    ∀ q ∈ sp.map (fun v => (rank_sum lt b v (weighted_items s) : ℚ) / (s.n_ : ℚ)) ++ [1],
      0 ≤ q ∧ q ≤ 1 := by
  have hne := Inv_n_ne_zero hinv hacc
  have hnpos : (0 : ℚ) < (s.n_ : ℚ) := by
    exact_mod_cast Nat.pos_of_ne_zero hne
  have hbound : ∀ v, 0 ≤ (rank_sum lt b v (weighted_items s) : ℚ) / (s.n_ : ℚ) ∧
      (rank_sum lt b v (weighted_items s) : ℚ) / (s.n_ : ℚ) ≤ 1 := by
    intro v
    refine ⟨div_nonneg (by exact_mod_cast Nat.zero_le _) (le_of_lt hnpos), ?_⟩
    rw [div_le_one hnpos]
    have := rank_sum_le_total lt b v (weighted_items s)
    rw [total_weight_weighted_items hinv] at this
    exact_mod_cast this
  constructor
  · rw [List.pairwise_append]
    refine ⟨?_, List.pairwise_singleton _ _, ?_⟩
    · rw [List.pairwise_map]
      refine (strictly_increasing_pairwise hlt hsp).imp ?_
      intro v1 v2 h12
      apply div_le_div_of_nonneg_right _ (le_of_lt hnpos)
      have := rank_sum_mono lt b v1 v2 (weighted_items s)
        (fun p _ hp => rank_test_mono hlt b v1 v2 p.1 h12 hp)
      exact_mod_cast this
    · intro x hx y hy
      obtain ⟨v, -, rfl⟩ := List.mem_map.mp hx
      have : y = 1 := by simpa using hy
      rw [this]
      exact (hbound v).2
  · intro q hq
    rcases List.mem_append.mp hq with h | h
    · obtain ⟨v, -, rfl⟩ := List.mem_map.mp h
      exact hbound v
    · have : q = 1 := by simpa using h
      rw [this]
      norm_num

end ReachableQueries

section Encoding
variable {T : Type}

/-! ### serialize and deserialize -/

theorem write_le_length : ∀ (w x : Nat), (write_le w x).length = w
  | 0, _ => rfl
  | w + 1, x => by simp [write_le, write_le_length w]

theorem le_value_write_le : ∀ (w x : Nat), le_value (write_le w x) = x % 256 ^ w
  | 0, x => by simp [write_le, le_value, Nat.mod_one]
  | w + 1, x => by
    rw [write_le, le_value, le_value_write_le w, pow_succ, Nat.mul_comm (256 ^ w) 256,
      Nat.mod_mul]

theorem read_write_le (w x : Nat) (rest : List Nat) :
    read w (write_le w x ++ rest) = Except.ok (x % 256 ^ w, rest) := by
  unfold read
  have hl := write_le_length w x
  rw [if_neg (by simp [hl]), List.take_left' hl, List.drop_left' hl, le_value_write_le]

theorem testBit_flag (p : Bool) (e i : Nat) :
    (if p = true then 1 <<< e else 0).testBit i = (p && decide (e = i)) := by
  cases p
  · simp
  · simp [Nat.one_shiftLeft, Nat.testBit_two_pow]

theorem flags_byte_testBit (e so cp : Nat) (pe ps : Bool) (i : Nat) (hi : i < 8) :
    ((((if pe = true then 1 <<< e else 0) ||| (if ps = true then 1 <<< so else 0)
      ||| (1 <<< cp)) % 256) &&& (1 <<< i) > 0) ↔
      ((pe = true ∧ e = i) ∨ (ps = true ∧ so = i) ∨ cp = i) := by
  rw [and_shift_pos_iff]
  have h256 : (256 : Nat) = 2 ^ 8 := by norm_num
  rw [h256, Nat.testBit_mod_two_pow, Nat.testBit_or, Nat.testBit_or, testBit_flag, testBit_flag,
    Nat.one_shiftLeft, Nat.testBit_two_pow]
  simp [hi, or_assoc]

end Encoding

section HeaderChecks
variable {T : Type}

theorem read_one (a : Nat) (l : List Nat) : read 1 (a :: l) = Except.ok (a, l) := by
  simp [read, le_value]

theorem read_two (a b : Nat) (l : List Nat) : read 2 (a :: b :: l) = Except.ok (a + 256 * b, l) := by
  simp [read, le_value]

theorem header_checks_ok (c : Constants) (hc : c.WellFormed) (pe ps : Bool) :
    check_serial_version c (c.SERIAL_VERSION % 256) = Except.ok () ∧
    check_family_id c (c.FAMILY % 256) = Except.ok () ∧
    check_header_validity c
      ((if pe = true then c.PREAMBLE_LONGS_SHORT else c.PREAMBLE_LONGS_FULL) % 256)
      ((((if pe = true then 1 <<< c.IS_EMPTY else 0) ||| (if ps = true then 1 <<< c.IS_SORTED else 0)
        ||| (1 <<< c.IS_COMPACT)) % 256) % 256)
      (c.SERIAL_VERSION % 256) = Except.ok () := by
  refine ⟨?_, ?_, ?_⟩
  · simp [check_serial_version, hc.version]
  · simp [check_family_id, Nat.mod_eq_of_lt hc.family]
  · unfold check_header_validity
    have he := flags_byte_testBit c.IS_EMPTY c.IS_SORTED c.IS_COMPACT pe ps c.IS_EMPTY hc.empty_lt
    have hcp := flags_byte_testBit c.IS_EMPTY c.IS_SORTED c.IS_COMPACT pe ps c.IS_COMPACT
      hc.compact_lt
    have h1 := hc.empty_ne_compact
    have h2 := hc.empty_ne_sorted
    have h3 := hc.compact_ne_sorted
    simp only [Nat.mod_mod]
    have he' : ((((if pe = true then 1 <<< c.IS_EMPTY else 0) |||
        (if ps = true then 1 <<< c.IS_SORTED else 0) ||| (1 <<< c.IS_COMPACT)) % 256) &&&
        (1 <<< c.IS_EMPTY) > 0) ↔ pe = true := by
      rw [he]
      constructor
      · rintro (⟨h, -⟩ | ⟨-, h⟩ | h)
        · exact h
        · exact absurd h.symm h2
        · exact absurd h.symm h1
      · intro h; exact Or.inl ⟨h, rfl⟩
    have hcp' : ((((if pe = true then 1 <<< c.IS_EMPTY else 0) |||
        (if ps = true then 1 <<< c.IS_SORTED else 0) ||| (1 <<< c.IS_COMPACT)) % 256) &&&
        (1 <<< c.IS_COMPACT) > 0) := by
      rw [hcp]; exact Or.inr (Or.inr rfl)
    simp only [he', hcp', decide_True, if_true, hc.short, hc.full, hc.version]
    cases pe <;> decide

end HeaderChecks

section LevelsRoundTrip
variable {T : Type}

theorem deserialize_array_inverts (serde : SerDe T) (hs : serde.Inverts) (items : List T)
    (rest : List Nat) (cap : Nat) (hcap : items.length ≤ cap) :
    deserialize_array serde (serde.serialize items ++ rest) items.length cap =
      Except.ok (⟨items, cap⟩, rest) := by
  unfold deserialize_array
  rw [hs items rest]
  simp only [Level.insert_end, Level.reserve, Level.empty, List.nil_append, List.length_nil,
    Nat.zero_add]
  have : max (max 0 cap) items.length = cap := by
    rw [Nat.zero_max]; exact max_eq_left hcap
  rw [this]

theorem deserialize_one_inverts (serde : SerDe T) (hs : serde.Inverts) (x : T)
    (rest : List Nat) :
    deserialize_one serde (serde.serialize [x] ++ rest) = Except.ok (x, rest) := by
  unfold deserialize_one
  have := hs [x] rest
  simp only [List.length_singleton] at this
  rw [this]

theorem deserialize_levels_spec (serde : SerDe T) (hs : serde.Inverts) (k : Nat) (hk : 0 < k) :
    ∀ (Ls : List (Level T)) (wp : Nat) (rest : List Nat) (accL : List (Level T)),
      (∀ j L, Ls[j]? = some L → L.capacity = k ∧ (wp.testBit j = true → L.items.length = k) ∧
        (wp.testBit j = false → L.items = [])) →
      deserialize_levels serde k Ls.length wp (serialize_levels serde Ls ++ rest) accL =
        Except.ok (accL ++ Ls, rest)
  | [], wp, rest, accL, _ => by
    simp [deserialize_levels, serialize_levels]
  | L :: Ls, wp, rest, accL, h => by
    obtain ⟨hcap, h1, h0⟩ := h 0 L (by simp)
    have hrest : ∀ j L1, Ls[j]? = some L1 → L1.capacity = k ∧
        ((wp >>> 1).testBit j = true → L1.items.length = k) ∧
        ((wp >>> 1).testBit j = false → L1.items = []) := by
      intro j L1 hj
      have := h (j + 1) L1 (by simpa using hj)
      rw [Nat.testBit_shiftRight, Nat.add_comm 1 j]
      exact this
    simp only [List.length_cons]
    unfold deserialize_levels
    rw [Nat.and_one_is_mod]
    rw [Nat.testBit_zero] at h1 h0
    by_cases hb : wp % 2 = 1
    · rw [if_pos hb]
      have hlen := h1 (by simpa using hb)
      have hser : serialize_levels serde (L :: Ls) ++ rest =
          serde.serialize L.items ++ (serialize_levels serde Ls ++ rest) := by
        simp only [serialize_levels, Level.size, hlen, hk, if_true, List.append_assoc]
      have hL : (⟨L.items, k⟩ : Level T) = L := by
        cases L; simp only at hcap; rw [hcap]
      have := deserialize_array_inverts serde hs L.items (serialize_levels serde Ls ++ rest) k
        (by omega)
      rw [hlen] at this
      rw [hser, this, hL]
      simp only
      rw [deserialize_levels_spec serde hs k hk Ls (wp >>> 1) rest (accL ++ [L]) hrest]
      simp
    · rw [if_neg hb]
      have hemp := h0 (by simpa using hb)
      have hser : serialize_levels serde (L :: Ls) ++ rest = serialize_levels serde Ls ++ rest := by
        simp [serialize_levels, Level.size, hemp]
      have hL : (Level.empty.reserve k : Level T) = L := by
        cases L; simp only at hcap hemp; rw [hcap, hemp]; simp [Level.reserve, Level.empty]
      rw [hser, hL, deserialize_levels_spec serde hs k hk Ls (wp >>> 1) rest (accL ++ [L]) hrest]
      simp

end LevelsRoundTrip

section HeaderRoundTrip
variable {T : Type}

theorem serialize_eq (c : Constants) (serde : SerDe T) (s : quantiles_sketch T) :
    serialize c serde s =
      if s.is_empty = true then Except.ok (header_bytes c true s.is_sorted_ s.k_)
      else
        match s.min_value_, s.max_value_ with
        | some mn, some mx =>
          Except.ok (header_bytes c false s.is_sorted_ s.k_ ++ (write_le 8 s.n_ ++
            (serde.serialize [mn] ++ (serde.serialize [mx] ++
              (serde.serialize s.base_buffer_.items ++ serialize_levels serde s.levels_)))))
        | _, _ => Except.error Err.null_pointer := by
  unfold serialize
  cases he : s.is_empty
  · simp only [Bool.false_eq_true, not_false_eq_true, if_true, if_false]
    split <;> simp [write_le, header_bytes, flags_byte_of]
  · simp [write_le, header_bytes, flags_byte_of]

theorem flags_decode (c : Constants) (hc : c.WellFormed) (pe ps : Bool) :
    (flags_byte_of c pe ps % 256 &&& 1 <<< c.IS_EMPTY > 0 ↔ pe = true) ∧
    (flags_byte_of c pe ps % 256 &&& 1 <<< c.IS_COMPACT > 0) ∧
    (flags_byte_of c pe ps % 256 &&& 1 <<< c.IS_SORTED > 0 ↔ ps = true) := by
  have h1 := hc.empty_ne_compact
  have h2 := hc.empty_ne_sorted
  have h3 := hc.compact_ne_sorted
  have hmod : flags_byte_of c pe ps % 256 = flags_byte_of c pe ps := by
    unfold flags_byte_of; exact Nat.mod_mod _ _
  rw [hmod]
  unfold flags_byte_of
  refine ⟨?_, ?_, ?_⟩
  · rw [flags_byte_testBit c.IS_EMPTY c.IS_SORTED c.IS_COMPACT pe ps c.IS_EMPTY hc.empty_lt]
    constructor
    · rintro (⟨h, -⟩ | ⟨-, h⟩ | h)
      · exact h
      · exact absurd h.symm h2
      · exact absurd h.symm h1
    · intro h; exact Or.inl ⟨h, rfl⟩
  · rw [flags_byte_testBit c.IS_EMPTY c.IS_SORTED c.IS_COMPACT pe ps c.IS_COMPACT
      hc.compact_lt]
    exact Or.inr (Or.inr rfl)
  · rw [flags_byte_testBit c.IS_EMPTY c.IS_SORTED c.IS_COMPACT pe ps c.IS_SORTED hc.sorted_lt]
    constructor
    · rintro (⟨-, h⟩ | ⟨h, -⟩ | h)
      · exact absurd h h2
      · exact h
      · exact absurd h h3
    · intro h; exact Or.inr (Or.inl ⟨h, rfl⟩)

theorem header_checks_ok_flags (c : Constants) (hc : c.WellFormed) (pe ps : Bool) :
    check_serial_version c (c.SERIAL_VERSION % 256) = Except.ok () ∧
    check_family_id c (c.FAMILY % 256) = Except.ok () ∧
    check_header_validity c
      ((if pe = true then c.PREAMBLE_LONGS_SHORT else c.PREAMBLE_LONGS_FULL) % 256)
      (flags_byte_of c pe ps % 256) (c.SERIAL_VERSION % 256) = Except.ok () :=
  header_checks_ok c hc pe ps

theorem deserialize_header_empty (c : Constants) (hc : c.WellFormed) (serde : SerDe T)
    (ps : Bool) (k : Nat) (hk : k < 65536) (rest : List Nat) :
    deserialize c serde (header_bytes c true ps k ++ rest) = quantiles_sketch.new k := by
  obtain ⟨hc1, hc2, hc3⟩ := header_checks_ok_flags c hc true ps
  obtain ⟨hf1, -, -⟩ := flags_decode c hc true ps
  have hkk : k % 256 + 256 * (k / 256 % 256) = k := by omega
  unfold deserialize header_bytes
  simp only [List.cons_append, List.nil_append, read_one, read_two, bind, Except.bind, hkk,
    if_true]
  simp only [if_true] at hc3
  rw [hc1, hc2]
  simp only
  rw [hc3]
  simp only
  rw [if_pos (hf1.mpr rfl)]

end HeaderRoundTrip

section RoundTrip
variable {T : Type}

theorem roundtrip_nonempty {lt : T → T → Bool} {k : Nat} {acc : List T}
    {s : quantiles_sketch T} (hinv : Inv lt k acc s) (hk2 : k ≤ 32768) (hacc : acc ≠ [])
    (c : Constants) (hc : c.WellFormed) (serde : SerDe T) (hs : serde.Inverts) :
    ∃ bytes, serialize c serde s = Except.ok bytes ∧
      deserialize c serde bytes =
        Except.ok { s with base_buffer_ := ⟨s.base_buffer_.items, 2 * k⟩ } := by
  have hne := Inv_n_ne_zero hinv hacc
  have hemp : s.is_empty = false := by simpa [quantiles_sketch.is_empty] using hne
  obtain ⟨mn, mx, hmn, hmx, -⟩ := hinv.min_some hacc
  have hkeq := hinv.k_eq
  subst hkeq
  have hk1 := hinv.k_ge
  have hnlt : s.n_ < U64 := by rw [hinv.n_eq]; exact hinv.n_lt
  obtain ⟨hc1, hc2, hc3⟩ := header_checks_ok_flags c hc false s.is_sorted_
  obtain ⟨hf1, hf2, hf3⟩ := flags_decode c hc false s.is_sorted_
  have hkk : s.k_ % 256 + 256 * (s.k_ / 256 % 256) = s.k_ := by omega
  have hser := serialize_eq c serde s
  rw [hemp, hmn, hmx] at hser
  simp only [Bool.false_eq_true, if_false] at hser
  refine ⟨_, hser, ?_⟩
  have hread : ∀ R, read 8 (write_le 8 s.n_ ++ R) = Except.ok (s.n_, R) := by
    intro R
    rw [read_write_le]
    have : s.n_ % 256 ^ 8 = s.n_ := Nat.mod_eq_of_lt (by
      have h : (256 : Nat) ^ 8 = U64 := by norm_num [U64]
      rw [h]; exact hnlt)
    rw [this]
  have hln : compute_levels_needed s.k_ s.n_ = Except.ok s.levels_.length := by
    rw [compute_levels_needed_ok s.k_ s.n_ (by omega) hnlt, hinv.lv_len, hinv.bp_eq]
  have hbp : compute_bit_pattern s.k_ s.n_ = Except.ok s.bit_pattern_ := by
    unfold compute_bit_pattern
    rw [if_neg (by omega), hinv.bp_eq]
  have hbb : compute_base_buffer_items s.k_ s.n_ = Except.ok s.base_buffer_.items.length := by
    unfold compute_base_buffer_items
    rw [if_neg (by omega), hinv.bb_len]
  have hbbl : s.base_buffer_.items.length ≤ 2 * s.k_ :=
    le_trans hinv.bb_len_le hinv.bb_cap_le
  have hlv := deserialize_levels_spec serde hs s.k_ (by omega) s.levels_ s.bit_pattern_ [] []
    (fun j L hj => by
      obtain ⟨h1, h2, h3⟩ := hinv.lv_ok j L hj
      exact ⟨h1, fun hb => (h2 hb).1, h3⟩)
  rw [List.append_nil] at hlv
  unfold deserialize header_bytes
  simp only [List.cons_append, List.nil_append, read_one, read_two, bind, Except.bind, hkk,
    Bool.false_eq_true, if_false]
  simp only [Bool.false_eq_true, if_false] at hc3
  rw [hc1, hc2]
  simp only
  rw [hc3]
  simp only
  rw [if_neg (by rw [hf1]; simp), hread]
  simp only
  rw [deserialize_one_inverts serde hs]
  simp only
  rw [deserialize_one_inverts serde hs]
  simp only
  rw [hln, hbp, hbb]
  simp only
  rw [if_pos hf2, deserialize_array_inverts serde hs _ _ _ hbbl]
  simp only
  rw [hlv]
  simp only [pure, Except.pure, List.nil_append, hmn, hmx]
  congr 2
  cases hso : s.is_sorted_
  · rw [hso] at hf3; simpa using hf3
  · rw [hso] at hf3; simpa using hf3

theorem roundtrip_empty {lt : T → T → Bool} {k : Nat}
    {s : quantiles_sketch T} (hinv : Inv lt k [] s) (hk2 : k ≤ 32768)
    (c : Constants) (hc : c.WellFormed) (serde : SerDe T) :
    ∃ bytes, serialize c serde s = Except.ok bytes ∧
      deserialize c serde bytes =
        Except.ok { s with base_buffer_ := ⟨s.base_buffer_.items, 4⟩ } := by
  have hn0 : s.n_ = 0 := by rw [hinv.n_eq]; rfl
  have hemp : s.is_empty = true := by simp [quantiles_sketch.is_empty, hn0]
  have hkeq := hinv.k_eq
  subst hkeq
  have hk1 := hinv.k_ge
  have hser := serialize_eq c serde s
  rw [hemp] at hser
  simp only [if_true] at hser
  refine ⟨_, hser, ?_⟩
  have := deserialize_header_empty c hc serde s.is_sorted_ s.k_ (by omega) []
  rw [List.append_nil] at this
  rw [this]
  unfold quantiles_sketch.new
  rw [if_neg (by simp [MIN_K, MAX_K]; omega)]
  have hbp : s.bit_pattern_ = 0 := by rw [hinv.bp_eq, hn0]; simp
  have hbb : s.base_buffer_.items = [] := by
    apply List.length_eq_zero.mp
    rw [hinv.bb_len, hn0]; simp
  have hlv : s.levels_ = [] := by
    apply List.length_eq_zero.mp
    rw [hinv.lv_len, hbp]; simp
  obtain ⟨hmn, hmx⟩ := hinv.min_none rfl
  have hso := hinv.sorted_empty rfl
  have hm : min MIN_K s.k_ = 2 := by simp [MIN_K]; omega
  cases s
  simp only at hn0 hbp hbb hlv hmn hmx hso hm ⊢
  subst hn0 hbp hlv hmn hmx hso
  simp [Level.reserve, Level.empty, hm, hbb]

end RoundTrip

section ExampleSerDeLemmas

theorem byte_lt_strict_weak_order : StrictWeakOrder byte_lt where
  irrefl := by intro a; simp [byte_lt]
  trans := by
    intro a b c h1 h2
    simp only [byte_lt, decide_eq_true_eq, Fin.lt_def] at h1 h2 ⊢
    omega
  incomp_trans := by
    intro a b c h1 h2 h3 h4
    simp only [byte_lt, decide_eq_false_iff_not, Fin.lt_def] at h1 h2 h3 h4 ⊢
    omega

theorem byte_deserialize_length : ∀ (is : List Nat) (num : Nat) (items : List (Fin 256))
    (rest : List Nat), byte_deserialize is num = some (items, rest) → items.length = num
  | is, 0, items, rest, h => by
    simp only [byte_deserialize, Option.some.injEq, Prod.mk.injEq] at h
    rw [← h.1]; rfl
  | [], num + 1, items, rest, h => by simp [byte_deserialize] at h
  | b :: is, num + 1, items, rest, h => by
    unfold byte_deserialize at h
    by_cases hb : b < 256
    · rw [dif_pos hb] at h
      cases hr : byte_deserialize is num with
      | none => rw [hr] at h; simp at h
      | some p =>
        obtain ⟨items1, rest1⟩ := p
        rw [hr] at h
        simp only [Option.some.injEq, Prod.mk.injEq] at h
        rw [← h.1, List.length_cons, byte_deserialize_length is num items1 rest1 hr]
    · rw [dif_neg hb] at h; simp at h

theorem byte_deserialize_inverts : ∀ (items : List (Fin 256)) (rest : List Nat),
    byte_deserialize (items.map Fin.val ++ rest) items.length = some (items, rest)
  | [], rest => by simp [byte_deserialize]
  | a :: items, rest => by
    simp only [List.map_cons, List.cons_append, List.length_cons]
    unfold byte_deserialize
    rw [dif_pos a.isLt, byte_deserialize_inverts items rest]

theorem byte_serde_inverts : byte_serde.Inverts :=
  fun items rest => byte_deserialize_inverts items rest

theorem byte_serde_reads_exactly : byte_serde.ReadsExactly :=
  fun is num items rest h => byte_deserialize_length is num items rest h

theorem spec_constants_well_formed (family : Nat) (h : family < 256) :
    (spec_constants family).WellFormed := by
  constructor <;> simp [spec_constants, h]

end ExampleSerDeLemmas

section HeaderValidationLemmas

/-- With the serial versions 3, 1 and 2, `check_serial_version` accepts
exactly these three. -/
theorem check_serial_version_eq (c : Constants) (hv : c.SERIAL_VERSION = 3)
    (h1 : c.SERIAL_VERSION_1 = 1) (h2 : c.SERIAL_VERSION_2 = 2) (sv : Nat) :
    check_serial_version c sv =
      if sv = 1 ∨ sv = 2 ∨ sv = 3 then Except.ok () else Except.error Err.invalid_argument := by
  unfold check_serial_version
  rw [hv, h1, h2]
  by_cases a : sv = 1
  · simp [a]
  · by_cases b : sv = 2
    · simp [b]
    · by_cases d : sv = 3
      · simp [d]
      · simp [a, b, d]

/-- The outcome of `check_header_validity` depends on the two flags, the
serial version and the low six bits of `preamble_longs` only. -/
theorem check_header_validity_eq (c : Constants) (pl flags sv : Nat) :
    check_header_validity c pl flags sv =
      header_valid_of (header_empty c flags) (header_compact c flags) sv (pl &&& 0x3F) := by
  simp only [check_header_validity, header_valid_of, header_empty, header_compact,
    decide_eq_true_eq]

/-- The validation of a header, with the serial versions 3, 1 and 2. -/
theorem header_validation_eq (c : Constants) (hv : c.SERIAL_VERSION = 3)
    (h1 : c.SERIAL_VERSION_1 = 1) (h2 : c.SERIAL_VERSION_2 = 2) (pl flags sv : Nat) :
    header_validation c pl flags sv =
      if sv = 1 ∨ sv = 2 ∨ sv = 3 then
        header_valid_of (header_empty c flags) (header_compact c flags) sv (pl &&& 0x3F)
      else Except.error Err.invalid_argument := by
  unfold header_validation
  rw [check_serial_version_eq c hv h1 h2, check_header_validity_eq]
  split_ifs <;> rfl

/-- The variable `sw` of `check_header_validity` is a `uint8_t`: with
`preamble_longs = 9` the term `32 * 9` is reduced modulo 256 and the header
bytes 9, 1, 1 are taken for the case 38 of `preamble_longs = 1`. -/
theorem check_header_validity_truncates :
    check_header_validity (spec_constants 8) 9 1 1 = Except.ok () ∧
      check_header_validity (spec_constants 8) 1 1 1 = Except.ok () := by
  decide

end HeaderValidationLemmas

section QuantileLemmas

variable {T : Type}

theorem calculator_levels_loop_returns (k : Nat) : ∀ (Ls : List (Level T)) (w : Nat)
    (entries : List (List T × Nat)), (∀ L ∈ Ls, L.items = [] ∨ k ≤ L.items.length) →
    ∃ r, calculator_levels_loop k Ls w entries = Except.ok r
  | [], _, entries, _ => ⟨entries, rfl⟩
  | L :: Ls, w, entries, h => by
    unfold calculator_levels_loop
    have hL := h L (List.mem_cons_self _ _)
    have hLs : ∀ L ∈ Ls, L.items = [] ∨ k ≤ L.items.length :=
      fun M hM => h M (List.mem_cons_of_mem _ hM)
    rcases hL with hL | hL
    · simp only [hL, List.isEmpty_nil, if_true]
      exact calculator_levels_loop_returns k Ls _ entries hLs
    · by_cases he : L.items.isEmpty = true
      · simp only [he, if_true]
        exact calculator_levels_loop_returns k Ls _ entries hLs
      · simp only [he, Bool.false_eq_true, if_false, Nat.not_lt.mpr hL]
        exact calculator_levels_loop_returns k Ls _ _ hLs

/-- What `get_quantile_calculator` does to the sketch: it sorts the base buffer
when `is_sorted_` is false and changes nothing else. -/
theorem get_quantile_calculator_state (lt : T → T → Bool) (s : quantiles_sketch T) :
    (get_quantile_calculator lt s).1 =
      if s.is_sorted_ then s else with_sorted_base_buffer lt s := by
  unfold get_quantile_calculator with_sorted_base_buffer
  cases s.is_sorted_ <;> rfl

theorem get_quantile_calculator_returns (lt : T → T → Bool) (s : quantiles_sketch T)
    (h : ∀ L ∈ s.levels_, L.items = [] ∨ s.k_ ≤ L.items.length) :
    ∃ entries, (get_quantile_calculator lt s).2 = Except.ok entries := by
  unfold get_quantile_calculator
  cases hs : s.is_sorted_
  · exact calculator_levels_loop_returns _ _ _ _ h
  · exact calculator_levels_loop_returns _ _ _ _ h

/-- One turn of the loop of `get_quantiles`. -/
theorem get_quantiles_loop_cons (lt : T → T → Bool) (qc : quantile_calculator T)
    (inclusive : Bool) (rank : Double) (rest : List Double) (s : quantiles_sketch T)
    (ptr : Option (List (List T × Nat))) (quantiles : Level T) :
    get_quantiles_loop lt qc inclusive (rank :: rest) s ptr quantiles =
      if rank.lt (Double.val 0) ∨ (Double.val 1).lt rank then
        (s, Except.error Err.invalid_argument)
      else if rank.eq (Double.val 0) then
        match s.min_value_ with
        | some mn => get_quantiles_loop lt qc inclusive rest s ptr (quantiles.push_back mn)
        | none => (s, Except.error Err.null_pointer)
      else if rank.eq (Double.val 1) then
        match s.max_value_ with
        | some mx => get_quantiles_loop lt qc inclusive rest s ptr (quantiles.push_back mx)
        | none => (s, Except.error Err.null_pointer)
      else
        match ptr with
        | some entries =>
          get_quantiles_loop lt qc inclusive rest s (some entries)
            (quantiles.push_back (qc.get_quantile s.n_ entries inclusive rank))
        | none =>
          match get_quantile_calculator lt s with
          | (s1, Except.error e) => (s1, Except.error e)
          | (s1, Except.ok entries) =>
            get_quantiles_loop lt qc inclusive rest s1 (some entries)
              (quantiles.push_back (qc.get_quantile s1.n_ entries inclusive rank)) := by
  rfl

/-- The loop of `get_quantiles` on ranks of which one is out of range: the
call throws, and the sketch is as before or has its base buffer sorted; it is
as before when the calculator was already there, when `is_sorted_` is set,
and when every rank before the first one out of range is 0 or 1. -/
theorem get_quantiles_loop_fails (lt : T → T → Bool) (qc : quantile_calculator T)
    (inclusive : Bool) : ∀ (ranks : List Double) (s : quantiles_sketch T)
    (ptr : Option (List (List T × Nat))) (quantiles : Level T) (mn mx : T),
    s.min_value_ = some mn → s.max_value_ = some mx →
    (∀ L ∈ s.levels_, L.items = [] ∨ s.k_ ≤ L.items.length) →
    (∃ rank ∈ ranks, rank_out_of_range rank) →
    (get_quantiles_loop lt qc inclusive ranks s ptr quantiles).2 =
        Except.error Err.invalid_argument ∧
      ((get_quantiles_loop lt qc inclusive ranks s ptr quantiles).1 = s ∨
        (ptr = none ∧ s.is_sorted_ = false ∧
          (get_quantiles_loop lt qc inclusive ranks s ptr quantiles).1 =
            with_sorted_base_buffer lt s)) ∧
      (∀ pre rank post, ranks = pre ++ rank :: post → rank_out_of_range rank →
        (∀ q ∈ pre, q = Double.val 0 ∨ q = Double.val 1) →
        (get_quantiles_loop lt qc inclusive ranks s ptr quantiles).1 = s)
  | [], _, _, _, _, _, _, _, _, h => by
    obtain ⟨r, hr, -⟩ := h
    cases hr
  | rank :: rest, s, ptr, quantiles, mn, mx, hmin, hmax, hshape, h => by
    rw [get_quantiles_loop_cons]
    by_cases hbad : rank.lt (Double.val 0) = true ∨ (Double.val 1).lt rank = true
    · rw [if_pos hbad]
      exact ⟨rfl, Or.inl rfl, fun _ _ _ _ _ _ => rfl⟩
    · have hrest : ∃ r ∈ rest, rank_out_of_range r := by
        obtain ⟨r, hr, hro⟩ := h
        rcases List.mem_cons.mp hr with rfl | hr
        · exact absurd hro hbad
        · exact ⟨r, hr, hro⟩
      have hpre : ∀ (res : quantiles_sketch T),
          (∀ pre r post, rest = pre ++ r :: post → rank_out_of_range r →
            (∀ q ∈ pre, q = Double.val 0 ∨ q = Double.val 1) → res = s) →
          ∀ pre r post, rank :: rest = pre ++ r :: post → rank_out_of_range r →
            (∀ q ∈ pre, q = Double.val 0 ∨ q = Double.val 1) → res = s := by
        intro res hres pre r post hsplit hr hq
        cases pre with
        | nil =>
          simp only [List.nil_append, List.cons.injEq] at hsplit
          rw [← hsplit.1] at hr
          exact absurd hr hbad
        | cons p pre =>
          simp only [List.cons_append, List.cons.injEq] at hsplit
          exact hres pre r post hsplit.2 hr (fun q hq1 => hq q (List.mem_cons_of_mem _ hq1))
      simp only [hbad, if_false]
      by_cases h0 : rank.eq (Double.val 0) = true
      · simp only [h0, if_true, hmin]
        obtain ⟨a, b, c⟩ := get_quantiles_loop_fails lt qc inclusive rest s ptr
          (quantiles.push_back mn) mn mx hmin hmax hshape hrest
        exact ⟨a, b, hpre _ c⟩
      · simp only [h0, Bool.false_eq_true, if_false]
        by_cases h1 : rank.eq (Double.val 1) = true
        · simp only [h1, if_true, hmax]
          obtain ⟨a, b, c⟩ := get_quantiles_loop_fails lt qc inclusive rest s ptr
            (quantiles.push_back mx) mn mx hmin hmax hshape hrest
          exact ⟨a, b, hpre _ c⟩
        · simp only [h1, Bool.false_eq_true, if_false]
          have hnot01 : ¬ (rank = Double.val 0 ∨ rank = Double.val 1) := by
            rintro (rfl | rfl)
            · exact h0 (by simp [Double.eq])
            · exact h1 (by simp [Double.eq])
          have hvac : ∀ (res : quantiles_sketch T) pre r post,
              rank :: rest = pre ++ r :: post → rank_out_of_range r →
              (∀ q ∈ pre, q = Double.val 0 ∨ q = Double.val 1) → res = s := by
            intro res pre r post hsplit hr hq
            cases pre with
            | nil =>
              simp only [List.nil_append, List.cons.injEq] at hsplit
              rw [← hsplit.1] at hr
              exact absurd hr hbad
            | cons p pre =>
              simp only [List.cons_append, List.cons.injEq] at hsplit
              exact absurd (hsplit.1 ▸ hq p (List.mem_cons_self _ _)) hnot01
          cases ptr with
          | some entries =>
            simp only
            obtain ⟨a, b, -⟩ := get_quantiles_loop_fails lt qc inclusive rest s (some entries)
              (quantiles.push_back (qc.get_quantile s.n_ entries inclusive rank)) mn mx hmin hmax
              hshape hrest
            refine ⟨a, Or.inl ?_, hvac _⟩
            rcases b with b | ⟨b, -⟩
            · exact b
            · cases b
          | none =>
            simp only
            obtain ⟨entries, hent⟩ := get_quantile_calculator_returns lt s hshape
            have hst := get_quantile_calculator_state lt s
            rcases hgc : get_quantile_calculator lt s with ⟨s1, r⟩
            rw [hgc] at hent hst
            simp only at hent hst
            subst hent
            simp only
            have hs1 : s1 = s ∨ (s.is_sorted_ = false ∧ s1 = with_sorted_base_buffer lt s) := by
              cases hso : s.is_sorted_
              · rw [hso] at hst
                exact Or.inr ⟨rfl, by simpa using hst⟩
              · rw [hso] at hst
                exact Or.inl (by simpa using hst)
            have hmin1 : s1.min_value_ = some mn := by
              rcases hs1 with rfl | ⟨-, rfl⟩
              · exact hmin
              · exact hmin
            have hmax1 : s1.max_value_ = some mx := by
              rcases hs1 with rfl | ⟨-, rfl⟩
              · exact hmax
              · exact hmax
            have hshape1 : ∀ L ∈ s1.levels_, L.items = [] ∨ s1.k_ ≤ L.items.length := by
              rcases hs1 with rfl | ⟨-, rfl⟩
              · exact hshape
              · exact hshape
            obtain ⟨a, b, -⟩ := get_quantiles_loop_fails lt qc inclusive rest s1 (some entries)
              (quantiles.push_back (qc.get_quantile s1.n_ entries inclusive rank)) mn mx hmin1
              hmax1 hshape1 hrest
            have b1 : (get_quantiles_loop lt qc inclusive rest s1 (some entries)
                (quantiles.push_back (qc.get_quantile s1.n_ entries inclusive rank))).1 = s1 := by
              rcases b with b | ⟨b, -⟩
              · exact b
              · cases b
            refine ⟨a, ?_, hvac _⟩
            rw [b1]
            rcases hs1 with rfl | ⟨hso, rfl⟩
            · exact Or.inl rfl
            · exact Or.inr ⟨trivial, hso, rfl⟩

end QuantileLemmas

section RetainedLemmas

variable {T : Type}

/-- The loop of `compute_valid_levels` counts the set bits below `fuel`. -/
theorem compute_valid_levels_loop_spec : ∀ (fuel bp count : Nat), bp < 2 ^ fuel →
    compute_valid_levels_loop fuel bp count =
      count + (List.range fuel).countP (fun i => bp.testBit i)
  | 0, bp, count, _ => by simp [compute_valid_levels_loop]
  | fuel + 1, bp, count, h => by
    unfold compute_valid_levels_loop
    have hrange : (List.range (fuel + 1)).countP (fun i => bp.testBit i) =
        (if bp.testBit 0 then 1 else 0) +
          (List.range fuel).countP (fun i => (bp / 2).testBit i) := by
      rw [List.range_succ_eq_map, List.countP_cons, List.countP_map]
      have : ((fun i => bp.testBit i) ∘ Nat.succ) = (fun i => (bp / 2).testBit i) := by
        funext i
        simp [Nat.testBit_succ]
      rw [this]
      omega
    by_cases hpos : bp > 0
    · rw [if_pos hpos, compute_valid_levels_loop_spec fuel (bp / 2) _ (by
        rw [pow_succ] at h; omega), hrange]
      have hb : (bp &&& 1 = 1) ↔ bp.testBit 0 = true := by
        rw [Nat.and_one_is_mod, Nat.testBit_zero]
        simp
      by_cases hbit : bp.testBit 0 = true
      · rw [if_pos (hb.mpr hbit), if_pos hbit]; omega
      · rw [if_neg (fun h1 => hbit (hb.mp h1)), if_neg hbit]; omega
    · have h0 : bp = 0 := by omega
      subst h0
      rw [if_neg hpos]
      simp

/-- The member `compute_valid_levels` is the population count of a 64-bit
pattern. -/
theorem compute_valid_levels_eq_popcount (bp : Nat) (h : bp < U64) :
    compute_valid_levels bp = popcount bp := by
  unfold compute_valid_levels popcount
  rw [Nat.mod_eq_of_lt h, compute_valid_levels_loop_spec 64 bp 0 h, Nat.zero_add]

theorem popcount_le (bp : Nat) : popcount bp ≤ 64 := by
  unfold popcount
  have := List.countP_le_length (fun i => bp.testBit i) (l := List.range 64)
  simpa using this

/-- Levels that are empty or hold `k` items hold `k` items per non-empty
level. -/
theorem sum_level_sizes (k : Nat) (hk : 0 < k) : ∀ (Ls : List (Level T)),
    (∀ L ∈ Ls, L.items = [] ∨ L.items.length = k) →
    (Ls.map Level.size).sum = k * Ls.countP (fun L => !L.items.isEmpty)
  | [], _ => by simp
  | L :: Ls, h => by
    have ih := sum_level_sizes k hk Ls (fun M hM => h M (List.mem_cons_of_mem _ hM))
    rw [List.map_cons, List.sum_cons, ih, List.countP_cons]
    rcases h L (List.mem_cons_self _ _) with h0 | h0
    · simp [Level.size, h0]
    · have hne : L.items.isEmpty = false := by
        cases hL : L.items with
        | nil => rw [hL] at h0; simp at h0; omega
        | cons a r => rfl
      simp only [Level.size, h0, hne, Bool.not_false, if_true]
      ring

/-- On a sketch reached by updates, `get_num_retained()` is
`n mod 2k + k * popcount(bit_pattern)`, the number of items stored. -/
theorem get_num_retained_spec {lt : T → T → Bool} {k : Nat} {acc : List T}
    {s : quantiles_sketch T} (hinv : Inv lt k acc s) (hk2 : k ≤ 32768) :
    get_num_retained s = Except.ok (s.n_ % (2 * k) + k * popcount s.bit_pattern_) ∧
    s.n_ % (2 * k) + k * popcount s.bit_pattern_ =
      s.base_buffer_.size + (s.levels_.map Level.size).sum ∧
    s.n_ % (2 * k) + k * popcount s.bit_pattern_ < 2 ^ 22 := by
  have hk := hinv.k_ge
  have hbp : s.bit_pattern_ < U64 := by
    rw [hinv.bp_eq, hinv.n_eq]
    exact lt_of_le_of_lt (Nat.div_le_self _ _) hinv.n_lt
  have hpc := popcount_le s.bit_pattern_
  have hmod : s.n_ % (2 * k) < 2 * k := Nat.mod_lt _ (by omega)
  have hprod : k * popcount s.bit_pattern_ ≤ 32768 * 64 := Nat.mul_le_mul hk2 hpc
  refine ⟨?_, ?_, by omega⟩
  · unfold get_num_retained compute_retained_items compute_base_buffer_items compute_bit_pattern
    rw [hinv.k_eq]
    have h2k : ¬ (2 * k = 0) := by omega
    simp only [h2k, if_false, bind, Except.bind, pure, Except.pure]
    rw [← hinv.bp_eq, compute_valid_levels_eq_popcount _ hbp]
    have e1 : popcount s.bit_pattern_ % U32 = popcount s.bit_pattern_ :=
      Nat.mod_eq_of_lt (by unfold U32; omega)
    have e2 : s.n_ % (2 * k) % U32 = s.n_ % (2 * k) :=
      Nat.mod_eq_of_lt (by unfold U32; omega)
    have e3 : k * popcount s.bit_pattern_ % U32 = k * popcount s.bit_pattern_ :=
      Nat.mod_eq_of_lt (by unfold U32; omega)
    rw [e1, e2, e3, Nat.mod_eq_of_lt (by unfold U32; omega)]
  · rw [sum_level_sizes k (by omega) s.levels_ (fun L hL => by
      obtain ⟨i, hi⟩ := List.getElem?_of_mem hL
      obtain ⟨-, h1, h2⟩ := hinv.lv_ok i L hi
      cases hb : s.bit_pattern_.testBit i
      · exact Or.inl (h2 hb)
      · exact Or.inr (h1 hb).1),
      nonempty_levels_eq_popcount (by omega) hinv.lv_ok hinv.lv_len hbp]
    simp only [Level.size, hinv.bb_len]

end RetainedLemmas

section ByteVectorLemmas

variable {T : Type}

/-- Writing a run into the zeros that follow what has been written. -/
theorem copy_to_mem_zeros (pre run : List Nat) (rem : Nat) (h : run.length ≤ rem) :
    copy_to_mem (pre ++ List.replicate rem 0) pre.length run =
      Except.ok ((pre ++ run) ++ List.replicate (rem - run.length) 0, (pre ++ run).length) := by
  unfold copy_to_mem
  rw [if_neg (by simp; omega)]
  congr 2
  · rw [List.take_left, List.drop_append_eq_append_drop]
    simp only [List.length_replicate, List.drop_replicate]
    rw [List.drop_eq_nil_of_le (by omega)]
    simp
  · simp

theorem serialize_levels_length (serde : SerDe T) (w : Nat) (hw : serde.FixedWidth w) :
    ∀ Ls : List (Level T), (serialize_levels serde Ls).length = w * (Ls.map Level.size).sum
  | [] => by simp [serialize_levels]
  | L :: Ls => by
    rw [serialize_levels, List.length_append, serialize_levels_length serde w hw Ls,
      List.map_cons, List.sum_cons, Nat.mul_add]
    congr 1
    by_cases h : L.size > 0
    · rw [if_pos h, hw, Level.size]
    · rw [if_neg h]
      have : L.size = 0 := by omega
      simp [this]

/-- The loop over the levels of the byte-vector `serialize` writes what the
loop of the stream `serialize` writes. -/
theorem serialize_levels_bytes_spec (serde : SerDe T) :
    ∀ (Ls : List (Level T)) (pre : List Nat) (rem : Nat),
      (serialize_levels serde Ls).length ≤ rem →
      serialize_levels_bytes serde Ls (pre ++ List.replicate rem 0) pre.length =
        Except.ok ((pre ++ serialize_levels serde Ls) ++
          List.replicate (rem - (serialize_levels serde Ls).length) 0,
          (pre ++ serialize_levels serde Ls).length)
  | [], pre, rem, _ => by simp [serialize_levels_bytes, serialize_levels]
  | L :: Ls, pre, rem, h => by
    unfold serialize_levels_bytes
    rw [serialize_levels, List.length_append] at h
    by_cases hL : L.size > 0
    · rw [if_pos hL] at h
      rw [if_pos hL, copy_to_mem_zeros pre _ rem (by omega)]
      simp only
      rw [serialize_levels_bytes_spec serde Ls (pre ++ serde.serialize L.items) _ (by omega)]
      simp only [serialize_levels, if_pos hL, List.append_assoc, List.length_append]
      rw [Nat.sub_sub]
    · rw [if_neg hL] at h
      rw [if_neg hL, serialize_levels_bytes_spec serde Ls pre rem (by simpa using h)]
      simp only [serialize_levels, if_neg hL, List.nil_append]

/-- The size that `get_serialized_size_bytes` computes. -/
theorem get_serialized_size_bytes_spec (w : Nat) (s : quantiles_sketch T) (r : Nat)
    (hr : get_num_retained s = Except.ok r) (hr3 : r + 2 < 2 ^ 23) (hw : w < 2 ^ 32) :
    get_serialized_size_bytes w s = Except.ok (if s.n_ = 0 then 8 else 16 + (r + 2) * w) ∧
    16 + (r + 2) * w < 2 ^ 56 := by
  have h1 : (r + 2) * w < 2 ^ 23 * 2 ^ 32 := Nat.mul_lt_mul'' hr3 hw
  have h2 : (2 : Nat) ^ 23 * 2 ^ 32 = 2 ^ 55 := by norm_num
  have h3 : (16 : Nat) + 2 ^ 55 < 2 ^ 56 := by norm_num
  refine ⟨?_, by omega⟩
  unfold get_serialized_size_bytes
  by_cases hn : s.n_ = 0
  · have he : s.is_empty = true := by simp [quantiles_sketch.is_empty, hn]
    rw [if_pos he, if_pos hn]; rfl
  · have he : s.is_empty = false := by simp [quantiles_sketch.is_empty, hn]
    rw [he, hr, if_neg hn]
    simp only [Bool.false_eq_true, if_false, DATA_START]
    have h4 : (2 : Nat) ^ 56 < U64 := by unfold U64; norm_num
    have h5 : (2 : Nat) ^ 23 < U32 := by unfold U32; norm_num
    have e1 : (r + 2) % U32 = r + 2 := Nat.mod_eq_of_lt (by omega)
    have e2 : (r + 2) * w % U64 = (r + 2) * w := Nat.mod_eq_of_lt (by omega)
    have e3 : (16 + (r + 2) * w) % U64 = 16 + (r + 2) * w := Nat.mod_eq_of_lt (by omega)
    rw [e1, e2, e3]

/-- The image that the stream `serialize` writes with a SerDe of fixed width
has `16 + (r + 2) * w` bytes, where `r` is the number of items stored, and 8
bytes for an empty sketch. -/
theorem serialize_length (c : Constants) (serde : SerDe T) (w : Nat) (hw : serde.FixedWidth w)
    (s : quantiles_sketch T)
    (hmm : s.n_ ≠ 0 → ∃ mn mx, s.min_value_ = some mn ∧ s.max_value_ = some mx) :
    ∃ image, serialize c serde s = Except.ok image ∧
      image.length = if s.n_ = 0 then 8
        else 16 + (s.base_buffer_.size + (s.levels_.map Level.size).sum + 2) * w := by
  rw [serialize_eq]
  by_cases hn : s.n_ = 0
  · have he : s.is_empty = true := by simp [quantiles_sketch.is_empty, hn]
    rw [if_pos he, if_pos hn]
    exact ⟨_, rfl, by simp [header_bytes]⟩
  · have he : s.is_empty = false := by simp [quantiles_sketch.is_empty, hn]
    obtain ⟨mn, mx, hmn, hmx⟩ := hmm hn
    rw [he, hmn, hmx, if_neg hn]
    simp only [Bool.false_eq_true, if_false]
    refine ⟨_, rfl, ?_⟩
    simp only [List.length_append, write_le_length, serialize_levels_length serde w hw,
      header_bytes, List.length_cons, List.length_nil, Level.size]
    rw [hw [mn], hw [mx], hw s.base_buffer_.items]
    simp only [List.length_cons, List.length_nil]
    ring

/-- Writing a run at the end of what has been written, the rest of the
vector being zeros. -/
theorem copy_to_mem_at {bytes : List Nat} {ptr : Nat} (pre run : List Nat) (rem : Nat)
    (hb : bytes = pre ++ List.replicate rem 0) (hp : ptr = pre.length)
    (h : run.length ≤ rem) :
    copy_to_mem bytes ptr run =
      Except.ok ((pre ++ run) ++ List.replicate (rem - run.length) 0, (pre ++ run).length) := by
  subst hb hp
  exact copy_to_mem_zeros pre run rem h

/-- The byte-vector `serialize` returns `header_size_bytes` zeros followed by
the image that the stream `serialize` writes, and its `ptr` ends at the end of
the vector, when the size computed beforehand is the length of that image. -/
theorem serialize_bytes_ptr_spec (c : Constants) (serde : SerDe T) (w : Nat)
    (hw : serde.FixedWidth w) (s : quantiles_sketch T) (h size : Nat) (image : List Nat)
    (hh : h < U32) (hsize : get_serialized_size_bytes w s = Except.ok size)
    (hsz : size + h < U64) (himg : serialize c serde s = Except.ok image)
    (hlen : image.length = size) :
    serialize_bytes_ptr c serde w s h = Except.ok (List.replicate h 0 ++ image, h + size) := by
  have hh1 : h % U32 = h := Nat.mod_eq_of_lt hh
  have hs1 : (size + h) % U64 = size + h := Nat.mod_eq_of_lt hsz
  have hrep : List.replicate (size + h) 0 = List.replicate h 0 ++ List.replicate size 0 := by
    rw [Nat.add_comm, List.replicate_add]
  rw [serialize_eq] at himg
  unfold serialize_bytes_ptr
  simp only [hsize, bind, Except.bind, hh1, hs1, hrep, pure, Except.pure]
  cases he : s.is_empty
  · rw [he] at himg
    simp only [Bool.false_eq_true, if_false] at himg
    cases hmn : s.min_value_ with
    | none => rw [hmn] at himg; cases himg
    | some mn =>
      cases hmx : s.max_value_ with
      | none => rw [hmn, hmx] at himg; cases himg
      | some mx =>
        rw [hmn, hmx] at himg
        simp only [Except.ok.injEq] at himg
        subst himg
        simp only [List.length_append, write_le_length, header_bytes, List.length_cons,
          List.length_nil] at hlen
        have h16 : 16 ≤ size := by omega
        rw [copy_to_mem_at (List.replicate h 0) _ size rfl (by simp)
          (by simp only [write_le_length]; omega)]
        simp only
        rw [copy_to_mem_zeros _ _ _ (by simp only [write_le_length]; omega)]
        simp only
        rw [copy_to_mem_zeros _ _ _ (by simp only [write_le_length]; omega)]
        simp only
        rw [copy_to_mem_zeros _ _ _ (by simp only [write_le_length]; omega)]
        simp only
        rw [copy_to_mem_zeros _ _ _ (by simp only [write_le_length]; omega)]
        simp only [Bool.false_eq_true, not_false_eq_true, if_true, if_false]
        rw [copy_to_mem_at (List.replicate h 0 ++ header_bytes c false s.is_sorted_ s.k_)
          (write_le 8 s.n_) (size - 8)]
        rotate_left
        · obtain ⟨m, rfl⟩ : ∃ m, size = m + 16 := ⟨size - 16, by omega⟩
          simp only [write_le_length]
          have e : m + 16 - 1 - 1 - 1 - 1 - 2 = (m + 8) + 2 := by omega
          have e2 : m + 16 - 8 = m + 8 := by omega
          rw [e, e2]
          simp [write_le, header_bytes, flags_byte_of, List.replicate]
        · simp [write_le_length, header_bytes]
        · simp only [write_le_length]; omega
        simp only
        rw [copy_to_mem_zeros _ _ _ (by simp only [write_le_length]; omega)]
        simp only
        rw [copy_to_mem_zeros _ _ _ (by simp only [write_le_length]; omega)]
        simp only
        have hrem : (serde.serialize s.base_buffer_.items).length +
            (serialize_levels serde s.levels_).length =
            size - 8 - (write_le 8 s.n_).length - (serde.serialize [mn]).length -
              (serde.serialize [mx]).length := by
          simp only [write_le_length]; omega
        generalize size - 8 - (write_le 8 s.n_).length - (serde.serialize [mn]).length -
              (serde.serialize [mx]).length = rem at hrem ⊢
        have hsum : h + size = (List.replicate h 0 ++ header_bytes c false s.is_sorted_ s.k_ ++
            write_le 8 s.n_ ++ serde.serialize [mn] ++ serde.serialize [mx]).length +
            ((serde.serialize s.base_buffer_.items).length +
              (serialize_levels serde s.levels_).length) := by
          simp only [List.length_append, List.length_replicate, write_le_length, header_bytes,
            List.length_cons, List.length_nil]
          omega
        rw [hsum]
        have hassoc : List.replicate h 0 ++ (header_bytes c false s.is_sorted_ s.k_ ++
            (write_le 8 s.n_ ++ (serde.serialize [mn] ++ (serde.serialize [mx] ++
              (serde.serialize s.base_buffer_.items ++ serialize_levels serde s.levels_))))) =
            (List.replicate h 0 ++ header_bytes c false s.is_sorted_ s.k_ ++
            write_le 8 s.n_ ++ serde.serialize [mn] ++ serde.serialize [mx]) ++
              (serde.serialize s.base_buffer_.items ++ serialize_levels serde s.levels_) := by
          simp only [List.append_assoc]
        rw [hassoc]
        generalize List.replicate h 0 ++ header_bytes c false s.is_sorted_ s.k_ ++
            write_le 8 s.n_ ++ serde.serialize [mn] ++ serde.serialize [mx] = pre
        by_cases hbb : s.base_buffer_.size > 0
        · rw [if_pos hbb, copy_to_mem_zeros _ _ _ (by omega)]
          simp only
          rw [serialize_levels_bytes_spec serde s.levels_ _ _ (by omega)]
          have e : rem - (serde.serialize s.base_buffer_.items).length -
              (serialize_levels serde s.levels_).length = 0 := by omega
          rw [e]
          simp only [List.replicate_zero, List.append_nil, List.append_assoc,
            List.length_append]
        · have h0 : s.base_buffer_.items = [] := by
            cases hi : s.base_buffer_.items with
            | nil => rfl
            | cons a l => simp [Level.size, hi] at hbb
          have h1 : serde.serialize s.base_buffer_.items = [] := by
            have := hw s.base_buffer_.items
            rw [h0] at this ⊢
            simpa using this
          rw [h1] at hrem ⊢
          simp only [List.length_nil, Nat.zero_add] at hrem
          rw [if_neg hbb, serialize_levels_bytes_spec serde s.levels_ _ _ (by omega)]
          have e : rem - (serialize_levels serde s.levels_).length = 0 := by omega
          rw [e]
          simp only [List.replicate_zero, List.append_nil, List.nil_append, List.length_append,
            List.length_nil, Nat.zero_add]
  · rw [he] at himg
    simp only [if_true, Except.ok.injEq] at himg
    subst himg
    have hs8 : size = 8 := by rw [← hlen]; simp [header_bytes]
    subst hs8
    rw [copy_to_mem_at (List.replicate h 0) _ 8 rfl (by simp) (by simp [write_le_length])]
    simp only
    rw [copy_to_mem_zeros _ _ _ (by simp [write_le_length])]
    simp only
    rw [copy_to_mem_zeros _ _ _ (by simp [write_le_length])]
    simp only
    rw [copy_to_mem_zeros _ _ _ (by simp [write_le_length])]
    simp only
    rw [copy_to_mem_zeros _ _ _ (by simp [write_le_length])]
    simp [write_le, header_bytes, flags_byte_of, List.replicate]

end ByteVectorLemmas

section IteratorLemmas

variable {T : Type}

theorem shiftRight_eq_zero_iff_size_le (bp m : Nat) : bp >>> m = 0 ↔ Nat.size bp ≤ m := by
  rw [Nat.shiftRight_eq_div_pow, Nat.size_le, Nat.div_eq_zero_iff (by positivity)]

theorem and_one_eq_zero_iff (b m : Nat) : (b >>> m) &&& 1 = 0 ↔ b.testBit m = false := by
  rw [Nat.and_one_is_mod, Nat.testBit, Nat.one_and_eq_mod_two]
  simp

/-- The bit below the length of a number is set when the next one is not below
the length. -/
theorem testBit_of_size_eq_succ (bp m : Nat) (h1 : m < Nat.size bp) (h2 : Nat.size bp ≤ m + 1) :
    bp.testBit m = true := by
  have h3 : 2 ^ m ≤ bp := Nat.lt_size.mp h1
  have h4 : bp < 2 ^ (m + 1) := Nat.size_le.mp h2
  rw [Nat.testBit_to_div_mod]
  have : bp / 2 ^ m = 1 := by
    apply Nat.div_eq_of_lt_le
    · simpa using h3
    · rw [pow_succ] at h4; omega
  simp [this]

/-- The `do ... while` loop of `operator++`, entered below level `m`, stops at
the first level from `m` on whose bit is set, or past the last level. -/
theorem next_level_loop_spec (bp : Nat) (n : Nat) (hn : n = Nat.size bp) (h62 : n ≤ 62) :
    ∀ (fuel m bpc : Nat), n - m < fuel → m ≤ n →
      (if 0 < m then bpc >>> 1 else bpc) = bp >>> m →
      ∃ m', m ≤ m' ∧ m' ≤ n ∧ (∀ j, m ≤ j → j < m' → bp.testBit j = false) ∧
        ((m' = n ∧ ∃ w', next_level_loop fuel ((m : Int) - 1) bpc (2 ^ m) =
            Except.ok ((n : Int), 0, w')) ∨
          (m' < n ∧ bp.testBit m' = true ∧
            next_level_loop fuel ((m : Int) - 1) bpc (2 ^ m) =
              Except.ok ((m' : Int), bp >>> m', 2 ^ (m' + 1))))
  | 0, m, bpc, hf, _, _ => by omega
  | fuel + 1, m, bpc, hf, hm, hb => by
    unfold next_level_loop
    have hlev : (m : Int) - 1 + 1 = (m : Int) := by omega
    have hpos : ((m : Int) - 1 + 1 > 0) ↔ 0 < m := by omega
    simp only [hlev, gt_iff_lt, Int.natCast_pos, hb]
    by_cases hz : bp >>> m = 0
    · have : m = n := by
        have := (shiftRight_eq_zero_iff_size_le bp m).mp hz
        omega
      subst this
      refine ⟨m, le_refl _, le_refl _, fun j h1 h2 => by omega, Or.inl ⟨rfl, 2 ^ m, ?_⟩⟩
      rw [if_pos hz, hz]
    · have hlt : m < n := by
        by_contra hc
        apply hz
        rw [shiftRight_eq_zero_iff_size_le]
        omega
      rw [if_neg hz]
      have hw : 2 ^ m * 2 % U64 = 2 ^ (m + 1) := by
        rw [← pow_succ]
        apply Nat.mod_eq_of_lt
        unfold U64
        exact Nat.pow_lt_pow_right (by norm_num) (by omega)
      rw [hw]
      by_cases hbit : bp.testBit m = true
      · rw [if_neg (by rw [and_one_eq_zero_iff]; simp [hbit])]
        exact ⟨m, le_refl _, le_of_lt hlt, fun j h1 h2 => by omega, Or.inr ⟨hlt, hbit, rfl⟩⟩
      · have hbit' : bp.testBit m = false := by simpa using hbit
        rw [if_pos ((and_one_eq_zero_iff bp m).mpr hbit')]
        have hcast : (m : Int) = ((m + 1 : Nat) : Int) - 1 := by omega
        rw [hcast]
        obtain ⟨m', h1, h2, h3, h4⟩ := next_level_loop_spec bp n hn h62 fuel (m + 1) (bp >>> m)
          (by omega) (by omega) (by
            rw [if_pos (by omega), Nat.shiftRight_add]  )
        refine ⟨m', by omega, h2, ?_, h4⟩
        intro j hj1 hj2
        by_cases hjm : j = m
        · rw [hjm]; exact hbit'
        · exact h3 j (by omega) hj2

/-- The `while` loop of the iterator's constructor, entered at level `m` with
levels still ahead, stops at the first level from `m` on whose bit is set. -/
theorem first_level_loop_spec (bp : Nat) (n : Nat) (hn : n = Nat.size bp) (h62 : n ≤ 62) :
    ∀ (fuel m : Nat), n - m < fuel → m < n →
      ∃ m', m ≤ m' ∧ m' < n ∧ (∀ j, m ≤ j → j < m' → bp.testBit j = false) ∧
        bp.testBit m' = true ∧
        first_level_loop fuel (m : Int) (bp >>> m) (2 ^ (m + 1)) =
          Except.ok ((m' : Int), bp >>> m', 2 ^ (m' + 1))
  | 0, m, hf, _ => by omega
  | fuel + 1, m, hf, hm => by
    unfold first_level_loop
    by_cases hbit : bp.testBit m = true
    · rw [if_neg (by rw [and_one_eq_zero_iff]; simp [hbit])]
      exact ⟨m, le_refl _, hm, fun j h1 h2 => by omega, hbit, rfl⟩
    · have hbit' : bp.testBit m = false := by simpa using hbit
      rw [if_pos ((and_one_eq_zero_iff bp m).mpr hbit')]
      have hlt : m + 1 < n := by
        by_contra hc
        have := testBit_of_size_eq_succ bp m (by omega) (by omega)
        rw [this] at hbit'
        cases hbit'
      have hw : 2 ^ (m + 1) * 2 % U64 = 2 ^ (m + 1 + 1) := by
        rw [← pow_succ]
        apply Nat.mod_eq_of_lt
        unfold U64
        exact Nat.pow_lt_pow_right (by norm_num) (by omega)
      have hcast : (m : Int) + 1 = ((m + 1 : Nat) : Int) := by omega
      rw [hw, hcast, ← Nat.shiftRight_add]
      obtain ⟨m', h1, h2, h3, h4, h5⟩ := first_level_loop_spec bp n hn h62 fuel (m + 1)
        (by omega) hlt
      refine ⟨m', by omega, h2, ?_, h4, h5⟩
      intro j hj1 hj2
      by_cases hjm : j = m
      · rw [hjm]; exact hbit'
      · exact h3 j (by omega) hj2

/-- The weighted items from an occupied level on: its own items, then those
of the levels above. -/
theorem level_items_weighted_drop (Ls : List (Level T)) (L : Nat) (Lv : Level T)
    (h : Ls[L]? = some Lv) :
    level_items_weighted L (Ls.drop L) =
      Lv.items.map (fun x => (x, 2 ^ (L + 1))) ++ level_items_weighted (L + 1) (Ls.drop (L + 1)) := by
  have hL : L < Ls.length := by
    by_contra hc
    rw [List.getElem?_eq_none (by omega)] at h
    cases h
  have hv : Ls[L] = Lv := by
    rw [List.getElem?_eq_getElem hL] at h
    exact Option.some.inj h
  rw [List.drop_eq_getElem_cons hL, hv, level_items_weighted]

/-- Levels whose bits are clear contribute nothing. -/
theorem level_items_weighted_skip {lt : T → T → Bool} {k bp : Nat} {Ls : List (Level T)}
    (hok : LevelsOK lt k bp Ls) :
    ∀ (d m : Nat), m + d ≤ Ls.length → (∀ j, m ≤ j → j < m + d → bp.testBit j = false) →
      level_items_weighted m (Ls.drop m) = level_items_weighted (m + d) (Ls.drop (m + d))
  | 0, m, _, _ => rfl
  | d + 1, m, hle, hclear => by
    have hm : m < Ls.length := by omega
    obtain ⟨-, -, h0⟩ := hok m Ls[m] (List.getElem?_eq_getElem hm)
    rw [level_items_weighted_drop Ls m Ls[m] (List.getElem?_eq_getElem hm),
      h0 (hclear m (le_refl _) (by omega)), List.map_nil, List.nil_append,
      level_items_weighted_skip hok d (m + 1) (by omega) (fun j h1 h2 => hclear j (by omega)
        (by omega))]
    have e : m + 1 + d = m + (d + 1) := by omega
    rw [e]

theorem level_items_weighted_drop_length (Ls : List (Level T)) (m : Nat) :
    level_items_weighted m (Ls.drop Ls.length) = [] := by
  rw [List.drop_length]; rfl

/-- One turn of the traversal. -/
theorem iterate_loop_succ (last : const_iterator T) (fuel : Nat) (it : const_iterator T)
    (out : List (T × Nat)) :
    iterate_loop last (fuel + 1) it out =
      if it.equals last then Except.ok out
      else
        match it.deref with
        | Except.error e => Except.error e
        | Except.ok p =>
          match it.next with
          | Except.error e => Except.error e
          | Except.ok it1 => iterate_loop last fuel it1 (out ++ [p]) := rfl

theorem deref_level (bb : Level T) (Ls : List (Level T)) (L i k bbc b w : Nat) (Lv : Level T)
    (x : T) (h1 : Ls[L]? = some Lv) (h2 : Lv.items[i]? = some x) :
    (⟨bb, Ls, (L : Int), i, k, bbc, b, w⟩ : const_iterator T).deref = Except.ok (x, w) := by
  unfold const_iterator.deref
  have e1 : ¬ ((L : Int) = -1) := by omega
  have e2 : ¬ ((L : Int) < 0) := by omega
  simp only [e1, e2, if_false, Int.toNat_ofNat, h1, h2]

theorem deref_base (bb : Level T) (Ls : List (Level T)) (i k bbc b w : Nat) (x : T)
    (h : bb.items[i]? = some x) :
    (⟨bb, Ls, -1, i, k, bbc, b, w⟩ : const_iterator T).deref = Except.ok (x, w) := by
  unfold const_iterator.deref
  simp only [if_true, h]

theorem next_level_same (bb : Level T) (Ls : List (Level T)) (L i k bbc b w : Nat)
    (h1 : i + 1 < k) (h2 : k < U32) :
    (⟨bb, Ls, (L : Int), i, k, bbc, b, w⟩ : const_iterator T).next =
      Except.ok ⟨bb, Ls, (L : Int), i + 1, k, bbc, b, w⟩ := by
  unfold const_iterator.next
  have e1 : ¬ ((L : Int) = -1) := by omega
  have e2 : (i + 1) % U32 = i + 1 := Nat.mod_eq_of_lt (by omega)
  have e3 : ¬ (i + 1 = k) := by omega
  simp only [e1, e2, e3, false_and, and_false, or_false, if_false]

theorem next_level_last (bb : Level T) (Ls : List (Level T)) (L i k bbc b w : Nat)
    (h1 : i + 1 = k) (h2 : k < U32) (l1 : Int) (b1 w1 : Nat)
    (h3 : next_level_loop 65 (L : Int) b w = Except.ok (l1, b1, w1)) :
    (⟨bb, Ls, (L : Int), i, k, bbc, b, w⟩ : const_iterator T).next =
      Except.ok ⟨bb, Ls, l1, 0, k, bbc, b1, w1⟩ := by
  unfold const_iterator.next
  have e2 : (i + 1) % U32 = i + 1 := Nat.mod_eq_of_lt (by omega)
  have e4 : (L : Int) ≥ 0 := by omega
  rw [h1] at e2
  simp only [e2, h1, e4, and_self, or_true, if_true, h3]

theorem next_base_same (bb : Level T) (Ls : List (Level T)) (i k bbc b w : Nat)
    (h1 : ¬ (i + 1 = bb.size ∧ Ls.length > 0)) (h2 : i + 1 < U32) :
    (⟨bb, Ls, -1, i, k, bbc, b, w⟩ : const_iterator T).next =
      Except.ok ⟨bb, Ls, -1, i + 1, k, bbc, b, w⟩ := by
  unfold const_iterator.next
  have e2 : (i + 1) % U32 = i + 1 := Nat.mod_eq_of_lt h2
  have e4 : ¬ ((-1 : Int) ≥ 0) := by omega
  simp only [e2, e4, true_and, false_and, or_false, h1, if_false]

theorem next_base_last (bb : Level T) (Ls : List (Level T)) (i k bbc b w : Nat)
    (h1 : i + 1 = bb.size) (h0 : Ls.length > 0) (h2 : i + 1 < U32) (l1 : Int) (b1 w1 : Nat)
    (h3 : next_level_loop 65 (-1) b w = Except.ok (l1, b1, w1)) :
    (⟨bb, Ls, -1, i, k, bbc, b, w⟩ : const_iterator T).next =
      Except.ok ⟨bb, Ls, l1, 0, k, bbc, b1, w1⟩ := by
  unfold const_iterator.next
  have e2 : (i + 1) % U32 = i + 1 := Nat.mod_eq_of_lt h2
  rw [h1] at e2
  simp only [e2, h1, h0, and_self, true_or, if_true, h3]

/-- Where `operator++` lands when it leaves the base buffer or a level, the
traversal yields the levels from the next one on. -/
theorem iterate_after_next_level {lt : T → T → Bool} {k bp : Nat} {bb : Level T}
    {Ls : List (Level T)} (ctx : IterOK lt k bp bb Ls) (last : const_iterator T)
    (hl : last.level_ = (Ls.length : Int)) (hi : last.index_ = 0) (bbc fuel : Nat)
    (HA : LevelPhase k bp bb Ls last bbc fuel) (m bpc : Nat) (hm : m ≤ Ls.length)
    (hb : (if 0 < m then bpc >>> 1 else bpc) = bp >>> m) (out : List (T × Nat))
    (hf : (level_items_weighted m (Ls.drop m)).length < fuel) :
    ∃ l1 b1 w1, next_level_loop 65 ((m : Int) - 1) bpc (2 ^ m) = Except.ok (l1, b1, w1) ∧
      iterate_loop last fuel ⟨bb, Ls, l1, 0, k, bbc, b1, w1⟩ out =
        Except.ok (out ++ level_items_weighted m (Ls.drop m)) := by
  have h62 := ctx.lv_le
  obtain ⟨m', h1, h2, h3, h4⟩ := next_level_loop_spec bp Ls.length ctx.lv_len h62 65 m bpc
    (by omega) hm hb
  have hskip : level_items_weighted m (Ls.drop m) =
      level_items_weighted m' (Ls.drop m') := by
    obtain ⟨d, rfl⟩ : ∃ d, m' = m + d := ⟨m' - m, by omega⟩
    exact level_items_weighted_skip ctx.lv_ok d m h2 h3
  rcases h4 with ⟨h5, w', h6⟩ | ⟨h5, h6, h7⟩
  · refine ⟨_, _, _, h6, ?_⟩
    subst h5
    rw [hskip, List.drop_length]
    obtain ⟨f, rfl⟩ : ∃ f, fuel = f + 1 := ⟨fuel - 1, by omega⟩
    rw [iterate_loop_succ]
    have : (⟨bb, Ls, (Ls.length : Int), 0, k, bbc, 0, w'⟩ : const_iterator T).equals last
        = true := by
      simp [const_iterator.equals, hl, hi]
    rw [if_pos this]
    simp [level_items_weighted]
  · refine ⟨_, _, _, h7, ?_⟩
    have hget : Ls[m']? = some Ls[m'] := List.getElem?_eq_getElem h5
    rw [hskip] at hf ⊢
    rw [level_items_weighted_drop Ls m' Ls[m'] hget] at hf ⊢
    have := HA m' 0 out Ls[m'] hget h6 ctx.k_pos (by
      simpa [List.length_append, List.length_map] using hf)
    simpa using this

/-- The traversal inside the levels: from a position in an occupied level it
yields the rest of that level and then the levels above. -/
theorem iterate_level_phase {lt : T → T → Bool} {k bp : Nat} {bb : Level T}
    {Ls : List (Level T)} (ctx : IterOK lt k bp bb Ls) (last : const_iterator T)
    (hl : last.level_ = (Ls.length : Int)) (hi : last.index_ = 0) (bbc : Nat) :
    ∀ fuel, LevelPhase k bp bb Ls last bbc fuel
  | 0 => by
    intro L i out Lv _ _ _ hf
    omega
  | fuel + 1 => by
    have IH := iterate_level_phase ctx last hl hi bbc fuel
    intro L i out Lv hget hbit hik hf
    have hLlt : L < Ls.length := by
      by_contra hc
      rw [List.getElem?_eq_none (by omega)] at hget
      cases hget
    have hLvlen : Lv.items.length = k := ((ctx.lv_ok L Lv hget).2.1 hbit).1
    have hilt : i < Lv.items.length := by omega
    have hx : Lv.items[i]? = some Lv.items[i] := List.getElem?_eq_getElem hilt
    have hdrop : Lv.items.drop i = Lv.items[i] :: Lv.items.drop (i + 1) :=
      List.drop_eq_getElem_cons hilt
    rw [iterate_loop_succ]
    have hne : (⟨bb, Ls, (L : Int), i, k, bbc, bp >>> L, 2 ^ (L + 1)⟩ :
        const_iterator T).equals last = false := by
      simp only [const_iterator.equals, hl, hi, Bool.and_eq_false_imp, beq_iff_eq]
      intro h
      have : L = Ls.length := by exact_mod_cast h
      omega
    rw [hne, deref_level bb Ls L i k bbc _ _ Lv _ hget hx]
    simp only [Bool.false_eq_true, if_false]
    rw [hdrop] at hf ⊢
    simp only [List.length_cons] at hf
    by_cases hlast : i + 1 = k
    · have hcast : (L : Int) = ((L + 1 : Nat) : Int) - 1 := by omega
      obtain ⟨l1, b1, w1, hnl, hit⟩ := iterate_after_next_level ctx last hl hi bbc fuel IH
        (L + 1) (bp >>> L) (by omega) (by rw [if_pos (by omega), Nat.shiftRight_add])
        (out ++ [(Lv.items[i], 2 ^ (L + 1))]) (by omega)
      rw [← hcast] at hnl
      rw [next_level_last bb Ls L i k bbc _ _ hlast ctx.k_lt l1 b1 w1 hnl]
      simp only
      rw [hit]
      have hnil : Lv.items.drop (i + 1) = [] := List.drop_eq_nil_of_le (by omega)
      rw [hnil]
      simp
    · rw [next_level_same bb Ls L i k bbc _ _ (by omega) ctx.k_lt]
      simp only
      rw [IH L (i + 1) _ Lv hget hbit (by omega) (by omega)]
      simp only [List.map_cons, List.append_assoc, List.cons_append, List.nil_append]

/-- The traversal from a position in the base buffer yields the rest of the
base buffer and then the levels; `last` is `end()`. -/
theorem iterate_base_phase {lt : T → T → Bool} {k bp : Nat} {bb : Level T}
    {Ls : List (Level T)} (ctx : IterOK lt k bp bb Ls) (last : const_iterator T)
    (hlast : (Ls = [] ∧ last.level_ = -1 ∧ last.index_ = bb.items.length) ∨
      (Ls ≠ [] ∧ last.level_ = (Ls.length : Int) ∧ last.index_ = 0)) (bbc : Nat) :
    ∀ (fuel i : Nat) (out : List (T × Nat)), i < bb.items.length →
      (bb.items.drop i).length + (level_items_weighted 0 Ls).length < fuel →
      iterate_loop last fuel ⟨bb, Ls, -1, i, k, bbc, bp, 1⟩ out =
        Except.ok (out ++ ((bb.items.drop i).map (fun x => (x, 1)) ++
          level_items_weighted 0 Ls))
  | 0, i, out, _, hf => by omega
  | fuel + 1, i, out, hi, hf => by
    have hx : bb.items[i]? = some bb.items[i] := List.getElem?_eq_getElem hi
    have hdrop : bb.items.drop i = bb.items[i] :: bb.items.drop (i + 1) :=
      List.drop_eq_getElem_cons hi
    have hbb := ctx.bb_lt
    rw [iterate_loop_succ]
    have hne : (⟨bb, Ls, -1, i, k, bbc, bp, 1⟩ : const_iterator T).equals last = false := by
      simp only [const_iterator.equals, Bool.and_eq_false_imp, beq_iff_eq]
      rcases hlast with ⟨-, h1, h2⟩ | ⟨-, h1, -⟩
      · intro _
        rw [h2]
        simp only [beq_eq_false_iff_ne, ne_eq]
        omega
      · intro h
        rw [h1] at h
        omega
    rw [hne, deref_base bb Ls i k bbc _ _ _ hx]
    simp only [Bool.false_eq_true, if_false]
    rw [hdrop] at hf ⊢
    simp only [List.length_cons] at hf
    by_cases hend : i + 1 = bb.items.length
    · have hnil : bb.items.drop (i + 1) = [] := List.drop_eq_nil_of_le (by omega)
      rw [hnil] at hf ⊢
      rcases hlast with ⟨h0, h1, h2⟩ | ⟨h0, h1, h2⟩
      · subst h0
        rw [next_base_same bb [] i k bbc _ _ (by simp) (by omega)]
        simp only
        obtain ⟨f, rfl⟩ : ∃ f, fuel = f + 1 := ⟨fuel - 1, by omega⟩
        rw [iterate_loop_succ]
        have : (⟨bb, [], -1, i + 1, k, bbc, bp, 1⟩ : const_iterator T).equals last = true := by
          simp [const_iterator.equals, h1, h2, hend]
        rw [if_pos this]
        simp [level_items_weighted]
      · have hpos : Ls.length > 0 := List.length_pos.mpr h0
        obtain ⟨l1, b1, w1, hnl, hit⟩ := iterate_after_next_level ctx last h1 h2 bbc fuel
          (iterate_level_phase ctx last h1 h2 bbc fuel) 0 bp (by omega) (by simp)
          (out ++ [(bb.items[i], 1)]) (by
            simp only [List.length_nil] at hf
            rw [List.drop_zero]
            omega)
        have hcast : ((0 : Nat) : Int) - 1 = -1 := by norm_num
        rw [hcast, pow_zero] at hnl
        rw [next_base_last bb Ls i k bbc _ _ (by simpa [Level.size] using hend) hpos (by omega)
          l1 b1 w1 hnl]
        simp only
        rw [hit]
        simp
    · rw [next_base_same bb Ls i k bbc _ _ (by
        intro h; exact hend (by simpa [Level.size] using h.1)) (by omega)]
      simp only
      rw [iterate_base_phase ctx last hlast bbc fuel (i + 1) _ (by omega) (by omega)]
      simp only [List.map_cons, List.append_assoc, List.cons_append, List.nil_append]

/-- On levels that agree with the pattern, the occupied levels in ascending
order are all the items of the levels. -/
theorem levels_in_order_eq {lt : T → T → Bool} {k bp : Nat} {Ls : List (Level T)}
    (hok : LevelsOK lt k bp Ls) (hlen : Ls.length = Nat.size bp) :
    ∀ (count i : Nat), Ls.length ≤ i + count →
      levels_in_order k bp Ls i count = level_items_weighted i (Ls.drop i)
  | 0, i, h => by
    rw [levels_in_order, List.drop_eq_nil_of_le (by omega)]
    rfl
  | count + 1, i, h => by
    rw [levels_in_order, levels_in_order_eq hok hlen count (i + 1) (by omega)]
    by_cases hi : i < Ls.length
    · have hget : Ls[i]? = some Ls[i] := List.getElem?_eq_getElem hi
      obtain ⟨-, h1, h0⟩ := hok i Ls[i] hget
      rw [level_items_weighted_drop Ls i Ls[i] hget]
      congr 1
      have hgetD : Ls.getD i Level.empty = Ls[i] := by
        rw [List.getD_eq_getElem?_getD, hget]; rfl
      cases hb : bp.testBit i
      · simp [h0 hb]
      · simp only [if_true, hgetD]
        rw [List.take_of_length_le (by rw [(h1 hb).1])]
    · have hb : bp.testBit i = false := testBit_of_size_le (by omega)
      rw [hb, List.drop_eq_nil_of_le (by omega), List.drop_eq_nil_of_le (by omega)]
      rfl

/-- What `update` maintains is enough for the traversal. -/
theorem IterOK_of_Inv {lt : T → T → Bool} {k : Nat} {acc : List T} {s : quantiles_sketch T}
    (hinv : Inv lt k acc s) (hk2 : k ≤ 32768) :
    IterOK lt k s.bit_pattern_ s.base_buffer_ s.levels_ where
  k_pos := by have := hinv.k_ge; omega
  k_lt := by unfold U32; omega
  lv_len := hinv.lv_len
  lv_ok := hinv.lv_ok
  lv_le := levels_length_le hinv
  bb_lt := by
    rw [hinv.bb_len]
    have := hinv.k_ge
    have : s.n_ % (2 * k) < 2 * k := Nat.mod_lt _ (by omega)
    unfold U32
    omega

/-- On a sketch reached by updates the traversal from `begin()` to `end()`
yields the weighted items, within as many turns as there are items, plus
one. -/
theorem iterate_spec {lt : T → T → Bool} {k : Nat} {acc : List T} {s : quantiles_sketch T}
    (hinv : Inv lt k acc s) (hk2 : k ≤ 32768) (fuel : Nat)
    (hf : (weighted_items s).length < fuel) :
    iterate s fuel = Except.ok (weighted_items s) := by
  have ctx := IterOK_of_Inv hinv hk2
  have hk := hinv.k_ge
  have h2k : ¬ (2 * k = 0) := by omega
  have hmod : s.n_ % (2 * k) < 2 * k := Nat.mod_lt _ (by omega)
  have hb32 : s.n_ % (2 * k) % U32 = s.n_ % (2 * k) :=
    Nat.mod_eq_of_lt (by unfold U32; omega)
  unfold iterate quantiles_sketch.begin quantiles_sketch.end const_iterator.new
    compute_base_buffer_items compute_bit_pattern
  rw [hinv.k_eq]
  simp only [h2k, if_false, bind, Except.bind, pure, Except.pure, if_true, Bool.false_eq_true,
    hb32, ← hinv.bp_eq, ← hinv.bb_len]
  unfold weighted_items at hf ⊢
  have hbb32 : s.base_buffer_.items.length % U32 = s.base_buffer_.items.length :=
    Nat.mod_eq_of_lt ctx.bb_lt
  rw [hbb32]
  obtain ⟨f, rfl⟩ : ∃ f, fuel = f + 1 := ⟨fuel - 1, by omega⟩
  by_cases hbp : s.bit_pattern_ = 0
  · -- exact mode: no levels, the end is at index `n`
    have hLs : s.levels_ = [] := by
      have := hinv.lv_len
      rw [hbp, Nat.size_zero] at this
      exact List.length_eq_zero.mp this
    have hn : s.n_ % U32 = s.base_buffer_.items.length := by
      have h1 := hinv.bp_eq
      rw [hbp] at h1
      have h2 : s.n_ < 2 * k := by
        by_contra hc
        have : 0 < s.n_ / (2 * k) := Nat.div_pos (by omega) (by omega)
        omega
      rw [hinv.bb_len, Nat.mod_eq_of_lt h2, Nat.mod_eq_of_lt (by unfold U32; omega)]
    have hc : ¬ (s.base_buffer_.items.length = 0 ∧ s.bit_pattern_ > 0) := by
      rw [hbp]; simp
    rw [if_neg hc, if_pos hbp, hn]
    simp only
    by_cases hempty : s.base_buffer_.items.length = 0
    · rw [iterate_loop_succ]
      have heq : (⟨s.base_buffer_, s.levels_, -1, 0, k, s.base_buffer_.items.length,
          s.bit_pattern_, 1⟩ : const_iterator T).equals
          ⟨s.base_buffer_, s.levels_, -1, s.base_buffer_.items.length, k,
            s.base_buffer_.items.length, s.bit_pattern_, 1⟩ = true := by
        simp [const_iterator.equals, hempty]
      rw [if_pos heq, List.length_eq_zero.mp hempty, hLs]
      rfl
    · have := iterate_base_phase ctx
        (⟨s.base_buffer_, s.levels_, -1, s.base_buffer_.items.length, k,
            s.base_buffer_.items.length, s.bit_pattern_, 1⟩ : const_iterator T)
        (Or.inl ⟨hLs, rfl, rfl⟩) s.base_buffer_.items.length (f + 1) 0 [] (by omega)
        (by simpa using hf)
      rw [this]
      simp
  · -- estimation mode: the end is past the last level
    have hpos : s.bit_pattern_ > 0 := by omega
    have hLs : s.levels_ ≠ [] := by
      intro h0
      have := hinv.lv_len
      rw [h0, List.length_nil] at this
      exact hbp (Nat.size_eq_zero.mp this.symm)
    rw [if_neg hbp]
    by_cases hempty : s.base_buffer_.items.length = 0
    · rw [if_pos ⟨hempty, hpos⟩]
      obtain ⟨m', -, h2, h3, h4, h5⟩ := first_level_loop_spec s.bit_pattern_ s.levels_.length
        hinv.lv_len ctx.lv_le 64 0 (by have := ctx.lv_le; omega)
        (List.length_pos.mpr hLs)
      simp only [Nat.cast_zero, Nat.shiftRight_zero, Nat.zero_add, pow_one] at h5
      rw [h5]
      simp only
      have hget : s.levels_[m']? = some s.levels_[m'] := List.getElem?_eq_getElem h2
      have hskip := level_items_weighted_skip ctx.lv_ok m' 0 (by omega)
        (fun j hj1 hj2 => h3 j hj1 (by omega))
      rw [List.drop_zero, Nat.zero_add] at hskip
      rw [List.length_eq_zero.mp hempty, List.map_nil, List.nil_append] at hf ⊢
      rw [hskip, level_items_weighted_drop s.levels_ m' _ hget] at hf ⊢
      have := iterate_level_phase ctx
        (⟨s.base_buffer_, s.levels_, (s.levels_.length : Int), 0, k,
          ([] : List T).length, s.bit_pattern_, 1⟩ : const_iterator T) rfl rfl
        ([] : List T).length (f + 1) m' 0 [] s.levels_[m'] hget h4 ctx.k_pos (by
          simpa using hf)
      rw [this]
      simp
    · have hc : ¬ (s.base_buffer_.items.length = 0 ∧ s.bit_pattern_ > 0) := by
        intro h; exact hempty h.1
      rw [if_neg hc]
      simp only
      have := iterate_base_phase ctx
        (⟨s.base_buffer_, s.levels_, (s.levels_.length : Int), 0, k,
            s.base_buffer_.items.length, s.bit_pattern_, 1⟩ : const_iterator T)
        (Or.inr ⟨hLs, rfl, rfl⟩) s.base_buffer_.items.length (f + 1) 0 [] (by omega)
        (by simpa using hf)
      rw [this]
      simp

/-- On a sketch reached by updates the order of the traversal is the list of
all weighted items. -/
theorem iteration_order_eq {lt : T → T → Bool} {k : Nat} {acc : List T}
    {s : quantiles_sketch T} (hinv : Inv lt k acc s) :
    iteration_order s = weighted_items s := by
  unfold iteration_order weighted_items
  rw [hinv.k_eq, levels_in_order_eq hinv.lv_ok hinv.lv_len 64 0
    (by have := levels_length_le hinv; omega), List.drop_zero]

/-- On an empty sketch `begin()` equals `end()`. -/
theorem begin_eq_end_of_empty (s : quantiles_sketch T) (hk : s.k_ ≠ 0) (hn : s.n_ = 0) :
    ∃ first last, s.begin = Except.ok first ∧ s.end = Except.ok last ∧
      first.equals last = true := by
  unfold quantiles_sketch.begin quantiles_sketch.end const_iterator.new
    compute_base_buffer_items compute_bit_pattern
  have h2k : ¬ (2 * s.k_ = 0) := by omega
  simp only [h2k, if_false, bind, Except.bind, pure, Except.pure, hn, Nat.zero_mod,
    Nat.zero_div, if_true, Bool.false_eq_true, gt_iff_lt, lt_self_iff_false, and_false]
  exact ⟨_, _, rfl, rfl, by simp [const_iterator.equals]⟩

end IteratorLemmas

section MergeTies
variable {T : Type}

theorem tens_lt_strict_weak_order : StrictWeakOrder tens_lt := by
  constructor
  · intro a; simp [tens_lt]
  · intro a b c; simp only [tens_lt, decide_eq_true_eq]; omega
  · intro a b c; simp only [tens_lt, decide_eq_false_iff_not]; omega

/-- In the merge, an item of the first list that stands before an item of the
second list is less than it; `tag` tells the items of the two lists apart. -/
theorem merge_items_first_before_second {lt : T → T → Bool} (hlt : StrictWeakOrder lt)
    (tag : T → Bool) : ∀ (l1 l2 : List T), SortedUnder lt l2 →
    (∀ x ∈ l1, tag x = false) → (∀ x ∈ l2, tag x = true) →
    (merge_items lt l1 l2).Pairwise (fun p q => tag p = false → tag q = true → lt p q = true)
  | [], l2, _, _, h2 => by
    rw [merge_items_nil_left]
    refine List.Pairwise.imp_of_mem ?_ (List.pairwise_of_forall (R := fun _ _ => True)
      (l := l2) (fun _ _ => trivial))
    intro p q hp _ _ hpf
    rw [h2 p hp] at hpf
    simp at hpf
  | a :: l1, [], _, h1, _ => by
    rw [merge_items_nil_right]
    refine List.Pairwise.imp_of_mem ?_ (List.pairwise_of_forall (R := fun _ _ => True)
      (l := a :: l1) (fun _ _ => trivial))
    intro p q _ hq _ _ hqt
    rw [h1 q hq] at hqt
    simp at hqt
  | a :: l1, b :: l2, hs2, h1, h2 => by
    rw [merge_items_cons]
    by_cases hab : lt a b = true
    · rw [if_pos hab]
      refine List.Pairwise.cons ?_
        (merge_items_first_before_second hlt tag l1 (b :: l2) hs2
          (fun x hx => h1 x (List.mem_cons_of_mem _ hx)) h2)
      intro q hq _ hqt
      rcases mem_merge_items.mp hq with hq | hq
      · rw [h1 q (List.mem_cons_of_mem _ hq)] at hqt
        simp at hqt
      · rcases List.mem_cons.mp hq with hq | hq
        · rw [hq]; exact hab
        · exact hlt.lt_of_lt_of_le hab (List.rel_of_pairwise_cons hs2 hq)
    · rw [if_neg hab]
      refine List.Pairwise.cons ?_
        (merge_items_first_before_second hlt tag (a :: l1) l2 (List.Pairwise.of_cons hs2) h1
          (fun x hx => h2 x (List.mem_cons_of_mem _ hx)))
      intro q _ hbf
      rw [h2 b (List.mem_cons_self _ _)] at hbf
      simp at hbf
termination_by l1 l2 => l1.length + l2.length

end MergeTies

section LevelsNeeded

theorem size_eq_clog (x : Nat) : Nat.size x = Nat.clog 2 (x + 1) := by
  apply le_antisymm
  · rw [Nat.size_le]
    have := Nat.le_pow_clog (b := 2) (by norm_num) (x + 1)
    omega
  · rw [← Nat.le_pow_iff_clog_le (by norm_num)]
    have := Nat.lt_size_self x
    omega

end LevelsNeeded

section UpdateSteps3
variable {T : Type}

/-- A `process_full_base_buffer()` that returns leaves the base buffer empty
and the flag set. -/
theorem process_full_base_buffer_returns (lt : T → T → Bool) (rnd : Nat → Bool) (pos : Nat)
    (S s1 : quantiles_sketch T) (pos1 : Nat)
    (h : process_full_base_buffer lt rnd pos S = Except.ok (s1, pos1)) :
    s1.base_buffer_.items = [] ∧ s1.is_sorted_ = true := by
  unfold process_full_base_buffer at h
  split at h
  · cases h
  · dsimp only at h
    split at h
    · cases h
    · split at h
      · cases h
      · split at h
        · injection h with h
          injection h with h1 h2
          rw [← h1]
          exact ⟨rfl, rfl⟩
        · cases h

/-- One accepted `update` on a reachable state: either the base buffer is not
full afterwards and the state is the pushed sketch, or it is full and
`process_full_base_buffer` leaves an empty base buffer with the flag set. -/
theorem update_valid_step {lt : T → T → Bool} (hlt : StrictWeakOrder lt) (valid : T → Bool)
    (rnd : Nat → Bool) (k : Nat) (acc : List T) (s : quantiles_sketch T) (pos : Nat) (x : T)
    (hinv : Inv lt k acc s) (hv : valid x = true) (hn : acc.length + 1 < U64) :
    ∃ s1 pos1 mn mx, update lt valid rnd (s, pos) x = Except.ok (s1, pos1) ∧
      Inv lt k (acc ++ [x]) s1 ∧
      ((s.base_buffer_.items.length + 1 ≠ 2 * k ∧ s1 = pushed_sketch s mn mx x ∧ pos1 = pos) ∨
       (s.base_buffer_.items.length + 1 = 2 * k ∧
        process_full_base_buffer lt rnd pos (pushed_sketch s mn mx x) = Except.ok (s1, pos1) ∧
        s1.base_buffer_.items = [] ∧ s1.is_sorted_ = true)) := by
  obtain ⟨s1, pos1, hu, hinv1⟩ := update_valid_inv hlt valid rnd k acc s pos x hinv hv hn
  obtain ⟨mn, mx, hmm, -, -, -, -⟩ := update_minmax hlt hinv x
  refine ⟨s1, pos1, mn, mx, hu, hinv1, ?_⟩
  have hkeq := hinv.k_eq
  subst hkeq
  have hu2 := update_eq lt valid rnd s pos x mn mx hv hmm
  rw [hu] at hu2
  have hk2 := hinv.k_ge
  have hkpos : 0 < 2 * s.k_ := by omega
  have hitems : (pushed_sketch s mn mx x).base_buffer_.items = s.base_buffer_.items ++ [x] :=
    pushed_buffer_items _ _ _
  have hsize : (pushed_sketch s mn mx x).base_buffer_.size = s.base_buffer_.items.length + 1 := by
    simp [Level.size, hitems]
  rw [hsize] at hu2
  by_cases hfull : s.base_buffer_.items.length + 1 = 2 * s.k_
  · rw [if_pos hfull] at hu2
    refine Or.inr ⟨hfull, hu2.symm, ?_, ?_⟩
    · have h1 := hinv1.bb_len
      have h2 := hinv1.n_eq
      have hfull2 : acc.length % (2 * s.k_) + 1 = 2 * s.k_ := by
        rw [← hinv.n_eq, ← hinv.bb_len]; exact hfull
      obtain ⟨-, hm⟩ := div_mod_succ_full acc.length (2 * s.k_) hkpos hfull2
      rw [h2] at h1
      simp only [List.length_append, List.length_cons, List.length_nil] at h1
      rw [hm] at h1
      exact List.length_eq_zero.mp h1
    · exact (process_full_base_buffer_returns lt rnd pos _ s1 pos1 hu2.symm).2
  · rw [if_neg hfull] at hu2
    injection hu2 with hu2
    injection hu2 with h1 h2
    exact Or.inl ⟨hfull, h1, h2⟩

/-- In a reachable state the flag is set exactly when the base buffer has at
most one item. -/
theorem update_all_flag {lt : T → T → Bool} (hlt : StrictWeakOrder lt) (valid : T → Bool)
    (rnd : Nat → Bool) (k : Nat) :
    ∀ (xs acc : List T) (s : quantiles_sketch T) (pos : Nat), Inv lt k acc s →
      (s.base_buffer_.items.length ≤ 1 → s.is_sorted_ = true) →
      (acc ++ xs.filter valid).length < U64 →
      ∃ s1 pos1, update_all lt valid rnd (s, pos) xs = Except.ok (s1, pos1) ∧
        Inv lt k (acc ++ xs.filter valid) s1 ∧
        (s1.base_buffer_.items.length ≤ 1 → s1.is_sorted_ = true)
  | [], acc, s, pos, hinv, hflag, _ => ⟨s, pos, rfl, by simpa using hinv, hflag⟩
  | x :: xs, acc, s, pos, hinv, hflag, hn => by
    unfold update_all
    by_cases hv : valid x = true
    · have hf : (x :: xs).filter valid = x :: xs.filter valid := by simp [hv]
      rw [hf] at hn ⊢
      have hn1 : acc.length + 1 < U64 := by
        simp only [List.length_append, List.length_cons] at hn; omega
      obtain ⟨s1, pos1, mn, mx, hu, hinv1, hcase⟩ :=
        update_valid_step hlt valid rnd k acc s pos x hinv hv hn1
      rw [hu]
      simp only
      have hacc : acc ++ x :: xs.filter valid = (acc ++ [x]) ++ xs.filter valid := by simp
      rw [hacc] at hn ⊢
      refine update_all_flag hlt valid rnd k xs (acc ++ [x]) s1 pos1 hinv1 ?_ hn
      rcases hcase with ⟨-, hs1, -⟩ | ⟨-, -, -, hs⟩
      · intro hlen
        rw [hs1] at hlen ⊢
        have hitems : (pushed_sketch s mn mx x).base_buffer_.items =
            s.base_buffer_.items ++ [x] := pushed_buffer_items _ _ _
        rw [hitems] at hlen
        simp only [List.length_append, List.length_cons, List.length_nil] at hlen
        have hsz : (pushed_buffer s.k_ s.base_buffer_ x).size = s.base_buffer_.items.length + 1 := by
          simp [Level.size, pushed_buffer_items]
        simp only [pushed_sketch, hsz]
        rw [if_neg (by omega)]
        exact hflag (by omega)
      · exact fun _ => hs
    · have hv2 : valid x = false := by simpa using hv
      have hf : (x :: xs).filter valid = xs.filter valid := by simp [hv2]
      rw [hf] at hn ⊢
      rw [update_invalid lt valid rnd (s, pos) x hv2]
      simp only
      exact update_all_flag hlt valid rnd k xs acc s pos hinv hflag hn

theorem build_flag {lt : T → T → Bool} (hlt : StrictWeakOrder lt) (valid : T → Bool)
    (rnd : Nat → Bool) (k : Nat) (xs : List T) (h1 : 2 ≤ k) (h2 : k ≤ 32768)
    (hn : (xs.filter valid).length < U64) :
    ∃ s, build lt valid rnd k xs = Except.ok s ∧ Inv lt k (xs.filter valid) s ∧
      (s.is_sorted_ = true ↔ s.base_buffer_.items.length ≤ 1) := by
  obtain ⟨s0, hs0, hinv0, -, hflag0⟩ := Inv_new (T := T) lt k h1 h2
  obtain ⟨s1, pos1, hu, hinv1, hflag1⟩ :=
    update_all_flag hlt valid rnd k xs [] s0 0 hinv0 (fun _ => hflag0) (by simpa using hn)
  refine ⟨s1, ?_, by simpa using hinv1, ⟨hinv1.sorted_flag, hflag1⟩⟩
  unfold build
  rw [hs0]
  simp only [hu]

end UpdateSteps3

section FirstCompaction
variable {T : Type}

theorem every_other_getElem? : ∀ (l : List T) (i : Nat), (every_other l)[i]? = l[2 * i]?
  | [], i => by simp [every_other]
  | [a], i => by
    cases i with
    | zero => simp [every_other]
    | succ i =>
      simp only [every_other, List.getElem?_cons_succ, List.getElem?_nil]
      rw [List.getElem?_eq_none (by simp; omega)]
  | a :: b :: r, i => by
    cases i with
    | zero => simp [every_other]
    | succ i =>
      have h2 : 2 * (i + 1) = 2 * i + 1 + 1 := by ring
      simp only [every_other, List.getElem?_cons_succ, h2]
      exact every_other_getElem? r i

theorem lowest_zero_bit_of_zero : lowest_zero_bit_starting_at 0 0 = 0 := by decide

/-- The first compaction: with no level yet and a full base buffer,
`process_full_base_buffer()` makes level 0 out of every other item of the
sorted base buffer, from the offset that the random bit gives. -/
theorem process_full_base_buffer_first (lt : T → T → Bool) (rnd : Nat → Bool) (pos k : Nat)
    (hk : 0 < k) (S : quantiles_sketch T) (hSk : S.k_ = k) (hn : S.n_ = 2 * k)
    (hlt64 : 2 * k < U64) (hbp : S.bit_pattern_ = 0) (hlv : S.levels_ = [])
    (hbl : S.base_buffer_.items.length = 2 * k) :
    process_full_base_buffer lt rnd pos S =
      Except.ok ({ S with
        base_buffer_ := ⟨[], S.base_buffer_.capacity⟩,
        levels_ := [⟨every_other ((std_sort lt S.base_buffer_).items.drop
          (if rnd pos then 1 else 0)), k⟩],
        bit_pattern_ := 1, is_sorted_ := true }, pos + 1) := by
  subst hSk
  have hsz : Nat.size ((2 * S.k_) / (2 * S.k_)) = 1 := by
    rw [Nat.div_self (by omega)]; simp [Nat.size]
  unfold process_full_base_buffer grow_levels_if_needed
  rw [hn, compute_levels_needed_ok S.k_ (2 * S.k_) hk hlt64, hsz, hlv]
  simp only [List.length_nil, Nat.le_zero_eq, one_ne_zero, if_false, List.nil_append]
  unfold in_place_propagate_carry
  simp only [hbp, lowest_zero_bit_of_zero, List.getElem?_cons_zero, if_true, Nat.sub_self]
  rw [zip_buffer_spec rnd pos (std_sort lt S.base_buffer_) (Level.empty.reserve S.k_)
    (by rw [std_sort_length, hbl]; simp [Level.reserve, Level.empty]) rfl]
  simp only [carry_loop, List.set_cons_zero]
  have h1 : (0 + 1 <<< 0 % U64) % U64 = 1 := by decide
  rw [h1, Nat.div_self (by omega)]
  simp [Level.clear, Level.reserve, Level.empty, std_sort_capacity]

theorem update_all_append (lt : T → T → Bool) (valid : T → Bool) (rnd : Nat → Bool) :
    ∀ (xs ys : List T) (st : quantiles_sketch T × Nat),
    update_all lt valid rnd st (xs ++ ys) =
      match update_all lt valid rnd st xs with
      | Except.error e => Except.error e
      | Except.ok st1 => update_all lt valid rnd st1 ys
  | [], ys, st => by simp [update_all]
  | x :: xs, ys, st => by
    simp only [List.cons_append, update_all]
    cases update lt valid rnd st x with
    | error e => rfl
    | ok st1 => exact update_all_append lt valid rnd xs ys st1

/-- While the base buffer does not fill up, the accepted items are appended to
it and nothing else happens: no level is made and no random bit is read. -/
theorem update_all_below_full {lt : T → T → Bool} (hlt : StrictWeakOrder lt) (valid : T → Bool)
    (rnd : Nat → Bool) (k : Nat) :
    ∀ (xs acc : List T) (s : quantiles_sketch T) (pos : Nat), Inv lt k acc s →
      s.base_buffer_.items = acc → s.levels_ = [] → (∀ x ∈ xs, valid x = true) →
      acc.length + xs.length < 2 * k → 2 * k < U64 →
      ∃ s1, update_all lt valid rnd (s, pos) xs = Except.ok (s1, pos) ∧
        Inv lt k (acc ++ xs) s1 ∧ s1.base_buffer_.items = acc ++ xs ∧ s1.levels_ = []
  | [], acc, s, pos, hinv, hbb, hlv, _, _, _ =>
    ⟨s, rfl, by simpa using hinv, by simpa using hbb, hlv⟩
  | x :: xs, acc, s, pos, hinv, hbb, hlv, hv, hlen, hk => by
    unfold update_all
    simp only [List.length_cons] at hlen
    obtain ⟨s1, pos1, mn, mx, hu, hinv1, hcase⟩ :=
      update_valid_step hlt valid rnd k acc s pos x hinv (hv x (List.mem_cons_self _ _))
        (by omega)
    rw [hu]
    simp only
    have hacc : acc ++ x :: xs = (acc ++ [x]) ++ xs := by simp
    rw [hacc]
    rcases hcase with ⟨-, hs1, hp⟩ | ⟨hfull, -⟩
    · subst hp
      refine update_all_below_full hlt valid rnd k xs (acc ++ [x]) s1 pos1 hinv1 ?_ ?_
        (fun y hy => hv y (List.mem_cons_of_mem _ hy)) (by simp; omega) hk
      · rw [hs1, ← hbb]; exact pushed_buffer_items _ _ _
      · rw [hs1]; exact hlv
    · rw [hbb] at hfull; omega

end FirstCompaction

section SublistPairs

theorem pair_sublist_of_mem {α : Type} {x y : α} (hne : x ≠ y) :
    ∀ (l : List α), x ∈ l → y ∈ l → [x, y].Sublist l ∨ [y, x].Sublist l
  | [], hx, _ => by simp at hx
  | c :: l, hx, hy => by
    by_cases hxc : x = c
    · subst hxc
      have hy2 : y ∈ l := by
        rcases List.mem_cons.mp hy with h | h
        · exact absurd h.symm hne
        · exact h
      exact Or.inl (List.Sublist.cons₂ x (List.singleton_sublist.mpr hy2))
    · by_cases hyc : y = c
      · subst hyc
        have hx2 : x ∈ l := by
          rcases List.mem_cons.mp hx with h | h
          · exact absurd h hxc
          · exact h
        exact Or.inr (List.Sublist.cons₂ y (List.singleton_sublist.mpr hx2))
      · have hx2 : x ∈ l := by
          rcases List.mem_cons.mp hx with h | h
          · exact absurd h hxc
          · exact h
        have hy2 : y ∈ l := by
          rcases List.mem_cons.mp hy with h | h
          · exact absurd h hyc
          · exact h
        rcases pair_sublist_of_mem hne l hx2 hy2 with h | h
        · exact Or.inl (List.Sublist.cons c h)
        · exact Or.inr (List.Sublist.cons c h)

end SublistPairs

section DeserializeAnalysis
variable {T : Type}

theorem copy_from_mem_one (a : Nat) (l : List Nat) :
    copy_from_mem 1 (a :: l) = Except.ok (a, l) := by
  simp [copy_from_mem, le_value]

theorem copy_from_mem_two (a b : Nat) (l : List Nat) :
    copy_from_mem 2 (a :: b :: l) = Except.ok (a + 256 * b, l) := by
  simp [copy_from_mem, le_value]

theorem compute_base_buffer_items_returns (k n r : Nat)
    (h : compute_base_buffer_items k n = Except.ok r) : k ≠ 0 ∧ r = n % (2 * k) := by
  unfold compute_base_buffer_items at h
  split at h
  · cases h
  · injection h with h
    exact ⟨by omega, h.symm⟩

theorem deserialize_array_returns (serde : SerDe T) (is : List Nat) (num_items capacity : Nat)
    (v : Level T × List Nat) (h : deserialize_array serde is num_items capacity = Except.ok v) :
    serde.deserialize is num_items = some (v.1.items, v.2) := by
  unfold deserialize_array at h
  split at h
  · cases h
  · rename_i items is1 heq
    injection h with h
    rw [← h, heq]
    simp [Level.insert_end, Level.reserve, Level.empty]

theorem deserialize_array_bytes_returns (serde : SerDe T) (mem : List Nat)
    (num_items capacity : Nat) (v : Level T × List Nat)
    (h : deserialize_array_bytes serde mem num_items capacity = Except.ok v) :
    serde.deserialize mem num_items = some (v.1.items, v.2) := by
  unfold deserialize_array_bytes at h
  split at h
  · cases h
  · rename_i items is1 heq
    injection h with h
    rw [← h, heq]
    simp [Level.insert_end, Level.reserve, Level.empty]

/-- What a `deserialize` from a stream that returns has read: the eight bytes
of the preamble; for an image with the flag `IS_EMPTY` the result is that of
the public constructor, and otherwise `k_` is the `k` of the image, whatever
it is apart from zero, and the base buffer holds the items of one read of
`n mod 2k` items for a compact image and of `2k` items for any other. -/
theorem deserialize_returns (c : Constants) (serde : SerDe T) (is : List Nat)
    (s : quantiles_sketch T) (h : deserialize c serde is = Except.ok s) :
    ∃ preamble_longs serial_version family_id flags_byte k0 k1 u0 u1 rest,
      is = preamble_longs :: serial_version :: family_id :: flags_byte :: k0 :: k1 :: u0 :: u1 ::
        rest ∧
      (header_empty c flags_byte = true → quantiles_sketch.new (k0 + 256 * k1) = Except.ok s) ∧
      (header_empty c flags_byte = false →
        s.k_ = k0 + 256 * k1 ∧ s.k_ ≠ 0 ∧
        ∃ mem mem1,
          serde.deserialize mem
            (if header_compact c flags_byte then s.n_ % (2 * s.k_) else 2 * s.k_) =
              some (s.base_buffer_.items, mem1)) := by
  rcases is with _ | ⟨b0, _ | ⟨b1, _ | ⟨b2, _ | ⟨b3, _ | ⟨b4, _ | ⟨b5, _ | ⟨b6, _ | ⟨b7, rest⟩⟩⟩⟩⟩⟩⟩⟩
  case cons.cons.cons.cons.cons.cons.cons.cons =>
    refine ⟨b0, b1, b2, b3, b4, b5, b6, b7, rest, rfl, ?_⟩
    unfold deserialize at h
    simp only [read_one, read_two, bind, Except.bind] at h
    split at h
    · cases h
    split at h
    · cases h
    split at h
    · cases h
    simp only [header_empty, header_compact]
    by_cases he : b3 &&& 1 <<< c.IS_EMPTY > 0
    · simp only [he, decide_True, if_true] at h
      simp only [he, decide_True, true_implies, Bool.true_eq_false, false_implies, and_true]
      exact h
    · simp only [he, decide_False, Bool.false_eq_true, if_false] at h
      simp only [he, decide_False, Bool.false_eq_true, false_implies, true_implies, true_and]
      split at h
      · cases h
      split at h
      · cases h
      split at h
      · cases h
      split at h
      · cases h
      split at h
      · cases h
      split at h
      · cases h
      split at h
      · cases h
      split at h
      · cases h
      rename_i _ vn _ _ _ _ _ vmax _ _ _ _ _ _ _ _ vbb hbb _ va ha _ _ _
      simp only [pure, Except.pure] at h
      injection h with h
      subst h
      obtain ⟨hk, hr⟩ := compute_base_buffer_items_returns _ _ _ hbb
      refine ⟨rfl, hk, vmax.2, va.2, ?_⟩
      have := deserialize_array_returns serde _ _ _ va ha
      rw [hr] at this
      simpa only [decide_eq_true_eq] using this
  all_goals simp [deserialize, read, bind, Except.bind] at h

/-- The same for the `deserialize` from an array of bytes. -/
theorem deserialize_bytes_returns (c : Constants) (serde : SerDe T) (bytes : List Nat)
    (s : quantiles_sketch T) (h : deserialize_bytes c serde bytes = Except.ok s) :
    ∃ preamble_longs serial_version family_id flags_byte k0 k1 u0 u1 rest,
      bytes = preamble_longs :: serial_version :: family_id :: flags_byte :: k0 :: k1 :: u0 ::
        u1 :: rest ∧
      (header_empty c flags_byte = true → quantiles_sketch.new (k0 + 256 * k1) = Except.ok s) ∧
      (header_empty c flags_byte = false →
        s.k_ = k0 + 256 * k1 ∧ s.k_ ≠ 0 ∧
        ∃ mem mem1,
          serde.deserialize mem
            (if header_compact c flags_byte then s.n_ % (2 * s.k_) else 2 * s.k_) =
              some (s.base_buffer_.items, mem1)) := by
  rcases bytes with
    _ | ⟨b0, _ | ⟨b1, _ | ⟨b2, _ | ⟨b3, _ | ⟨b4, _ | ⟨b5, _ | ⟨b6, _ | ⟨b7, rest⟩⟩⟩⟩⟩⟩⟩⟩
  case cons.cons.cons.cons.cons.cons.cons.cons =>
    refine ⟨b0, b1, b2, b3, b4, b5, b6, b7, rest, rfl, ?_⟩
    unfold deserialize_bytes at h
    have hmem : ensure_minimum_memory
        (b0 :: b1 :: b2 :: b3 :: b4 :: b5 :: b6 :: b7 :: rest).length 8 = Except.ok () := by
      simp [ensure_minimum_memory]
    simp only [hmem, copy_from_mem_one, copy_from_mem_two, bind, Except.bind] at h
    split at h
    · cases h
    split at h
    · cases h
    split at h
    · cases h
    simp only [header_empty, header_compact]
    by_cases he : b3 &&& 1 <<< c.IS_EMPTY > 0
    · simp only [he, decide_True, if_true] at h
      simp only [he, decide_True, true_implies, Bool.true_eq_false, false_implies, and_true]
      exact h
    · simp only [he, decide_False, Bool.false_eq_true, if_false] at h
      simp only [he, decide_False, Bool.false_eq_true, false_implies, true_implies, true_and]
      split at h
      · cases h
      split at h
      · cases h
      split at h
      · cases h
      split at h
      · cases h
      split at h
      · cases h
      split at h
      · cases h
      split at h
      · cases h
      split at h
      · cases h
      split at h
      · cases h
      rename_i _ vn _ _ _ _ _ vmax _ _ _ _ _ _ _ _ vbb hbb _ va ha _ _ _
      simp only [pure, Except.pure] at h
      injection h with h
      subst h
      obtain ⟨hk, hr⟩ := compute_base_buffer_items_returns _ _ _ hbb
      refine ⟨rfl, hk, vmax.2, va.2, ?_⟩
      have := deserialize_array_bytes_returns serde _ _ _ va ha
      rw [hr] at this
      simpa only [decide_eq_true_eq] using this
  all_goals simp [deserialize_bytes, ensure_minimum_memory, bind, Except.bind] at h

end DeserializeAnalysis

section RippleCarry

/-- The loop of `lowest_zero_bit_starting_at` leaves by its own test: with `d`
ones below a zero bit in `my_bits`, any number of turns above `d` returns
`pos + d`. -/
theorem lowest_zero_bit_loop_exact : ∀ (d fuel b pos : Nat),
    (∀ j, j < d → b.testBit j = true) → b.testBit d = false → d < fuel →
    lowest_zero_bit_loop fuel b pos = pos + d
  | d, 0, _, _, _, _, hf => by omega
  | 0, fuel + 1, b, pos, _, hz, _ => by
    unfold lowest_zero_bit_loop
    rw [Nat.and_one_is_mod]
    rw [Nat.testBit_zero] at hz
    have : b % 2 = 0 := by
      have : ¬ (b % 2 = 1) := by simpa using hz
      omega
    rw [if_neg (by omega)]
    rfl
  | d + 1, fuel + 1, b, pos, hones, hz, hf => by
    unfold lowest_zero_bit_loop
    rw [Nat.and_one_is_mod]
    have h0 := hones 0 (by omega)
    rw [Nat.testBit_zero] at h0
    have h1 : b % 2 = 1 := by simpa using h0
    rw [if_pos (by omega)]
    rw [lowest_zero_bit_loop_exact d fuel (b >>> 1) (pos + 1)
      (fun j hj => by
        rw [Nat.testBit_shiftRight, Nat.add_comm]
        exact hones (j + 1) (by omega))
      (by rw [Nat.testBit_shiftRight, Nat.add_comm]; exact hz)
      (by omega)]
    omega

/-- The value of `lowest_zero_bit_starting_at(bits, starting_bit)` for a 64-bit
pattern with a zero bit at or above `starting_bit`: the least such position. -/
theorem lowest_zero_bit_starting_at_spec (bits s z : Nat) (hb : bits < U64) (hs : s < 64)
    (hsz : s ≤ z) (hz : bits.testBit z = false) :
    s ≤ lowest_zero_bit_starting_at bits s ∧ lowest_zero_bit_starting_at bits s ≤ z ∧
    bits.testBit (lowest_zero_bit_starting_at bits s) = false ∧
    (∀ j, s ≤ j → j < lowest_zero_bit_starting_at bits s → bits.testBit j = true) ∧
    (∀ fuel, lowest_zero_bit_starting_at bits s - s < fuel →
      lowest_zero_bit_loop fuel (bits >>> s) s = lowest_zero_bit_starting_at bits s) := by
  have hs3f : s &&& 0x3F = s := by
    have : (0x3F : Nat) = 2 ^ 6 - 1 := by norm_num
    rw [this, Nat.and_pow_two_sub_one_eq_mod]
    exact Nat.mod_eq_of_lt (by omega)
  have hlt : bits >>> s < 2 ^ 64 := by
    rw [Nat.shiftRight_eq_div_pow]
    exact lt_of_le_of_lt (Nat.div_le_self _ _) hb
  have hdef : lowest_zero_bit_starting_at bits s = lowest_zero_bit_loop 64 (bits >>> s) s := by
    unfold lowest_zero_bit_starting_at
    simp only [hs3f, Nat.mod_eq_of_lt hb]
  obtain ⟨h1, h2, h3⟩ := lowest_zero_bit_loop_spec 64 (bits >>> s) s hlt
  rw [← hdef] at h1 h2 h3
  set e := lowest_zero_bit_starting_at bits s with he
  rw [Nat.testBit_shiftRight] at h3
  have he3 : s + (e - s) = e := by omega
  rw [he3] at h3
  have hones : ∀ j, s ≤ j → j < e → bits.testBit j = true := by
    intro j hj1 hj2
    have := h2 (j - s) (by omega)
    rw [Nat.testBit_shiftRight] at this
    have e2 : s + (j - s) = j := by omega
    rw [e2] at this
    exact this
  have hez : e ≤ z := by
    by_contra hc
    have := hones z hsz (by omega)
    rw [hz] at this
    simp at this
  refine ⟨h1, hez, h3, hones, ?_⟩
  intro fuel hf
  rw [lowest_zero_bit_loop_exact (e - s) fuel (bits >>> s) s
    (fun j hj => by
      rw [Nat.testBit_shiftRight]
      exact hones (s + j) (by omega) (by omega))
    (by rw [Nat.testBit_shiftRight, he3]; exact h3) hf]
  omega

/-- Adding `2 ^ s` to a number with ones at the positions `s` to `e - 1` and a
zero at `e` clears those ones, sets bit `e` and leaves the other bits. -/
theorem testBit_add_two_pow (bits s e : Nat) (hse : s ≤ e)
    (hones : ∀ j, s ≤ j → j < e → bits.testBit j = true) (hz : bits.testBit e = false) (j : Nat) :
    (bits + 2 ^ s).testBit j =
      if j < s then bits.testBit j else if j < e then false else if j = e then true
      else bits.testBit j := by
  have hdec : bits + 2 ^ s = 2 ^ s * (bits >>> s + 1) + bits % 2 ^ s := by
    rw [Nat.shiftRight_eq_div_pow, Nat.mul_add, Nat.mul_one]
    have := Nat.div_add_mod bits (2 ^ s)
    omega
  have hlow : bits % 2 ^ s < 2 ^ s := Nat.mod_lt _ (Nat.two_pow_pos s)
  rw [hdec, Nat.testBit_mul_pow_two_add _ hlow]
  by_cases hjs : j < s
  · rw [if_pos hjs, if_pos hjs, Nat.testBit_mod_two_pow]
    simp [hjs]
  · rw [if_neg hjs, if_neg hjs]
    rw [testBit_succ_of_low_ones (e - s) (bits >>> s)
      (fun i hi => by
        rw [Nat.testBit_shiftRight]
        exact hones (s + i) (by omega) (by omega))
      (by
        rw [Nat.testBit_shiftRight]
        have : s + (e - s) = e := by omega
        rw [this]; exact hz)]
    rw [Nat.testBit_shiftRight]
    have e1 : s + (j - s) = j := by omega
    rw [e1]
    by_cases hje : j < e
    · rw [if_pos (by omega), if_pos hje]
    · rw [if_neg (by omega), if_neg hje]
      by_cases hjeq : j = e
      · rw [if_pos (by omega), if_pos hjeq]
      · rw [if_neg (by omega), if_neg hjeq]

/-- The carry does not leave the 64 bits when the zero bit is among them. -/
theorem add_two_pow_lt (bits s e : Nat) (hb : bits < U64) (hse : s ≤ e) (he : e < 64)
    (hones : ∀ j, s ≤ j → j < e → bits.testBit j = true) (hz : bits.testBit e = false) :
    bits + 2 ^ s < U64 := by
  apply Nat.lt_pow_two_of_testBit
  intro i hi
  rw [testBit_add_two_pow bits s e hse hones hz i, if_neg (by omega), if_neg (by omega),
    if_neg (by omega)]
  exact Nat.testBit_lt_two_pow (lt_of_lt_of_le hb (Nat.pow_le_pow_right (by norm_num) hi))

end RippleCarry

section WeightLemmas
variable {T : Type}

theorem levels_weight_eq_total_weight : ∀ (i : Nat) (Ls : List (Level T)),
    levels_weight i Ls = total_weight (level_items_weighted i Ls)
  | _, [] => by simp [levels_weight, level_items_weighted, total_weight]
  | i, L :: Ls => by
    rw [levels_weight, level_items_weighted, total_weight_append, total_weight_map_const,
      levels_weight_eq_total_weight (i + 1) Ls, Level.size, Nat.mul_comm]

theorem level_items_weighted_length : ∀ (i : Nat) (Ls : List (Level T)),
    (level_items_weighted i Ls).length = (Ls.map Level.size).sum
  | _, [] => rfl
  | i, L :: Ls => by
    rw [level_items_weighted, List.length_append, List.length_map,
      level_items_weighted_length (i + 1) Ls, List.map_cons, List.sum_cons, Level.size]

theorem entries_weight_append (a b : List (List T × Nat)) :
    entries_weight (a ++ b) = entries_weight a + entries_weight b := by
  simp [entries_weight]

/-- The runs that the loop of `get_quantile_calculator` adds weigh as much as
the levels, when every level is empty or holds exactly `k` items. -/
theorem calculator_levels_loop_weight (k : Nat) : ∀ (Ls : List (Level T)) (i : Nat)
    (entries : List (List T × Nat)), (∀ L ∈ Ls, L.items = [] ∨ L.items.length = k) →
    i + Ls.length < U64 →
    ∃ r, calculator_levels_loop k Ls i entries = Except.ok r ∧
      entries_weight r = entries_weight entries + levels_weight i Ls
  | [], _, entries, _, _ => ⟨entries, rfl, by simp [levels_weight]⟩
  | L :: Ls, i, entries, h, hi => by
    unfold calculator_levels_loop
    simp only [List.length_cons] at hi
    have hmod : (i + 1) % U64 = i + 1 := Nat.mod_eq_of_lt (by omega)
    have hLs : ∀ M ∈ Ls, M.items = [] ∨ M.items.length = k :=
      fun M hM => h M (List.mem_cons_of_mem _ hM)
    simp only [hmod]
    by_cases he : L.items.isEmpty = true
    · have he2 : L.items = [] := List.isEmpty_iff.mp he
      obtain ⟨r, hr, hw⟩ := calculator_levels_loop_weight k Ls (i + 1) entries hLs (by omega)
      refine ⟨r, by rw [if_pos he]; exact hr, ?_⟩
      rw [hw, levels_weight, Level.size, he2]
      simp
    · have hlen : L.items.length = k := by
        rcases h L (List.mem_cons_self _ _) with h0 | h0
        · rw [h0] at he; simp at he
        · exact h0
      obtain ⟨r, hr, hw⟩ := calculator_levels_loop_weight k Ls (i + 1)
        (entries ++ [(L.items.take k, i + 1)]) hLs (by omega)
      refine ⟨r, ?_, ?_⟩
      · rw [if_neg he, if_neg (by omega)]
        exact hr
      · rw [hw, entries_weight_append, levels_weight, Level.size]
        simp only [entries_weight, List.map_cons, List.map_nil, List.sum_cons, List.sum_nil,
          List.length_take, hlen, min_self]
        omega

/-- The runs that `get_quantile_calculator` feeds on a reachable sketch weigh
`n_` in total. -/
theorem get_quantile_calculator_weight {lt : T → T → Bool} {k : Nat} {acc : List T}
    {s : quantiles_sketch T} (hinv : Inv lt k acc s) :
    ∃ entries, (get_quantile_calculator lt s).2 = Except.ok entries ∧
      entries_weight entries = s.n_ := by
  have hshape : ∀ L ∈ s.levels_, L.items = [] ∨ L.items.length = k := by
    intro L hL
    obtain ⟨i, hi⟩ := List.getElem?_of_mem hL
    obtain ⟨-, h1, h2⟩ := hinv.lv_ok i L hi
    cases hb : s.bit_pattern_.testBit i
    · exact Or.inl (h2 hb)
    · exact Or.inr (h1 hb).1
  have hlen := levels_length_le hinv
  have htot := total_weight_weighted_items hinv
  unfold weighted_items at htot
  rw [total_weight_append, total_weight_map_const, ← levels_weight_eq_total_weight] at htot
  unfold get_quantile_calculator
  cases hs : s.is_sorted_
  · simp only [Bool.not_false, if_true]
    obtain ⟨r, hr, hw⟩ := calculator_levels_loop_weight s.k_ s.levels_ 0
      [((std_sort lt s.base_buffer_).items, 0)] (by rw [hinv.k_eq]; exact hshape)
      (by unfold U64; omega)
    refine ⟨r, hr, ?_⟩
    rw [hw]
    simp only [entries_weight, List.map_cons, List.map_nil, List.sum_cons, List.sum_nil,
      std_sort_length]
    omega
  · simp only [Bool.not_true, Bool.false_eq_true, if_false]
    obtain ⟨r, hr, hw⟩ := calculator_levels_loop_weight s.k_ s.levels_ 0
      [(s.base_buffer_.items, 0)] (by rw [hinv.k_eq]; exact hshape) (by unfold U64; omega)
    refine ⟨r, hr, ?_⟩
    rw [hw]
    simp only [entries_weight, List.map_cons, List.map_nil, List.sum_cons, List.sum_nil]
    omega

end WeightLemmas

section RankCountLemmas
variable {T : Type}

theorem rank_sum_inclusive (lt : T → T → Bool) (v : T) (ws : List (T × Nat)) :
    rank_sum lt true v ws = weight_at_most lt v ws := by
  unfold rank_sum weight_at_most total_weight
  congr 2
  apply List.filter_congr
  intro p _
  cases h : lt v p.1 <;> simp [rank_test, h]

theorem rank_sum_exclusive (lt : T → T → Bool) (v : T) (ws : List (T × Nat)) :
    rank_sum lt false v ws = weight_below lt v ws := by
  unfold rank_sum weight_below total_weight
  congr 2
  apply List.filter_congr
  intro p _
  cases h : lt p.1 v <;> simp [rank_test, h]

end RankCountLemmas

section Claims

variable {T : Type}

/-- C1: for every `k` in `[2, 32768]`, every strict weak order, every random
stream and every list of items given to `update` on a fresh sketch (fewer than
`2 ^ 64` of them accepted, so that `n_` does not wrap), the updates all return
and the final state has `bit_pattern_ = n_ / (2k)` and
`base_buffer_.size() = n_ mod (2k)`. -/
theorem update_bit_pattern_and_base_buffer_size {lt : T → T → Bool} (hlt : StrictWeakOrder lt)
    (valid : T → Bool) (rnd : Nat → Bool) (k : Nat) (xs : List T)
    (hk1 : 2 ≤ k) (hk2 : k ≤ 32768) (hn : (xs.filter valid).length < U64) :
    ∃ s, build lt valid rnd k xs = Except.ok s ∧
      s.bit_pattern_ = s.n_ / (2 * k) ∧ s.base_buffer_.size = s.n_ % (2 * k) := by
  obtain ⟨s, hs, hinv⟩ := build_inv hlt valid rnd k xs hk1 hk2 hn
  exact ⟨s, hs, hinv.bp_eq, hinv.bb_len⟩

/-- Witness of C1: nine numbers into a sketch with `k = 2`. -/
theorem update_bit_pattern_and_base_buffer_size_witness :
    (2 ≤ 2 ∧ 2 ≤ 32768 ∧
      ([5, 3, 8, 1, 9, 2, 7, 4, 6].filter (fun _ : Nat => true)).length < U64) ∧
    ∃ s, build nat_lt (fun _ => true) alternating 2 [5, 3, 8, 1, 9, 2, 7, 4, 6] = Except.ok s ∧
      s.bit_pattern_ = s.n_ / (2 * 2) ∧ s.base_buffer_.size = s.n_ % (2 * 2) :=
  ⟨⟨by decide, by decide, by decide⟩,
    update_bit_pattern_and_base_buffer_size nat_lt_strict_weak_order (fun _ => true) alternating 2
      [5, 3, 8, 1, 9, 2, 7, 4, 6] (by decide) (by decide) (by decide)⟩

/-- C2: in every state reached from a fresh sketch by `update` calls, for every
level index `i` below `levels_.size()`, bit `i` of `bit_pattern_` is set if and
only if `levels_[i]` holds exactly `k` items, and the level is empty when the
bit is clear; hence the number of non-empty levels is the number of set bits
of `bit_pattern_`. -/
theorem update_levels_match_bit_pattern {lt : T → T → Bool} (hlt : StrictWeakOrder lt)
    (valid : T → Bool) (rnd : Nat → Bool) (k : Nat) (xs : List T)
    (hk1 : 2 ≤ k) (hk2 : k ≤ 32768) (hn : (xs.filter valid).length < U64) :
    ∃ s, build lt valid rnd k xs = Except.ok s ∧
      (∀ i L, s.levels_[i]? = some L →
        ((s.bit_pattern_.testBit i = true ↔ L.size = k) ∧
          (s.bit_pattern_.testBit i = false → L.items = []))) ∧
      s.levels_.countP (fun L => !L.items.isEmpty) = popcount s.bit_pattern_ := by
  obtain ⟨s, hs, hinv⟩ := build_inv hlt valid rnd k xs hk1 hk2 hn
  refine ⟨s, hs, ?_, ?_⟩
  · intro i L hL
    obtain ⟨-, h1, h2⟩ := hinv.lv_ok i L hL
    refine ⟨⟨fun hb => (h1 hb).1, ?_⟩, h2⟩
    intro hsz
    by_contra hb
    have hb : s.bit_pattern_.testBit i = false := by simpa using hb
    have := h2 hb
    simp only [Level.size, this, List.length_nil] at hsz
    omega
  · apply nonempty_levels_eq_popcount (by omega) hinv.lv_ok hinv.lv_len
    rw [hinv.bp_eq, hinv.n_eq]
    exact lt_of_le_of_lt (Nat.div_le_self _ _) hinv.n_lt

/-- Witness of C2: thirteen numbers into a sketch with `k = 2`. -/
theorem update_levels_match_bit_pattern_witness :
    (2 ≤ 2 ∧ 2 ≤ 32768 ∧
      ([5, 3, 8, 1, 9, 2, 7, 4, 6, 0, 11, 12, 13].filter (fun _ : Nat => true)).length < U64) ∧
    ∃ s, build nat_lt (fun _ => true) alternating 2 [5, 3, 8, 1, 9, 2, 7, 4, 6, 0, 11, 12, 13] =
        Except.ok s ∧
      (∀ i L, s.levels_[i]? = some L →
        ((s.bit_pattern_.testBit i = true ↔ L.size = 2) ∧
          (s.bit_pattern_.testBit i = false → L.items = []))) ∧
      s.levels_.countP (fun L => !L.items.isEmpty) = popcount s.bit_pattern_ :=
  ⟨⟨by decide, by decide, by decide⟩,
    update_levels_match_bit_pattern nat_lt_strict_weak_order (fun _ => true) alternating 2
      [5, 3, 8, 1, 9, 2, 7, 4, 6, 0, 11, 12, 13] (by decide) (by decide) (by decide)⟩

/-- C3: in every state reached from a fresh sketch by `update` calls under a
strict weak order, every non-empty level is ascending: of two adjacent items
the second is not less than the first (and likewise of any two items in
order). -/
theorem update_levels_sorted {lt : T → T → Bool} (hlt : StrictWeakOrder lt)
    (valid : T → Bool) (rnd : Nat → Bool) (k : Nat) (xs : List T)
    (hk1 : 2 ≤ k) (hk2 : k ≤ 32768) (hn : (xs.filter valid).length < U64) :
    ∃ s, build lt valid rnd k xs = Except.ok s ∧
      ∀ L ∈ s.levels_, L.items ≠ [] →
        List.Chain' (fun a b => lt b a = false) L.items ∧ SortedUnder lt L.items := by
  obtain ⟨s, hs, hinv⟩ := build_inv hlt valid rnd k xs hk1 hk2 hn
  refine ⟨s, hs, ?_⟩
  intro L hL hne
  obtain ⟨i, hi⟩ := List.getElem?_of_mem hL
  obtain ⟨-, h1, h2⟩ := hinv.lv_ok i L hi
  have hsorted : SortedUnder lt L.items := by
    cases hb : s.bit_pattern_.testBit i
    · exact absurd (h2 hb) hne
    · exact (h1 hb).2
  exact ⟨List.Pairwise.chain' hsorted, hsorted⟩

/-- Witness of C3: thirteen numbers into a sketch with `k = 2`. -/
theorem update_levels_sorted_witness :
    (2 ≤ 2 ∧ 2 ≤ 32768 ∧
      ([5, 3, 8, 1, 9, 2, 7, 4, 6, 0, 11, 12, 13].filter (fun _ : Nat => true)).length < U64) ∧
    ∃ s, build nat_lt (fun _ => true) alternating 2 [5, 3, 8, 1, 9, 2, 7, 4, 6, 0, 11, 12, 13] =
        Except.ok s ∧
      ∀ L ∈ s.levels_, L.items ≠ [] →
        List.Chain' (fun a b => nat_lt b a = false) L.items ∧ SortedUnder nat_lt L.items :=
  ⟨⟨by decide, by decide, by decide⟩,
    update_levels_sorted nat_lt_strict_weak_order (fun _ => true) alternating 2
      [5, 3, 8, 1, 9, 2, 7, 4, 6, 0, 11, 12, 13] (by decide) (by decide) (by decide)⟩

/-- C4: for every list of items given to `update` on a fresh sketch (fewer than
`2 ^ 64` accepted), `n_` is the number of items that pass the validity
predicate and an item that fails it leaves the state as it is; `min_value_` and
`max_value_` are null exactly when `n_ = 0`; and when `n_ > 0`, `min_value_` is
an accepted item that no accepted item is less than, and `max_value_` is an
accepted item that is less than no accepted item. -/
theorem update_count_min_max {lt : T → T → Bool} (hlt : StrictWeakOrder lt)
    (valid : T → Bool) (rnd : Nat → Bool) (k : Nat) (xs : List T)
    (hk1 : 2 ≤ k) (hk2 : k ≤ 32768) (hn : (xs.filter valid).length < U64) :
    (∀ (st : quantiles_sketch T × Nat) (x : T), valid x = false →
      update lt valid rnd st x = Except.ok st) ∧
    ∃ s, build lt valid rnd k xs = Except.ok s ∧
      s.n_ = (xs.filter valid).length ∧
      (s.min_value_ = none ↔ s.n_ = 0) ∧ (s.max_value_ = none ↔ s.n_ = 0) ∧
      (0 < s.n_ → ∃ mn mx, s.min_value_ = some mn ∧ s.max_value_ = some mx ∧
        mn ∈ xs.filter valid ∧ mx ∈ xs.filter valid ∧
        (∀ y ∈ xs.filter valid, lt y mn = false) ∧
        (∀ y ∈ xs.filter valid, lt mx y = false)) := by
  refine ⟨fun st x hx => update_invalid lt valid rnd st x hx, ?_⟩
  obtain ⟨s, hs, hinv⟩ := build_inv hlt valid rnd k xs hk1 hk2 hn
  refine ⟨s, hs, hinv.n_eq, ?_, ?_, ?_⟩
  · constructor
    · intro hnone
      by_contra hne
      have hacc : xs.filter valid ≠ [] := by
        intro h0; rw [hinv.n_eq, h0] at hne; simp at hne
      obtain ⟨mn, mx, h1, -⟩ := hinv.min_some hacc
      rw [h1] at hnone; simp at hnone
    · intro h0
      rw [hinv.n_eq] at h0
      exact (hinv.min_none (List.length_eq_zero.mp h0)).1
  · constructor
    · intro hnone
      by_contra hne
      have hacc : xs.filter valid ≠ [] := by
        intro h0; rw [hinv.n_eq, h0] at hne; simp at hne
      obtain ⟨mn, mx, -, h2, -⟩ := hinv.min_some hacc
      rw [h2] at hnone; simp at hnone
    · intro h0
      rw [hinv.n_eq] at h0
      exact (hinv.min_none (List.length_eq_zero.mp h0)).2
  · intro hpos
    have hacc : xs.filter valid ≠ [] := by
      intro h0; rw [hinv.n_eq, h0] at hpos; simp at hpos
    exact hinv.min_some hacc

/-- Witness of C4: numbers of which those above 100 are rejected. -/
theorem update_count_min_max_witness :
    (2 ≤ 2 ∧ 2 ≤ 32768 ∧
      ([5, 3, 800, 1, 9, 2, 700, 4, 6].filter (fun x : Nat => decide (x ≤ 100))).length < U64) ∧
    (∀ (st : quantiles_sketch Nat × Nat) (x : Nat), (fun x : Nat => decide (x ≤ 100)) x = false →
      update nat_lt (fun x : Nat => decide (x ≤ 100)) alternating st x = Except.ok st) ∧
    ∃ s, build nat_lt (fun x : Nat => decide (x ≤ 100)) alternating 2
        [5, 3, 800, 1, 9, 2, 700, 4, 6] = Except.ok s ∧
      s.n_ = ([5, 3, 800, 1, 9, 2, 700, 4, 6].filter (fun x : Nat => decide (x ≤ 100))).length ∧
      (s.min_value_ = none ↔ s.n_ = 0) ∧ (s.max_value_ = none ↔ s.n_ = 0) ∧
      (0 < s.n_ → ∃ mn mx, s.min_value_ = some mn ∧ s.max_value_ = some mx ∧
        mn ∈ [5, 3, 800, 1, 9, 2, 700, 4, 6].filter (fun x : Nat => decide (x ≤ 100)) ∧
        mx ∈ [5, 3, 800, 1, 9, 2, 700, 4, 6].filter (fun x : Nat => decide (x ≤ 100)) ∧
        (∀ y ∈ [5, 3, 800, 1, 9, 2, 700, 4, 6].filter (fun x : Nat => decide (x ≤ 100)),
          nat_lt y mn = false) ∧
        (∀ y ∈ [5, 3, 800, 1, 9, 2, 700, 4, 6].filter (fun x : Nat => decide (x ≤ 100)),
          nat_lt mx y = false)) :=
  ⟨⟨by decide, by decide, by decide⟩,
    update_count_min_max nat_lt_strict_weak_order (fun x : Nat => decide (x ≤ 100)) alternating 2
      [5, 3, 800, 1, 9, 2, 700, 4, 6] (by decide) (by decide) (by decide)⟩


/-- C5: for every sketch reached from a fresh sketch by `update` calls (the
empty sketch included), for constants as the validation table names them and a
SerDe whose `deserialize` inverts its `serialize`, `serialize` returns bytes on
which `deserialize` succeeds, and the sketch read has the same `k_`, `n_`,
`bit_pattern_`, `min_value_`, `max_value_`, `is_sorted_`, base-buffer items and
levels as the sketch written; so an empty sketch comes back empty with the
same `k_`. -/
theorem serialize_deserialize_round_trip {lt : T → T → Bool} (hlt : StrictWeakOrder lt)
    (valid : T → Bool) (rnd : Nat → Bool) (k : Nat) (xs : List T)
    (hk1 : 2 ≤ k) (hk2 : k ≤ 32768) (hn : (xs.filter valid).length < U64)
    (c : Constants) (hc : c.WellFormed) (serde : SerDe T) (hs : serde.Inverts) :
    ∃ s bytes s1, build lt valid rnd k xs = Except.ok s ∧
      serialize c serde s = Except.ok bytes ∧ deserialize c serde bytes = Except.ok s1 ∧
      s1.k_ = s.k_ ∧ s1.n_ = s.n_ ∧ s1.bit_pattern_ = s.bit_pattern_ ∧
      s1.min_value_ = s.min_value_ ∧ s1.max_value_ = s.max_value_ ∧
      s1.is_sorted_ = s.is_sorted_ ∧ s1.base_buffer_.items = s.base_buffer_.items ∧
      s1.levels_ = s.levels_ ∧ (s.n_ = 0 → s1.is_empty = true ∧ s1.k_ = k) := by
  obtain ⟨s, hs0, hinv⟩ := build_inv hlt valid rnd k xs hk1 hk2 hn
  by_cases hacc : xs.filter valid = []
  · rw [hacc] at hinv
    obtain ⟨bytes, h1, h2⟩ := roundtrip_empty hinv hk2 c hc serde
    refine ⟨s, bytes, _, hs0, h1, h2, rfl, rfl, rfl, rfl, rfl, rfl, rfl, rfl, ?_⟩
    intro h0
    exact ⟨by simp [quantiles_sketch.is_empty, h0], hinv.k_eq⟩
  · obtain ⟨bytes, h1, h2⟩ := roundtrip_nonempty hinv hk2 hacc c hc serde hs
    refine ⟨s, bytes, _, hs0, h1, h2, rfl, rfl, rfl, rfl, rfl, rfl, rfl, rfl, ?_⟩
    intro h0
    exact ⟨by simp [quantiles_sketch.is_empty, h0], hinv.k_eq⟩

/-- Witness of C5: thirteen bytes into a sketch with `k = 2`, written with one
byte per item. -/
theorem serialize_deserialize_round_trip_witness :
    (2 ≤ 2 ∧ 2 ≤ 32768 ∧
      (([5, 3, 8, 1, 9, 2, 7, 4, 6, 0, 11, 12, 13] : List (Fin 256)).filter
        (fun _ => true)).length < U64 ∧
      (spec_constants 8).WellFormed ∧ byte_serde.Inverts) ∧
    ∃ s bytes s1,
      build byte_lt (fun _ => true) alternating 2 [5, 3, 8, 1, 9, 2, 7, 4, 6, 0, 11, 12, 13] =
        Except.ok s ∧
      serialize (spec_constants 8) byte_serde s = Except.ok bytes ∧
      deserialize (spec_constants 8) byte_serde bytes = Except.ok s1 ∧
      s1.k_ = s.k_ ∧ s1.n_ = s.n_ ∧ s1.bit_pattern_ = s.bit_pattern_ ∧
      s1.min_value_ = s.min_value_ ∧ s1.max_value_ = s.max_value_ ∧
      s1.is_sorted_ = s.is_sorted_ ∧ s1.base_buffer_.items = s.base_buffer_.items ∧
      s1.levels_ = s.levels_ ∧ (s.n_ = 0 → s1.is_empty = true ∧ s1.k_ = 2) :=
  ⟨⟨by decide, by decide, by decide, spec_constants_well_formed 8 (by decide),
      byte_serde_inverts⟩,
    serialize_deserialize_round_trip byte_lt_strict_weak_order (fun _ => true) alternating 2
      [5, 3, 8, 1, 9, 2, 7, 4, 6, 0, 11, 12, 13] (by decide) (by decide) (by decide)
      (spec_constants 8) (spec_constants_well_formed 8 (by decide)) byte_serde
      byte_serde_inverts⟩

/-- C6: on every non-empty sketch reached by `update` calls and for every value
`v`, the total that `get_rank` computes (its numerator, `n_` times the returned
rank) is the sum, over all retained items, of the weight of the item (1 in the
base buffer, `2 ^ (i + 1)` in level `i`) for exactly the items `x` with
`x ≤ v`, that is, not `v < x` (inclusive), or with `x < v` (exclusive): the
`break` loses nothing. -/
theorem get_rank_total_is_weighted_count {lt : T → T → Bool} (hlt : StrictWeakOrder lt)
    (valid : T → Bool) (rnd : Nat → Bool) (k : Nat) (xs : List T)
    (hk1 : 2 ≤ k) (hk2 : k ≤ 32768) (hn : (xs.filter valid).length < U64)
    (hne : xs.filter valid ≠ []) :
    ∃ s, build lt valid rnd k xs = Except.ok s ∧ s.n_ ≠ 0 ∧
      ∀ v : T,
        get_rank_total lt true s v = Except.ok (weight_at_most lt v (weighted_items s)) ∧
        get_rank_total lt false s v = Except.ok (weight_below lt v (weighted_items s)) ∧
        get_rank lt true s v =
          Except.ok (Double.val ((weight_at_most lt v (weighted_items s) : ℚ) / (s.n_ : ℚ))) ∧
        get_rank lt false s v =
          Except.ok (Double.val ((weight_below lt v (weighted_items s) : ℚ) / (s.n_ : ℚ))) := by
  obtain ⟨s, hs, hinv⟩ := build_inv hlt valid rnd k xs hk1 hk2 hn
  have hn0 := Inv_n_ne_zero hinv hne
  refine ⟨s, hs, hn0, fun v => ⟨?_, ?_, ?_, ?_⟩⟩
  · rw [get_rank_total_spec hlt hinv, rank_sum_inclusive]
  · rw [get_rank_total_spec hlt hinv, rank_sum_exclusive]
  · rw [get_rank_spec hlt hinv hn0, rank_sum_inclusive]
  · rw [get_rank_spec hlt hinv hn0, rank_sum_exclusive]

/-- Witness of C6: thirteen numbers into a sketch with `k = 2`; its retained
items are 13 with weight 1, 6 and 12 with weight 2, 1 and 5 with weight 4, so
the items at most 6 weigh 10 and the items below 6 weigh 8. -/
theorem get_rank_total_is_weighted_count_witness :
    (2 ≤ 2 ∧ 2 ≤ 32768 ∧
      ([5, 3, 8, 1, 9, 2, 7, 4, 6, 0, 11, 12, 13].filter (fun _ : Nat => true)).length < U64 ∧
      [5, 3, 8, 1, 9, 2, 7, 4, 6, 0, 11, 12, 13].filter (fun _ : Nat => true) ≠ []) ∧
    (weighted_items (⟨2, 13, 3, ⟨[13], 4⟩, [⟨[6, 12], 2⟩, ⟨[1, 5], 2⟩], some 0, some 13, true⟩ :
        quantiles_sketch Nat) = [(13, 1), (6, 2), (12, 2), (1, 4), (5, 4)] ∧
      weight_at_most nat_lt 6 [(13, 1), (6, 2), (12, 2), (1, 4), (5, 4)] = 10 ∧
      weight_below nat_lt 6 [(13, 1), (6, 2), (12, 2), (1, 4), (5, 4)] = 8) ∧
    ∃ s, build nat_lt (fun _ => true) alternating 2 [5, 3, 8, 1, 9, 2, 7, 4, 6, 0, 11, 12, 13] =
        Except.ok s ∧ s.n_ ≠ 0 ∧
      ∀ v : Nat,
        get_rank_total nat_lt true s v =
          Except.ok (weight_at_most nat_lt v (weighted_items s)) ∧
        get_rank_total nat_lt false s v =
          Except.ok (weight_below nat_lt v (weighted_items s)) ∧
        get_rank nat_lt true s v =
          Except.ok (Double.val
            ((weight_at_most nat_lt v (weighted_items s) : ℚ) / (s.n_ : ℚ))) ∧
        get_rank nat_lt false s v =
          Except.ok (Double.val
            ((weight_below nat_lt v (weighted_items s) : ℚ) / (s.n_ : ℚ))) :=
  ⟨⟨by decide, by decide, by decide, by decide⟩, ⟨by decide, by decide, by decide⟩,
    get_rank_total_is_weighted_count nat_lt_strict_weak_order (fun _ => true) alternating 2
      [5, 3, 8, 1, 9, 2, 7, 4, 6, 0, 11, 12, 13] (by decide) (by decide) (by decide)
      (by decide)⟩

/-- C7: on every non-empty sketch reached by `update` calls, the inclusive rank
of `max_value_` is exactly 1 (the total of `get_rank<true>` is `n_`) and the
exclusive rank of `min_value_` is exactly 0 (the total of `get_rank<false>` is
0). -/
theorem get_rank_of_max_and_min {lt : T → T → Bool} (hlt : StrictWeakOrder lt)
    (valid : T → Bool) (rnd : Nat → Bool) (k : Nat) (xs : List T)
    (hk1 : 2 ≤ k) (hk2 : k ≤ 32768) (hn : (xs.filter valid).length < U64)
    (hne : xs.filter valid ≠ []) :
    ∃ s mn mx, build lt valid rnd k xs = Except.ok s ∧
      s.min_value_ = some mn ∧ s.max_value_ = some mx ∧
      get_rank_total lt true s mx = Except.ok s.n_ ∧
      get_rank lt true s mx = Except.ok (Double.val 1) ∧
      get_rank_total lt false s mn = Except.ok 0 ∧
      get_rank lt false s mn = Except.ok (Double.val 0) := by
  obtain ⟨s, hs, hinv⟩ := build_inv hlt valid rnd k xs hk1 hk2 hn
  have hn0 := Inv_n_ne_zero hinv hne
  obtain ⟨mn, mx, hmn, hmx, -, -, hmin, hmax⟩ := hinv.min_some hne
  have hmaxsum : rank_sum lt true mx (weighted_items s) = s.n_ := by
    rw [rank_sum_all, total_weight_weighted_items hinv]
    intro p hp
    simp [rank_test, hmax p.1 (mem_weighted_items_acc hinv p hp)]
  have hminsum : rank_sum lt false mn (weighted_items s) = 0 := by
    apply rank_sum_none
    intro p hp
    simp [rank_test, hmin p.1 (mem_weighted_items_acc hinv p hp)]
  have hnq : (s.n_ : ℚ) ≠ 0 := by exact_mod_cast hn0
  refine ⟨s, mn, mx, hs, hmn, hmx, ?_, ?_, ?_, ?_⟩
  · rw [get_rank_total_spec hlt hinv, hmaxsum]
  · rw [get_rank_spec hlt hinv hn0, hmaxsum, div_self hnq]
  · rw [get_rank_total_spec hlt hinv, hminsum]
  · rw [get_rank_spec hlt hinv hn0, hminsum]
    simp

/-- Witness of C7: thirteen numbers into a sketch with `k = 2`. -/
theorem get_rank_of_max_and_min_witness :
    (2 ≤ 2 ∧ 2 ≤ 32768 ∧
      ([5, 3, 8, 1, 9, 2, 7, 4, 6, 0, 11, 12, 13].filter (fun _ : Nat => true)).length < U64 ∧
      [5, 3, 8, 1, 9, 2, 7, 4, 6, 0, 11, 12, 13].filter (fun _ : Nat => true) ≠ []) ∧
    ∃ s mn mx,
      build nat_lt (fun _ => true) alternating 2 [5, 3, 8, 1, 9, 2, 7, 4, 6, 0, 11, 12, 13] =
        Except.ok s ∧
      s.min_value_ = some mn ∧ s.max_value_ = some mx ∧
      get_rank_total nat_lt true s mx = Except.ok s.n_ ∧
      get_rank nat_lt true s mx = Except.ok (Double.val 1) ∧
      get_rank_total nat_lt false s mn = Except.ok 0 ∧
      get_rank nat_lt false s mn = Except.ok (Double.val 0) :=
  ⟨⟨by decide, by decide, by decide, by decide⟩,
    get_rank_of_max_and_min nat_lt_strict_weak_order (fun _ => true) alternating 2
      [5, 3, 8, 1, 9, 2, 7, 4, 6, 0, 11, 12, 13] (by decide) (by decide) (by decide)
      (by decide)⟩

/-- C8: for every non-empty sketch of the shape of the data model (every level
empty or holding at least `k_` items) and every list of `s` split points that is
strictly increasing under the comparator, `get_CDF` returns a list of length
`s + 1` whose entry `i`, for `i < s`, is what `get_rank` returns for split point
`i` with the same inclusivity, and whose last entry is 1. -/
theorem get_CDF_entries_are_ranks (lt : T → T → Bool) (inclusive : Bool) (s : quantiles_sketch T)
    (split_points : List T) (hne : s.n_ ≠ 0) (hshape : WellShaped s)
    (hsp : StrictlyIncreasing lt split_points) :
    ∃ out, get_CDF lt inclusive s split_points = Except.ok out ∧
      out.length = split_points.length + 1 ∧
      (∀ (i : Nat) (v : T), split_points[i]? = some v →
        ∃ r, out[i]? = some r ∧ get_rank lt inclusive s v = Except.ok r) ∧
      out[split_points.length]? = some (Double.val 1) := by
  obtain ⟨rs, hrs⟩ := forall2_of_returns (get_rank lt inclusive s) split_points
    (fun v _ => get_rank_returns lt inclusive s v hshape)
  have hlen : split_points.length = rs.length := hrs.length_eq
  refine ⟨rs ++ [Double.val 1], get_CDF_spec lt inclusive s split_points rs hne hsp hrs,
    by simp [hlen], ?_, ?_⟩
  · intro i v hv
    have hi : i < split_points.length := by
      by_contra hc
      rw [List.getElem?_eq_none (by omega)] at hv
      simp at hv
    have hir : i < rs.length := by omega
    refine ⟨rs[i], ?_, ?_⟩
    · rw [List.getElem?_append_left hir, List.getElem?_eq_getElem hir]
    · have hget := List.Forall₂.get hrs hi hir
      simp only [List.get_eq_getElem] at hget
      rw [List.getElem?_eq_getElem hi] at hv
      cases hv
      exact hget
  · rw [hlen, List.getElem?_append_right (le_refl _)]
    simp

/-- Witness of C8: three split points on a sketch with two levels. -/
theorem get_CDF_entries_are_ranks_witness :
    ((⟨2, 13, 3, ⟨[13], 4⟩, [⟨[6, 12], 2⟩, ⟨[1, 5], 2⟩], some 0, some 13, true⟩ :
        quantiles_sketch Nat).n_ ≠ 0 ∧
      WellShaped (⟨2, 13, 3, ⟨[13], 4⟩, [⟨[6, 12], 2⟩, ⟨[1, 5], 2⟩], some 0, some 13, true⟩ :
        quantiles_sketch Nat) ∧
      StrictlyIncreasing nat_lt [1, 6, 20]) ∧
    ∃ out, get_CDF nat_lt true
        ⟨2, 13, 3, ⟨[13], 4⟩, [⟨[6, 12], 2⟩, ⟨[1, 5], 2⟩], some 0, some 13, true⟩ [1, 6, 20] =
          Except.ok out ∧
      out.length = [1, 6, 20].length + 1 ∧
      (∀ (i : Nat) (v : Nat), [1, 6, 20][i]? = some v →
        ∃ r, out[i]? = some r ∧
          get_rank nat_lt true
            ⟨2, 13, 3, ⟨[13], 4⟩, [⟨[6, 12], 2⟩, ⟨[1, 5], 2⟩], some 0, some 13, true⟩ v =
            Except.ok r) ∧
      out[[1, 6, 20].length]? = some (Double.val 1) :=
  ⟨⟨by decide, ⟨by decide, by decide⟩, by simp [StrictlyIncreasing, nat_lt]⟩,
    get_CDF_entries_are_ranks nat_lt true
      ⟨2, 13, 3, ⟨[13], 4⟩, [⟨[6, 12], 2⟩, ⟨[1, 5], 2⟩], some 0, some 13, true⟩ [1, 6, 20]
      (by decide) ⟨by decide, by decide⟩ (by simp [StrictlyIncreasing, nat_lt])⟩

/-- C9: on every non-empty sketch reached by `update` calls and for every
strictly increasing list of split points, `get_CDF` returns a list of exact
rationals (weighted count over `n_`) that is non-decreasing, has every entry in
`[0, 1]`, and ends with exactly 1. -/
theorem get_CDF_monotone_and_bounded {lt : T → T → Bool} (hlt : StrictWeakOrder lt)
    (valid : T → Bool) (rnd : Nat → Bool) (k : Nat) (xs : List T)
    (hk1 : 2 ≤ k) (hk2 : k ≤ 32768) (hn : (xs.filter valid).length < U64)
    (hne : xs.filter valid ≠ []) :
    ∃ s, build lt valid rnd k xs = Except.ok s ∧
      ∀ (inclusive : Bool) (split_points : List T), StrictlyIncreasing lt split_points →
        ∃ qs : List ℚ, get_CDF lt inclusive s split_points = Except.ok (qs.map Double.val) ∧
          qs.length = split_points.length + 1 ∧
          qs.Pairwise (fun x y => x ≤ y) ∧ (∀ q ∈ qs, 0 ≤ q ∧ q ≤ 1) ∧
          qs.getLast? = some 1 := by
  obtain ⟨s, hs, hinv⟩ := build_inv hlt valid rnd k xs hk1 hk2 hn
  refine ⟨s, hs, ?_⟩
  intro b sp hsp
  obtain ⟨h1, h2⟩ := cdf_values_sorted hlt hinv hne b sp hsp
  exact ⟨_, get_CDF_reachable hlt hinv hne b sp hsp, by simp, h1, h2, by simp⟩

/-- Witness of C9: thirteen numbers into a sketch with `k = 2`. -/
theorem get_CDF_monotone_and_bounded_witness :
    (2 ≤ 2 ∧ 2 ≤ 32768 ∧
      ([5, 3, 8, 1, 9, 2, 7, 4, 6, 0, 11, 12, 13].filter (fun _ : Nat => true)).length < U64 ∧
      [5, 3, 8, 1, 9, 2, 7, 4, 6, 0, 11, 12, 13].filter (fun _ : Nat => true) ≠ []) ∧
    ∃ s, build nat_lt (fun _ => true) alternating 2 [5, 3, 8, 1, 9, 2, 7, 4, 6, 0, 11, 12, 13] =
        Except.ok s ∧
      ∀ (inclusive : Bool) (split_points : List Nat), StrictlyIncreasing nat_lt split_points →
        ∃ qs : List ℚ,
          get_CDF nat_lt inclusive s split_points = Except.ok (qs.map Double.val) ∧
          qs.length = split_points.length + 1 ∧
          qs.Pairwise (fun x y => x ≤ y) ∧ (∀ q ∈ qs, 0 ≤ q ∧ q ≤ 1) ∧
          qs.getLast? = some 1 :=
  ⟨⟨by decide, by decide, by decide, by decide⟩,
    get_CDF_monotone_and_bounded nat_lt_strict_weak_order (fun _ => true) alternating 2
      [5, 3, 8, 1, 9, 2, 7, 4, 6, 0, 11, 12, 13] (by decide) (by decide) (by decide)
      (by decide)⟩

/-- C10: on every non-empty sketch reached by `update` calls and for every
strictly increasing list of `s` split points, `get_PMF` returns a list `P` of
length `s + 1` with `P[0] = CDF[0]` and `P[i] = CDF[i] - CDF[i - 1]` for
`1 ≤ i ≤ s`, and over exact rationals the entries of `P` sum to exactly 1. -/
theorem get_PMF_differences_sum_to_one {lt : T → T → Bool} (hlt : StrictWeakOrder lt)
    (valid : T → Bool) (rnd : Nat → Bool) (k : Nat) (xs : List T)
    (hk1 : 2 ≤ k) (hk2 : k ≤ 32768) (hn : (xs.filter valid).length < U64)
    (hne : xs.filter valid ≠ []) :
    ∃ s, build lt valid rnd k xs = Except.ok s ∧
      ∀ (inclusive : Bool) (split_points : List T), StrictlyIncreasing lt split_points →
        ∃ C P : List ℚ,
          get_CDF lt inclusive s split_points = Except.ok (C.map Double.val) ∧
          get_PMF lt inclusive s split_points = Except.ok (P.map Double.val) ∧
          P.length = split_points.length + 1 ∧
          P[0]? = C[0]? ∧
          (∀ i a b, i < split_points.length → C[i + 1]? = some a → C[i]? = some b →
            P[i + 1]? = some (a - b)) ∧
          P.sum = 1 := by
  obtain ⟨s, hs, hinv⟩ := build_inv hlt valid rnd k xs hk1 hk2 hn
  have hn0 := Inv_n_ne_zero hinv hne
  refine ⟨s, hs, ?_⟩
  intro b sp hsp
  have hcdf := get_CDF_reachable hlt hinv hne b sp hsp
  set C := sp.map (fun v => (rank_sum lt b v (weighted_items s) : ℚ) / (s.n_ : ℚ)) ++ [1]
    with hC
  have hClen : C.length = sp.length + 1 := by simp [hC]
  refine ⟨C, diffs_from 0 C, hcdf, get_PMF_spec lt b s sp C hn0 hClen hcdf, ?_, ?_, ?_, ?_⟩
  · rw [diffs_from_length, hClen]
  · rw [diffs_from_getElem?_zero]
    cases C[0]? <;> simp
  · intro i a c _ h1 h2
    exact diffs_from_getElem?_succ 0 C i a c h1 h2
  · rw [diffs_from_sum]
    simp [hC]

/-- Witness of C10: thirteen numbers into a sketch with `k = 2`. -/
theorem get_PMF_differences_sum_to_one_witness :
    (2 ≤ 2 ∧ 2 ≤ 32768 ∧
      ([5, 3, 8, 1, 9, 2, 7, 4, 6, 0, 11, 12, 13].filter (fun _ : Nat => true)).length < U64 ∧
      [5, 3, 8, 1, 9, 2, 7, 4, 6, 0, 11, 12, 13].filter (fun _ : Nat => true) ≠ []) ∧
    ∃ s, build nat_lt (fun _ => true) alternating 2 [5, 3, 8, 1, 9, 2, 7, 4, 6, 0, 11, 12, 13] =
        Except.ok s ∧
      ∀ (inclusive : Bool) (split_points : List Nat), StrictlyIncreasing nat_lt split_points →
        ∃ C P : List ℚ,
          get_CDF nat_lt inclusive s split_points = Except.ok (C.map Double.val) ∧
          get_PMF nat_lt inclusive s split_points = Except.ok (P.map Double.val) ∧
          P.length = split_points.length + 1 ∧
          P[0]? = C[0]? ∧
          (∀ i a b, i < split_points.length → C[i + 1]? = some a → C[i]? = some b →
            P[i + 1]? = some (a - b)) ∧
          P.sum = 1 :=
  ⟨⟨by decide, by decide, by decide, by decide⟩,
    get_PMF_differences_sum_to_one nat_lt_strict_weak_order (fun _ => true) alternating 2
      [5, 3, 8, 1, 9, 2, 7, 4, 6, 0, 11, 12, 13] (by decide) (by decide) (by decide)
      (by decide)⟩

/-- C14: constructing a sketch with `k` fails with `std::invalid_argument` if
and only if `k < 2` or `k > 32768` (for every `k`, so for every 16-bit `k`), and
otherwise it succeeds with a sketch that has this `k`, `n = 0`,
`bit_pattern = 0`, an empty base buffer, no levels, no minimum, no maximum and
`is_sorted = true`. -/
theorem constructor_checks_k (k : Nat) :
    ((quantiles_sketch.new k : Except Err (quantiles_sketch T)) =
        Except.error Err.invalid_argument ↔ (k < 2 ∨ k > 32768)) ∧
    ((∃ s : quantiles_sketch T, quantiles_sketch.new k = Except.ok s) ↔
        ¬ (k < 2 ∨ k > 32768)) ∧
    ∀ s : quantiles_sketch T, quantiles_sketch.new k = Except.ok s →
      s.k_ = k ∧ s.n_ = 0 ∧ s.bit_pattern_ = 0 ∧ s.base_buffer_.items = [] ∧
      s.base_buffer_.size = 0 ∧ s.levels_ = [] ∧ s.min_value_ = none ∧ s.max_value_ = none ∧
      s.is_sorted_ = true ∧ s.is_empty = true := by
  unfold quantiles_sketch.new
  simp only [MIN_K, MAX_K]
  by_cases h : k < 2 ∨ k > 32768
  · simp [h]
  · simp only [h, if_false, not_false_eq_true, iff_true, iff_false]
    refine ⟨by simp, ⟨_, rfl⟩, ?_⟩
    intro s hs
    cases hs
    simp [Level.reserve, Level.empty, Level.size, quantiles_sketch.is_empty]

/-- Witness of C14: `k = 1` is refused. -/
theorem constructor_checks_k_witness :
    (quantiles_sketch.new 1 : Except Err (quantiles_sketch Nat)) =
      Except.error Err.invalid_argument :=
  (constructor_checks_k 1).1.2 (Or.inl (by decide))

/-- C11: on a non-empty sketch, whose minimum and maximum are `mn` and `mx`,
`get_quantile(0.0)` returns `mn` and `get_quantile(1.0)` returns `mx`, in the
inclusive and in the exclusive variant, and the sketch is not touched. -/
theorem get_quantile_zero_and_one (lt : T → T → Bool) (qc : quantile_calculator T)
    (get_invalid_value : Except Err T) (inclusive : Bool) (s : quantiles_sketch T) (mn mx : T)
    (hne : s.is_empty = false) (hmin : s.min_value_ = some mn) (hmax : s.max_value_ = some mx) :
    get_quantile lt qc get_invalid_value inclusive s (Double.val 0) = (s, Except.ok mn) ∧
    get_quantile lt qc get_invalid_value inclusive s (Double.val 1) = (s, Except.ok mx) := by
  simp [get_quantile, hne, hmin, hmax, Double.eq]

/-- Witness of C11: the sketch with `k = 2` after the updates 3, 1. -/
theorem get_quantile_zero_and_one_witness :
    build nat_lt (fun _ => true) alternating 2 [3, 1] =
      Except.ok ⟨2, 2, 0, ⟨[3, 1], 4⟩, [], some 1, some 3, false⟩ ∧
    get_quantile nat_lt ⟨fun _ _ _ _ => 0⟩ (Except.error Err.runtime_error) true
        ⟨2, 2, 0, ⟨[3, 1], 4⟩, [], some 1, some 3, false⟩ (Double.val 0) =
      (⟨2, 2, 0, ⟨[3, 1], 4⟩, [], some 1, some 3, false⟩, Except.ok 1) ∧
    get_quantile nat_lt ⟨fun _ _ _ _ => 0⟩ (Except.error Err.runtime_error) true
        ⟨2, 2, 0, ⟨[3, 1], 4⟩, [], some 1, some 3, false⟩ (Double.val 1) =
      (⟨2, 2, 0, ⟨[3, 1], 4⟩, [], some 1, some 3, false⟩, Except.ok 3) :=
  ⟨by decide,
    get_quantile_zero_and_one nat_lt ⟨fun _ _ _ _ => 0⟩ (Except.error Err.runtime_error) true
      ⟨2, 2, 0, ⟨[3, 1], 4⟩, [], some 1, some 3, false⟩ 1 3 rfl rfl rfl⟩

/-- C19: an image of at least 8 bytes whose byte at offset 2 is not `FAMILY` is
refused with `std::invalid_argument`, by the `deserialize` that reads an array
of bytes and by the one that reads a stream, whatever the other bytes are. -/
theorem deserialize_rejects_wrong_family (c : Constants) (serde : SerDe T) (bytes : List Nat)
    (family_id : Nat) (hlen : 8 ≤ bytes.length) (hfam : bytes[2]? = some family_id)
    (hne : family_id ≠ c.FAMILY) :
    deserialize_bytes c serde bytes = Except.error Err.invalid_argument ∧
    deserialize c serde bytes = Except.error Err.invalid_argument := by
  obtain ⟨b0, b1, b2, b3, b4, b5, b6, b7, rest, rfl⟩ :
      ∃ b0 b1 b2 b3 b4 b5 b6 b7 rest, bytes = b0 :: b1 :: b2 :: b3 :: b4 :: b5 :: b6 :: b7 :: rest := by
    match bytes, hlen with
    | b0 :: b1 :: b2 :: b3 :: b4 :: b5 :: b6 :: b7 :: rest, _ =>
      exact ⟨b0, b1, b2, b3, b4, b5, b6, b7, rest, rfl⟩
  simp only [List.getElem?_cons_succ, List.getElem?_cons_zero, Option.some.injEq] at hfam
  subst hfam
  have hcf : check_family_id c b2 = Except.error Err.invalid_argument := by
    simp [check_family_id, hne]
  have hr1 : ∀ (a : Nat) (l : List Nat), copy_from_mem 1 (a :: l) = Except.ok (a, l) := by
    intro a l; simp [copy_from_mem, le_value]
  have hr2 : ∀ (a b : Nat) (l : List Nat),
      copy_from_mem 2 (a :: b :: l) = Except.ok (a + 256 * b, l) := by
    intro a b l; simp [copy_from_mem, le_value]
  constructor
  · unfold deserialize_bytes
    have hmem : ensure_minimum_memory
        (b0 :: b1 :: b2 :: b3 :: b4 :: b5 :: b6 :: b7 :: rest).length 8 = Except.ok () := by
      simp [ensure_minimum_memory]
    simp only [hmem, hr1, hr2, bind, Except.bind, hcf]
    unfold check_serial_version
    split_ifs <;> rfl
  · unfold deserialize
    simp only [read_one, read_two, bind, Except.bind, hcf]
    unfold check_serial_version
    split_ifs <;> rfl

/-- Witness of C19: the image of an empty sketch with `k = 2` and the family
byte 9 where 8 is expected. -/
theorem deserialize_rejects_wrong_family_witness :
    (8 ≤ [1, 3, 9, 5, 2, 0, 0, 0].length ∧ [1, 3, 9, 5, 2, 0, 0, 0][2]? = some 9 ∧
      9 ≠ (spec_constants 8).FAMILY) ∧
    (deserialize_bytes (spec_constants 8) byte_serde [1, 3, 9, 5, 2, 0, 0, 0] =
        Except.error Err.invalid_argument ∧
      deserialize (spec_constants 8) byte_serde [1, 3, 9, 5, 2, 0, 0, 0] =
        Except.error Err.invalid_argument) :=
  ⟨⟨by decide, rfl, by decide⟩,
    deserialize_rejects_wrong_family (spec_constants 8) byte_serde [1, 3, 9, 5, 2, 0, 0, 0] 9
      (by decide) rfl (by decide)⟩

/-- C17 (as stated, refuted): the tuple `(1, true, 2, true)` of the
specification's table, here the bytes `preamble_longs = 1`, `flags_byte = 5`
(empty and compact) and `serial_version = 2`, is refused by
`check_header_validity`, and so is `(2, false, 2, true)`, the bytes 2, 4, 2. -/
theorem header_validation_spec_table_counterexample :
    (1, header_empty (spec_constants 8) 5, 2, header_compact (spec_constants 8) 5) ∈
        spec_validation_table ∧
      check_serial_version (spec_constants 8) 2 = Except.ok () ∧
      header_validation (spec_constants 8) 1 5 2 = Except.error Err.invalid_argument ∧
      (2, header_empty (spec_constants 8) 4, 2, header_compact (spec_constants 8) 4) ∈
        spec_validation_table ∧
      header_validation (spec_constants 8) 2 4 2 = Except.error Err.invalid_argument := by
  decide

/-- C17 (amended): every tuple `(preamble_longs, empty, serial_version,
compact)` among `(1, true, 1, false)`, `(5, false, 1, false)`,
`(1, true, 2, false)`, `(2, false, 2, false)`, `(1, true, 3, true)`,
`(1, true, 3, false)`, `(2, true, 3, true)`, `(2, true, 3, false)`,
`(2, false, 3, true)`, `(2, false, 3, false)` is accepted by
`check_serial_version` followed by `check_header_validity`. -/
theorem header_validation_accepts_code_table (c : Constants) (hv : c.SERIAL_VERSION = 3)
    (h1 : c.SERIAL_VERSION_1 = 1) (h2 : c.SERIAL_VERSION_2 = 2)
    (preamble_longs flags_byte serial_version : Nat)
    (h : (preamble_longs, header_empty c flags_byte, serial_version,
      header_compact c flags_byte) ∈ code_validation_table) :
    check_serial_version c serial_version = Except.ok () ∧
      check_header_validity c preamble_longs flags_byte serial_version = Except.ok () ∧
      header_validation c preamble_longs flags_byte serial_version = Except.ok () := by
  rw [header_validation_eq c hv h1 h2, check_serial_version_eq c hv h1 h2,
    check_header_validity_eq]
  generalize header_empty c flags_byte = e at h ⊢
  generalize header_compact c flags_byte = cp at h ⊢
  simp only [code_validation_table, List.mem_cons, Prod.mk.injEq, List.mem_nil_iff,
    or_false] at h
  rcases h with h | h | h | h | h | h | h | h | h | h <;>
    obtain ⟨rfl, rfl, rfl, rfl⟩ := h <;> decide

/-- Witness of C17 (amended): the header bytes 2, 4, 3 of a non-empty compact
sketch in the current format. -/
theorem header_validation_accepts_code_table_witness :
    ((spec_constants 8).SERIAL_VERSION = 3 ∧ (spec_constants 8).SERIAL_VERSION_1 = 1 ∧
      (spec_constants 8).SERIAL_VERSION_2 = 2 ∧
      (2, header_empty (spec_constants 8) 4, 3, header_compact (spec_constants 8) 4) ∈
        code_validation_table) ∧
    (check_serial_version (spec_constants 8) 3 = Except.ok () ∧
      check_header_validity (spec_constants 8) 2 4 3 = Except.ok () ∧
      header_validation (spec_constants 8) 2 4 3 = Except.ok ()) :=
  ⟨⟨rfl, rfl, rfl, by decide⟩,
    header_validation_accepts_code_table (spec_constants 8) rfl rfl rfl 2 4 3 (by decide)⟩

/-- C18 (as stated, refuted): the header bytes `preamble_longs = 1`,
`flags_byte = 1` (empty, not compact) and `serial_version = 2` form the tuple
`(1, true, 2, false)`, which is not in the specification's table, and are
accepted; so are the bytes 65, 5, 3, whose tuple `(65, true, 3, true)` is not
in the table either: `check_header_validity` reads only the low six bits of
`preamble_longs`. -/
theorem header_validation_outside_spec_table_counterexample :
    (1, header_empty (spec_constants 8) 1, 2, header_compact (spec_constants 8) 1) ∉
        spec_validation_table ∧
      header_validation (spec_constants 8) 1 1 2 = Except.ok () ∧
      (65, header_empty (spec_constants 8) 5, 3, header_compact (spec_constants 8) 5) ∉
        spec_validation_table ∧
      header_validation (spec_constants 8) 65 5 3 = Except.ok () := by
  decide

/-- C18 (amended): for all header bytes whose `preamble_longs & 0x3F` is below
8, if the tuple `(preamble_longs & 0x3F, empty, serial_version, compact)` is not
one of the ten tuples that the cases of `check_header_validity` stand for, then
`check_serial_version` followed by `check_header_validity` throws
`std::invalid_argument`. -/
theorem header_validation_rejects_outside_code_table (c : Constants)
    (hv : c.SERIAL_VERSION = 3) (h1 : c.SERIAL_VERSION_1 = 1) (h2 : c.SERIAL_VERSION_2 = 2)
    (preamble_longs flags_byte serial_version : Nat)
    (hm : preamble_longs &&& 0x3F < 8)
    (h : (preamble_longs &&& 0x3F, header_empty c flags_byte, serial_version,
      header_compact c flags_byte) ∉ code_validation_table) :
    header_validation c preamble_longs flags_byte serial_version =
      Except.error Err.invalid_argument := by
  rw [header_validation_eq c hv h1 h2]
  generalize header_empty c flags_byte = e at h ⊢
  generalize header_compact c flags_byte = cp at h ⊢
  generalize preamble_longs &&& 0x3F = m at hm h ⊢
  split_ifs with hsv
  · rcases hsv with rfl | rfl | rfl <;> interval_cases m <;> cases e <;> cases cp <;>
      first
        | rfl
        | exact absurd (by decide) h
  · rfl

/-- Witness of C18 (amended): the header bytes 2, 5, 2 (empty and compact, two
preamble longs, serial version 2). -/
theorem header_validation_rejects_outside_code_table_witness :
    ((spec_constants 8).SERIAL_VERSION = 3 ∧ (spec_constants 8).SERIAL_VERSION_1 = 1 ∧
      (spec_constants 8).SERIAL_VERSION_2 = 2 ∧ 2 &&& 0x3F < 8 ∧
      (2 &&& 0x3F, header_empty (spec_constants 8) 5, 2, header_compact (spec_constants 8) 5) ∉
        code_validation_table) ∧
    header_validation (spec_constants 8) 2 5 2 = Except.error Err.invalid_argument :=
  ⟨⟨rfl, rfl, rfl, by decide, by decide⟩,
    header_validation_rejects_outside_code_table (spec_constants 8) rfl rfl rfl 2 5 2
      (by decide) (by decide)⟩

/-- C20 (as stated, refuted): on the sketch with `k = 2` that has been updated
with 3 and 1, `get_quantiles` with the ranks 0.5 and 2.0 throws
`std::invalid_argument` at the second rank, after the first rank has made
`get_quantile_calculator` sort the base buffer: it holds 1, 3 after the failed
call and held 3, 1 before. -/
theorem get_quantiles_sorts_before_throwing_counterexample :
    build nat_lt (fun _ => true) alternating 2 [3, 1] =
      Except.ok ⟨2, 2, 0, ⟨[3, 1], 4⟩, [], some 1, some 3, false⟩ ∧
    rank_out_of_range (Double.val 2) ∧
    get_quantiles nat_lt ⟨fun _ _ _ _ => 0⟩ true
        ⟨2, 2, 0, ⟨[3, 1], 4⟩, [], some 1, some 3, false⟩ [Double.val (1 / 2), Double.val 2] =
      (⟨2, 2, 0, ⟨[1, 3], 4⟩, [], some 1, some 3, false⟩, Except.error Err.invalid_argument) := by
  refine ⟨by decide, ?_, ?_⟩
  · right
    simp [Double.lt]
  · have h1 : std_sort nat_lt (⟨[3, 1], 4⟩ : Level Nat) = ⟨[1, 3], 4⟩ := by decide
    simp [get_quantiles, get_quantiles_loop_cons, get_quantiles_loop, Double.lt, Double.eq,
      get_quantile_calculator, calculator_levels_loop, quantiles_sketch.is_empty, h1]
    rw [if_neg (by norm_num)]

/-- C20 (amended): on a non-empty sketch with a minimum and a maximum, whose
levels are empty or hold at least `k` items, a call of `get_quantile(rank)`
with a rank below 0 or above 1 throws `std::invalid_argument` and leaves the
sketch as it was; a call of `get_quantiles(ranks, size)` in which some rank is
below 0 or above 1 throws `std::invalid_argument` and leaves `k`, `n`,
`bit_pattern`, the levels, minimum, maximum and `is_sorted` as they were, while
the base buffer holds the same items as before, either in the same order or
sorted by `get_quantile_calculator`; the order is the same when `is_sorted` was
true and when every rank before the first one out of range is 0 or 1. -/
theorem out_of_range_rank_throws (lt : T → T → Bool) (qc : quantile_calculator T)
    (get_invalid_value : Except Err T) (inclusive : Bool) (s : quantiles_sketch T) (mn mx : T)
    (hne : s.is_empty = false) (hmin : s.min_value_ = some mn) (hmax : s.max_value_ = some mx)
    (hshape : ∀ L ∈ s.levels_, L.items = [] ∨ s.k_ ≤ L.items.length) :
    (∀ rank, rank_out_of_range rank →
      get_quantile lt qc get_invalid_value inclusive s rank =
        (s, Except.error Err.invalid_argument)) ∧
    (∀ ranks : List Double, (∃ rank ∈ ranks, rank_out_of_range rank) →
      ∃ s1, get_quantiles lt qc inclusive s ranks = (s1, Except.error Err.invalid_argument) ∧
        s1.k_ = s.k_ ∧ s1.n_ = s.n_ ∧ s1.bit_pattern_ = s.bit_pattern_ ∧
        s1.levels_ = s.levels_ ∧ s1.min_value_ = s.min_value_ ∧
        s1.max_value_ = s.max_value_ ∧ s1.is_sorted_ = s.is_sorted_ ∧
        s1.base_buffer_.items.Perm s.base_buffer_.items ∧
        s1.base_buffer_.capacity = s.base_buffer_.capacity ∧
        (s1 = s ∨ (s.is_sorted_ = false ∧ s1 = with_sorted_base_buffer lt s)) ∧
        (s.is_sorted_ = true → s1 = s) ∧
        (∀ pre rank post, ranks = pre ++ rank :: post → rank_out_of_range rank →
          (∀ q ∈ pre, q = Double.val 0 ∨ q = Double.val 1) → s1 = s)) := by
  constructor
  · intro rank hr
    have h0 : rank.eq (Double.val 0) = false := by
      cases rank with
      | nan => rfl
      | val q =>
        rcases hr with hr | hr
        · have : q < 0 := by simpa [Double.lt] using hr
          simp only [Double.eq, decide_eq_false_iff_not]
          exact ne_of_lt this
        · have : 1 < q := by simpa [Double.lt] using hr
          simp only [Double.eq, decide_eq_false_iff_not]
          intro h; rw [h] at this; exact absurd this (by norm_num)
    have h1 : rank.eq (Double.val 1) = false := by
      cases rank with
      | nan => rfl
      | val q =>
        rcases hr with hr | hr
        · have : q < 0 := by simpa [Double.lt] using hr
          simp only [Double.eq, decide_eq_false_iff_not]
          intro h; rw [h] at this; exact absurd this (by norm_num)
        · have : 1 < q := by simpa [Double.lt] using hr
          simp only [Double.eq, decide_eq_false_iff_not]
          exact ne_of_gt this
    unfold get_quantile
    rw [hne, h0, h1]
    simp only [Bool.false_eq_true, if_false]
    have hr1 : rank.lt (Double.val 0) = true ∨ (Double.val 1).lt rank = true := hr
    rw [if_pos hr1]
  · intro ranks hr
    obtain ⟨a, b, c⟩ := get_quantiles_loop_fails lt qc inclusive ranks s none
      ((Level.empty : Level T).reserve ranks.length) mn mx hmin hmax hshape hr
    rcases hloop : get_quantiles_loop lt qc inclusive ranks s none
      ((Level.empty : Level T).reserve ranks.length) with ⟨s1, r⟩
    rw [hloop] at a b c
    simp only at a b c
    subst a
    have hb : s1 = s ∨ (s.is_sorted_ = false ∧ s1 = with_sorted_base_buffer lt s) := by
      rcases b with b | ⟨-, b1, b2⟩
      · exact Or.inl b
      · exact Or.inr ⟨b1, b2⟩
    refine ⟨s1, ?_, ?_⟩
    · unfold get_quantiles
      rw [hne]
      simp only [Bool.false_eq_true, if_false, hloop]
    · rcases hb with rfl | ⟨hso, rfl⟩
      · exact ⟨rfl, rfl, rfl, rfl, rfl, rfl, rfl, List.Perm.refl _, rfl, Or.inl rfl,
          fun _ => rfl, c⟩
      · refine ⟨rfl, rfl, rfl, rfl, rfl, rfl, rfl, std_sort_perm lt _, rfl, Or.inr ⟨hso, rfl⟩,
          ?_, c⟩
        intro h; rw [h] at hso; cases hso

/-- Witness of C20 (amended): the sketch with `k = 2` after the updates 3, 1,
asked for the ranks 0.5 and 2.0. -/
theorem out_of_range_rank_throws_witness :
    get_quantile nat_lt ⟨fun _ _ _ _ => 0⟩ (Except.error Err.runtime_error) true
        ⟨2, 2, 0, ⟨[3, 1], 4⟩, [], some 1, some 3, false⟩ (Double.val 2) =
      (⟨2, 2, 0, ⟨[3, 1], 4⟩, [], some 1, some 3, false⟩, Except.error Err.invalid_argument) :=
  (out_of_range_rank_throws nat_lt ⟨fun _ _ _ _ => 0⟩ (Except.error Err.runtime_error) true
    ⟨2, 2, 0, ⟨[3, 1], 4⟩, [], some 1, some 3, false⟩ 1 3 rfl rfl rfl
    (by intro L hL; cases hL)).1 (Double.val 2) (Or.inr (by simp [Double.lt]))

/-- C13: on every sketch reached by `update` calls, `get_num_retained()`
returns `(n mod 2k) + k * popcount(bit_pattern)`, and this is the number of
items stored: `base_buffer.size()` plus the sum of the sizes of all levels. -/
theorem get_num_retained_is_stored_count {lt : T → T → Bool} (hlt : StrictWeakOrder lt)
    (valid : T → Bool) (rnd : Nat → Bool) (k : Nat) (xs : List T)
    (hk1 : 2 ≤ k) (hk2 : k ≤ 32768) (hn : (xs.filter valid).length < U64) :
    ∃ s, build lt valid rnd k xs = Except.ok s ∧
      get_num_retained s = Except.ok (s.n_ % (2 * k) + k * popcount s.bit_pattern_) ∧
      s.n_ % (2 * k) + k * popcount s.bit_pattern_ =
        s.base_buffer_.size + (s.levels_.map Level.size).sum := by
  obtain ⟨s, hs, hinv⟩ := build_inv hlt valid rnd k xs hk1 hk2 hn
  obtain ⟨h1, h2, -⟩ := get_num_retained_spec hinv hk2
  exact ⟨s, hs, h1, h2⟩

/-- Witness of C13: thirteen numbers into a sketch with `k = 2`. -/
theorem get_num_retained_is_stored_count_witness :
    (2 ≤ 2 ∧ 2 ≤ 32768 ∧
      ([5, 3, 8, 1, 9, 2, 7, 4, 6, 0, 11, 12, 13].filter (fun _ : Nat => true)).length < U64) ∧
    ∃ s, build nat_lt (fun _ => true) alternating 2 [5, 3, 8, 1, 9, 2, 7, 4, 6, 0, 11, 12, 13] =
        Except.ok s ∧
      get_num_retained s = Except.ok (s.n_ % (2 * 2) + 2 * popcount s.bit_pattern_) ∧
      s.n_ % (2 * 2) + 2 * popcount s.bit_pattern_ =
        s.base_buffer_.size + (s.levels_.map Level.size).sum :=
  ⟨⟨by decide, by decide, by decide⟩,
    get_num_retained_is_stored_count nat_lt_strict_weak_order (fun _ => true) alternating 2
      [5, 3, 8, 1, 9, 2, 7, 4, 6, 0, 11, 12, 13] (by decide) (by decide) (by decide)⟩

/-- C15: the image that `serialize` writes starts with the 8 bytes
`preamble_longs` (1 for an empty sketch, 2 otherwise), 3, `FAMILY`, the flags
byte, `k` as 2 little-endian bytes, 0, 0; nothing follows for an empty sketch,
and `n` as 8 little-endian bytes follows for a sketch with data.  In the flags
byte the bit `IS_COMPACT` is set, the bit `IS_EMPTY` is set iff `n = 0`, and the
bit `IS_SORTED` is set iff `is_sorted` is true. -/
theorem serialize_header_layout (c : Constants) (hc : c.WellFormed) (serde : SerDe T)
    (s : quantiles_sketch T)
    (hmm : s.n_ ≠ 0 → ∃ mn mx, s.min_value_ = some mn ∧ s.max_value_ = some mx) :
    ∃ flags_byte rest,
      serialize c serde s = Except.ok
        ([if s.n_ = 0 then 1 else 2, 3, c.FAMILY, flags_byte, s.k_ % 256, s.k_ / 256 % 256, 0, 0]
          ++ rest) ∧
      (s.n_ = 0 → rest = []) ∧
      (s.n_ ≠ 0 → ∃ payload, rest = write_le 8 s.n_ ++ payload) ∧
      flags_byte < 256 ∧
      (flags_byte &&& (1 <<< c.IS_COMPACT) > 0) ∧
      ((flags_byte &&& (1 <<< c.IS_EMPTY) > 0) ↔ s.n_ = 0) ∧
      ((flags_byte &&& (1 <<< c.IS_SORTED) > 0) ↔ s.is_sorted_ = true) := by
  have hfl := flags_decode c hc s.is_empty s.is_sorted_
  have hmod : flags_byte_of c s.is_empty s.is_sorted_ % 256 =
      flags_byte_of c s.is_empty s.is_sorted_ := by
    unfold flags_byte_of; exact Nat.mod_mod _ _
  rw [hmod] at hfl
  have hlt : flags_byte_of c s.is_empty s.is_sorted_ < 256 := by
    unfold flags_byte_of; exact Nat.mod_lt _ (by norm_num)
  have hemp : s.is_empty = true ↔ s.n_ = 0 := by
    simp [quantiles_sketch.is_empty]
  rw [serialize_eq]
  by_cases hn : s.n_ = 0
  · have he : s.is_empty = true := hemp.mpr hn
    rw [he] at hfl hlt
    refine ⟨flags_byte_of c true s.is_sorted_, [], ?_, fun _ => rfl, fun h => absurd hn h, hlt,
      hfl.2.1, ?_, hfl.2.2⟩
    · rw [if_pos he, if_pos hn]
      simp [header_bytes, hc.short, hc.version, Nat.mod_eq_of_lt hc.family, hmod,
        flags_byte_of]
    · rw [hfl.1]; simp [hn]
  · have he : s.is_empty = false := by
      cases h : s.is_empty
      · rfl
      · exact absurd (hemp.mp h) hn
    obtain ⟨mn, mx, hmn, hmx⟩ := hmm hn
    rw [he] at hfl hlt
    refine ⟨flags_byte_of c false s.is_sorted_,
      write_le 8 s.n_ ++ (serde.serialize [mn] ++ (serde.serialize [mx] ++
        (serde.serialize s.base_buffer_.items ++ serialize_levels serde s.levels_))),
      ?_, fun h => absurd h hn, fun _ => ⟨_, rfl⟩, hlt, hfl.2.1, ?_, hfl.2.2⟩
    · rw [he, hmn, hmx, if_neg hn]
      simp only [Bool.false_eq_true, if_false]
      simp [header_bytes, hc.full, hc.version, Nat.mod_eq_of_lt hc.family, flags_byte_of]
    · rw [hfl.1]; simp [hn]

/-- Witness of C15: the sketch with `k = 2` after the updates 3, 1, its items
written as one byte each. -/
theorem serialize_header_layout_witness :
    ((spec_constants 8).WellFormed ∧
      ((2 : Nat) ≠ 0 → ∃ mn mx : Fin 256, (some 1 : Option (Fin 256)) = some mn ∧
        (some 3 : Option (Fin 256)) = some mx)) ∧
    ∃ flags_byte rest,
      serialize (spec_constants 8) byte_serde
          ⟨2, 2, 0, ⟨[3, 1], 4⟩, [], some 1, some 3, false⟩ = Except.ok
        ([if (2 : Nat) = 0 then 1 else 2, 3, 8, flags_byte, 2 % 256, 2 / 256 % 256, 0, 0]
          ++ rest) ∧
      ((2 : Nat) = 0 → rest = []) ∧
      ((2 : Nat) ≠ 0 → ∃ payload, rest = write_le 8 2 ++ payload) ∧
      flags_byte < 256 ∧
      (flags_byte &&& (1 <<< 2) > 0) ∧
      ((flags_byte &&& (1 <<< 0) > 0) ↔ (2 : Nat) = 0) ∧
      ((flags_byte &&& (1 <<< 1) > 0) ↔ false = true) :=
  ⟨⟨spec_constants_well_formed 8 (by decide), fun _ => ⟨1, 3, rfl, rfl⟩⟩,
    serialize_header_layout (spec_constants 8) (spec_constants_well_formed 8 (by decide))
      byte_serde ⟨2, 2, 0, ⟨[3, 1], 4⟩, [], some 1, some 3, false⟩
      (fun _ => ⟨1, 3, rfl, rfl⟩)⟩

/-- C16: for a SerDe that writes every item in `w` bytes and every sketch
reached by `update` calls, `get_serialized_size_bytes()` returns 8 for an empty
sketch and `16 + (get_num_retained() + 2) * w` otherwise, and this is the
number of bytes that `serialize` writes: the stream `serialize` writes an
image of that length, and the byte-vector `serialize` returns
`header_size_bytes` zeros followed by the same image, with `ptr` at the end of
the vector. -/
theorem serialize_writes_serialized_size {lt : T → T → Bool} (hlt : StrictWeakOrder lt)
    (valid : T → Bool) (rnd : Nat → Bool) (k : Nat) (xs : List T)
    (hk1 : 2 ≤ k) (hk2 : k ≤ 32768) (hn : (xs.filter valid).length < U64)
    (c : Constants) (serde : SerDe T) (w : Nat) (hw : serde.FixedWidth w) (hw32 : w < 2 ^ 32)
    (header_size_bytes : Nat) (hh : header_size_bytes < U32) :
    ∃ s r size image, build lt valid rnd k xs = Except.ok s ∧
      get_num_retained s = Except.ok r ∧
      get_serialized_size_bytes w s = Except.ok size ∧
      size = (if s.n_ = 0 then 8 else 16 + (r + 2) * w) ∧
      serialize c serde s = Except.ok image ∧
      image.length = size ∧
      serialize_bytes_ptr c serde w s header_size_bytes =
        Except.ok (List.replicate header_size_bytes 0 ++ image, header_size_bytes + size) ∧
      serialize_bytes c serde w s header_size_bytes =
        Except.ok (List.replicate header_size_bytes 0 ++ image) := by
  obtain ⟨s, hs, hinv⟩ := build_inv hlt valid rnd k xs hk1 hk2 hn
  obtain ⟨hr, hr2, hr3⟩ := get_num_retained_spec hinv hk2
  have hmm : s.n_ ≠ 0 → ∃ mn mx, s.min_value_ = some mn ∧ s.max_value_ = some mx := by
    intro h0
    have hne : xs.filter valid ≠ [] := by
      intro he
      rw [hinv.n_eq, he] at h0
      exact h0 rfl
    obtain ⟨mn, mx, h1, h2, -⟩ := hinv.min_some hne
    exact ⟨mn, mx, h1, h2⟩
  obtain ⟨hsize, hbound⟩ := get_serialized_size_bytes_spec w s _ hr (by omega) hw32
  obtain ⟨image, himg, hlen⟩ := serialize_length c serde w hw s hmm
  rw [← hr2] at hlen
  have h56 : (2 : Nat) ^ 56 + 2 ^ 32 < U64 := by unfold U64; norm_num
  have hsz :
      (if s.n_ = 0 then 8 else 16 + (s.n_ % (2 * k) + k * popcount s.bit_pattern_ + 2) * w) +
        header_size_bytes < U64 := by
    unfold U32 at hh
    split_ifs <;> omega
  have hptr := serialize_bytes_ptr_spec c serde w hw s header_size_bytes _ image hh hsize hsz
    himg hlen
  refine ⟨s, _, _, image, hs, hr, hsize, rfl, himg, hlen, hptr, ?_⟩
  unfold serialize_bytes
  rw [hptr]

/-- Witness of C16: thirteen bytes into a sketch with `k = 2`, written with one
byte per item behind a header of three bytes. -/
theorem serialize_writes_serialized_size_witness :
    (2 ≤ 2 ∧ 2 ≤ 32768 ∧
      ([5, 3, 8, 1, 9, 2, 7, 4, 6, 0, 11, 12, 13].filter (fun _ : Fin 256 => true)).length
        < U64 ∧
      byte_serde.FixedWidth 1 ∧ 1 < 2 ^ 32 ∧ 3 < U32) ∧
    ∃ s r size image,
      build byte_lt (fun _ => true) alternating 2 [5, 3, 8, 1, 9, 2, 7, 4, 6, 0, 11, 12, 13] =
        Except.ok s ∧
      get_num_retained s = Except.ok r ∧
      get_serialized_size_bytes 1 s = Except.ok size ∧
      size = (if s.n_ = 0 then 8 else 16 + (r + 2) * 1) ∧
      serialize (spec_constants 8) byte_serde s = Except.ok image ∧
      image.length = size ∧
      serialize_bytes_ptr (spec_constants 8) byte_serde 1 s 3 =
        Except.ok (List.replicate 3 0 ++ image, 3 + size) ∧
      serialize_bytes (spec_constants 8) byte_serde 1 s 3 =
        Except.ok (List.replicate 3 0 ++ image) :=
  ⟨⟨by decide, by decide, by decide, fun items => by simp [byte_serde], by decide, by decide⟩,
    serialize_writes_serialized_size byte_lt_strict_weak_order (fun _ => true) alternating 2
      [5, 3, 8, 1, 9, 2, 7, 4, 6, 0, 11, 12, 13] (by decide) (by decide) (by decide)
      (spec_constants 8) byte_serde 1 (fun items => by simp [byte_serde]) (by decide) 3
      (by decide)⟩

/-- C12: on every sketch reached by `update` calls, stepping the iterator from
`begin()` until it equals `end()` terminates (any number of turns above the
number of retained items is enough) and yields the items of the base buffer
in stored order with weight 1, followed, for each set bit `i` of `bit_pattern`
in ascending order, by the `k` items of `levels[i]` in order with weight
`2 ^ (i + 1)`; levels whose bit is clear are skipped, and `begin() == end()`
on the empty sketch. -/
theorem iterator_yields_items_with_weights {lt : T → T → Bool} (hlt : StrictWeakOrder lt)
    (valid : T → Bool) (rnd : Nat → Bool) (k : Nat) (xs : List T)
    (hk1 : 2 ≤ k) (hk2 : k ≤ 32768) (hn : (xs.filter valid).length < U64) :
    ∃ s, build lt valid rnd k xs = Except.ok s ∧
      (∀ fuel, (iteration_order s).length < fuel →
        iterate s fuel = Except.ok (iteration_order s)) ∧
      (∀ i L, s.levels_[i]? = some L → s.bit_pattern_.testBit i = true →
        L.items.length = k) ∧
      (s.n_ = 0 → ∃ first last, s.begin = Except.ok first ∧ s.end = Except.ok last ∧
        first.equals last = true) := by
  obtain ⟨s, hs, hinv⟩ := build_inv hlt valid rnd k xs hk1 hk2 hn
  refine ⟨s, hs, ?_, ?_, ?_⟩
  · intro fuel hf
    rw [iteration_order_eq hinv] at hf ⊢
    exact iterate_spec hinv hk2 fuel hf
  · intro i L hL hb
    exact ((hinv.lv_ok i L hL).2.1 hb).1
  · intro h0
    exact begin_eq_end_of_empty s (by rw [hinv.k_eq]; omega) h0

/-- Witness of C12: thirteen numbers into a sketch with `k = 2`. -/
theorem iterator_yields_items_with_weights_witness :
    (2 ≤ 2 ∧ 2 ≤ 32768 ∧
      ([5, 3, 8, 1, 9, 2, 7, 4, 6, 0, 11, 12, 13].filter (fun _ : Nat => true)).length < U64) ∧
    ∃ s, build nat_lt (fun _ => true) alternating 2 [5, 3, 8, 1, 9, 2, 7, 4, 6, 0, 11, 12, 13] =
        Except.ok s ∧
      (∀ fuel, (iteration_order s).length < fuel →
        iterate s fuel = Except.ok (iteration_order s)) ∧
      (∀ i L, s.levels_[i]? = some L → s.bit_pattern_.testBit i = true →
        L.items.length = 2) ∧
      (s.n_ = 0 → ∃ first last, s.begin = Except.ok first ∧ s.end = Except.ok last ∧
        first.equals last = true) :=
  ⟨⟨by decide, by decide, by decide⟩,
    iterator_yields_items_with_weights nat_lt_strict_weak_order (fun _ => true) alternating 2
      [5, 3, 8, 1, 9, 2, 7, 4, 6, 0, 11, 12, 13] (by decide) (by decide) (by decide)⟩

/-- C21 (as stated, refuted): on the empty sketch that `quantiles_sketch(2)`
constructs, `get_quantiles(0)` does not throw: it returns an empty vector. -/
theorem get_quantiles_num_zero_on_empty_counterexample :
    quantiles_sketch.new 2 =
        Except.ok (⟨2, 0, 0, ⟨[], 4⟩, [], none, none, true⟩ : quantiles_sketch Nat) ∧
      get_quantiles_num nat_lt ⟨fun _ _ _ _ => 0⟩ true
          (⟨2, 0, 0, ⟨[], 4⟩, [], none, none, true⟩ : quantiles_sketch Nat) 0 =
        (⟨2, 0, 0, ⟨[], 4⟩, [], none, none, true⟩, Except.ok []) := by
  decide

/-- C21 (amended): on every sketch that is not empty, `get_quantiles(num)`
called with `num = 0` throws `std::invalid_argument` and leaves the sketch as
it was; on an empty sketch it returns an empty vector. -/
theorem get_quantiles_num_zero_throws_unless_empty (lt : T → T → Bool)
    (qc : quantile_calculator T) (inclusive : Bool) (s : quantiles_sketch T) :
    (s.is_empty = false →
      get_quantiles_num lt qc inclusive s 0 = (s, Except.error Err.invalid_argument)) ∧
    (s.is_empty = true → get_quantiles_num lt qc inclusive s 0 = (s, Except.ok [])) := by
  constructor
  · intro h
    simp [get_quantiles_num, h]
  · intro h
    simp [get_quantiles_num, h, Level.empty]

/-- Witness of C21 (amended): the sketch with `k = 2` that has been updated
with 3 and 1. -/
theorem get_quantiles_num_zero_throws_unless_empty_witness :
    build nat_lt (fun _ => true) alternating 2 [3, 1] =
        Except.ok ⟨2, 2, 0, ⟨[3, 1], 4⟩, [], some 1, some 3, false⟩ ∧
      get_quantiles_num nat_lt ⟨fun _ _ _ _ => 0⟩ true
          ⟨2, 2, 0, ⟨[3, 1], 4⟩, [], some 1, some 3, false⟩ 0 =
        (⟨2, 2, 0, ⟨[3, 1], 4⟩, [], some 1, some 3, false⟩,
          Except.error Err.invalid_argument) :=
  ⟨by decide,
    (get_quantiles_num_zero_throws_unless_empty nat_lt ⟨fun _ _ _ _ => 0⟩ true
      ⟨2, 2, 0, ⟨[3, 1], 4⟩, [], some 1, some 3, false⟩).1 (by decide)⟩

/-- C22 (as stated, refuted): on the empty sketch that `quantiles_sketch(2)`
constructs, `get_CDF` with no split points returns an empty vector, which is
not the vector `[1.0]`. -/
theorem get_CDF_on_empty_counterexample :
    quantiles_sketch.new 2 =
        Except.ok (⟨2, 0, 0, ⟨[], 4⟩, [], none, none, true⟩ : quantiles_sketch Nat) ∧
      get_CDF nat_lt true (⟨2, 0, 0, ⟨[], 4⟩, [], none, none, true⟩ : quantiles_sketch Nat) [] =
        Except.ok [] ∧
      get_CDF nat_lt true (⟨2, 0, 0, ⟨[], 4⟩, [], none, none, true⟩ : quantiles_sketch Nat) [] ≠
        Except.ok [Double.val 1] := by
  refine ⟨by decide, rfl, ?_⟩
  intro h
  simp [get_CDF, quantiles_sketch.is_empty, Level.empty] at h

/-- C22 (amended): on an empty sketch, `get_CDF` returns an empty vector, for
the empty list of split points as for every other list. -/
theorem get_CDF_on_empty_is_empty (lt : T → T → Bool) (inclusive : Bool)
    (s : quantiles_sketch T) (split_points : List T) (h : s.n_ = 0) :
    get_CDF lt inclusive s split_points = Except.ok [] := by
  simp [get_CDF, quantiles_sketch.is_empty, h, Level.empty]

/-- Witness of C22 (amended): the sketch that `quantiles_sketch(2)` constructs,
and no split points. -/
theorem get_CDF_on_empty_is_empty_witness :
    (⟨2, 0, 0, ⟨[], 4⟩, [], none, none, true⟩ : quantiles_sketch Nat).n_ = 0 ∧
      get_CDF nat_lt false (⟨2, 0, 0, ⟨[], 4⟩, [], none, none, true⟩ : quantiles_sketch Nat) [] =
        Except.ok [] :=
  ⟨rfl, get_CDF_on_empty_is_empty nat_lt false ⟨2, 0, 0, ⟨[], 4⟩, [], none, none, true⟩ [] rfl⟩

/-- C23: for every `k` in `[2, 32768]` and every list `xs` of exactly `2k`
items that pass `check_update_value`, the updates of a fresh sketch with `xs`
return with `n_ = 2k`, `bit_pattern_ = 1`, an empty base buffer, `is_sorted_`
true and one level; with `sorted` the arrangement of `xs` that `std::sort`
leaves (ascending, a permutation of `xs`) and `b` the random bit of the one
call of `zip_buffer` (the first of the stream), level 0 holds the `k` items
`sorted[b], sorted[b + 2], ..., sorted[b + 2k - 2]`, in this order. -/
theorem first_compaction_keeps_every_other_item {lt : T → T → Bool} (hlt : StrictWeakOrder lt)
    (valid : T → Bool) (rnd : Nat → Bool) (k : Nat) (xs : List T) (h1 : 2 ≤ k) (h2 : k ≤ 32768)
    (hlen : xs.length = 2 * k) (hv : ∀ x ∈ xs, valid x = true) :
    ∃ s level0 sorted, build lt valid rnd k xs = Except.ok s ∧
      s.n_ = 2 * k ∧ s.bit_pattern_ = 1 ∧ s.base_buffer_.items = [] ∧ s.is_sorted_ = true ∧
      s.levels_ = [level0] ∧
      sorted = (std_sort lt ⟨xs, 2 * k⟩).items ∧ sorted.Perm xs ∧ SortedUnder lt sorted ∧
      level0.items.length = k ∧ SortedUnder lt level0.items ∧
      ∀ i, i < k → level0.items[i]? = sorted[(if rnd 0 then 1 else 0) + 2 * i]? := by
  have hk64 : 2 * k < U64 := by unfold U64; omega
  have hne : xs ≠ [] := by
    intro h; rw [h] at hlen; simp at hlen; omega
  have hsplit := List.dropLast_append_getLast hne
  have hdl : xs.dropLast.length = 2 * k - 1 := by simp [hlen]
  obtain ⟨s0, hs0, hinv0, hlv0, -⟩ := Inv_new (T := T) lt k h1 h2
  have hbb0 : s0.base_buffer_.items = [] := by
    apply List.length_eq_zero.mp
    rw [hinv0.bb_len, hinv0.n_eq]; simp
  obtain ⟨s1, hu1, hinv1, hbb1, hlv1⟩ :=
    update_all_below_full hlt valid rnd k xs.dropLast [] s0 0 hinv0 hbb0 hlv0
      (fun x hx => hv x (List.mem_of_mem_dropLast hx)) (by simp; omega) hk64
  simp only [List.nil_append] at hinv1 hbb1
  obtain ⟨s2, pos2, mn, mx, hu2, hinv2, hcase⟩ :=
    update_valid_step hlt valid rnd k xs.dropLast s1 0 (xs.getLast hne) hinv1
      (hv _ (List.getLast_mem hne)) (by rw [hdl]; omega)
  have hbuild : build lt valid rnd k xs = Except.ok s2 := by
    unfold build
    rw [hs0]
    simp only
    rw [← hsplit, update_all_append, hu1]
    simp only [update_all, hu2]
  rcases hcase with ⟨hnf, -, -⟩ | ⟨-, hp, -, -⟩
  · rw [hbb1, hdl] at hnf; omega
  have hitems : (pushed_sketch s1 mn mx (xs.getLast hne)).base_buffer_.items = xs := by
    have := pushed_buffer_items s1.k_ s1.base_buffer_ (xs.getLast hne)
    rw [hbb1, hsplit] at this
    exact this
  have hn1 : s1.n_ = 2 * k - 1 := by rw [hinv1.n_eq, hdl]
  have hfirst := process_full_base_buffer_first lt rnd 0 k (by omega)
    (pushed_sketch s1 mn mx (xs.getLast hne)) hinv1.k_eq
    (by
      simp only [pushed_sketch, hn1]
      rw [Nat.mod_eq_of_lt (by omega)]; omega)
    hk64
    (by
      simp only [pushed_sketch]
      rw [hinv1.bp_eq, hn1]
      exact Nat.div_eq_of_lt (by omega))
    hlv1 (by rw [hitems]; exact hlen)
  rw [hp] at hfirst
  injection hfirst with hfirst
  injection hfirst with hs2 hpos
  have hsorted : (std_sort lt (pushed_sketch s1 mn mx (xs.getLast hne)).base_buffer_).items =
      (std_sort lt ⟨xs, 2 * k⟩).items := by
    simp only [std_sort, hitems]
  rw [hsorted] at hs2
  have hperm := std_sort_perm lt ⟨xs, 2 * k⟩
  have hsort := std_sort_sorted hlt ⟨xs, 2 * k⟩
  have hsl : (std_sort lt ⟨xs, 2 * k⟩).items.length = 2 * k := by
    rw [hperm.length_eq]; exact hlen
  refine ⟨s2, ⟨every_other ((std_sort lt ⟨xs, 2 * k⟩).items.drop (if rnd 0 then 1 else 0)), k⟩,
    (std_sort lt ⟨xs, 2 * k⟩).items, hbuild, ?_, ?_, ?_, ?_, ?_, rfl, hperm, hsort, ?_, ?_, ?_⟩
  · rw [hinv2.n_eq]; simp [hdl]; omega
  · rw [hs2]
  · rw [hs2]
  · rw [hs2]
  · rw [hs2]
  · simp only
    rw [every_other_length, List.length_drop, hsl]
    split <;> omega
  · exact List.Pairwise.sublist ((every_other_sublist _).trans (List.drop_sublist _ _)) hsort
  · intro i _
    simp only
    rw [every_other_getElem?, List.getElem?_drop]

/-- Witness of C23: `k = 2`, the items 5, 3, 8, 1 and the random stream that
starts with offset 0: level 0 holds 1 and 5. -/
theorem first_compaction_keeps_every_other_item_witness :
    (2 ≤ 2 ∧ 2 ≤ 32768 ∧ ([5, 3, 8, 1] : List Nat).length = 2 * 2 ∧
      (∀ x ∈ ([5, 3, 8, 1] : List Nat), (fun _ => true) x = true)) ∧
    ∃ s level0 sorted, build nat_lt (fun _ => true) alternating 2 [5, 3, 8, 1] = Except.ok s ∧
      s.n_ = 2 * 2 ∧ s.bit_pattern_ = 1 ∧ s.base_buffer_.items = [] ∧ s.is_sorted_ = true ∧
      s.levels_ = [level0] ∧
      sorted = (std_sort nat_lt ⟨[5, 3, 8, 1], 2 * 2⟩).items ∧ sorted.Perm [5, 3, 8, 1] ∧
      SortedUnder nat_lt sorted ∧
      level0.items.length = 2 ∧ SortedUnder nat_lt level0.items ∧
      ∀ i, i < 2 → level0.items[i]? = sorted[(if alternating 0 then 1 else 0) + 2 * i]? :=
  ⟨⟨by decide, by decide, rfl, fun _ _ => rfl⟩,
    first_compaction_keeps_every_other_item nat_lt_strict_weak_order (fun _ => true) alternating
      2 [5, 3, 8, 1] (by decide) (by decide) rfl (fun _ _ => rfl)⟩

/-- C24 (the code departs from it): a sketch that either `deserialize` returns
for an image with the flags byte `flags_byte`, read by a SerDe that yields as
many items as it is asked for, has `base_buffer_.size() == n_ % (2 * k_)` if
the flag `IS_EMPTY` or the flag `IS_COMPACT` is set; if neither is set, the
base buffer holds `2 * k_` items, which is never `n_ % (2 * k_)`. -/
theorem deserialize_base_buffer_size (c : Constants) (serde : SerDe T)
    (hr : serde.ReadsExactly) (image : List Nat) (flags_byte : Nat) (s : quantiles_sketch T)
    (hflags : image[3]? = some flags_byte)
    (h : deserialize c serde image = Except.ok s ∨
      deserialize_bytes c serde image = Except.ok s) :
    (header_empty c flags_byte = true ∨ header_compact c flags_byte = true →
      s.base_buffer_.size = s.n_ % (2 * s.k_)) ∧
    (header_empty c flags_byte = false → header_compact c flags_byte = false →
      s.base_buffer_.size = 2 * s.k_ ∧ s.base_buffer_.size ≠ s.n_ % (2 * s.k_)) := by
  have key : ∃ preamble_longs serial_version family_id flags_byte k0 k1 u0 u1 rest,
      image = preamble_longs :: serial_version :: family_id :: flags_byte :: k0 :: k1 :: u0 ::
        u1 :: rest ∧
      (header_empty c flags_byte = true → quantiles_sketch.new (k0 + 256 * k1) = Except.ok s) ∧
      (header_empty c flags_byte = false →
        s.k_ = k0 + 256 * k1 ∧ s.k_ ≠ 0 ∧
        ∃ mem mem1,
          serde.deserialize mem
            (if header_compact c flags_byte then s.n_ % (2 * s.k_) else 2 * s.k_) =
              some (s.base_buffer_.items, mem1)) := by
    rcases h with h | h
    · exact deserialize_returns c serde image s h
    · exact deserialize_bytes_returns c serde image s h
  obtain ⟨b0, b1, b2, b3, k0, k1, u0, u1, rest, himg, hempty, hdata⟩ := key
  subst himg
  simp only [List.getElem?_cons_succ, List.getElem?_cons_zero, Option.some.injEq] at hflags
  subst hflags
  have hnew : header_empty c b3 = true → s.base_buffer_.size = s.n_ % (2 * s.k_) := by
    intro he
    have hs := hempty he
    unfold quantiles_sketch.new at hs
    split at hs
    · cases hs
    · injection hs with hs
      rw [← hs]
      simp [Level.size, Level.reserve, Level.empty]
  constructor
  · intro hor
    by_cases he : header_empty c b3 = true
    · exact hnew he
    · have he2 : header_empty c b3 = false := by simpa using he
      have hcp : header_compact c b3 = true := by
        rcases hor with h1 | h1
        · exact absurd h1 he
        · exact h1
      obtain ⟨-, -, mem, mem1, hd⟩ := hdata he2
      rw [hcp, if_pos rfl] at hd
      exact hr _ _ _ _ hd
  · intro he hcp
    obtain ⟨-, hk, mem, mem1, hd⟩ := hdata he
    rw [hcp] at hd
    simp only [Bool.false_eq_true, if_false] at hd
    have hlen : s.base_buffer_.size = 2 * s.k_ := hr _ _ _ _ hd
    refine ⟨hlen, ?_⟩
    rw [hlen]
    have := Nat.mod_lt s.n_ (show 0 < 2 * s.k_ by omega)
    omega

/-- Witness of C24: the image of a sketch with `k = 2` and `n = 1` in the
layout that is not compact, every item one byte: the base buffer that
`deserialize` returns holds four items. -/
theorem deserialize_base_buffer_size_witness :
    (byte_serde.ReadsExactly ∧
      ([2, 3, 8, 0, 2, 0, 0, 0, 1, 0, 0, 0, 0, 0, 0, 0, 7, 7, 7, 0, 0, 0] : List Nat)[3]? =
        some 0 ∧
      deserialize (spec_constants 8) byte_serde
          [2, 3, 8, 0, 2, 0, 0, 0, 1, 0, 0, 0, 0, 0, 0, 0, 7, 7, 7, 0, 0, 0] =
        Except.ok ⟨2, 1, 0, ⟨[7, 0, 0, 0], 4⟩, [], some 7, some 7, false⟩ ∧
      deserialize_bytes (spec_constants 8) byte_serde
          [2, 3, 8, 0, 2, 0, 0, 0, 1, 0, 0, 0, 0, 0, 0, 0, 7, 7, 7, 0, 0, 0] =
        Except.ok ⟨2, 1, 0, ⟨[7, 0, 0, 0], 4⟩, [], some 7, some 7, false⟩ ∧
      header_empty (spec_constants 8) 0 = false ∧ header_compact (spec_constants 8) 0 = false) ∧
    ((⟨[7, 0, 0, 0], 4⟩ : Level (Fin 256)).size = 2 * 2 ∧
      (⟨[7, 0, 0, 0], 4⟩ : Level (Fin 256)).size ≠ 1 % (2 * 2)) :=
  ⟨⟨byte_serde_reads_exactly, rfl, by decide, by decide, by decide, by decide⟩,
    (deserialize_base_buffer_size (spec_constants 8) byte_serde byte_serde_reads_exactly
      [2, 3, 8, 0, 2, 0, 0, 0, 1, 0, 0, 0, 0, 0, 0, 0, 7, 7, 7, 0, 0, 0] 0
      ⟨2, 1, 0, ⟨[7, 0, 0, 0], 4⟩, [], some 7, some 7, false⟩ rfl
      (Or.inl (by decide))).2 (by decide) (by decide)⟩

/-- C25 (the code departs from it): the image of a sketch with `n = 1` in the
compact layout, every item one byte, with any `k` of 16 bits in the bytes 4
and 5.  Both `deserialize` return a sketch with that `k_`, be it 1 or above
32768, and for `k = 0` they divide by zero in `compute_levels_needed`. -/
theorem deserialize_accepts_any_nonzero_k (k : Nat) (hk16 : k < 65536) :
    (∀ b ∈ [2, 3, 8, 4, k % 256, k / 256, 0, 0, 1, 0, 0, 0, 0, 0, 0, 0, 7, 7, 7], b < 256) ∧
    (k ≠ 0 →
      deserialize (spec_constants 8) byte_serde
          [2, 3, 8, 4, k % 256, k / 256, 0, 0, 1, 0, 0, 0, 0, 0, 0, 0, 7, 7, 7] =
        Except.ok ⟨k, 1, 0, ⟨[7], 2 * k⟩, [], some 7, some 7, false⟩ ∧
      deserialize_bytes (spec_constants 8) byte_serde
          [2, 3, 8, 4, k % 256, k / 256, 0, 0, 1, 0, 0, 0, 0, 0, 0, 0, 7, 7, 7] =
        Except.ok ⟨k, 1, 0, ⟨[7], 2 * k⟩, [], some 7, some 7, false⟩) ∧
    (k = 0 →
      deserialize (spec_constants 8) byte_serde
          [2, 3, 8, 4, k % 256, k / 256, 0, 0, 1, 0, 0, 0, 0, 0, 0, 0, 7, 7, 7] =
        Except.error Err.division_by_zero ∧
      deserialize_bytes (spec_constants 8) byte_serde
          [2, 3, 8, 4, k % 256, k / 256, 0, 0, 1, 0, 0, 0, 0, 0, 0, 0, 7, 7, 7] =
        Except.error Err.division_by_zero) := by
  refine ⟨?_, ?_⟩
  · intro b hb
    have h1 : k % 256 < 256 := Nat.mod_lt _ (by norm_num)
    have h2 : k / 256 < 256 := by omega
    simp only [List.mem_cons, List.mem_nil_iff, or_false] at hb
    omega
  have hkk : k % 256 + 256 * (k / 256) = k := Nat.mod_add_div k 256
  have h1 : check_serial_version (spec_constants 8) 3 = Except.ok () := by decide
  have h2 : check_family_id (spec_constants 8) 8 = Except.ok () := by decide
  have h3 : check_header_validity (spec_constants 8) 2 4 3 = Except.ok () := by decide
  have h4 : read 8 [1, 0, 0, 0, 0, 0, 0, 0, 7, 7, 7] = Except.ok (1, [7, 7, 7]) := by decide
  have h4b : copy_from_mem 8 [1, 0, 0, 0, 0, 0, 0, 0, 7, 7, 7] = Except.ok (1, [7, 7, 7]) := by
    decide
  have h5 : deserialize_one byte_serde [7, 7, 7] = Except.ok (7, [7, 7]) := by decide
  have h6 : deserialize_one byte_serde [7, 7] = Except.ok (7, [7]) := by decide
  have h5b : deserialize_one_bytes byte_serde [7, 7, 7] = Except.ok (7, [7, 7]) := by decide
  have h6b : deserialize_one_bytes byte_serde [7, 7] = Except.ok (7, [7]) := by decide
  have h7 : (1 <<< (spec_constants 8).IS_EMPTY) = 1 := by decide
  have h8 : (1 <<< (spec_constants 8).IS_COMPACT) = 4 := by decide
  have h9 : (1 <<< (spec_constants 8).IS_SORTED) = 2 := by decide
  have hm8 : ensure_minimum_memory
      [2, 3, 8, 4, k % 256, k / 256, 0, 0, 1, 0, 0, 0, 0, 0, 0, 0, 7, 7, 7].length 8 =
        Except.ok () := by simp [ensure_minimum_memory]
  have hm16 : ensure_minimum_memory
      [2, 3, 8, 4, k % 256, k / 256, 0, 0, 1, 0, 0, 0, 0, 0, 0, 0, 7, 7, 7].length 16 =
        Except.ok () := by simp [ensure_minimum_memory]
  constructor
  · intro hk
    have hd : 1 / (2 * k) = 0 := Nat.div_eq_of_lt (by omega)
    have hmod : 1 % (2 * k) = 1 := Nat.mod_eq_of_lt (by omega)
    have hl : compute_levels_needed k 1 = Except.ok 0 := by
      unfold compute_levels_needed
      rw [if_neg (by omega), hd]
      decide
    have hb : compute_bit_pattern k 1 = Except.ok 0 := by
      unfold compute_bit_pattern
      rw [if_neg (by omega), hd]
    have hi : compute_base_buffer_items k 1 = Except.ok 1 := by
      unfold compute_base_buffer_items
      rw [if_neg (by omega), hmod]
    have ha : deserialize_array byte_serde [7] 1 (2 * k) =
        Except.ok (⟨[7], 2 * k⟩, []) := by
      simp only [deserialize_array, byte_serde, byte_deserialize, Level.insert_end,
        Level.reserve, Level.empty]
      simp
      omega
    have hab : deserialize_array_bytes byte_serde [7] 1 (2 * k) =
        Except.ok (⟨[7], 2 * k⟩, []) := by
      simp only [deserialize_array_bytes, byte_serde, byte_deserialize, Level.insert_end,
        Level.reserve, Level.empty]
      simp
      omega
    constructor
    · unfold deserialize
      simp only [read_one, read_two, bind, Except.bind, hkk, h1, h2, h3, h4, h5, h6, h7, h8, h9,
        hl, hb, hi, ha, deserialize_levels, pure, Except.pure]
      simp
      rw [ha]
      simp
      decide
    · unfold deserialize_bytes
      simp only [hm8, hm16, copy_from_mem_one, copy_from_mem_two, bind, Except.bind, hkk, h1, h2,
        h3, h4b, h5b, h6b, h7, h8, h9, hl, hb, hi, hab, deserialize_levels_bytes, pure,
        Except.pure]
      simp
      rw [hab]
      simp
      decide
  · intro hk
    have hl : compute_levels_needed k 1 = Except.error Err.division_by_zero := by
      unfold compute_levels_needed
      rw [if_pos (by omega)]
    constructor
    · unfold deserialize
      simp only [read_one, read_two, bind, Except.bind, hkk, h1, h2, h3, h4, h5, h6, h7, h8, h9,
        hl]
      simp
    · unfold deserialize_bytes
      simp only [hm8, hm16, copy_from_mem_one, copy_from_mem_two, bind, Except.bind, hkk, h1, h2,
        h3, h4b, h5b, h6b, h7, h8, h9, hl]
      simp

/-- Witness of C25: the image with `k = 1`. -/
theorem deserialize_accepts_any_nonzero_k_witness :
    (1 < 65536 ∧ 1 ≠ 0 ∧ ¬ (2 ≤ 1 ∧ 1 ≤ 32768)) ∧
      deserialize (spec_constants 8) byte_serde
          [2, 3, 8, 4, 1 % 256, 1 / 256, 0, 0, 1, 0, 0, 0, 0, 0, 0, 0, 7, 7, 7] =
        Except.ok ⟨1, 1, 0, ⟨[7], 2 * 1⟩, [], some 7, some 7, false⟩ ∧
      deserialize_bytes (spec_constants 8) byte_serde
          [2, 3, 8, 4, 1 % 256, 1 / 256, 0, 0, 1, 0, 0, 0, 0, 0, 0, 0, 7, 7, 7] =
        Except.ok ⟨1, 1, 0, ⟨[7], 2 * 1⟩, [], some 7, some 7, false⟩ :=
  ⟨⟨by decide, by decide, by decide⟩,
    (deserialize_accepts_any_nonzero_k 1 (by decide)).2.1 (by decide)⟩

/-- C26 (as stated, refuted): after the updates 1 and 2 of a fresh sketch with
`k = 2` the base buffer holds 1, 2, which is ascending, and `is_sorted_` is
false. -/
theorem is_sorted_false_on_sorted_buffer_counterexample :
    build nat_lt (fun _ => true) alternating 2 [1, 2] =
        Except.ok ⟨2, 2, 0, ⟨[1, 2], 4⟩, [], some 1, some 2, false⟩ ∧
      SortedUnder nat_lt [1, 2] := by
  refine ⟨by decide, ?_⟩
  simp [SortedUnder, nat_lt]

/-- C26 (amended): in every state reached from a fresh sketch by `update`
calls, `is_sorted_` is true exactly when the base buffer holds at most one
item; so whenever `is_sorted_` is true the base buffer is ascending under the
comparator. -/
theorem is_sorted_implies_sorted_base_buffer {lt : T → T → Bool} (hlt : StrictWeakOrder lt)
    (valid : T → Bool) (rnd : Nat → Bool) (k : Nat) (xs : List T) (h1 : 2 ≤ k) (h2 : k ≤ 32768)
    (hn : (xs.filter valid).length < U64) :
    ∃ s, build lt valid rnd k xs = Except.ok s ∧
      (s.is_sorted_ = true → SortedUnder lt s.base_buffer_.items) ∧
      (s.is_sorted_ = true ↔ s.base_buffer_.size ≤ 1) := by
  obtain ⟨s, hs, -, hflag⟩ := build_flag hlt valid rnd k xs h1 h2 hn
  refine ⟨s, hs, ?_, hflag⟩
  intro h
  have hlen := hflag.mp h
  unfold SortedUnder
  match hitems : s.base_buffer_.items with
  | [] => exact List.Pairwise.nil
  | [a] => exact List.pairwise_singleton _ a
  | a :: b :: r =>
    rw [hitems] at hlen
    simp at hlen

/-- Witness of C26 (amended): `k = 2` and five updates; the base buffer holds
the fifth item and the flag is set. -/
theorem is_sorted_implies_sorted_base_buffer_witness :
    (2 ≤ 2 ∧ 2 ≤ 32768 ∧ (([5, 3, 8, 1, 9] : List Nat).filter (fun _ => true)).length < U64) ∧
    ∃ s, build nat_lt (fun _ => true) alternating 2 [5, 3, 8, 1, 9] = Except.ok s ∧
      (s.is_sorted_ = true → SortedUnder nat_lt s.base_buffer_.items) ∧
      (s.is_sorted_ = true ↔ s.base_buffer_.size ≤ 1) :=
  ⟨⟨by decide, by decide, by decide⟩,
    is_sorted_implies_sorted_base_buffer nat_lt_strict_weak_order (fun _ => true) alternating 2
      [5, 3, 8, 1, 9] (by decide) (by decide) (by decide)⟩

/-- C27: in every state reached from a fresh sketch by `update` calls, with
`n_ > 0`, `levels_.size()` is at least `ceil(log2(n_ / (2k) + 1))`, which is the
bit length of `n_ / (2k)`; and the `update` that follows returns with at least
as many levels as there were before it. -/
theorem levels_cover_bit_length_and_never_shrink {lt : T → T → Bool}
    (hlt : StrictWeakOrder lt) (valid : T → Bool) (rnd : Nat → Bool) (k : Nat) (xs : List T)
    (x : T) (h1 : 2 ≤ k) (h2 : k ≤ 32768) (hn : ((xs ++ [x]).filter valid).length < U64) :
    ∃ s pos s1 pos1, build lt valid rnd k xs = Except.ok s ∧
      update lt valid rnd (s, pos) x = Except.ok (s1, pos1) ∧
      build lt valid rnd k (xs ++ [x]) = Except.ok s1 ∧
      (0 < s.n_ → Nat.clog 2 (s.n_ / (2 * k) + 1) ≤ s.levels_.length ∧
        Nat.size (s.n_ / (2 * k)) ≤ s.levels_.length) ∧
      s.levels_.length ≤ s1.levels_.length := by
  have hn0 : ([] ++ xs.filter valid).length < U64 := by
    simp only [List.filter_append, List.length_append, List.nil_append] at hn ⊢
    omega
  obtain ⟨s0, hs0, hinv0, -, -⟩ := Inv_new (T := T) lt k h1 h2
  obtain ⟨s, pos, hu, hinv⟩ := update_all_inv hlt valid rnd k xs [] s0 0 hinv0 hn0
  rw [List.nil_append] at hinv
  have hb : build lt valid rnd k xs = Except.ok s := by
    unfold build
    rw [hs0]
    simp only [hu]
  have hcover : Nat.clog 2 (s.n_ / (2 * k) + 1) ≤ s.levels_.length ∧
      Nat.size (s.n_ / (2 * k)) ≤ s.levels_.length := by
    rw [← size_eq_clog, hinv.lv_len, hinv.bp_eq]
    exact ⟨le_refl _, le_refl _⟩
  by_cases hv : valid x = true
  · have hf : (xs ++ [x]).filter valid = xs.filter valid ++ [x] := by simp [hv]
    rw [hf] at hn
    obtain ⟨s1, pos1, hu1, hinv1⟩ :=
      update_valid_inv hlt valid rnd k (xs.filter valid) s pos x hinv hv (by simpa using hn)
    refine ⟨s, pos, s1, pos1, hb, hu1, ?_, fun _ => hcover, ?_⟩
    · unfold build
      rw [hs0]
      simp only [update_all_append, hu, update_all, hu1]
    · rw [hinv.lv_len, hinv1.lv_len, hinv.bp_eq, hinv1.bp_eq, hinv.n_eq, hinv1.n_eq]
      apply Nat.size_le_size
      apply Nat.div_le_div_right
      simp
  · have hv2 : valid x = false := by simpa using hv
    have hu1 := update_invalid lt valid rnd (s, pos) x hv2
    refine ⟨s, pos, s, pos, hb, hu1, ?_, fun _ => hcover, le_refl _⟩
    unfold build
    rw [hs0]
    simp only [update_all_append, hu, update_all, hu1]

/-- Witness of C27: `k = 2`, twelve updates and a thirteenth. -/
theorem levels_cover_bit_length_and_never_shrink_witness :
    (2 ≤ 2 ∧ 2 ≤ 32768 ∧
      ((([5, 3, 8, 1, 9, 2, 7, 4, 6, 0, 11, 12] : List Nat) ++ [13]).filter
        (fun _ => true)).length < U64) ∧
    ∃ s pos s1 pos1,
      build nat_lt (fun _ => true) alternating 2 [5, 3, 8, 1, 9, 2, 7, 4, 6, 0, 11, 12] =
        Except.ok s ∧
      update nat_lt (fun _ => true) alternating (s, pos) 13 = Except.ok (s1, pos1) ∧
      build nat_lt (fun _ => true) alternating 2 ([5, 3, 8, 1, 9, 2, 7, 4, 6, 0, 11, 12] ++ [13]) =
        Except.ok s1 ∧
      (0 < s.n_ → Nat.clog 2 (s.n_ / (2 * 2) + 1) ≤ s.levels_.length ∧
        Nat.size (s.n_ / (2 * 2)) ≤ s.levels_.length) ∧
      s.levels_.length ≤ s1.levels_.length :=
  ⟨⟨by decide, by decide, by decide⟩,
    levels_cover_bit_length_and_never_shrink nat_lt_strict_weak_order (fun _ => true)
      alternating 2 [5, 3, 8, 1, 9, 2, 7, 4, 6, 0, 11, 12] 13 (by decide) (by decide)
      (by decide)⟩

/-- C28: for every `k ≥ 1` and every two buffers of `k` items each, both
ascending under a strict weak order, `merge_two_size_k_buffers` with an empty
`dst` of capacity `2k` (its assertions ask for both) returns with `2k` items in
`dst`, ascending, and a permutation of the items of `src_1` followed by those
of `src_2`. -/
theorem merge_two_size_k_buffers_sorted_permutation {lt : T → T → Bool}
    (hlt : StrictWeakOrder lt) (k : Nat) (hk : 1 ≤ k) (src_1 src_2 dst : Level T)
    (h1 : src_1.items.length = k) (h2 : src_2.items.length = k)
    (hs1 : SortedUnder lt src_1.items) (hs2 : SortedUnder lt src_2.items)
    (hd : dst.items = []) (hc : dst.capacity = 2 * k) :
    ∃ d, merge_two_size_k_buffers lt src_1 src_2 dst = Except.ok d ∧
      d.items.length = 2 * k ∧ SortedUnder lt d.items ∧
      d.items.Perm (src_1.items ++ src_2.items) := by
  refine ⟨_, merge_two_size_k_buffers_spec lt src_1 src_2 dst k (by omega) h1 h2 hd hc, ?_,
    merge_items_sorted hlt hs1 hs2, merge_items_perm lt _ _⟩
  simp only [merge_items_length, h1, h2]
  omega

/-- Witness of C28: two buffers of two numbers. -/
theorem merge_two_size_k_buffers_sorted_permutation_witness :
    (1 ≤ 2 ∧ ([1, 5] : List Nat).length = 2 ∧ ([2, 3] : List Nat).length = 2 ∧
      SortedUnder nat_lt [1, 5] ∧ SortedUnder nat_lt [2, 3]) ∧
    ∃ d, merge_two_size_k_buffers nat_lt ⟨[1, 5], 2⟩ ⟨[2, 3], 2⟩ ⟨[], 4⟩ = Except.ok d ∧
      d.items.length = 2 * 2 ∧ SortedUnder nat_lt d.items ∧
      d.items.Perm ([1, 5] ++ [2, 3]) :=
  ⟨⟨by decide, rfl, rfl, by simp [SortedUnder, nat_lt], by simp [SortedUnder, nat_lt]⟩,
    merge_two_size_k_buffers_sorted_permutation nat_lt_strict_weak_order 2 (by decide)
      ⟨[1, 5], 2⟩ ⟨[2, 3], 2⟩ ⟨[], 4⟩ rfl rfl (by simp [SortedUnder, nat_lt])
      (by simp [SortedUnder, nat_lt]) rfl rfl⟩

/-- C29 (as stated, refuted): under the comparator that compares the tens, 10
and 11 are equivalent, and so are 20 and 21; the merge of `src_1 = [10, 20]`
and `src_2 = [11, 21]` is `[11, 10, 21, 20]`, in which the item of `src_2`
stands before the equivalent item of `src_1`. -/
theorem merge_ties_go_to_first_input_counterexample :
    merge_two_size_k_buffers tens_lt ⟨[10, 20], 2⟩ ⟨[11, 21], 2⟩ ⟨[], 4⟩ =
        Except.ok ⟨[11, 10, 21, 20], 4⟩ ∧
      tens_lt 10 11 = false ∧ tens_lt 11 10 = false ∧
      tens_lt 20 21 = false ∧ tens_lt 21 20 = false := by
  decide

/-- C29 (amended): in `merge_two_size_k_buffers`, ties go to the second input.
For two buffers of `k` items, the second ascending under a strict weak order,
and items that can be told apart (`tag` is false on the items of `src_1` and
true on those of `src_2`): whenever an item `a` of `src_1` and an item `b` of
`src_2` are equivalent under the comparator, `b` stands before `a` in the
merged output and `a` nowhere stands before `b`. -/
theorem merge_ties_go_to_second_input {lt : T → T → Bool} (hlt : StrictWeakOrder lt)
    (tag : T → Bool) (k : Nat) (hk : 1 ≤ k) (src_1 src_2 dst : Level T)
    (h1 : src_1.items.length = k) (h2 : src_2.items.length = k)
    (hs2 : SortedUnder lt src_2.items) (hd : dst.items = []) (hc : dst.capacity = 2 * k)
    (ht1 : ∀ x ∈ src_1.items, tag x = false) (ht2 : ∀ x ∈ src_2.items, tag x = true) :
    ∃ d, merge_two_size_k_buffers lt src_1 src_2 dst = Except.ok d ∧
      ∀ a ∈ src_1.items, ∀ b ∈ src_2.items, lt a b = false → lt b a = false →
        [b, a].Sublist d.items ∧ ¬ [a, b].Sublist d.items := by
  refine ⟨_, merge_two_size_k_buffers_spec lt src_1 src_2 dst k (by omega) h1 h2 hd hc, ?_⟩
  intro a ha b hb hab hba
  have hpw := merge_items_first_before_second hlt tag src_1.items src_2.items hs2 ht1 ht2
  have hnot : ¬ [a, b].Sublist (merge_items lt src_1.items src_2.items) := by
    intro hsub
    have h := List.Pairwise.sublist hsub hpw
    have hlt2 := List.rel_of_pairwise_cons h (List.mem_singleton_self b) (ht1 a ha) (ht2 b hb)
    rw [hab] at hlt2
    simp at hlt2
  have hne : b ≠ a := by
    intro h
    have := ht1 a ha
    rw [← h, ht2 b hb] at this
    simp at this
  refine ⟨?_, hnot⟩
  rcases pair_sublist_of_mem hne (merge_items lt src_1.items src_2.items)
    (mem_merge_items.mpr (Or.inr hb)) (mem_merge_items.mpr (Or.inl ha)) with h | h
  · exact h
  · exact absurd h hnot

/-- Witness of C29 (amended): the buffers `[10, 20]` and `[11, 21]` under the
comparator that compares the tens; the odd numbers are those of `src_2`. -/
theorem merge_ties_go_to_second_input_witness :
    (1 ≤ 2 ∧ ([10, 20] : List Nat).length = 2 ∧ ([11, 21] : List Nat).length = 2 ∧
      SortedUnder tens_lt [11, 21] ∧
      (∀ x ∈ ([10, 20] : List Nat), (fun n : Nat => n % 2 == 1) x = false) ∧
      (∀ x ∈ ([11, 21] : List Nat), (fun n : Nat => n % 2 == 1) x = true)) ∧
    ∃ d, merge_two_size_k_buffers tens_lt ⟨[10, 20], 2⟩ ⟨[11, 21], 2⟩ ⟨[], 4⟩ = Except.ok d ∧
      ∀ a ∈ ([10, 20] : List Nat), ∀ b ∈ ([11, 21] : List Nat),
        tens_lt a b = false → tens_lt b a = false →
        [b, a].Sublist d.items ∧ ¬ [a, b].Sublist d.items :=
  ⟨⟨by decide, rfl, rfl, by simp [SortedUnder, tens_lt], by decide, by decide⟩,
    merge_ties_go_to_second_input tens_lt_strict_weak_order (fun n : Nat => n % 2 == 1) 2
      (by decide) ⟨[10, 20], 2⟩ ⟨[11, 21], 2⟩ ⟨[], 4⟩ rfl rfl (by simp [SortedUnder, tens_lt])
      rfl rfl (by decide) (by decide)⟩

/-- C30 (as stated, refuted): in the state with `k_ = 2`, `n_ = 8` and no
level, two levels are needed, and `grow_levels_if_needed()` returns with one
level. -/
theorem grow_levels_if_needed_single_push_counterexample :
    compute_levels_needed 2 8 = Except.ok 2 ∧
      grow_levels_if_needed (⟨2, 8, 2, ⟨[], 4⟩, [], some 0, some 0, true⟩ : quantiles_sketch Nat) =
        Except.ok (true, ⟨2, 8, 2, ⟨[], 4⟩, [⟨[], 2⟩], some 0, some 0, true⟩) := by
  decide

/-- C30 (amended): for every sketch state in which `compute_levels_needed`
returns `levels_needed`, `grow_levels_if_needed()` returns after pushing at
most one empty level of capacity `k_`: if `levels_.size() + 1 >= levels_needed`
before the call (as in every state that `update` reaches) then
`levels_.size() >= levels_needed` after it, and otherwise there is exactly one
level more than before. -/
theorem grow_levels_if_needed_pushes_at_most_one (s : quantiles_sketch T) (levels_needed : Nat)
    (hneed : compute_levels_needed s.k_ s.n_ = Except.ok levels_needed) :
    ∃ b s1, grow_levels_if_needed s = Except.ok (b, s1) ∧
      (s1.levels_ = s.levels_ ∨ s1.levels_ = s.levels_ ++ [⟨[], s.k_⟩]) ∧
      (levels_needed ≤ s.levels_.length + 1 → levels_needed ≤ s1.levels_.length) ∧
      (s.levels_.length + 1 < levels_needed → s1.levels_.length = s.levels_.length + 1) := by
  unfold grow_levels_if_needed
  rw [hneed]
  simp only
  by_cases h0 : levels_needed = 0
  · rw [if_pos h0]
    exact ⟨false, s, rfl, Or.inl rfl, fun _ => by omega, fun h => by omega⟩
  · rw [if_neg h0]
    by_cases hle : levels_needed ≤ s.levels_.length
    · rw [if_pos hle]
      exact ⟨false, s, rfl, Or.inl rfl, fun _ => hle, fun h => by omega⟩
    · rw [if_neg hle]
      refine ⟨true, _, rfl, Or.inr ?_, fun h => ?_, fun _ => ?_⟩
      · simp [Level.reserve, Level.empty]
      · simp only [List.length_append, List.length_cons, List.length_nil]
        omega
      · simp

/-- Witness of C30 (amended): the state with `k_ = 2`, `n_ = 8`, one level and
two levels needed. -/
theorem grow_levels_if_needed_pushes_at_most_one_witness :
    compute_levels_needed 2 8 = Except.ok 2 ∧
    ∃ b s1,
      grow_levels_if_needed
          (⟨2, 8, 1, ⟨[], 4⟩, [⟨[1, 2], 2⟩], some 0, some 0, true⟩ : quantiles_sketch Nat) =
        Except.ok (b, s1) ∧
      (s1.levels_ = [⟨[1, 2], 2⟩] ∨ s1.levels_ = [⟨[1, 2], 2⟩] ++ [⟨[], 2⟩]) ∧
      (2 ≤ [(⟨[1, 2], 2⟩ : Level Nat)].length + 1 → 2 ≤ s1.levels_.length) ∧
      ([(⟨[1, 2], 2⟩ : Level Nat)].length + 1 < 2 → s1.levels_.length =
        [(⟨[1, 2], 2⟩ : Level Nat)].length + 1) :=
  ⟨by decide,
    grow_levels_if_needed_pushes_at_most_one
      (⟨2, 8, 1, ⟨[], 4⟩, [⟨[1, 2], 2⟩], some 0, some 0, true⟩ : quantiles_sketch Nat) 2
      (by decide)⟩

/-- C31: on every sketch that is not empty and for every rank `r` with
`0 < r < 1`, the call `get_quantile(r)` leaves `k_`, `n_`, `bit_pattern_`, the
levels, the minimum, the maximum and `is_sorted_` as they were, and the base
buffer afterwards is a permutation of the base buffer before, with the same
capacity: the sketch is untouched when `is_sorted_` was true, and the base
buffer is the one that `std::sort` leaves, ascending under a strict weak order,
when `is_sorted_` was false.  The call returns an item when every level is
empty or holds at least `k_` items.  (`get_rank`, `get_CDF` and `get_PMF` are
`const` members without a `const_cast`; they are functions of the state and
have no state to return.) -/
theorem get_quantile_changes_only_base_buffer_order (lt : T → T → Bool)
    (qc : quantile_calculator T) (get_invalid_value : Except Err T) (inclusive : Bool)
    (s : quantiles_sketch T) (r : ℚ) (hne : s.is_empty = false) (h0 : 0 < r) (h1 : r < 1) :
    ∃ s1 outcome,
      get_quantile lt qc get_invalid_value inclusive s (Double.val r) = (s1, outcome) ∧
      s1.k_ = s.k_ ∧ s1.n_ = s.n_ ∧ s1.bit_pattern_ = s.bit_pattern_ ∧
      s1.levels_ = s.levels_ ∧ s1.min_value_ = s.min_value_ ∧
      s1.max_value_ = s.max_value_ ∧ s1.is_sorted_ = s.is_sorted_ ∧
      s1.base_buffer_.items.Perm s.base_buffer_.items ∧
      s1.base_buffer_.capacity = s.base_buffer_.capacity ∧
      (s.is_sorted_ = true → s1 = s) ∧
      (s.is_sorted_ = false → s1.base_buffer_ = std_sort lt s.base_buffer_ ∧
        (StrictWeakOrder lt → SortedUnder lt s1.base_buffer_.items)) ∧
      ((∀ L ∈ s.levels_, L.items = [] ∨ s.k_ ≤ L.items.length) →
        ∃ item, outcome = Except.ok item) := by
  have hq0 : (Double.val r).eq (Double.val 0) = false := by
    simp only [Double.eq, decide_eq_false_iff_not]
    exact ne_of_gt h0
  have hq1 : (Double.val r).eq (Double.val 1) = false := by
    simp only [Double.eq, decide_eq_false_iff_not]
    exact ne_of_lt h1
  have hl0 : (Double.val r).lt (Double.val 0) = false := by
    simp only [Double.lt, decide_eq_false_iff_not]
    exact not_lt.mpr (le_of_lt h0)
  have hl1 : (Double.val 1).lt (Double.val r) = false := by
    simp only [Double.lt, decide_eq_false_iff_not]
    exact not_lt.mpr (le_of_lt h1)
  have hstate := get_quantile_calculator_state lt s
  have hcall : get_quantile lt qc get_invalid_value inclusive s (Double.val r) =
      ((get_quantile_calculator lt s).1,
        match (get_quantile_calculator lt s).2 with
        | Except.error e => Except.error e
        | Except.ok entries =>
          Except.ok (qc.get_quantile (get_quantile_calculator lt s).1.n_ entries inclusive
            (Double.val r))) := by
    unfold get_quantile
    rw [hne, hq0, hq1, hl0, hl1]
    simp only [Bool.false_eq_true, if_false, or_self]
    rcases hc : get_quantile_calculator lt s with ⟨s1, res⟩
    cases res <;> rfl
  refine ⟨_, _, hcall, ?_⟩
  have hret : (∀ L ∈ s.levels_, L.items = [] ∨ s.k_ ≤ L.items.length) →
      ∃ item, (match (get_quantile_calculator lt s).2 with
        | Except.error e => Except.error e
        | Except.ok entries =>
          Except.ok (qc.get_quantile (get_quantile_calculator lt s).1.n_ entries inclusive
            (Double.val r))) = Except.ok item := by
    intro hshape
    obtain ⟨entries, he⟩ := get_quantile_calculator_returns lt s hshape
    rw [he]
    exact ⟨_, rfl⟩
  refine ⟨?_, ?_, ?_, ?_, ?_, ?_, ?_, ?_, ?_, ?_, ?_, hret⟩
  all_goals rw [hstate]
  all_goals by_cases hs : s.is_sorted_ = true
  all_goals first
    | rw [if_pos hs]
    | rw [if_neg hs]
  all_goals first
    | rfl
    | exact List.Perm.refl _
    | exact std_sort_perm lt _
    | exact fun _ => rfl
    | exact fun h => absurd h hs
    | skip
  · intro hf
    rw [hs] at hf
    cases hf
  · intro _
    exact ⟨rfl, fun hlt => std_sort_sorted hlt _⟩

/-- Witness of C31: the sketch with `k = 2` after the updates 3, 1, asked for
the rank 1/2. -/
theorem get_quantile_changes_only_base_buffer_order_witness :
    ((⟨2, 2, 0, ⟨[3, 1], 4⟩, [], some 1, some 3, false⟩ : quantiles_sketch Nat).is_empty = false ∧
      (0 : ℚ) < 1 / 2 ∧ (1 / 2 : ℚ) < 1) ∧
    ∃ s1 outcome,
      get_quantile nat_lt ⟨fun _ _ _ _ => 0⟩ (Except.error Err.runtime_error) true
          ⟨2, 2, 0, ⟨[3, 1], 4⟩, [], some 1, some 3, false⟩ (Double.val (1 / 2)) =
        (s1, outcome) ∧
      s1.k_ = 2 ∧ s1.n_ = 2 ∧ s1.bit_pattern_ = 0 ∧ s1.levels_ = [] ∧
      s1.min_value_ = some 1 ∧ s1.max_value_ = some 3 ∧ s1.is_sorted_ = false ∧
      s1.base_buffer_.items.Perm [3, 1] ∧ s1.base_buffer_.capacity = 4 ∧
      (false = true → s1 = ⟨2, 2, 0, ⟨[3, 1], 4⟩, [], some 1, some 3, false⟩) ∧
      (false = false → s1.base_buffer_ = std_sort nat_lt ⟨[3, 1], 4⟩ ∧
        (StrictWeakOrder nat_lt → SortedUnder nat_lt s1.base_buffer_.items)) ∧
      ((∀ L ∈ ([] : List (Level Nat)), L.items = [] ∨ 2 ≤ L.items.length) →
        ∃ item, outcome = Except.ok item) :=
  ⟨⟨rfl, by norm_num, by norm_num⟩,
    get_quantile_changes_only_base_buffer_order nat_lt ⟨fun _ _ _ _ => 0⟩
      (Except.error Err.runtime_error) true ⟨2, 2, 0, ⟨[3, 1], 4⟩, [], some 1, some 3, false⟩
      (1 / 2) rfl (by norm_num) (by norm_num)⟩

/-- C32 (the code departs from it): for every sketch whose level
`starting_level` exists, is empty with capacity at least `k_`, and has its bit
clear in a 64-bit `bit_pattern_`, and every buffer `buf_size_k` of `k_` items,
`in_place_propagate_carry(starting_level, buf_size_k, buf_size_2k, false,
sketch)` returns with bit `starting_level` of `bit_pattern_` set and with every
level as it was: `levels_[starting_level]` is still empty, because
`std::move(&buf_size_k[0], &buf_size_k[0] + k, &levels_[ending_level][0])`
writes through a raw pointer and leaves `size()` alone. -/
theorem in_place_propagate_carry_merge_leaves_level_empty (lt : T → T → Bool)
    (rnd : Nat → Bool) (pos starting_level : Nat) (buf_size_k buf_size_2k : Level T)
    (sketch : quantiles_sketch T) (L : Level T)
    (hs : starting_level < 64) (hbp : sketch.bit_pattern_ < U64)
    (hL : sketch.levels_[starting_level]? = some L) (hempty : L.items = [])
    (hcap : sketch.k_ ≤ L.capacity)
    (hbit : sketch.bit_pattern_.testBit starting_level = false)
    (hbuf : buf_size_k.items.length = sketch.k_) :
    ∃ sketch1, in_place_propagate_carry lt rnd pos starting_level buf_size_k buf_size_2k false
        sketch = Except.ok (buf_size_2k, sketch1, pos) ∧
      sketch1.levels_ = sketch.levels_ ∧
      sketch1.levels_[starting_level]? = some L ∧ L.size = 0 ∧
      sketch1.bit_pattern_ = sketch.bit_pattern_ + 2 ^ starting_level ∧
      sketch1.bit_pattern_.testBit starting_level = true := by
  obtain ⟨h1, h2, -, -, -⟩ :=
    lowest_zero_bit_starting_at_spec sketch.bit_pattern_ starting_level starting_level hbp hs
      (le_refl _) hbit
  have he : lowest_zero_bit_starting_at sketch.bit_pattern_ starting_level = starting_level :=
    le_antisymm h2 h1
  have hpow : (1 <<< starting_level) % U64 = 2 ^ starting_level := by
    rw [Nat.one_shiftLeft]
    exact Nat.mod_eq_of_lt (Nat.pow_lt_pow_right (by norm_num) hs)
  have hsum : (sketch.bit_pattern_ + (1 <<< starting_level) % U64) % U64 =
      sketch.bit_pattern_ + 2 ^ starting_level := by
    rw [hpow]
    exact Nat.mod_eq_of_lt (add_two_pow_lt sketch.bit_pattern_ starting_level starting_level hbp
      (le_refl _) hs (fun j hj1 hj2 => by omega) hbit)
  have hraw : raw_move sketch.k_ buf_size_k L = Except.ok L := by
    unfold raw_move
    rw [if_neg (by omega), if_neg (by omega), hempty]
    cases L with
    | mk items capacity =>
      simp only at hempty
      subst hempty
      simp
  have hset : sketch.levels_.set starting_level L = sketch.levels_ := by
    apply List.ext_getElem?
    intro i
    by_cases hi : i = starting_level
    · subst hi
      rw [hL, List.getElem?_set_self]
      have hlt : i < sketch.levels_.length := by
        by_contra hc
        rw [List.getElem?_eq_none (by omega)] at hL
        cases hL
      simp [hlt]
    · rw [List.getElem?_set_ne (fun h => hi h.symm)]
  refine ⟨{ sketch with bit_pattern_ := sketch.bit_pattern_ + 2 ^ starting_level }, ?_, rfl, hL,
    by simp [Level.size, hempty], rfl, ?_⟩
  · unfold in_place_propagate_carry
    simp only [he, hL, Bool.false_eq_true, if_false, hraw, Nat.sub_self, carry_loop, hset, hsum]
  · simp only
    rw [testBit_add_two_pow sketch.bit_pattern_ starting_level starting_level (le_refl _)
      (fun j hj1 hj2 => by omega) hbit]
    simp

/-- Witness of C32: the sketch with `k = 2`, one empty level and the pattern 0,
and the buffer `[1, 2]`: bit 0 is set and level 0 stays empty. -/
theorem in_place_propagate_carry_merge_leaves_level_empty_witness :
    (0 < 64 ∧ 0 < U64 ∧ [(⟨[], 2⟩ : Level Nat)][0]? = some ⟨[], 2⟩ ∧
      Nat.testBit 0 0 = false ∧ ([1, 2] : List Nat).length = 2) ∧
    ∃ sketch1,
      in_place_propagate_carry nat_lt alternating 0 0 ⟨[1, 2], 2⟩ ⟨[], 4⟩ false
          ⟨2, 4, 0, ⟨[], 4⟩, [⟨[], 2⟩], some 1, some 2, true⟩ =
        Except.ok (⟨[], 4⟩, sketch1, 0) ∧
      sketch1.levels_ = [⟨[], 2⟩] ∧
      sketch1.levels_[0]? = some ⟨[], 2⟩ ∧ (⟨[], 2⟩ : Level Nat).size = 0 ∧
      sketch1.bit_pattern_ = 0 + 2 ^ 0 ∧
      sketch1.bit_pattern_.testBit 0 = true :=
  ⟨⟨by decide, by decide, rfl, by decide, rfl⟩,
    in_place_propagate_carry_merge_leaves_level_empty nat_lt alternating 0 0 ⟨[1, 2], 2⟩
      ⟨[], 4⟩ ⟨2, 4, 0, ⟨[], 4⟩, [⟨[], 2⟩], some 1, some 2, true⟩ ⟨[], 2⟩ (by decide)
      (by decide) rfl rfl (by decide) (by decide) rfl⟩

/-- C33: in every state reached from a fresh sketch by `update` calls, a
further `update` returns normally: no assertion fails and no vector is indexed
outside its items.  When the update fills the base buffer,
`grow_levels_if_needed()` returns, `ending_level` is below `levels_.size()`,
every bit below `ending_level` is set in `bit_pattern_`, the base buffer that
is zipped holds `2k` items, `process_full_base_buffer()` returns, and
`n_ / (2 * k_) == bit_pattern_` holds at its end. -/
theorem update_reaches_no_error_branch {lt : T → T → Bool} (hlt : StrictWeakOrder lt)
    (valid : T → Bool) (rnd : Nat → Bool) (k : Nat) (xs : List T) (x : T)
    (h1 : 2 ≤ k) (h2 : k ≤ 32768) (hn : ((xs ++ [x]).filter valid).length < U64) :
    ∃ s0 s pos s1 pos1, quantiles_sketch.new k = Except.ok s0 ∧
      update_all lt valid rnd (s0, 0) xs = Except.ok (s, pos) ∧
      update lt valid rnd (s, pos) x = Except.ok (s1, pos1) ∧
      (valid x = true → s.base_buffer_.size + 1 = 2 * k →
        ∃ mn mx grown S1,
          grow_levels_if_needed (pushed_sketch s mn mx x) = Except.ok (grown, S1) ∧
          lowest_zero_bit_starting_at S1.bit_pattern_ 0 < S1.levels_.length ∧
          (∀ lvl, lvl < lowest_zero_bit_starting_at S1.bit_pattern_ 0 →
            S1.bit_pattern_ &&& (1 <<< lvl) > 0) ∧
          (std_sort lt S1.base_buffer_).size = 2 * k ∧
          process_full_base_buffer lt rnd pos (pushed_sketch s mn mx x) =
            Except.ok (s1, pos1) ∧
          s1.n_ / (2 * s1.k_) = s1.bit_pattern_) := by
  have hn0 : ([] ++ xs.filter valid).length < U64 := by
    simp only [List.filter_append, List.length_append, List.nil_append] at hn ⊢
    omega
  obtain ⟨s0, hs0, hinv0, -, -⟩ := Inv_new (T := T) lt k h1 h2
  obtain ⟨s, pos, hu, hinv⟩ := update_all_inv hlt valid rnd k xs [] s0 0 hinv0 hn0
  rw [List.nil_append] at hinv
  by_cases hv : valid x = true
  · have hf : (xs ++ [x]).filter valid = xs.filter valid ++ [x] := by simp [hv]
    rw [hf] at hn
    have hn1 : (xs.filter valid).length + 1 < U64 := by simpa using hn
    obtain ⟨s1, pos1, mn, mx, hu1, hinv1, hcase⟩ :=
      update_valid_step hlt valid rnd k (xs.filter valid) s pos x hinv hv hn1
    refine ⟨s0, s, pos, s1, pos1, hs0, hu, hu1, ?_⟩
    intro _ hfull
    rcases hcase with ⟨hnf, -, -⟩ | ⟨-, hp, -, -⟩
    · exact absurd hfull hnf
    have hkeq := hinv.k_eq
    have hkpos : 0 < 2 * k := by omega
    have hSn : (pushed_sketch s mn mx x).n_ = (xs.filter valid).length + 1 := by
      simp only [pushed_sketch, hinv.n_eq]
      exact Nat.mod_eq_of_lt hn1
    have hfull2 : (xs.filter valid).length % (2 * k) + 1 = 2 * k := by
      rw [← hinv.n_eq, ← hinv.bb_len]; exact hfull
    obtain ⟨hd, -⟩ := div_mod_succ_full (xs.filter valid).length (2 * k) hkpos hfull2
    have hbp1 : (pushed_sketch s mn mx x).n_ / (2 * k) =
        (pushed_sketch s mn mx x).bit_pattern_ + 1 := by
      rw [hSn, hd]; simp only [pushed_sketch]; rw [hinv.bp_eq, hinv.n_eq]
    obtain ⟨grown, Ls1, hg, hg1, -, -⟩ :=
      grow_levels_if_needed_spec lt k (by omega) (pushed_sketch s mn mx x) hkeq
        (by rw [hSn]; exact hn1) hbp1 hinv.lv_len hinv.lv_ok
    have hbplt : s.bit_pattern_ < U64 := by
      rw [hinv.bp_eq, hinv.n_eq]
      exact lt_of_le_of_lt (Nat.div_le_self _ _) (by omega)
    obtain ⟨hones, hzero⟩ := lowest_zero_bit_zero_spec s.bit_pattern_ hbplt
    have hbits := testBit_succ_of_low_ones _ s.bit_pattern_ hones hzero
    have hebit : (s.bit_pattern_ + 1).testBit (lowest_zero_bit_starting_at s.bit_pattern_ 0) =
        true := by
      rw [hbits]; simp
    refine ⟨mn, mx, grown, _, hg, ?_, ?_, ?_, hp, ?_⟩
    · show lowest_zero_bit_starting_at s.bit_pattern_ 0 < Ls1.length
      rw [hg1]
      exact lt_size_of_testBit hebit
    · intro lvl hlvl
      exact (and_shift_pos_iff s.bit_pattern_ lvl).mpr (hones lvl hlvl)
    · show (std_sort lt (pushed_sketch s mn mx x).base_buffer_).items.length = 2 * k
      rw [std_sort_length]
      have hitems : (pushed_sketch s mn mx x).base_buffer_.items = s.base_buffer_.items ++ [x] :=
        pushed_buffer_items _ _ _
      rw [hitems]
      simpa using hfull
    · rw [hinv1.k_eq, hinv1.bp_eq]
  · have hv2 : valid x = false := by simpa using hv
    refine ⟨s0, s, pos, s, pos, hs0, hu, update_invalid lt valid rnd (s, pos) x hv2, ?_⟩
    intro hvt
    exact absurd hvt hv

/-- Witness of C33: `k = 2`, eleven updates and a twelfth, which fills the base
buffer and carries into level 1. -/
theorem update_reaches_no_error_branch_witness :
    (2 ≤ 2 ∧ 2 ≤ 32768 ∧
      ((([5, 3, 8, 1, 9, 2, 7, 4, 6, 0, 11] : List Nat) ++ [12]).filter
        (fun _ => true)).length < U64) ∧
    ∃ s0 s pos s1 pos1, quantiles_sketch.new 2 = Except.ok s0 ∧
      update_all nat_lt (fun _ => true) alternating (s0, 0) [5, 3, 8, 1, 9, 2, 7, 4, 6, 0, 11] =
        Except.ok (s, pos) ∧
      update nat_lt (fun _ => true) alternating (s, pos) 12 = Except.ok (s1, pos1) ∧
      ((fun _ => true) 12 = true → s.base_buffer_.size + 1 = 2 * 2 →
        ∃ mn mx grown S1,
          grow_levels_if_needed (pushed_sketch s mn mx 12) = Except.ok (grown, S1) ∧
          lowest_zero_bit_starting_at S1.bit_pattern_ 0 < S1.levels_.length ∧
          (∀ lvl, lvl < lowest_zero_bit_starting_at S1.bit_pattern_ 0 →
            S1.bit_pattern_ &&& (1 <<< lvl) > 0) ∧
          (std_sort nat_lt S1.base_buffer_).size = 2 * 2 ∧
          process_full_base_buffer nat_lt alternating pos (pushed_sketch s mn mx 12) =
            Except.ok (s1, pos1) ∧
          s1.n_ / (2 * s1.k_) = s1.bit_pattern_) :=
  ⟨⟨by decide, by decide, by decide⟩,
    update_reaches_no_error_branch nat_lt_strict_weak_order (fun _ => true) alternating 2
      [5, 3, 8, 1, 9, 2, 7, 4, 6, 0, 11] 12 (by decide) (by decide) (by decide)⟩

/-- C34: in every state reached from a fresh sketch by `update` calls the
total weight of the retained items is `n_`: `base_buffer_.size() * 1` plus the
sum over the levels `i` of `levels_[i].size() * 2 ^ (i + 1)` equals `n_`; the
pairs that the iterator yields from `begin()` to `end()` have weights that sum
to `n_`, and so do the runs that `get_quantile_calculator` feeds to the
calculator, each item of a run counting `2 ^ lg_weight`. -/
theorem retained_weight_is_n {lt : T → T → Bool} (hlt : StrictWeakOrder lt)
    (valid : T → Bool) (rnd : Nat → Bool) (k : Nat) (xs : List T)
    (hk1 : 2 ≤ k) (hk2 : k ≤ 32768) (hn : (xs.filter valid).length < U64) :
    ∃ s, build lt valid rnd k xs = Except.ok s ∧
      s.base_buffer_.size * 1 + levels_weight 0 s.levels_ = s.n_ ∧
      (∀ fuel, s.base_buffer_.size + (s.levels_.map Level.size).sum < fuel →
        ∃ pairs, iterate s fuel = Except.ok pairs ∧ total_weight pairs = s.n_) ∧
      ∃ entries, (get_quantile_calculator lt s).2 = Except.ok entries ∧
        entries_weight entries = s.n_ := by
  obtain ⟨s, hs, hinv⟩ := build_inv hlt valid rnd k xs hk1 hk2 hn
  have htot := total_weight_weighted_items hinv
  refine ⟨s, hs, ?_, ?_, get_quantile_calculator_weight hinv⟩
  · unfold weighted_items at htot
    rw [total_weight_append, total_weight_map_const, ← levels_weight_eq_total_weight] at htot
    rw [Level.size, Nat.mul_comm]
    exact htot
  · intro fuel hf
    refine ⟨weighted_items s, iterate_spec hinv hk2 fuel ?_, htot⟩
    have hlen : (weighted_items s).length =
        s.base_buffer_.size + (s.levels_.map Level.size).sum := by
      unfold weighted_items
      rw [List.length_append, List.length_map, Level.size]
      congr 1
      exact level_items_weighted_length 0 s.levels_
    rw [hlen]
    exact hf

/-- Witness of C34: thirteen numbers into a sketch with `k = 2`. -/
theorem retained_weight_is_n_witness :
    (2 ≤ 2 ∧ 2 ≤ 32768 ∧
      ([5, 3, 8, 1, 9, 2, 7, 4, 6, 0, 11, 12, 13].filter (fun _ : Nat => true)).length < U64) ∧
    ∃ s, build nat_lt (fun _ => true) alternating 2 [5, 3, 8, 1, 9, 2, 7, 4, 6, 0, 11, 12, 13] =
        Except.ok s ∧
      s.base_buffer_.size * 1 + levels_weight 0 s.levels_ = s.n_ ∧
      (∀ fuel, s.base_buffer_.size + (s.levels_.map Level.size).sum < fuel →
        ∃ pairs, iterate s fuel = Except.ok pairs ∧ total_weight pairs = s.n_) ∧
      ∃ entries, (get_quantile_calculator nat_lt s).2 = Except.ok entries ∧
        entries_weight entries = s.n_ :=
  ⟨⟨by decide, by decide, by decide⟩,
    retained_weight_is_n nat_lt_strict_weak_order (fun _ => true) alternating 2
      [5, 3, 8, 1, 9, 2, 7, 4, 6, 0, 11, 12, 13] (by decide) (by decide) (by decide)⟩

/-- C35: for every 64-bit pattern `b` and starting level `s < 64` such that `b`
has a zero bit at a position `z` with `s <= z < 64`, the loop of
`lowest_zero_bit_starting_at(b, s)` leaves by its own test after at most
`e - s + 1` turns and the function returns `e`, the least position at or above
`s` whose bit is clear in `b`; and `b + (1 << s)` in 64 bits, the new
`bit_pattern` of `in_place_propagate_carry`, is `b` with the bits `s` to `e - 1`
cleared, bit `e` set and every other bit unchanged (the sum does not wrap). -/
theorem lowest_zero_bit_and_ripple_carry (b s z : Nat) (hb : b < U64) (hs : s < 64)
    (hsz : s ≤ z) (hz64 : z < 64) (hz : b.testBit z = false) :
    ∃ e, lowest_zero_bit_starting_at b s = e ∧ s ≤ e ∧ e ≤ z ∧ b.testBit e = false ∧
      (∀ j, s ≤ j → j < e → b.testBit j = true) ∧
      (∀ fuel, e - s < fuel → lowest_zero_bit_loop fuel (b >>> s) s = e) ∧
      (b + (1 <<< s) % U64) % U64 = b + 2 ^ s ∧
      ∀ j, ((b + (1 <<< s) % U64) % U64).testBit j =
        if j < s then b.testBit j else if j < e then false else if j = e then true
        else b.testBit j := by
  obtain ⟨h1, h2, h3, h4, h5⟩ := lowest_zero_bit_starting_at_spec b s z hb hs hsz hz
  have hpow : (1 <<< s) % U64 = 2 ^ s := by
    rw [Nat.one_shiftLeft]
    exact Nat.mod_eq_of_lt (Nat.pow_lt_pow_right (by norm_num) hs)
  have hsum : (b + (1 <<< s) % U64) % U64 = b + 2 ^ s := by
    rw [hpow]
    exact Nat.mod_eq_of_lt (add_two_pow_lt b s _ hb h1 (by omega) h4 h3)
  refine ⟨_, rfl, h1, h2, h3, h4, h5, hsum, ?_⟩
  intro j
  rw [hsum]
  exact testBit_add_two_pow b s _ h1 h4 h3 j

/-- Witness of C35: the pattern `0b10111` and the starting level 1: the lowest
zero bit at or above 1 is bit 3, and adding `1 << 1` gives `0b11001`. -/
theorem lowest_zero_bit_and_ripple_carry_witness :
    (23 < U64 ∧ 1 < 64 ∧ 1 ≤ 3 ∧ 3 < 64 ∧ Nat.testBit 23 3 = false) ∧
    ∃ e, lowest_zero_bit_starting_at 23 1 = e ∧ 1 ≤ e ∧ e ≤ 3 ∧ Nat.testBit 23 e = false ∧
      (∀ j, 1 ≤ j → j < e → Nat.testBit 23 j = true) ∧
      (∀ fuel, e - 1 < fuel → lowest_zero_bit_loop fuel (23 >>> 1) 1 = e) ∧
      (23 + (1 <<< 1) % U64) % U64 = 23 + 2 ^ 1 ∧
      ∀ j, ((23 + (1 <<< 1) % U64) % U64).testBit j =
        if j < 1 then Nat.testBit 23 j else if j < e then false else if j = e then true
        else Nat.testBit 23 j :=
  ⟨⟨by decide, by decide, by decide, by decide, by decide⟩,
    lowest_zero_bit_and_ripple_carry 23 1 3 (by decide) (by decide) (by decide) (by decide)
      (by decide)⟩

end Claims

end datasketches
